import Mathlib

/-!
# Column pruning and index recomputation of the SQL analyzer

A shallow embedding of `sql/analyzer/prune_columns.go`: the usage analysis
(`findUsedColumns`), the pruning of `Project` and `GroupBy` nodes
(`pruneProject`, `pruneGroupBy`, `pruneUnusedColumns`), the descent into
subquery aliases (`pruneSubqueries`, `pruneSubqueryColumns`), the index
recomputation (`fixRemainingFieldsIndexes`) and the rule `pruneColumns` itself.

The packages `sql`, `sql/expression` and `sql/plan` are not part of the
sources at hand; the plan and expression types and the traversal primitives
are modelled from the specification and marked as such.
-/

namespace Analyzer

/-! ## Data model -/

/-- Modelled from the spec: the declared type of a column or expression
(`sql.Type`); only equality of types matters to the passes. -/
inductive SqlType where
  | Int32
  | Int64
  | Float64
  | Text
  | Boolean
  | Null
deriving DecidableEq, Repr

/-- Modelled from the spec: a column descriptor
`(name, type, source, nullable, primary-key?)` of a schema (`sql.Column`). -/
structure Column where
  Name : String
  Typ : SqlType
  Source : String
  Nullable : Bool
  PrimaryKey : Bool
deriving DecidableEq, Repr

/-- Modelled from the spec: a schema is an ordered sequence of column
descriptors (`sql.Schema`). -/
abbrev Schema := List Column

/-- Modelled from the spec: unary operators of the expression language
(not, is-null, aggregates such as sum and count). -/
inductive UnaryOp where
  | Not
  | IsNull
  | Aggregate (name : String)
deriving DecidableEq, Repr

/-- Modelled from the spec: binary operators of the expression language
(comparisons, boolean connectives, arithmetic). -/
inductive BinaryOp where
  | Equals
  | NotEquals
  | LessThan
  | LessThanOrEqual
  | GreaterThan
  | GreaterThanOrEqual
  | And
  | Or
  | Arithmetic (symbol : String)
deriving DecidableEq, Repr

/-- Modelled from the spec: the expression tree (`sql.Expression`).  A column
reference `GetField` carries its identity `(table, name)`, its positional
`index`, a declared type and a nullable flag.  `UnresolvedColumn` is a column
reference that name resolution has not bound yet. -/
inductive Expression where
  | Literal (value : String) (type : SqlType)
  | GetField (index : Nat) (type : SqlType) (table name : String) (nullable : Bool)
  | UnresolvedColumn (table name : String)
  | Alias (name : String) (child : Expression)
  | Unary (op : UnaryOp) (child : Expression)
  | Binary (op : BinaryOp) (left right : Expression)
  | Call (name : String) (type : SqlType) (args : List Expression)
deriving Repr

/-- Modelled from the spec: an index a source declares (section 4.6): the table
it belongs to, its columns in prefix order, and whether it is the primary-key
index. -/
structure Index where
  Table : String
  Columns : List String
  Primary : Bool
deriving DecidableEq, Repr

/-- Modelled from the spec: an index lookup, what `Get(value)` of an index
returns for the literal of an equality predicate. -/
structure IndexLookup where
  index : Index
  Key : String
deriving DecidableEq, Repr

/-- Modelled from the spec: a data source with its declared schema
(the `sql.Table` held by a `ResolvedTable`), the indexes it declares and the
index lookup it carries, if any. -/
structure Table where
  Name : String
  Schema : Schema
  Indexes : List Index := []
  Lookup : Option IndexLookup := none
deriving DecidableEq, Repr

/-- Modelled from the spec: the join kind carried by an `IndexedJoin`. -/
inductive JoinType where
  | Inner
  | Left
  | Right
deriving DecidableEq, Repr

/-- Modelled from the spec: the kinds of decorator nodes. -/
inductive DecorationType where
  | ProjectedAccess
  | FilteredAccess
  | IndexedAccess
deriving DecidableEq, Repr

/-- Modelled from the spec: the operator nodes of a logical plan (`sql.Node`),
one constructor per variant of section 3 of the specification, plus
`UnresolvedTable` for a table reference that is not resolved yet. -/
inductive Node where
  | ResolvedTable (table : Table)
  | UnresolvedTable (name : String)
  | Project (projections : List Expression) (child : Node)
  | GroupBy (selectedExprs groupByExprs : List Expression) (child : Node)
  | Filter (expression : Expression) (child : Node)
  | CrossJoin (left right : Node)
  | InnerJoin (left right : Node) (cond : Expression)
  | LeftJoin (left right : Node) (cond : Expression)
  | RightJoin (left right : Node) (cond : Expression)
  | IndexedJoin (left right : Node) (joinType : JoinType) (cond : Expression)
      (keyExprs : List Expression) (index : String)
  | TableAlias (name : String) (child : Node)
  | SubqueryAlias (name : String) (child : Node)
  | DescribeQuery (format : String) (child : Node)
  | InsertInto (destination source : Node)
  | DecoratedNode (kind : DecorationType) (label : String) (child : Node)
deriving Repr

/-- The errors the pruning pass can return: `ErrColumnTableNotFound.New(table,
name)` of the index recomputation, and the formatted error of
`pruneSubqueryColumns` ("this is likely a bug: missing projected column ... on
subquery ..."). -/
inductive AnalyzerError where
  | ErrColumnTableNotFound (table name : String)
  | MissingProjectedColumn (col subquery : String)
deriving DecidableEq, Repr

/-- The digit table `lowerhex` of `strconv`. -/
def lowerhex (n : Nat) : Char := "0123456789abcdef".data.getD n (Char.ofNat 48)

/-- The hexadecimal digits of a number, `width` of them, the most significant
first, as `strconv` writes them after `\x`, `\u` and `\U`. -/
def hexDigits (width n : Nat) : List Char :=
  (List.range width).reverse.map (fun k => lowerhex ((n / 16 ^ k) % 16))

/-- What `strconv.Quote` takes from the Go library in use: the table `IsPrint`
for the characters outside ASCII, and whether DEL is written with `\x` like the
other ASCII control characters or with `\u`, which differs between releases of
Go. -/
structure QuoteTables where
  isPrint : Char → Bool
  delAsHex : Bool

/-- The escaping of one character by `strconv.Quote` (`appendEscapedRune` with
the double quote as the quote): a double quote and a backslash get a backslash
in front, a printable character stands for itself (in ASCII the characters from
the space to the tilde), the control characters 7 to 13 are written `\a`,
`\b`, `\t`, `\n`, `\v`, `\f`, `\r`, any other character below the space is
written `\x` and two hexadecimal digits, and any other character `\u` and four
digits, or `\U` and eight digits from `0x10000` on. -/
def quoteChar (lib : QuoteTables) (c : Char) : List Char :=
  if c.toNat = 34 ∨ c.toNat = 92 then [Char.ofNat 92, c]
  else if 32 ≤ c.toNat ∧ c.toNat < 127 then [c]
  else if 128 ≤ c.toNat ∧ lib.isPrint c = true then [c]
  else if c.toNat = 7 then [Char.ofNat 92, Char.ofNat 97]
  else if c.toNat = 8 then [Char.ofNat 92, Char.ofNat 98]
  else if c.toNat = 12 then [Char.ofNat 92, Char.ofNat 102]
  else if c.toNat = 10 then [Char.ofNat 92, Char.ofNat 110]
  else if c.toNat = 13 then [Char.ofNat 92, Char.ofNat 114]
  else if c.toNat = 9 then [Char.ofNat 92, Char.ofNat 116]
  else if c.toNat = 11 then [Char.ofNat 92, Char.ofNat 118]
  else if c.toNat < 32 ∨ (c.toNat = 127 ∧ lib.delAsHex = true) then
    Char.ofNat 92 :: Char.ofNat 120 :: hexDigits 2 c.toNat
  else if c.toNat < 65536 then Char.ofNat 92 :: Char.ofNat 117 :: hexDigits 4 c.toNat
  else Char.ofNat 92 :: Char.ofNat 85 :: hexDigits 8 c.toNat

/-- The verb `%q` of `fmt` on a string (`strconv.Quote`): the escaped characters
of the string between double quotes. -/
def quoted (lib : QuoteTables) (s : String) : String :=
  String.mk (Char.ofNat 34 :: (s.data.flatMap (quoteChar lib) ++ [Char.ofNat 34]))

/-- The message of an error formatted in `prune_columns.go`: the text of the
`fmt.Errorf` call of `pruneSubqueryColumns`, with the column and the alias
name formatted by `%q`.  The message of `ErrColumnTableNotFound` is formatted by
its error kind, which is declared in another file. -/
def AnalyzerError.message (lib : QuoteTables) : AnalyzerError → Option String
  | .MissingProjectedColumn col subquery =>
      some ("this is likely a bug: missing projected column " ++ quoted lib col ++
        " on subquery " ++ quoted lib subquery)
  | .ErrColumnTableNotFound _ _ => none

/-! ## Expressions -/

/-- Modelled from the spec: the rendering of an operator inside
`Expression.String`. -/
def BinaryOp.symbol : BinaryOp → String
  | .Equals => "="
  | .NotEquals => "!="
  | .LessThan => "<"
  | .LessThanOrEqual => "<="
  | .GreaterThan => ">"
  | .GreaterThanOrEqual => ">="
  | .And => "AND"
  | .Or => "OR"
  | .Arithmetic s => s

mutual
/-- Modelled from the spec: the text of an expression (`String()`), which names
the column a projection of a computed expression produces.  A column reference
is rendered from its table and name, never from its index. -/
def Expression.String : Expression → String
  | .Literal v _ => v
  | .GetField _ _ table name _ => if table = "" then name else table ++ "." ++ name
  | .UnresolvedColumn table name => if table = "" then name else table ++ "." ++ name
  | .Alias name child => child.String ++ " as " ++ name
  | .Unary .Not child => "NOT(" ++ child.String ++ ")"
  | .Unary .IsNull child => child.String ++ " IS NULL"
  | .Unary (.Aggregate name) child => name ++ "(" ++ child.String ++ ")"
  | .Binary op l r => l.String ++ " " ++ op.symbol ++ " " ++ r.String
  | .Call name _ args => name ++ "(" ++ Expression.StringList args ++ ")"
/-- Modelled from the spec: the texts of an argument list, comma separated. -/
def Expression.StringList : List Expression → String
  | [] => ""
  | e :: es => e.String ++ ", " ++ Expression.StringList es
end

/-- Modelled from the spec: the type of the value an expression produces
(the method `Type()`); it does not depend on any column index. -/
def Expression.Typ : Expression → SqlType
  | .Literal _ t => t
  | .GetField _ t _ _ _ => t
  | .UnresolvedColumn _ _ => .Null
  | .Alias _ child => child.Typ
  | .Unary .Not _ => .Boolean
  | .Unary .IsNull _ => .Boolean
  | .Unary (.Aggregate _) child => child.Typ
  | .Binary (.Arithmetic _) l _ => l.Typ
  | .Binary _ _ _ => .Boolean
  | .Call _ t _ => t

mutual
/-- Modelled from the spec: whether an expression may produce NULL
(`IsNullable()`); it does not depend on any column index. -/
def Expression.IsNullable : Expression → Bool
  | .Literal _ t => decide (t = .Null)
  | .GetField _ _ _ _ nullable => nullable
  | .UnresolvedColumn _ _ => true
  | .Alias _ child => child.IsNullable
  | .Unary .IsNull _ => false
  | .Unary _ child => child.IsNullable
  | .Binary _ l r => l.IsNullable || r.IsNullable
  | .Call _ _ args => Expression.IsNullableList args
/-- Modelled from the spec: some argument of the list may produce NULL. -/
def Expression.IsNullableList : List Expression → Bool
  | [] => false
  | e :: es => e.IsNullable || Expression.IsNullableList es
end

mutual
/-- Modelled from the spec: an expression is resolved when it holds no
unresolved column reference. -/
def Expression.Resolved : Expression → Bool
  | .Literal _ _ => true
  | .GetField _ _ _ _ _ => true
  | .UnresolvedColumn _ _ => false
  | .Alias _ child => child.Resolved
  | .Unary _ child => child.Resolved
  | .Binary _ l r => l.Resolved && r.Resolved
  | .Call _ _ args => Expression.ResolvedList args
/-- Modelled from the spec: every expression of the list is resolved. -/
def Expression.ResolvedList : List Expression → Bool
  | [] => true
  | e :: es => e.Resolved && Expression.ResolvedList es
end

/-- Modelled from the spec: the column a projected expression contributes to
the schema of a `Project` or `GroupBy` ("schema is `exprs`"): a column reference
keeps its name and reports its table as the source; an alias reports its alias
name; any other expression is named by its text and has no source. -/
def ExpressionToColumn (e : Expression) : Column :=
  match e with
  | .GetField _ t table name nullable =>
      { Name := name, Typ := t, Source := table, Nullable := nullable, PrimaryKey := false }
  | .Alias name child =>
      { Name := name, Typ := child.Typ, Source := "", Nullable := child.IsNullable,
        PrimaryKey := false }
  | e =>
      { Name := e.String, Typ := e.Typ, Source := "", Nullable := e.IsNullable,
        PrimaryKey := false }

mutual
/-- Modelled from the spec: bottom-up rewriting of an expression
(`expression.TransformUp`): the children are rewritten first, in order, the
first error aborts, and `f` is applied to the rebuilt expression. -/
def Expression.TransformUp (f : Expression → Except AnalyzerError Expression) :
    Expression → Except AnalyzerError Expression
  | .Literal v t => f (.Literal v t)
  | .GetField i t table name nullable => f (.GetField i t table name nullable)
  | .UnresolvedColumn table name => f (.UnresolvedColumn table name)
  | .Alias name child =>
      match Expression.TransformUp f child with
      | .error err => .error err
      | .ok child1 => f (.Alias name child1)
  | .Unary op child =>
      match Expression.TransformUp f child with
      | .error err => .error err
      | .ok child1 => f (.Unary op child1)
  | .Binary op l r =>
      match Expression.TransformUp f l with
      | .error err => .error err
      | .ok l1 =>
        match Expression.TransformUp f r with
        | .error err => .error err
        | .ok r1 => f (.Binary op l1 r1)
  | .Call name t args =>
      match Expression.TransformUpList f args with
      | .error err => .error err
      | .ok args1 => f (.Call name t args1)
/-- Modelled from the spec: the rewriting of a list of expressions, in order;
the first error aborts. -/
def Expression.TransformUpList (f : Expression → Except AnalyzerError Expression) :
    List Expression → Except AnalyzerError (List Expression)
  | [] => .ok []
  | e :: es =>
      match Expression.TransformUp f e with
      | .error err => .error err
      | .ok e1 =>
        match Expression.TransformUpList f es with
        | .error err => .error err
        | .ok es1 => .ok (e1 :: es1)
end

/-! ## Plan nodes -/

/-- Modelled from the spec: `TableAlias` and `SubqueryAlias` report the alias
name as the source of every column of the child schema. -/
def renameSource (name : String) (schema : Schema) : Schema :=
  schema.map (fun col => { col with Source := name })

/-- Modelled from the spec: the schema each operator produces (section 3).
`Project` and `GroupBy` produce their (selected) expressions, a join produces
`left ++ right`, the aliases rename the source, and the wrappers pass the child
schema through.  The spec gives no schema for `InsertInto`; it is modelled as
producing no columns. -/
def Node.Schema : Node → Schema
  | .ResolvedTable t => t.Schema
  | .UnresolvedTable _ => []
  | .Project ps _ => ps.map ExpressionToColumn
  | .GroupBy sel _ _ => sel.map ExpressionToColumn
  | .Filter _ c => c.Schema
  | .CrossJoin l r => l.Schema ++ r.Schema
  | .InnerJoin l r _ => l.Schema ++ r.Schema
  | .LeftJoin l r _ => l.Schema ++ r.Schema
  | .RightJoin l r _ => l.Schema ++ r.Schema
  | .IndexedJoin l r _ _ _ _ => l.Schema ++ r.Schema
  | .TableAlias name c => renameSource name c.Schema
  | .SubqueryAlias name c => renameSource name c.Schema
  | .DescribeQuery _ c => c.Schema
  | .InsertInto _ _ => []
  | .DecoratedNode _ _ c => c.Schema

/-- Modelled from the spec: the children of a node, in order (`Children()`). -/
def Node.Children : Node → List Node
  | .ResolvedTable _ => []
  | .UnresolvedTable _ => []
  | .Project _ c => [c]
  | .GroupBy _ _ c => [c]
  | .Filter _ c => [c]
  | .CrossJoin l r => [l, r]
  | .InnerJoin l r _ => [l, r]
  | .LeftJoin l r _ => [l, r]
  | .RightJoin l r _ => [l, r]
  | .IndexedJoin l r _ _ _ _ => [l, r]
  | .TableAlias _ c => [c]
  | .SubqueryAlias _ c => [c]
  | .DescribeQuery _ c => [c]
  | .InsertInto d s => [d, s]
  | .DecoratedNode _ _ c => [c]

/-- Modelled from the spec: the expressions held by an expression-carrying
node (`sql.Expressioner`: projections, filters, joins with a condition,
groups), `none` for a node that is not expression-carrying.  A `GroupBy`
exposes its selected expressions followed by its grouping expressions.  An
`IndexedJoin` is driven by its precomputed key and does not expose its
condition for rewriting. -/
def Node.Expressions : Node → Option (List Expression)
  | .Project ps _ => some ps
  | .GroupBy sel grp _ => some (sel ++ grp)
  | .Filter e _ => some [e]
  | .InnerJoin _ _ cond => some [cond]
  | .LeftJoin _ _ cond => some [cond]
  | .RightJoin _ _ cond => some [cond]
  | _ => none

/-- Modelled from the spec: a plan is resolved when no unresolved table and no
unresolved column reference is present in it (`Resolved()`). -/
def Node.Resolved : Node → Bool
  | .ResolvedTable _ => true
  | .UnresolvedTable _ => false
  | .Project ps c => Expression.ResolvedList ps && c.Resolved
  | .GroupBy sel grp c =>
      Expression.ResolvedList sel && Expression.ResolvedList grp && c.Resolved
  | .Filter e c => e.Resolved && c.Resolved
  | .CrossJoin l r => l.Resolved && r.Resolved
  | .InnerJoin l r cond => l.Resolved && r.Resolved && cond.Resolved
  | .LeftJoin l r cond => l.Resolved && r.Resolved && cond.Resolved
  | .RightJoin l r cond => l.Resolved && r.Resolved && cond.Resolved
  | .IndexedJoin l r _ cond keys _ =>
      l.Resolved && r.Resolved && cond.Resolved && Expression.ResolvedList keys
  | .TableAlias _ c => c.Resolved
  | .SubqueryAlias _ c => c.Resolved
  | .DescribeQuery _ c => c.Resolved
  | .InsertInto d s => d.Resolved && s.Resolved
  | .DecoratedNode _ _ c => c.Resolved

/-- Modelled from the spec: bottom-up transformation of a plan
(`plan.TransformUp`): the children are transformed first, in order, the first
error aborts, the node is rebuilt with the new children and `f` is applied to
it.  A `SubqueryAlias` is an isolation boundary: it is handed to `f` as it is,
without descending into its child (the passes of `prune_columns.go` recurse
into the child themselves). -/
def TransformUp (f : Node → Except AnalyzerError Node) : Node → Except AnalyzerError Node
  | .ResolvedTable t => f (.ResolvedTable t)
  | .UnresolvedTable name => f (.UnresolvedTable name)
  | .SubqueryAlias name c => f (.SubqueryAlias name c)
  | .Project ps c =>
      match TransformUp f c with
      | .error err => .error err
      | .ok c1 => f (.Project ps c1)
  | .GroupBy sel grp c =>
      match TransformUp f c with
      | .error err => .error err
      | .ok c1 => f (.GroupBy sel grp c1)
  | .Filter e c =>
      match TransformUp f c with
      | .error err => .error err
      | .ok c1 => f (.Filter e c1)
  | .CrossJoin l r =>
      match TransformUp f l with
      | .error err => .error err
      | .ok l1 =>
        match TransformUp f r with
        | .error err => .error err
        | .ok r1 => f (.CrossJoin l1 r1)
  | .InnerJoin l r cond =>
      match TransformUp f l with
      | .error err => .error err
      | .ok l1 =>
        match TransformUp f r with
        | .error err => .error err
        | .ok r1 => f (.InnerJoin l1 r1 cond)
  | .LeftJoin l r cond =>
      match TransformUp f l with
      | .error err => .error err
      | .ok l1 =>
        match TransformUp f r with
        | .error err => .error err
        | .ok r1 => f (.LeftJoin l1 r1 cond)
  | .RightJoin l r cond =>
      match TransformUp f l with
      | .error err => .error err
      | .ok l1 =>
        match TransformUp f r with
        | .error err => .error err
        | .ok r1 => f (.RightJoin l1 r1 cond)
  | .IndexedJoin l r jt cond keys idx =>
      match TransformUp f l with
      | .error err => .error err
      | .ok l1 =>
        match TransformUp f r with
        | .error err => .error err
        | .ok r1 => f (.IndexedJoin l1 r1 jt cond keys idx)
  | .TableAlias name c =>
      match TransformUp f c with
      | .error err => .error err
      | .ok c1 => f (.TableAlias name c1)
  | .DescribeQuery format c =>
      match TransformUp f c with
      | .error err => .error err
      | .ok c1 => f (.DescribeQuery format c1)
  | .InsertInto d s =>
      match TransformUp f d with
      | .error err => .error err
      | .ok d1 =>
        match TransformUp f s with
        | .error err => .error err
        | .ok s1 => f (.InsertInto d1 s1)
  | .DecoratedNode kind label c =>
      match TransformUp f c with
      | .error err => .error err
      | .ok c1 => f (.DecoratedNode kind label c1)

/-- Modelled from the spec: `plan.TransformExpressions` applies `f` bottom-up
to every expression held by the node, in the order of `Expressions`, and
rebuilds the node with the results; a node that is not expression-carrying is
returned as it is. -/
def TransformExpressions (f : Expression → Except AnalyzerError Expression) :
    Node → Except AnalyzerError Node
  | .Project ps c =>
      match Expression.TransformUpList f ps with
      | .error err => .error err
      | .ok ps1 => .ok (.Project ps1 c)
  | .GroupBy sel grp c =>
      match Expression.TransformUpList f sel with
      | .error err => .error err
      | .ok sel1 =>
        match Expression.TransformUpList f grp with
        | .error err => .error err
        | .ok grp1 => .ok (.GroupBy sel1 grp1 c)
  | .Filter e c =>
      match Expression.TransformUp f e with
      | .error err => .error err
      | .ok e1 => .ok (.Filter e1 c)
  | .InnerJoin l r cond =>
      match Expression.TransformUp f cond with
      | .error err => .error err
      | .ok cond1 => .ok (.InnerJoin l r cond1)
  | .LeftJoin l r cond =>
      match Expression.TransformUp f cond with
      | .error err => .error err
      | .ok cond1 => .ok (.LeftJoin l r cond1)
  | .RightJoin l r cond =>
      match Expression.TransformUp f cond with
      | .error err => .error err
      | .ok cond1 => .ok (.RightJoin l r cond1)
  | n => .ok n

/-- Modelled from the spec: top-down inspection of a plan (`plan.Inspect`):
the visitor sees each node and its boolean answer decides whether the children
are visited, in order.  The state the Go closure mutates is threaded through. -/
def Inspect {σ : Type} (f : σ → Node → σ × Bool) : σ → Node → σ
  | s, .ResolvedTable t => (f s (.ResolvedTable t)).1
  | s, .UnresolvedTable name => (f s (.UnresolvedTable name)).1
  | s, .Project ps c =>
      let r := f s (.Project ps c)
      if r.2 then Inspect f r.1 c else r.1
  | s, .GroupBy sel grp c =>
      let r := f s (.GroupBy sel grp c)
      if r.2 then Inspect f r.1 c else r.1
  | s, .Filter e c =>
      let r := f s (.Filter e c)
      if r.2 then Inspect f r.1 c else r.1
  | s, .CrossJoin l r =>
      let v := f s (.CrossJoin l r)
      if v.2 then Inspect f (Inspect f v.1 l) r else v.1
  | s, .InnerJoin l r cond =>
      let v := f s (.InnerJoin l r cond)
      if v.2 then Inspect f (Inspect f v.1 l) r else v.1
  | s, .LeftJoin l r cond =>
      let v := f s (.LeftJoin l r cond)
      if v.2 then Inspect f (Inspect f v.1 l) r else v.1
  | s, .RightJoin l r cond =>
      let v := f s (.RightJoin l r cond)
      if v.2 then Inspect f (Inspect f v.1 l) r else v.1
  | s, .IndexedJoin l r jt cond keys idx =>
      let v := f s (.IndexedJoin l r jt cond keys idx)
      if v.2 then Inspect f (Inspect f v.1 l) r else v.1
  | s, .TableAlias name c =>
      let r := f s (.TableAlias name c)
      if r.2 then Inspect f r.1 c else r.1
  | s, .SubqueryAlias name c =>
      let r := f s (.SubqueryAlias name c)
      if r.2 then Inspect f r.1 c else r.1
  | s, .DescribeQuery format c =>
      let r := f s (.DescribeQuery format c)
      if r.2 then Inspect f r.1 c else r.1
  | s, .InsertInto d src =>
      let v := f s (.InsertInto d src)
      if v.2 then Inspect f (Inspect f v.1 d) src else v.1
  | s, .DecoratedNode kind label c =>
      let r := f s (.DecoratedNode kind label c)
      if r.2 then Inspect f r.1 c else r.1

/-- The number of operator nodes of a plan; the measure along which the
descent into subquery aliases terminates. -/
def Node.size : Node → Nat
  | .ResolvedTable _ => 1
  | .UnresolvedTable _ => 1
  | .Project _ c => c.size + 1
  | .GroupBy _ _ c => c.size + 1
  | .Filter _ c => c.size + 1
  | .CrossJoin l r => l.size + r.size + 1
  | .InnerJoin l r _ => l.size + r.size + 1
  | .LeftJoin l r _ => l.size + r.size + 1
  | .RightJoin l r _ => l.size + r.size + 1
  | .IndexedJoin l r _ _ _ _ => l.size + r.size + 1
  | .TableAlias _ c => c.size + 1
  | .SubqueryAlias _ c => c.size + 1
  | .DescribeQuery _ c => c.size + 1
  | .InsertInto d s => d.size + s.size + 1
  | .DecoratedNode _ _ c => c.size + 1

/-! ## The usage set -/

/-- The usage set `usedColumns` (`map[string]map[string]struct{}`): a set of
`(table, column)` pairs, kept here as the list of its pairs in insertion order
without repetition. -/
structure usedColumns where
  entries : List (String × String)
deriving DecidableEq, Repr

/-- The empty usage set `make(usedColumns)`. -/
def usedColumns.empty : usedColumns := { entries := [] }

/-- The method `has` of `usedColumns`: the pair was added. -/
def usedColumns.has (uc : usedColumns) (table col : String) : Bool :=
  uc.entries.contains (table, col)

/-- The method `add` of `usedColumns`: insert the pair; inserting a pair that is
present changes nothing. -/
def usedColumns.add (uc : usedColumns) (table col : String) : usedColumns :=
  if uc.has table col then uc else { entries := uc.entries ++ [(table, col)] }

/-- The inner map `uc[table]` as the list of its column names.  Go iterates a
map in an unspecified order; the model iterates in insertion order. -/
def usedColumns.columnsOf (uc : usedColumns) (table : String) : List String :=
  (uc.entries.filter (fun p => p.1 = table)).map (fun p => p.2)

/-- `columnsUsedByNode`: the usage set seeded with the `(Source, Name)` of every
column of the node's schema. -/
def columnsUsedByNode (n : Node) : usedColumns :=
  n.Schema.foldl (fun columns col => columns.add col.Source col.Name) usedColumns.empty

mutual
/-- The walk `sql.Inspect(e, ...)` of `addUsedColumns` over one expression: every
column reference met, the expression itself included, is added to the usage
set; the visitor always descends. -/
def addUsedColumnsExpr (columns : usedColumns) : Expression → usedColumns
  | .Literal _ _ => columns
  | .GetField _ _ table name _ => columns.add table name
  | .UnresolvedColumn _ _ => columns
  | .Alias _ child => addUsedColumnsExpr columns child
  | .Unary _ child => addUsedColumnsExpr columns child
  | .Binary _ l r => addUsedColumnsExpr (addUsedColumnsExpr columns l) r
  | .Call _ _ args => addUsedColumns columns args
/-- `addUsedColumns`: the column references of every expression of the list are
added to the usage set. -/
def addUsedColumns (columns : usedColumns) : List Expression → usedColumns
  | [] => columns
  | e :: es => addUsedColumns (addUsedColumnsExpr columns e) es
end

/-- The type test `e.(*expression.GetField)`: the expression is a bare column
reference. -/
def Expression.isGetField : Expression → Bool
  | .GetField _ _ _ _ _ => true
  | _ => false

/-- `addUsedProjectColumns`: only the projections that are not bare column
references are candidates; their column references are added. -/
def addUsedProjectColumns (columns : usedColumns) (projection : List Expression) :
    usedColumns :=
  let candidates := projection.foldl
    (fun candidates e => if !e.isGetField then candidates ++ [e] else candidates) []
  addUsedColumns columns candidates

/-- The visitor closure of `findUsedColumns`, returning the updated usage set
and whether to descend. -/
def findUsedColumnsVisit (columns : usedColumns) (n : Node) : usedColumns × Bool :=
  match n with
  | .Project ps _ => (addUsedProjectColumns columns ps, true)
  | .GroupBy sel grp _ => (addUsedColumns (addUsedProjectColumns columns sel) grp, true)
  | .SubqueryAlias _ _ => (columns, false)
  | n =>
    match n.Expressions with
    | some exprs => (addUsedColumns columns exprs, true)
    | none => (columns, true)

/-- `findUsedColumns`: the top-down scan of the plan that augments the usage
set. -/
def findUsedColumns (columns : usedColumns) (n : Node) : usedColumns :=
  Inspect findUsedColumnsVisit columns n

/-! ## Pruning -/

/-- `shouldPruneExpr`: a bare column reference with a non-empty table whose
`(table, name)` is not in the usage set. -/
def shouldPruneExpr (e : Expression) (cols : usedColumns) : Bool :=
  match e with
  | .GetField _ _ table name _ =>
      if table = "" then false else !cols.has table name
  | _ => false

/-- The loop shared by `pruneProject` and `pruneGroupBy`: the expressions that
are not to be pruned are appended to `remaining`, in order. -/
def remainingExprs (exprs : List Expression) (columns : usedColumns) : List Expression :=
  exprs.foldl
    (fun remaining e => if !shouldPruneExpr e columns then remaining ++ [e] else remaining) []

/-- `pruneProject`, on the projections and the child of the `Project`. -/
def pruneProject (projections : List Expression) (child : Node) (columns : usedColumns) :
    Node :=
  let remaining := remainingExprs projections columns
  if remaining.length = 0 then child else .Project remaining child

/-- `pruneGroupBy`, on the selected expressions, the grouping expressions and
the child of the `GroupBy`. -/
def pruneGroupBy (selectedExprs groupByExprs : List Expression) (child : Node)
    (columns : usedColumns) : Node :=
  let remaining := remainingExprs selectedExprs columns
  if remaining.length = 0 then child else .GroupBy remaining groupByExprs child

/-- The closure `pruneUnusedColumns` hands to `plan.TransformUp`. -/
def pruneUnusedColumnsVisit (columns : usedColumns) (n : Node) : Except AnalyzerError Node :=
  match n with
  | .Project ps c => .ok (pruneProject ps c columns)
  | .GroupBy sel grp c => .ok (pruneGroupBy sel grp c columns)
  | n => .ok n

/-- `pruneUnusedColumns`: the bottom-up pruning of every `Project` and `GroupBy`
outside subquery aliases. -/
def pruneUnusedColumns (n : Node) (columns : usedColumns) : Except AnalyzerError Node :=
  TransformUp (pruneUnusedColumnsVisit columns) n

/-! ## Index recomputation -/

/-- The key type `tableCol` of the positional table. -/
structure tableCol where
  table : String
  col : String
deriving DecidableEq, Repr

/-- The loop `for i, col := range schema { indexes[tableCol...] = i }`
started at offset `i` on the map `m`: a later column with the same key
overwrites an earlier one. -/
def buildIndexes : Schema → Nat → (tableCol → Option Nat) → tableCol → Option Nat
  | [], _, m => m
  | col :: rest, i, m =>
      buildIndexes rest (i + 1)
        (fun k => if k = { table := col.Source, col := col.Name } then some i else m k)

/-- The map `indexes` of `fixRemainingFieldsIndexes` for a schema. -/
def indexes (schema : Schema) : tableCol → Option Nat :=
  buildIndexes schema 0 (fun _ => none)

/-- The concatenation of the schemas of the children of a node, in order. -/
def childSchema (n : Node) : Schema :=
  n.Children.foldl (fun schema c => schema ++ c.Schema) []

/-- The closure `fixRemainingFieldsIndexes` hands to `plan.TransformExpressions`:
a column reference gets the offset of its `(table, name)`, or the pass fails
with `ErrColumnTableNotFound`. -/
def fixFieldIndex (idx : tableCol → Option Nat) (e : Expression) :
    Except AnalyzerError Expression :=
  match e with
  | .GetField _ t table name nullable =>
      match idx { table := table, col := name } with
      | none => .error (.ErrColumnTableNotFound table name)
      | some j => .ok (.GetField j t table name nullable)
  | e => .ok e

/-- The `default` branch of the closure of `fixRemainingFieldsIndexes`. -/
def fixNodeIndexes (n : Node) : Except AnalyzerError Node :=
  match n.Expressions with
  | none => .ok n
  | some _ =>
    let schema := childSchema n
    if schema.length = 0 then .ok n
    else TransformExpressions (fixFieldIndex (indexes schema)) n

/-- `fixRemainingFieldsIndexes`.  The Go function is `plan.TransformUp` applied
to a closure that calls the function again on the child of a `SubqueryAlias`;
the traversal is written out here so that the recursion is structural
(`fixRemainingFieldsIndexes_eq_TransformUp` gives the form of the source). -/
def fixRemainingFieldsIndexes : Node → Except AnalyzerError Node
  | .SubqueryAlias name c =>
      match fixRemainingFieldsIndexes c with
      | .error err => .error err
      | .ok c1 => .ok (.SubqueryAlias name c1)
  | .ResolvedTable t => fixNodeIndexes (.ResolvedTable t)
  | .UnresolvedTable name => fixNodeIndexes (.UnresolvedTable name)
  | .Project ps c =>
      match fixRemainingFieldsIndexes c with
      | .error err => .error err
      | .ok c1 => fixNodeIndexes (.Project ps c1)
  | .GroupBy sel grp c =>
      match fixRemainingFieldsIndexes c with
      | .error err => .error err
      | .ok c1 => fixNodeIndexes (.GroupBy sel grp c1)
  | .Filter e c =>
      match fixRemainingFieldsIndexes c with
      | .error err => .error err
      | .ok c1 => fixNodeIndexes (.Filter e c1)
  | .CrossJoin l r =>
      match fixRemainingFieldsIndexes l with
      | .error err => .error err
      | .ok l1 =>
        match fixRemainingFieldsIndexes r with
        | .error err => .error err
        | .ok r1 => fixNodeIndexes (.CrossJoin l1 r1)
  | .InnerJoin l r cond =>
      match fixRemainingFieldsIndexes l with
      | .error err => .error err
      | .ok l1 =>
        match fixRemainingFieldsIndexes r with
        | .error err => .error err
        | .ok r1 => fixNodeIndexes (.InnerJoin l1 r1 cond)
  | .LeftJoin l r cond =>
      match fixRemainingFieldsIndexes l with
      | .error err => .error err
      | .ok l1 =>
        match fixRemainingFieldsIndexes r with
        | .error err => .error err
        | .ok r1 => fixNodeIndexes (.LeftJoin l1 r1 cond)
  | .RightJoin l r cond =>
      match fixRemainingFieldsIndexes l with
      | .error err => .error err
      | .ok l1 =>
        match fixRemainingFieldsIndexes r with
        | .error err => .error err
        | .ok r1 => fixNodeIndexes (.RightJoin l1 r1 cond)
  | .IndexedJoin l r jt cond keys idx =>
      match fixRemainingFieldsIndexes l with
      | .error err => .error err
      | .ok l1 =>
        match fixRemainingFieldsIndexes r with
        | .error err => .error err
        | .ok r1 => fixNodeIndexes (.IndexedJoin l1 r1 jt cond keys idx)
  | .TableAlias name c =>
      match fixRemainingFieldsIndexes c with
      | .error err => .error err
      | .ok c1 => fixNodeIndexes (.TableAlias name c1)
  | .DescribeQuery format c =>
      match fixRemainingFieldsIndexes c with
      | .error err => .error err
      | .ok c1 => fixNodeIndexes (.DescribeQuery format c1)
  | .InsertInto d s =>
      match fixRemainingFieldsIndexes d with
      | .error err => .error err
      | .ok d1 =>
        match fixRemainingFieldsIndexes s with
        | .error err => .error err
        | .ok s1 => fixNodeIndexes (.InsertInto d1 s1)
  | .DecoratedNode kind label c =>
      match fixRemainingFieldsIndexes c with
      | .error err => .error err
      | .ok c1 => fixNodeIndexes (.DecoratedNode kind label c1)

/-- The closure `fixRemainingFieldsIndexes` hands to `plan.TransformUp`. -/
def fixRemainingFieldsIndexesVisit (n : Node) : Except AnalyzerError Node :=
  match n with
  | .SubqueryAlias name c =>
      match fixRemainingFieldsIndexes c with
      | .error err => .error err
      | .ok child => .ok (.SubqueryAlias name child)
  | n => fixNodeIndexes n

/-! ## Subquery aliases -/

/-- Pruning never grows a plan: the bound that makes the descent of
`pruneSubqueryColumns` into the pruned child terminate. -/
theorem pruneUnusedColumns_size_le (columns : usedColumns) :
    ∀ (n m : Node), pruneUnusedColumns n columns = .ok m → m.size ≤ n.size := by
  intro n
  induction n with
  | Project ps c ih =>
    intro m h
    simp only [pruneUnusedColumns, TransformUp] at h ih
    cases hc : TransformUp (pruneUnusedColumnsVisit columns) c with
    | error e => simp [hc] at h
    | ok c1 =>
      have hle := ih c1 hc
      simp only [hc, pruneUnusedColumnsVisit, pruneProject, Except.ok.injEq] at h
      subst h
      split
      · simp only [Node.size]; omega
      · simp only [Node.size]; omega
  | GroupBy sel grp c ih =>
    intro m h
    simp only [pruneUnusedColumns, TransformUp] at h ih
    cases hc : TransformUp (pruneUnusedColumnsVisit columns) c with
    | error e => simp [hc] at h
    | ok c1 =>
      have hle := ih c1 hc
      simp only [hc, pruneUnusedColumnsVisit, pruneGroupBy, Except.ok.injEq] at h
      subst h
      split
      · simp only [Node.size]; omega
      · simp only [Node.size]; omega
  | ResolvedTable _ | UnresolvedTable _ | SubqueryAlias _ _ _ =>
    intro m h
    simp only [pruneUnusedColumns, TransformUp, pruneUnusedColumnsVisit, Except.ok.injEq] at h
    subst h
    exact Nat.le_refl _
  | Filter _ c ih | TableAlias _ c ih | DescribeQuery _ c ih | DecoratedNode _ _ c ih =>
    intro m h
    simp only [pruneUnusedColumns, TransformUp] at h ih
    cases hc : TransformUp (pruneUnusedColumnsVisit columns) c with
    | error e => simp [hc] at h
    | ok c1 =>
      have hle := ih c1 hc
      simp only [hc, pruneUnusedColumnsVisit, Except.ok.injEq] at h
      subst h
      simp only [Node.size]; omega
  | CrossJoin l r ihl ihr | InnerJoin l r _ ihl ihr | LeftJoin l r _ ihl ihr
  | RightJoin l r _ ihl ihr | IndexedJoin l r _ _ _ _ ihl ihr | InsertInto l r ihl ihr =>
    intro m h
    simp only [pruneUnusedColumns, TransformUp] at h ihl ihr
    cases hl : TransformUp (pruneUnusedColumnsVisit columns) l with
    | error e => simp [hl] at h
    | ok l1 =>
      cases hr : TransformUp (pruneUnusedColumnsVisit columns) r with
      | error e => simp [hl, hr] at h
      | ok r1 =>
        have hle1 := ihl l1 hl
        have hle2 := ihr r1 hr
        simp only [hl, hr, pruneUnusedColumnsVisit, Except.ok.injEq] at h
        subst h
        simp only [Node.size]; omega

/-- The loop of `pruneSubqueryColumns` that fills `tableByCol` from the schema
of the child: a later column with the same name overwrites an earlier one. -/
def tableByCol (schema : Schema) : String → Option String :=
  schema.foldl (fun m col => fun k => if k = col.Name then some col.Source else m k)
    (fun _ => none)

/-- The loop of `pruneSubqueryColumns` over the parent's columns of the alias:
each is translated to its table in the child, or the pass fails with the
"this is likely a bug" error naming the column and the alias. -/
def translateColumns (byCol : String → Option String) (subquery : String) :
    List String → usedColumns → Except AnalyzerError usedColumns
  | [], columns => .ok columns
  | col :: rest, columns =>
      match byCol col with
      | none => .error (.MissingProjectedColumn col subquery)
      | some table => translateColumns byCol subquery rest (columns.add table col)

mutual
/-- `pruneSubqueryColumns`, on the name and the child of the `SubqueryAlias`.
The analyzer argument only serves a log line, which has no effect on the
result. -/
def pruneSubqueryColumns (name : String) (child : Node) (parentColumns : usedColumns) :
    Except AnalyzerError Node :=
  match translateColumns (tableByCol child.Schema) name (parentColumns.columnsOf name)
      usedColumns.empty with
  | .error err => .error err
  | .ok translated =>
    match h : pruneUnusedColumns child (findUsedColumns translated child) with
    | .error err => .error err
    | .ok node =>
      match pruneSubqueries node (findUsedColumns translated child) with
      | .error err => .error err
      | .ok node1 => .ok (.SubqueryAlias name node1)
termination_by 2 * child.size + 1
decreasing_by
  have hle := pruneUnusedColumns_size_le _ _ _ h
  omega
/-- `pruneSubqueries`: `plan.TransformUp` with the closure that sends every
`SubqueryAlias` to `pruneSubqueryColumns` and leaves any other node as it is
(`pruneSubqueries_eq_TransformUp` gives the form of the source). -/
def pruneSubqueries (n : Node) (parentColumns : usedColumns) : Except AnalyzerError Node :=
  match n with
  | .SubqueryAlias name c => pruneSubqueryColumns name c parentColumns
  | .ResolvedTable t => .ok (.ResolvedTable t)
  | .UnresolvedTable name => .ok (.UnresolvedTable name)
  | .Project ps c =>
      match pruneSubqueries c parentColumns with
      | .error err => .error err
      | .ok c1 => .ok (.Project ps c1)
  | .GroupBy sel grp c =>
      match pruneSubqueries c parentColumns with
      | .error err => .error err
      | .ok c1 => .ok (.GroupBy sel grp c1)
  | .Filter e c =>
      match pruneSubqueries c parentColumns with
      | .error err => .error err
      | .ok c1 => .ok (.Filter e c1)
  | .CrossJoin l r =>
      match pruneSubqueries l parentColumns with
      | .error err => .error err
      | .ok l1 =>
        match pruneSubqueries r parentColumns with
        | .error err => .error err
        | .ok r1 => .ok (.CrossJoin l1 r1)
  | .InnerJoin l r cond =>
      match pruneSubqueries l parentColumns with
      | .error err => .error err
      | .ok l1 =>
        match pruneSubqueries r parentColumns with
        | .error err => .error err
        | .ok r1 => .ok (.InnerJoin l1 r1 cond)
  | .LeftJoin l r cond =>
      match pruneSubqueries l parentColumns with
      | .error err => .error err
      | .ok l1 =>
        match pruneSubqueries r parentColumns with
        | .error err => .error err
        | .ok r1 => .ok (.LeftJoin l1 r1 cond)
  | .RightJoin l r cond =>
      match pruneSubqueries l parentColumns with
      | .error err => .error err
      | .ok l1 =>
        match pruneSubqueries r parentColumns with
        | .error err => .error err
        | .ok r1 => .ok (.RightJoin l1 r1 cond)
  | .IndexedJoin l r jt cond keys idx =>
      match pruneSubqueries l parentColumns with
      | .error err => .error err
      | .ok l1 =>
        match pruneSubqueries r parentColumns with
        | .error err => .error err
        | .ok r1 => .ok (.IndexedJoin l1 r1 jt cond keys idx)
  | .TableAlias name c =>
      match pruneSubqueries c parentColumns with
      | .error err => .error err
      | .ok c1 => .ok (.TableAlias name c1)
  | .DescribeQuery format c =>
      match pruneSubqueries c parentColumns with
      | .error err => .error err
      | .ok c1 => .ok (.DescribeQuery format c1)
  | .InsertInto d s =>
      match pruneSubqueries d parentColumns with
      | .error err => .error err
      | .ok d1 =>
        match pruneSubqueries s parentColumns with
        | .error err => .error err
        | .ok s1 => .ok (.InsertInto d1 s1)
  | .DecoratedNode kind label c =>
      match pruneSubqueries c parentColumns with
      | .error err => .error err
      | .ok c1 => .ok (.DecoratedNode kind label c1)
termination_by 2 * n.size
decreasing_by
  all_goals simp only [Node.size]
  all_goals omega
end

/-- The closure `pruneSubqueries` hands to `plan.TransformUp`. -/
def pruneSubqueriesVisit (parentColumns : usedColumns) (n : Node) :
    Except AnalyzerError Node :=
  match n with
  | .SubqueryAlias name c => pruneSubqueryColumns name c parentColumns
  | n => .ok n

/-! ## The rule -/

/-- `pruneColumns`.  The context, the analyzer and the scope do not influence
the result and are left out. -/
def pruneColumns (n : Node) : Except AnalyzerError Node :=
  if !n.Resolved then .ok n
  else
    match n with
    | .InsertInto d s => .ok (.InsertInto d s)
    | .DescribeQuery format child =>
        match pruneColumns child with
        | .error err => .error err
        | .ok pruned => .ok (.DescribeQuery format pruned)
    | n =>
        match pruneUnusedColumns n (findUsedColumns (columnsUsedByNode n) n) with
        | .error err => .error err
        | .ok n1 =>
          match pruneSubqueries n1 (findUsedColumns (columnsUsedByNode n) n) with
          | .error err => .error err
          | .ok n2 => fixRemainingFieldsIndexes n2

/-! ## Vocabulary of the properties -/

/-- The name is made of printable ASCII characters other than the double quote
and the backslash: `%q` writes it as it is between double quotes. -/
def plainName (s : String) : Prop :=
  ∀ ch ∈ s.data, 32 ≤ ch.toNat ∧ ch.toNat < 127 ∧ ch.toNat ≠ 34 ∧ ch.toNat ≠ 92

/-- The drop rule in the words of the specification: a projection is dropped
when it is a bare column reference whose `(table, name)` is not in the usage
set. -/
def specShouldDrop (e : Expression) (cols : usedColumns) : Bool :=
  match e with
  | .GetField _ _ table name _ => !cols.has table name
  | _ => false

/-- A column reference as it occurs in an expression: its positional index and
its identity `(table, name)`. -/
structure ColumnRef where
  index : Nat
  table : String
  name : String
deriving DecidableEq, Repr

mutual
/-- The column references (`GetField`) occurring anywhere in an expression, in
the order of a top-down walk. -/
def Expression.columnRefs : Expression → List ColumnRef
  | .Literal _ _ => []
  | .GetField i _ table name _ => [{ index := i, table := table, name := name }]
  | .UnresolvedColumn _ _ => []
  | .Alias _ child => child.columnRefs
  | .Unary _ child => child.columnRefs
  | .Binary _ l r => l.columnRefs ++ r.columnRefs
  | .Call _ _ args => Expression.columnRefsList args
/-- The column references occurring in a list of expressions. -/
def Expression.columnRefsList : List Expression → List ColumnRef
  | [] => []
  | e :: es => e.columnRefs ++ Expression.columnRefsList es
end

mutual
/-- The expression with the index of every column reference reset to zero: two
expressions are equal up to the index fields of their column references when
their images are equal. -/
def Expression.eraseIndexes : Expression → Expression
  | .Literal v t => .Literal v t
  | .GetField _ t table name nullable => .GetField 0 t table name nullable
  | .UnresolvedColumn table name => .UnresolvedColumn table name
  | .Alias name child => .Alias name child.eraseIndexes
  | .Unary op child => .Unary op child.eraseIndexes
  | .Binary op l r => .Binary op l.eraseIndexes r.eraseIndexes
  | .Call name t args => .Call name t (Expression.eraseIndexesList args)
/-- The list of expressions with every column index reset to zero. -/
def Expression.eraseIndexesList : List Expression → List Expression
  | [] => []
  | e :: es => e.eraseIndexes :: Expression.eraseIndexesList es
end

/-- All the nodes of a plan, the root first, the inside of subquery aliases
included. -/
def Node.subtrees : Node → List Node
  | .ResolvedTable t => [.ResolvedTable t]
  | .UnresolvedTable name => [.UnresolvedTable name]
  | .Project ps c => .Project ps c :: c.subtrees
  | .GroupBy sel grp c => .GroupBy sel grp c :: c.subtrees
  | .Filter e c => .Filter e c :: c.subtrees
  | .CrossJoin l r => .CrossJoin l r :: (l.subtrees ++ r.subtrees)
  | .InnerJoin l r cond => .InnerJoin l r cond :: (l.subtrees ++ r.subtrees)
  | .LeftJoin l r cond => .LeftJoin l r cond :: (l.subtrees ++ r.subtrees)
  | .RightJoin l r cond => .RightJoin l r cond :: (l.subtrees ++ r.subtrees)
  | .IndexedJoin l r jt cond keys idx =>
      .IndexedJoin l r jt cond keys idx :: (l.subtrees ++ r.subtrees)
  | .TableAlias name c => .TableAlias name c :: c.subtrees
  | .SubqueryAlias name c => .SubqueryAlias name c :: c.subtrees
  | .DescribeQuery format c => .DescribeQuery format c :: c.subtrees
  | .InsertInto d s => .InsertInto d s :: (d.subtrees ++ s.subtrees)
  | .DecoratedNode kind label c => .DecoratedNode kind label c :: c.subtrees

/-- The validity invariant of a column reference against a schema: its index
is an offset into the schema and the column at that offset has the table of
the reference as its source and the name of the reference as its name. -/
def ColumnRef.ValidIn (r : ColumnRef) (schema : Schema) : Prop :=
  ∃ col, schema[r.index]? = some col ∧ col.Source = r.table ∧ col.Name = r.name

/-- The `(table, name)` of the reference is the `(Source, Name)` of no column of
the schema. -/
def ColumnRef.MissingIn (r : ColumnRef) (schema : Schema) : Prop :=
  ∀ col ∈ schema, ¬ (col.Source = r.table ∧ col.Name = r.name)

/-- The column references held by the expressions of a node; none for a node
that is not expression-carrying. -/
def Node.columnRefs (n : Node) : List ColumnRef :=
  match n.Expressions with
  | some exprs => Expression.columnRefsList exprs
  | none => []

/-- The validity invariant at one node: when the concatenated schema of its
children is not empty, every column reference held by its expressions is valid
in that schema. -/
def Node.RefsValid (m : Node) : Prop :=
  childSchema m ≠ [] → ∀ r ∈ m.columnRefs, r.ValidIn (childSchema m)

/-- The node holds the column reference `r`, the concatenated schema of its
children is not empty, and no column of it has the `(table, name)` of `r`. -/
def Node.HasMissingRef (m : Node) (r : ColumnRef) : Prop :=
  childSchema m ≠ [] ∧ r ∈ m.columnRefs ∧ r.MissingIn (childSchema m)

/-- The usage set holds the `(Source, Name)` of every column of the schema. -/
def usedColumns.Covers (cols : usedColumns) (schema : Schema) : Prop :=
  ∀ col ∈ schema, cols.has col.Source col.Name = true

/-- The plan contains no `Project`, no `GroupBy` and no `SubqueryAlias`: the
pruning steps find nothing to rewrite in it. -/
def Node.PruneFree : Node → Prop
  | .ResolvedTable _ => True
  | .UnresolvedTable _ => True
  | .Project _ _ => False
  | .GroupBy _ _ _ => False
  | .SubqueryAlias _ _ => False
  | .Filter _ c => c.PruneFree
  | .CrossJoin l r => l.PruneFree ∧ r.PruneFree
  | .InnerJoin l r _ => l.PruneFree ∧ r.PruneFree
  | .LeftJoin l r _ => l.PruneFree ∧ r.PruneFree
  | .RightJoin l r _ => l.PruneFree ∧ r.PruneFree
  | .IndexedJoin l r _ _ _ _ => l.PruneFree ∧ r.PruneFree
  | .TableAlias _ c => c.PruneFree
  | .DescribeQuery _ c => c.PruneFree
  | .InsertInto d s => d.PruneFree ∧ s.PruneFree
  | .DecoratedNode _ _ c => c.PruneFree

/-- Columns of the schema that have the same name have the same source. -/
def NamesDetermineSource (schema : Schema) : Prop :=
  ∀ c1 ∈ schema, ∀ c2 ∈ schema, c1.Name = c2.Name → c1.Source = c2.Source

/-- The schema of the plan is anchored: on the way from the root through the
nodes that pass schemas on (`Filter`, decorator, `DescribeQuery`, joins), every
`Project` or `GroupBy` reached has a non-empty list of (selected) expressions,
every `TableAlias` reached wraps a plan without `Project`, `GroupBy` and
`SubqueryAlias`, and every `SubqueryAlias` reached has a child whose schema
gives one source to the columns of one name and is anchored itself. -/
def Node.SchemaAnchored : Node → Prop
  | .ResolvedTable _ => True
  | .UnresolvedTable _ => True
  | .Project ps _ => ps ≠ []
  | .GroupBy sel _ _ => sel ≠ []
  | .Filter _ c => c.SchemaAnchored
  | .CrossJoin l r => l.SchemaAnchored ∧ r.SchemaAnchored
  | .InnerJoin l r _ => l.SchemaAnchored ∧ r.SchemaAnchored
  | .LeftJoin l r _ => l.SchemaAnchored ∧ r.SchemaAnchored
  | .RightJoin l r _ => l.SchemaAnchored ∧ r.SchemaAnchored
  | .IndexedJoin l r _ _ _ _ => l.SchemaAnchored ∧ r.SchemaAnchored
  | .TableAlias _ c => c.PruneFree
  | .SubqueryAlias _ c => NamesDetermineSource c.Schema ∧ c.SchemaAnchored
  | .DescribeQuery _ c => c.SchemaAnchored
  | .InsertInto _ _ => True
  | .DecoratedNode _ _ c => c.SchemaAnchored

/-- The usage set holds every column reference that the usage analysis takes
from the nodes of the plan outside subquery aliases: the references inside the
projections of a `Project` (selected expressions of a `GroupBy`) that are not
bare column references, the references of the grouping expressions, and the
references of the expressions of any other expression-carrying node. -/
def Node.UsesCovered (cols : usedColumns) : Node → Prop
  | .ResolvedTable _ => True
  | .UnresolvedTable _ => True
  | .Project ps c =>
      (∀ e ∈ ps, e.isGetField = false → ∀ r ∈ e.columnRefs, cols.has r.table r.name = true) ∧
      c.UsesCovered cols
  | .GroupBy sel grp c =>
      (∀ e ∈ sel, e.isGetField = false → ∀ r ∈ e.columnRefs, cols.has r.table r.name = true) ∧
      (∀ r ∈ Expression.columnRefsList grp, cols.has r.table r.name = true) ∧
      c.UsesCovered cols
  | .Filter e c => (∀ r ∈ e.columnRefs, cols.has r.table r.name = true) ∧ c.UsesCovered cols
  | .CrossJoin l r => l.UsesCovered cols ∧ r.UsesCovered cols
  | .InnerJoin l r cond =>
      (∀ x ∈ cond.columnRefs, cols.has x.table x.name = true) ∧
      l.UsesCovered cols ∧ r.UsesCovered cols
  | .LeftJoin l r cond =>
      (∀ x ∈ cond.columnRefs, cols.has x.table x.name = true) ∧
      l.UsesCovered cols ∧ r.UsesCovered cols
  | .RightJoin l r cond =>
      (∀ x ∈ cond.columnRefs, cols.has x.table x.name = true) ∧
      l.UsesCovered cols ∧ r.UsesCovered cols
  | .IndexedJoin l r _ _ _ _ => l.UsesCovered cols ∧ r.UsesCovered cols
  | .TableAlias _ c => c.UsesCovered cols
  | .SubqueryAlias _ _ => True
  | .DescribeQuery _ c => c.UsesCovered cols
  | .InsertInto d s => d.UsesCovered cols ∧ s.UsesCovered cols
  | .DecoratedNode _ _ c => c.UsesCovered cols

/-- Some column of the schema has the source `table` and the name `name`. -/
def HasPair (schema : Schema) (table name : String) : Prop :=
  ∃ col ∈ schema, col.Source = table ∧ col.Name = name

/-- The `(table, name)` of every column reference held by the node occurs in the
concatenated schema of its children. -/
def Node.RefsOccur (m : Node) : Prop :=
  ∀ r ∈ m.columnRefs, HasPair (childSchema m) r.table r.name

/-- The condition on alias nodes under which the usage set is sufficient: a
`TableAlias` wraps a plan without `Project`, `GroupBy` and `SubqueryAlias`, and
a `SubqueryAlias` has a non-empty name. -/
def Node.AliasWellFormed : Node → Prop
  | .TableAlias _ c => c.PruneFree
  | .SubqueryAlias name _ => name ≠ ""
  | _ => True

/-- What the pruned child of a node keeps: the columns of the original child
schema without a source or with their pair in the usage set. -/
def KeepsUsed (cols : usedColumns) (before after : Schema) : Prop :=
  ∀ col ∈ before, (col.Source = "" ∨ cols.has col.Source col.Name = true) →
    HasPair after col.Source col.Name

/-- The nodes of a plan that a top-down scan reaches without entering a
subquery alias: the alias itself is reached, the nodes of its child are not. -/
def Node.scope : Node → List Node
  | .ResolvedTable t => [.ResolvedTable t]
  | .UnresolvedTable name => [.UnresolvedTable name]
  | .Project ps c => .Project ps c :: c.scope
  | .GroupBy sel grp c => .GroupBy sel grp c :: c.scope
  | .Filter e c => .Filter e c :: c.scope
  | .CrossJoin l r => .CrossJoin l r :: (l.scope ++ r.scope)
  | .InnerJoin l r cond => .InnerJoin l r cond :: (l.scope ++ r.scope)
  | .LeftJoin l r cond => .LeftJoin l r cond :: (l.scope ++ r.scope)
  | .RightJoin l r cond => .RightJoin l r cond :: (l.scope ++ r.scope)
  | .IndexedJoin l r jt cond keys idx =>
      .IndexedJoin l r jt cond keys idx :: (l.scope ++ r.scope)
  | .TableAlias name c => .TableAlias name c :: c.scope
  | .SubqueryAlias name c => [.SubqueryAlias name c]
  | .DescribeQuery format c => .DescribeQuery format c :: c.scope
  | .InsertInto d s => .InsertInto d s :: (d.scope ++ s.scope)
  | .DecoratedNode kind label c => .DecoratedNode kind label c :: c.scope

/-- The column references a node contributes to the usage set, in the words of
the specification: a `Project` contributes the references inside its
projections that are not bare column references, a `GroupBy` those inside its
selected expressions that are not bare column references and those of its
grouping expressions, a `SubqueryAlias` nothing, and any other
expression-carrying node every reference of its expressions. -/
def Node.contributions : Node → List ColumnRef
  | .Project ps _ => Expression.columnRefsList (ps.filter (fun e => !e.isGetField))
  | .GroupBy sel grp _ =>
      Expression.columnRefsList (sel.filter (fun e => !e.isGetField))
        ++ Expression.columnRefsList grp
  | .SubqueryAlias _ _ => []
  | n => n.columnRefs

/-- The plan with the child of every subquery alias that a top-down scan
reaches replaced by an empty leaf. -/
def Node.hideSubqueries : Node → Node
  | .ResolvedTable t => .ResolvedTable t
  | .UnresolvedTable name => .UnresolvedTable name
  | .Project ps c => .Project ps c.hideSubqueries
  | .GroupBy sel grp c => .GroupBy sel grp c.hideSubqueries
  | .Filter e c => .Filter e c.hideSubqueries
  | .CrossJoin l r => .CrossJoin l.hideSubqueries r.hideSubqueries
  | .InnerJoin l r cond => .InnerJoin l.hideSubqueries r.hideSubqueries cond
  | .LeftJoin l r cond => .LeftJoin l.hideSubqueries r.hideSubqueries cond
  | .RightJoin l r cond => .RightJoin l.hideSubqueries r.hideSubqueries cond
  | .IndexedJoin l r jt cond keys idx =>
      .IndexedJoin l.hideSubqueries r.hideSubqueries jt cond keys idx
  | .TableAlias name c => .TableAlias name c.hideSubqueries
  | .SubqueryAlias name _ => .SubqueryAlias name (.UnresolvedTable "")
  | .DescribeQuery format c => .DescribeQuery format c.hideSubqueries
  | .InsertInto d s => .InsertInto d.hideSubqueries s.hideSubqueries
  | .DecoratedNode kind label c => .DecoratedNode kind label c.hideSubqueries

/-- The `(Source, Name)` pairs of the columns of a schema, in order. -/
def schemaPairs (schema : Schema) : List (String × String) :=
  schema.map (fun col => (col.Source, col.Name))

/-- The plan contains no `SubqueryAlias`. -/
def Node.NoSubqueryAlias : Node → Prop
  | .ResolvedTable _ => True
  | .UnresolvedTable _ => True
  | .SubqueryAlias _ _ => False
  | .Project _ c => c.NoSubqueryAlias
  | .GroupBy _ _ c => c.NoSubqueryAlias
  | .Filter _ c => c.NoSubqueryAlias
  | .CrossJoin l r => l.NoSubqueryAlias ∧ r.NoSubqueryAlias
  | .InnerJoin l r _ => l.NoSubqueryAlias ∧ r.NoSubqueryAlias
  | .LeftJoin l r _ => l.NoSubqueryAlias ∧ r.NoSubqueryAlias
  | .RightJoin l r _ => l.NoSubqueryAlias ∧ r.NoSubqueryAlias
  | .IndexedJoin l r _ _ _ _ => l.NoSubqueryAlias ∧ r.NoSubqueryAlias
  | .TableAlias _ c => c.NoSubqueryAlias
  | .DescribeQuery _ c => c.NoSubqueryAlias
  | .InsertInto d s => d.NoSubqueryAlias ∧ s.NoSubqueryAlias
  | .DecoratedNode _ _ c => c.NoSubqueryAlias

/-- Every expression a node holds: the expressions it exposes for rewriting,
and for an `IndexedJoin` its condition and its key expressions. -/
def Node.heldExpressions : Node → List Expression
  | .Project ps _ => ps
  | .GroupBy sel grp _ => sel ++ grp
  | .Filter e _ => [e]
  | .InnerJoin _ _ cond => [cond]
  | .LeftJoin _ _ cond => [cond]
  | .RightJoin _ _ cond => [cond]
  | .IndexedJoin _ _ _ cond keys _ => cond :: keys
  | _ => []

/-- The expressions of the node `m` are expressions of the node `m0`, in the
same order and unchanged (the index of every column reference included). -/
def Node.KeepsExpressionsOf (m m0 : Node) : Prop :=
  m.heldExpressions.Sublist m0.heldExpressions

/-- The plan with the index of every column reference reset to zero, in every
expression held by every node: two plans are equal up to the index fields of
their column references when their images are equal. -/
def Node.eraseIndexes : Node → Node
  | .ResolvedTable t => .ResolvedTable t
  | .UnresolvedTable name => .UnresolvedTable name
  | .Project ps c => .Project (Expression.eraseIndexesList ps) c.eraseIndexes
  | .GroupBy sel grp c =>
      .GroupBy (Expression.eraseIndexesList sel) (Expression.eraseIndexesList grp)
        c.eraseIndexes
  | .Filter e c => .Filter e.eraseIndexes c.eraseIndexes
  | .CrossJoin l r => .CrossJoin l.eraseIndexes r.eraseIndexes
  | .InnerJoin l r cond => .InnerJoin l.eraseIndexes r.eraseIndexes cond.eraseIndexes
  | .LeftJoin l r cond => .LeftJoin l.eraseIndexes r.eraseIndexes cond.eraseIndexes
  | .RightJoin l r cond => .RightJoin l.eraseIndexes r.eraseIndexes cond.eraseIndexes
  | .IndexedJoin l r jt cond keys idx =>
      .IndexedJoin l.eraseIndexes r.eraseIndexes jt cond.eraseIndexes
        (Expression.eraseIndexesList keys) idx
  | .TableAlias name c => .TableAlias name c.eraseIndexes
  | .SubqueryAlias name c => .SubqueryAlias name c.eraseIndexes
  | .DescribeQuery format c => .DescribeQuery format c.eraseIndexes
  | .InsertInto d s => .InsertInto d.eraseIndexes s.eraseIndexes
  | .DecoratedNode kind label c => .DecoratedNode kind label c.eraseIndexes

/-- The usage set `pruneColumns` computes for a plan: the columns of the root
schema, augmented by `findUsedColumns`. -/
def usageOf (n : Node) : usedColumns := findUsedColumns (columnsUsedByNode n) n

/-- The pruning step has nothing to remove from the plan under the usage set:
outside subquery aliases every `Project` and every `GroupBy` has a non-empty
list of (selected) expressions, none of which `shouldPruneExpr` would drop. -/
def Node.PruneStable (cols : usedColumns) : Node → Prop
  | .ResolvedTable _ => True
  | .UnresolvedTable _ => True
  | .Project ps c =>
      ps ≠ [] ∧ (∀ e ∈ ps, shouldPruneExpr e cols = false) ∧ c.PruneStable cols
  | .GroupBy sel _ c =>
      sel ≠ [] ∧ (∀ e ∈ sel, shouldPruneExpr e cols = false) ∧ c.PruneStable cols
  | .Filter _ c => c.PruneStable cols
  | .CrossJoin l r => l.PruneStable cols ∧ r.PruneStable cols
  | .InnerJoin l r _ => l.PruneStable cols ∧ r.PruneStable cols
  | .LeftJoin l r _ => l.PruneStable cols ∧ r.PruneStable cols
  | .RightJoin l r _ => l.PruneStable cols ∧ r.PruneStable cols
  | .IndexedJoin l r _ _ _ _ => l.PruneStable cols ∧ r.PruneStable cols
  | .TableAlias _ c => c.PruneStable cols
  | .SubqueryAlias _ _ => True
  | .DescribeQuery _ c => c.PruneStable cols
  | .InsertInto d s => d.PruneStable cols ∧ s.PruneStable cols
  | .DecoratedNode _ _ c => c.PruneStable cols

/-! ## The filter pushdown above tables -/

/-- Modelled from the spec: the split of a predicate into its top-level
conjuncts, nested `and` flattened (section 4.4).  The rule `pushdown_filters` is
not among the source files; its test `TestPushdownFiltersAboveTables` is. -/
def splitConjunction : Expression → List Expression
  | .Binary .And l r => splitConjunction l ++ splitConjunction r
  | e => [e]

/-- Modelled from the spec: the `and` of a non-empty list of conjuncts, given
as its first conjunct and the others, nested to the left as in the plans the
tests expect. -/
def joinConjunction (e : Expression) (es : List Expression) : Expression :=
  es.foldl (fun acc x => .Binary .And acc x) e

/-- Modelled from the spec: "the originating `Filter` is rebuilt from the
residual conjuncts, or collapsed into its child if none remain"; also the
attachment of relocated conjuncts above an operator. -/
def filterAbove (cs : List Expression) (n : Node) : Node :=
  match cs with
  | [] => n
  | e :: es => .Filter (joinConjunction e es) n

/-- Modelled from the spec: the conjunct references columns, and every column
it references is a `(source, name)` of the schema. -/
def Expression.refersOnlyTo (e : Expression) (schema : Schema) : Bool :=
  !e.columnRefs.isEmpty &&
    e.columnRefs.all (fun r => schema.any (fun col => col.Source == r.table && col.Name == r.name))

/-- Modelled from the spec: the classes of a conjunct above a join (section
4.4): left-only, right-only, or join. -/
inductive ConjunctClass where
  | LeftOnly
  | RightOnly
  | Join
deriving DecidableEq, Repr

/-- Modelled from the spec: the classification of a conjunct by its column set
against the schemas of the two sides of a join.  A conjunct that cannot be
attributed to one side (it references both sides, or no column at all) is a join
conjunct. -/
def classifyConjunct (left right : Schema) (e : Expression) : ConjunctClass :=
  if e.refersOnlyTo left then .LeftOnly
  else if e.refersOnlyTo right then .RightOnly
  else .Join

/-- Modelled from the spec: the relocation of a list of conjuncts into a plan,
conjunct by conjunct, to the deepest legal placement (table of section 4.4).
At a `CrossJoin` or `InnerJoin` left-only conjuncts go into the left side and
right-only conjuncts into the right side; at a `LeftJoin` only the left-only
conjuncts go down and the others stay in a `Filter` above the join; at a
`RightJoin` only the right-only ones go down; when a conjunct is a join conjunct
the whole list stays above the join; above any other operator (a table, a
`TableAlias`, ...) the conjuncts are attached as a `Filter`.  The table of the
specification has no row for `IndexedJoin`; in the plans `TestPushdownIndex`
expects, one of the inner kind receives conjuncts on both sides and one of the
left or right kind on its first side only. -/
def pushInto : List Expression → Node → Node
  | cs, .CrossJoin l r =>
      if cs.any (fun e => classifyConjunct l.Schema r.Schema e == .Join) then
        filterAbove cs (.CrossJoin l r)
      else
        .CrossJoin
          (pushInto (cs.filter (fun e => classifyConjunct l.Schema r.Schema e == .LeftOnly)) l)
          (pushInto (cs.filter (fun e => classifyConjunct l.Schema r.Schema e == .RightOnly)) r)
  | cs, .InnerJoin l r cond =>
      if cs.any (fun e => classifyConjunct l.Schema r.Schema e == .Join) then
        filterAbove cs (.InnerJoin l r cond)
      else
        .InnerJoin
          (pushInto (cs.filter (fun e => classifyConjunct l.Schema r.Schema e == .LeftOnly)) l)
          (pushInto (cs.filter (fun e => classifyConjunct l.Schema r.Schema e == .RightOnly)) r)
          cond
  | cs, .LeftJoin l r cond =>
      if cs.any (fun e => classifyConjunct l.Schema r.Schema e == .Join) then
        filterAbove cs (.LeftJoin l r cond)
      else
        filterAbove (cs.filter (fun e => classifyConjunct l.Schema r.Schema e != .LeftOnly))
          (.LeftJoin
            (pushInto (cs.filter (fun e => classifyConjunct l.Schema r.Schema e == .LeftOnly)) l)
            r cond)
  | cs, .RightJoin l r cond =>
      if cs.any (fun e => classifyConjunct l.Schema r.Schema e == .Join) then
        filterAbove cs (.RightJoin l r cond)
      else
        filterAbove (cs.filter (fun e => classifyConjunct l.Schema r.Schema e != .RightOnly))
          (.RightJoin l
            (pushInto (cs.filter (fun e => classifyConjunct l.Schema r.Schema e == .RightOnly)) r)
            cond)
  | cs, .IndexedJoin l r jt cond keys idx =>
      if cs.any (fun e => classifyConjunct l.Schema r.Schema e == .Join) then
        filterAbove cs (.IndexedJoin l r jt cond keys idx)
      else if jt = .Inner then
        .IndexedJoin
          (pushInto (cs.filter (fun e => classifyConjunct l.Schema r.Schema e == .LeftOnly)) l)
          (pushInto (cs.filter (fun e => classifyConjunct l.Schema r.Schema e == .RightOnly)) r)
          jt cond keys idx
      else
        filterAbove (cs.filter (fun e => classifyConjunct l.Schema r.Schema e != .LeftOnly))
          (.IndexedJoin
            (pushInto (cs.filter (fun e => classifyConjunct l.Schema r.Schema e == .LeftOnly)) l)
            r jt cond keys idx)
  | cs, n => filterAbove cs n

/-- Modelled from the spec: some conjunct of the list can be relocated below
the operator: the operator is a join, no conjunct is a join conjunct, and for an
outer join some conjunct is on the side that may receive conjuncts. -/
def relocatable (cs : List Expression) : Node → Bool
  | .CrossJoin l r => !cs.any (fun e => classifyConjunct l.Schema r.Schema e == .Join)
  | .InnerJoin l r _ => !cs.any (fun e => classifyConjunct l.Schema r.Schema e == .Join)
  | .LeftJoin l r _ =>
      !cs.any (fun e => classifyConjunct l.Schema r.Schema e == .Join) &&
        cs.any (fun e => classifyConjunct l.Schema r.Schema e == .LeftOnly)
  | .RightJoin l r _ =>
      !cs.any (fun e => classifyConjunct l.Schema r.Schema e == .Join) &&
        cs.any (fun e => classifyConjunct l.Schema r.Schema e == .RightOnly)
  | .IndexedJoin l r jt _ _ _ =>
      !cs.any (fun e => classifyConjunct l.Schema r.Schema e == .Join) &&
        (jt == .Inner || cs.any (fun e => classifyConjunct l.Schema r.Schema e == .LeftOnly))
  | _ => false

/-- Modelled from the spec: the rewrite of one `Filter(predicate, child)` of
section 4.4: the predicate is split into conjuncts and the conjuncts are
relocated into the child; `none` when nothing can be relocated, the `Filter`
then stays as it is. -/
def pushdownFilter (predicate : Expression) (child : Node) : Option Node :=
  if relocatable (splitConjunction predicate) child then
    some (pushInto (splitConjunction predicate) child)
  else none

/-- Modelled from the spec: the bottom-up traversal that applies
`pushdownFilter` to every `Filter` outside subquery aliases; the flag tells
whether a conjunct was relocated somewhere. -/
def relocateFilters : Node → Node × Bool
  | .ResolvedTable t => (.ResolvedTable t, false)
  | .UnresolvedTable name => (.UnresolvedTable name, false)
  | .SubqueryAlias name c => (.SubqueryAlias name c, false)
  | .Filter e c =>
      match pushdownFilter e (relocateFilters c).1 with
      | some n1 => (n1, true)
      | none => (.Filter e (relocateFilters c).1, (relocateFilters c).2)
  | .Project ps c => (.Project ps (relocateFilters c).1, (relocateFilters c).2)
  | .GroupBy sel grp c => (.GroupBy sel grp (relocateFilters c).1, (relocateFilters c).2)
  | .TableAlias name c => (.TableAlias name (relocateFilters c).1, (relocateFilters c).2)
  | .DescribeQuery format c =>
      (.DescribeQuery format (relocateFilters c).1, (relocateFilters c).2)
  | .DecoratedNode kind label c =>
      (.DecoratedNode kind label (relocateFilters c).1, (relocateFilters c).2)
  | .CrossJoin l r =>
      (.CrossJoin (relocateFilters l).1 (relocateFilters r).1,
        (relocateFilters l).2 || (relocateFilters r).2)
  | .InnerJoin l r cond =>
      (.InnerJoin (relocateFilters l).1 (relocateFilters r).1 cond,
        (relocateFilters l).2 || (relocateFilters r).2)
  | .LeftJoin l r cond =>
      (.LeftJoin (relocateFilters l).1 (relocateFilters r).1 cond,
        (relocateFilters l).2 || (relocateFilters r).2)
  | .RightJoin l r cond =>
      (.RightJoin (relocateFilters l).1 (relocateFilters r).1 cond,
        (relocateFilters l).2 || (relocateFilters r).2)
  | .IndexedJoin l r jt cond keys idx =>
      (.IndexedJoin (relocateFilters l).1 (relocateFilters r).1 jt cond keys idx,
        (relocateFilters l).2 || (relocateFilters r).2)
  | .InsertInto d s =>
      (.InsertInto (relocateFilters d).1 (relocateFilters s).1,
        (relocateFilters d).2 || (relocateFilters s).2)

/-- Modelled from the spec: the filter pushdown above tables of the rule
`pushdown_filters` (section 4.4): the resolution gate, the relocation of the
conjuncts of every `Filter`, and, after a relocation, the index recomputation
on the entire tree.  When nothing is relocated the plan is returned as it
is. -/
def pushdownFiltersAboveTables (n : Node) : Except AnalyzerError Node :=
  if !n.Resolved then .ok n
  else if (relocateFilters n).2 then fixRemainingFieldsIndexes (relocateFilters n).1
  else .ok n

/-! ## Vocabulary of the filter pushdown -/

/-- The operator is one of the joins that the filter pushdown descends into. -/
def Node.isJoin : Node → Bool
  | .CrossJoin _ _ => true
  | .InnerJoin _ _ _ => true
  | .LeftJoin _ _ _ => true
  | .RightJoin _ _ _ => true
  | .IndexedJoin _ _ _ _ _ _ => true
  | _ => false

/-- The column reference names a column that the first schema has and the
second schema has not. -/
def ColumnRef.OnlyIn (r : ColumnRef) (side other : Schema) : Prop :=
  HasPair side r.table r.name ∧ ¬ HasPair other r.table r.name

/-! ## The index selection -/

/-- Modelled from the spec: the expressions of an index, `<table>.<column>` for
each of its columns (section 4.6; the rule that selects indexes is not among
the source files, its test `TestPushdownIndex` is). -/
def Index.Expressions (idx : Index) : List String :=
  idx.Columns.map (fun c => idx.Table ++ "." ++ c)

/-- Modelled from the spec: the label of the decorator of an indexed access,
"Indexed table access on index [...]". -/
def indexedAccessLabel (idx : Index) : String :=
  "Indexed table access on index [" ++ ",".intercalate idx.Expressions ++ "]"

/-- Modelled from the spec: the literal of a conjunct that is an equality
between the column `(table, column)` and a literal. -/
def equalityKey (table column : String) : Expression → Option String
  | .Binary .Equals (.GetField _ _ t c _) (.Literal v _) =>
      if t = table ∧ c = column then some v else none
  | _ => none

/-- Modelled from the spec: the order in which the indexes of a source are
tried: "primary-key index preferred, then first declared order". -/
def orderedIndexes (t : Table) : List Index :=
  t.Indexes.filter (fun idx => idx.Primary) ++ t.Indexes.filter (fun idx => !idx.Primary)

/-- Modelled from the spec: the lookup `Get(value)` of an index whose leading
column has a matching equality predicate among the conjuncts; `name` is the name
under which the conjuncts refer to the table. -/
def lookupFor (name : String) (cs : List Expression) (idx : Index) : Option IndexLookup :=
  match idx.Columns with
  | [] => none
  | col :: _ =>
    match cs.findSome? (equalityKey name col) with
    | none => none
    | some v => some { index := idx, Key := v }

/-- Modelled from the spec: the index lookup selected for a table from the
conjuncts of the filter above it; none when the table already carries an index
lookup ("make no change"). -/
def selectIndex (t : Table) (name : String) (cs : List Expression) : Option IndexLookup :=
  match t.Lookup with
  | some _ => none
  | none => (orderedIndexes t).findSome? (lookupFor name cs)

/-- Modelled from the spec: the predicate rebuilt from its conjuncts, as the
filters of the plans the tests expect are. -/
def rejoin (predicate : Expression) : Expression :=
  match splitConjunction predicate with
  | [] => predicate
  | c :: cs => joinConjunction c cs

/-- Modelled from the spec: index selection at one `Filter` (section 4.6).
Directly above a `ResolvedTable` the lookup is attached to the table and the
decorator wraps the `Filter`; through a `TableAlias` the decorator wraps the
table inside the alias; the predicate is retained in the `Filter`.  `none` when
no index is selected. -/
def pushdownIndex (predicate : Expression) : Node → Option Node
  | .ResolvedTable t =>
      match selectIndex t t.Name (splitConjunction predicate) with
      | none => none
      | some lookup =>
          some (.DecoratedNode .IndexedAccess (indexedAccessLabel lookup.index)
            (.Filter (rejoin predicate) (.ResolvedTable { t with Lookup := some lookup })))
  | .TableAlias name (.ResolvedTable t) =>
      match selectIndex t name (splitConjunction predicate) with
      | none => none
      | some lookup =>
          some (.Filter (rejoin predicate)
            (.TableAlias name
              (.DecoratedNode .IndexedAccess (indexedAccessLabel lookup.index)
                (.ResolvedTable { t with Lookup := some lookup }))))
  | _ => none

/-- Modelled from the spec: the bottom-up traversal that applies `pushdownIndex`
to every `Filter` outside subquery aliases; the second side of an `IndexedJoin`
is left alone, its index being preselected by the join.  The flag tells whether
an index was selected somewhere. -/
def selectIndexes : Node → Node × Bool
  | .ResolvedTable t => (.ResolvedTable t, false)
  | .UnresolvedTable name => (.UnresolvedTable name, false)
  | .SubqueryAlias name c => (.SubqueryAlias name c, false)
  | .Filter e c =>
      match pushdownIndex e c with
      | some n1 => (n1, true)
      | none => (.Filter e (selectIndexes c).1, (selectIndexes c).2)
  | .Project ps c => (.Project ps (selectIndexes c).1, (selectIndexes c).2)
  | .GroupBy sel grp c => (.GroupBy sel grp (selectIndexes c).1, (selectIndexes c).2)
  | .TableAlias name c => (.TableAlias name (selectIndexes c).1, (selectIndexes c).2)
  | .DescribeQuery format c =>
      (.DescribeQuery format (selectIndexes c).1, (selectIndexes c).2)
  | .DecoratedNode kind label c =>
      (.DecoratedNode kind label (selectIndexes c).1, (selectIndexes c).2)
  | .CrossJoin l r =>
      (.CrossJoin (selectIndexes l).1 (selectIndexes r).1,
        (selectIndexes l).2 || (selectIndexes r).2)
  | .InnerJoin l r cond =>
      (.InnerJoin (selectIndexes l).1 (selectIndexes r).1 cond,
        (selectIndexes l).2 || (selectIndexes r).2)
  | .LeftJoin l r cond =>
      (.LeftJoin (selectIndexes l).1 (selectIndexes r).1 cond,
        (selectIndexes l).2 || (selectIndexes r).2)
  | .RightJoin l r cond =>
      (.RightJoin (selectIndexes l).1 (selectIndexes r).1 cond,
        (selectIndexes l).2 || (selectIndexes r).2)
  | .IndexedJoin l r jt cond keys idx =>
      (.IndexedJoin (selectIndexes l).1 r jt cond keys idx, (selectIndexes l).2)
  | .InsertInto d s =>
      (.InsertInto (selectIndexes d).1 (selectIndexes s).1,
        (selectIndexes d).2 || (selectIndexes s).2)

/-- Modelled from the spec: the rule `pushdown_filters` as its tests exercise
it: the resolution gate, the relocation of filters above tables, index
selection, and the index recomputation on the entire tree when the plan was
changed. -/
def pushdownFilters (n : Node) : Except AnalyzerError Node :=
  if !n.Resolved then .ok n
  else if (relocateFilters n).2 || (selectIndexes (relocateFilters n).1).2 then
    fixRemainingFieldsIndexes (selectIndexes (relocateFilters n).1).1
  else .ok n

/-- The expression is not an `and`: it is a conjunct. -/
def Expression.isAnd : Expression → Bool
  | .Binary .And _ _ => true
  | _ => false

/-- Every column reference held by the node has the index that the positional
table of the concatenated schema of its children gives to its `(table, name)`. -/
def Node.IndexesBound (m : Node) : Prop :=
  ∀ r ∈ Expression.columnRefsList m.heldExpressions,
    indexes (childSchema m) { table := r.table, col := r.name } = some r.index

/-- The conjuncts of the predicates of all the `Filter` nodes of a plan. -/
def Node.filterConjuncts : Node → List Expression
  | .ResolvedTable _ => []
  | .UnresolvedTable _ => []
  | .Filter e c => splitConjunction e ++ c.filterConjuncts
  | .Project _ c => c.filterConjuncts
  | .GroupBy _ _ c => c.filterConjuncts
  | .TableAlias _ c => c.filterConjuncts
  | .SubqueryAlias _ c => c.filterConjuncts
  | .DescribeQuery _ c => c.filterConjuncts
  | .DecoratedNode _ _ c => c.filterConjuncts
  | .CrossJoin l r => l.filterConjuncts ++ r.filterConjuncts
  | .InnerJoin l r _ => l.filterConjuncts ++ r.filterConjuncts
  | .LeftJoin l r _ => l.filterConjuncts ++ r.filterConjuncts
  | .RightJoin l r _ => l.filterConjuncts ++ r.filterConjuncts
  | .IndexedJoin l r _ _ _ _ => l.filterConjuncts ++ r.filterConjuncts
  | .InsertInto d s => d.filterConjuncts ++ s.filterConjuncts

/-- The plan `n1` holds the filters of the plan `n` and the conjuncts `cs`
without breaking an outer join: every `LeftJoin` of `n1` is a `LeftJoin` of `n`
with the same condition and the same schemas on both sides, whose right side
holds no conjunct that it did not hold in `n`, and whose left side holds, beyond
the conjuncts it held in `n`, only conjuncts of `cs` that refer only to columns
of the left side; symmetrically for every `RightJoin`, whose right side only
receives conjuncts of `cs` that refer only to columns of the right side and not
only to columns of the left side. -/
def OuterJoinSound (cs : List Expression) (n n1 : Node) : Prop :=
  (∀ l1 r1 cond, Node.LeftJoin l1 r1 cond ∈ n1.subtrees →
    ∃ l r, Node.LeftJoin l r cond ∈ n.subtrees ∧ l1.Schema = l.Schema ∧
      r1.Schema = r.Schema ∧
      (∀ x ∈ r1.filterConjuncts, x ∈ r.filterConjuncts) ∧
      (∀ x ∈ l1.filterConjuncts, x ∈ l.filterConjuncts ∨
        (x ∈ cs ∧ x.refersOnlyTo l.Schema = true))) ∧
  (∀ l1 r1 cond, Node.RightJoin l1 r1 cond ∈ n1.subtrees →
    ∃ l r, Node.RightJoin l r cond ∈ n.subtrees ∧ l1.Schema = l.Schema ∧
      r1.Schema = r.Schema ∧
      (∀ x ∈ l1.filterConjuncts, x ∈ l.filterConjuncts) ∧
      (∀ x ∈ r1.filterConjuncts, x ∈ r.filterConjuncts ∨
        (x ∈ cs ∧ x.refersOnlyTo l.Schema = false ∧ x.refersOnlyTo r.Schema = true)))

/-! ## Example plans -/

/-- The table `mytable(i int, f float, t text)` of the scenarios. -/
def mytable : Table :=
  { Name := "mytable", Schema := [
      { Name := "i", Typ := .Int32, Source := "mytable", Nullable := false, PrimaryKey := false },
      { Name := "f", Typ := .Float64, Source := "mytable", Nullable := false,
        PrimaryKey := false },
      { Name := "t", Typ := .Text, Source := "mytable", Nullable := false, PrimaryKey := false }] }

/-- A table that declares no column. -/
def emptyTable : Table := { Name := "t", Schema := [] }

/-- A `Filter` over a subquery alias whose column references carry stale
indexes, outside and inside the alias. -/
def stalePlan : Node :=
  .Filter (.Unary .IsNull (.GetField 5 .Float64 "s" "f" false))
    (.SubqueryAlias "s"
      (.Project [.GetField 7 .Float64 "mytable" "f" false] (.ResolvedTable mytable)))

/-- The plan `stalePlan` with its indexes recomputed. -/
def reboundPlan : Node :=
  .Filter (.Unary .IsNull (.GetField 0 .Float64 "s" "f" false))
    (.SubqueryAlias "s"
      (.Project [.GetField 1 .Float64 "mytable" "f" false] (.ResolvedTable mytable)))

/-- A `Project` of a column reference over a table without columns. -/
def projectOverEmptyTable : Node :=
  .Project [.GetField 7 .Int32 "t" "a" false] (.ResolvedTable emptyTable)

/-- A `Project` over `mytable` of two columns that `mytable` does not have. -/
def projectOfTwoMissingColumns : Node :=
  .Project [.GetField 0 .Int32 "mytable" "a" false, .GetField 1 .Int32 "mytable" "b" false]
    (.ResolvedTable mytable)

/-- A `TableAlias` over a `Project` of one column of `mytable`. -/
def aliasOverProject : Node :=
  .TableAlias "x" (.Project [.GetField 1 .Float64 "mytable" "f" false] (.ResolvedTable mytable))

/-- A subquery alias whose child projects the column `i` of two aliases of
`mytable`: the schema of the child has two columns named `i`. -/
def subqueryOverDuplicateNames : Node :=
  .SubqueryAlias "s"
    (.Project [.GetField 0 .Int32 "a" "i" false, .GetField 3 .Int32 "b" "i" false]
      (.CrossJoin (.TableAlias "a" (.ResolvedTable mytable))
        (.TableAlias "b" (.ResolvedTable mytable))))

/-- A `Project` with an empty list of projections. -/
def emptyProject : Node := .Project [] (.ResolvedTable mytable)

/-- A `Project` of one column of a subquery alias whose child projects two
columns of `mytable`. -/
def projectOverSubquery : Node :=
  .Project [.GetField 0 .Float64 "s" "f" false]
    (.SubqueryAlias "s"
      (.Project [.GetField 1 .Float64 "mytable" "f" false,
          .GetField 0 .Int32 "mytable" "i" false]
        (.ResolvedTable mytable)))

/-- The plan `projectOverSubquery` after `pruneColumns`. -/
def projectOverSubqueryPruned : Node :=
  .Project [.GetField 0 .Float64 "s" "f" false]
    (.SubqueryAlias "s"
      (.Project [.GetField 1 .Float64 "mytable" "f" false] (.ResolvedTable mytable)))

/-- A `Project` of the column `x.f` over a `TableAlias` that wraps a `Project`
of the column `f` and of a computed column. -/
def aliasOverComputedProject : Node :=
  .Project [.GetField 0 .Float64 "x" "f" false]
    (.TableAlias "x"
      (.Project [.GetField 1 .Float64 "mytable" "f" false,
          .Alias "c" (.GetField 0 .Int32 "mytable" "i" false)]
        (.ResolvedTable mytable)))

/-- A table named `s` with the single column `z`. -/
def tableNamedS : Table :=
  { Name := "s", Schema := [
      { Name := "z", Typ := .Int32, Source := "s", Nullable := false, PrimaryKey := false }] }

/-- A join of the table `s` with a subquery aliased `s` as well. -/
def aliasNameClash : Node :=
  .CrossJoin (.ResolvedTable tableNamedS) (.SubqueryAlias "s" (.ResolvedTable mytable))

/-- Two nested `Project`s over a subquery alias with an empty name. -/
def unnamedSubquery : Node :=
  .Project [.GetField 1 .Float64 "" "f" false]
    (.Project [.GetField 0 .Int32 "" "i" false, .GetField 1 .Float64 "" "f" false]
      (.SubqueryAlias ""
        (.Project [.GetField 0 .Int32 "mytable" "i" false,
            .GetField 1 .Float64 "mytable" "f" false]
          (.ResolvedTable mytable))))

/-- A `GroupBy` that selects the column `f` and a count, grouped by `f`. -/
def groupByPlan : Node :=
  .GroupBy [.GetField 1 .Float64 "mytable" "f" false,
      .Unary (.Aggregate "COUNT") (.GetField 0 .Int32 "mytable" "i" false)]
    [.GetField 1 .Float64 "mytable" "f" false] (.ResolvedTable mytable)

/-- The table `mytable` projected to `[f]`. -/
def mytableF : Table :=
  { Name := "mytable", Schema := [
      { Name := "f", Typ := .Float64, Source := "mytable", Nullable := false,
        PrimaryKey := false }] }

/-- The table `mytable2` projected to `[t2, i2]`. -/
def mytable2T2I2 : Table :=
  { Name := "mytable2", Schema := [
      { Name := "t2", Typ := .Text, Source := "mytable2", Nullable := false,
        PrimaryKey := false },
      { Name := "i2", Typ := .Int32, Source := "mytable2", Nullable := false,
        PrimaryKey := false }] }

/-- The plan of the test "pushdown projections to tables" after the projections
were pushed to the tables, with the indexes its references carried before. -/
def projectedJoinPlan : Node :=
  .Project [.GetField 2 .Text "mytable2" "t2" false]
    (.Filter
      (.Binary .Or
        (.Binary .Equals (.GetField 1 .Float64 "mytable" "f" false) (.Literal "3.14" .Float64))
        (.Unary .IsNull (.GetField 0 .Int32 "mytable2" "i2" false)))
      (.CrossJoin
        (.DecoratedNode .ProjectedAccess "Projected table access on [f]"
          (.ResolvedTable mytableF))
        (.DecoratedNode .ProjectedAccess "Projected table access on [t2 i2]"
          (.ResolvedTable mytable2T2I2))))

/-- The plan `projectedJoinPlan` with its indexes recomputed, as the test
expects it. -/
def projectedJoinPlanRebound : Node :=
  .Project [.GetField 1 .Text "mytable2" "t2" false]
    (.Filter
      (.Binary .Or
        (.Binary .Equals (.GetField 0 .Float64 "mytable" "f" false) (.Literal "3.14" .Float64))
        (.Unary .IsNull (.GetField 2 .Int32 "mytable2" "i2" false)))
      (.CrossJoin
        (.DecoratedNode .ProjectedAccess "Projected table access on [f]"
          (.ResolvedTable mytableF))
        (.DecoratedNode .ProjectedAccess "Projected table access on [t2 i2]"
          (.ResolvedTable mytable2T2I2))))

/-- The child of the subquery alias of `projectOverSubquery`: a `Project` of the
columns `f` and `i` of `mytable`. -/
def twoColumnProject : Node :=
  .Project [.GetField 1 .Float64 "mytable" "f" false,
      .GetField 0 .Int32 "mytable" "i" false]
    (.ResolvedTable mytable)

/-- The plan `twoColumnProject` without the projection of `i`. -/
def oneColumnProject : Node :=
  .Project [.GetField 1 .Float64 "mytable" "f" false] (.ResolvedTable mytable)

/-- A `Project` of the columns `f` and `i` of `mytable` whose column references
carry stale indexes. -/
def staleTwoColumnProject : Node :=
  .Project [.GetField 7 .Float64 "mytable" "f" false,
      .GetField 9 .Int32 "mytable" "i" false]
    (.ResolvedTable mytable)

/-- The plan `staleTwoColumnProject` without the projection of `i`, the index
of the reference to `f` untouched. -/
def staleOneColumnProject : Node :=
  .Project [.GetField 7 .Float64 "mytable" "f" false] (.ResolvedTable mytable)

/-- The plan `projectOverSubquery` with stale indexes inside the subquery
alias. -/
def staleProjectOverSubquery : Node :=
  .Project [.GetField 0 .Float64 "s" "f" false] (.SubqueryAlias "s" staleTwoColumnProject)

/-- The plan `staleProjectOverSubquery` after the pruning steps of
`pruneColumns`, before the index recomputation. -/
def staleProjectOverSubqueryPruned : Node :=
  .Project [.GetField 0 .Float64 "s" "f" false] (.SubqueryAlias "s" staleOneColumnProject)

/-- The projections `[i, f, t]` of scenario S6: bare references to the three
columns of `mytable`. -/
def allColumnsOfMytable : List Expression :=
  [.GetField 0 .Int32 "mytable" "i" false, .GetField 1 .Float64 "mytable" "f" false,
    .GetField 2 .Text "mytable" "t" false]

/-- The plan of scenario S6: `Project[i, f, t](Project[i, f, t](RT(mytable)))`. -/
def scenarioS6 : Node :=
  .Project allColumnsOfMytable (.Project allColumnsOfMytable (.ResolvedTable mytable))

/-- A `Project` of a computed column of `mytable`. -/
def computedProject : Node :=
  .Project [.Alias "c" (.GetField 0 .Int32 "mytable" "i" false)] (.ResolvedTable mytable)

/-- A `Project` with an empty list of projections over a `Project` of a
computed column. -/
def emptyProjectOverComputed : Node :=
  .Project []
    (.Project [.Alias "c" (.GetField 0 .Int32 "mytable" "i" false)] (.ResolvedTable mytable))

/-- A `GroupBy` with an empty list of selected expressions over a `Project` of
a computed column. -/
def emptyGroupByOverComputed : Node :=
  .GroupBy [] [.GetField 0 .Int32 "mytable" "i" false]
    (.Project [.Alias "c" (.GetField 0 .Int32 "mytable" "i" false)] (.ResolvedTable mytable))

/-- A `Project` of a literal over a `GroupBy` that selects `i` and groups by `f`
over a `Project` of `i` and `f`: nothing above the `GroupBy` uses the column it
selects. -/
def literalOverGroupBy : Node :=
  .Project [.Literal "1" .Int64]
    (.GroupBy [.GetField 0 .Int32 "mytable" "i" false]
      [.GetField 1 .Float64 "mytable" "f" false]
      (.Project [.GetField 0 .Int32 "mytable" "i" false,
          .GetField 1 .Float64 "mytable" "f" false]
        (.ResolvedTable mytable)))

/-- The plan `pruneColumns` returns on `literalOverGroupBy`: the `GroupBy` is
replaced by its child, whose projection of `f` was kept for the grouping. -/
def literalOverGroupByPruned : Node :=
  .Project [.Literal "1" .Int64]
    (.Project [.GetField 1 .Float64 "mytable" "f" false] (.ResolvedTable mytable))

/-- The plan `pruneColumns` returns on `literalOverGroupByPruned`. -/
def literalOverTable : Node :=
  .Project [.Literal "1" .Int64] (.ResolvedTable mytable)

/-- A `Project` of `f` over a `Project` of `i` and `f`. -/
def projectOverProject : Node :=
  .Project [.GetField 1 .Float64 "mytable" "f" false]
    (.Project [.GetField 0 .Int32 "mytable" "i" false,
        .GetField 1 .Float64 "mytable" "f" false]
      (.ResolvedTable mytable))

/-- The plan `pruneColumns` returns on `projectOverProject`. -/
def projectOverProjectPruned : Node :=
  .Project [.GetField 0 .Float64 "mytable" "f" false]
    (.Project [.GetField 1 .Float64 "mytable" "f" false] (.ResolvedTable mytable))

/-- The table `mytable2(i2 int, f2 float, t2 text)` of the scenarios. -/
def mytable2 : Table :=
  { Name := "mytable2", Schema := [
      { Name := "i2", Typ := .Int32, Source := "mytable2", Nullable := false,
        PrimaryKey := false },
      { Name := "f2", Typ := .Float64, Source := "mytable2", Nullable := false,
        PrimaryKey := false },
      { Name := "t2", Typ := .Text, Source := "mytable2", Nullable := false,
        PrimaryKey := false }] }

/-- The input of the case "pushdown filters to under join node" of
`TestPushdownFiltersAboveTables`. -/
def filterOverCrossJoin : Node :=
  .Project [.GetField 0 .Int32 "mytable" "i" true]
    (.Filter
      (.Binary .And
        (.Binary .Equals (.GetField 1 .Float64 "mytable" "f" true) (.Literal "3.14" .Float64))
        (.Binary .And
          (.Binary .Equals (.GetField 3 .Int32 "mytable2" "i2" true) (.Literal "21" .Int32))
          (.Binary .Equals (.GetField 5 .Int32 "mytable2" "t2" true)
            (.Literal "hello" .Text))))
      (.CrossJoin (.ResolvedTable mytable) (.ResolvedTable mytable2)))

/-- The plan the test expects for `filterOverCrossJoin`. -/
def filterOverCrossJoinExpected : Node :=
  .Project [.GetField 0 .Int32 "mytable" "i" true]
    (.CrossJoin
      (.Filter
        (.Binary .Equals (.GetField 1 .Float64 "mytable" "f" true) (.Literal "3.14" .Float64))
        (.ResolvedTable mytable))
      (.Filter
        (.Binary .And
          (.Binary .Equals (.GetField 0 .Int32 "mytable2" "i2" true) (.Literal "21" .Int32))
          (.Binary .Equals (.GetField 2 .Int32 "mytable2" "t2" true) (.Literal "hello" .Text)))
        (.ResolvedTable mytable2)))

/-- The input of the case "pushdown filters to under join node, aliased
tables". -/
def filterOverAliasedCrossJoin : Node :=
  .Project [.GetField 0 .Int32 "t1" "i" true]
    (.Filter
      (.Binary .And
        (.Binary .Equals (.GetField 1 .Float64 "t1" "f" true) (.Literal "3.14" .Float64))
        (.Binary .And
          (.Binary .Equals (.GetField 3 .Int32 "t2" "i2" true) (.Literal "21" .Int32))
          (.Binary .Equals (.GetField 5 .Int32 "t2" "t2" true) (.Literal "hello" .Text))))
      (.CrossJoin (.TableAlias "t1" (.ResolvedTable mytable))
        (.TableAlias "t2" (.ResolvedTable mytable2))))

/-- The plan the test expects for `filterOverAliasedCrossJoin`. -/
def filterOverAliasedCrossJoinExpected : Node :=
  .Project [.GetField 0 .Int32 "t1" "i" true]
    (.CrossJoin
      (.Filter
        (.Binary .Equals (.GetField 1 .Float64 "t1" "f" true) (.Literal "3.14" .Float64))
        (.TableAlias "t1" (.ResolvedTable mytable)))
      (.Filter
        (.Binary .And
          (.Binary .Equals (.GetField 0 .Int32 "t2" "i2" true) (.Literal "21" .Int32))
          (.Binary .Equals (.GetField 2 .Int32 "t2" "t2" true) (.Literal "hello" .Text)))
        (.TableAlias "t2" (.ResolvedTable mytable2))))

/-- The join condition `mytable.i = mytable2.i2` of the outer-join cases. -/
def joinCondition : Expression :=
  .Binary .Equals (.GetField 0 .Int64 "mytable" "i" false)
    (.GetField 3 .Int64 "mytable2" "i2" false)

/-- The predicate `f = 3.14 AND i2 IS NULL` of the outer-join cases, with the
indexes the test gives it. -/
def outerJoinPredicate : Expression :=
  .Binary .And
    (.Binary .Equals (.GetField 1 .Float64 "mytable" "f" false) (.Literal "3.14" .Float64))
    (.Unary .IsNull (.GetField 0 .Int32 "mytable2" "i2" false))

/-- The input of the case "pushdown filter to left join". -/
def filterOverLeftJoin : Node :=
  .Project [.GetField 2 .Text "mytable2" "t2" false]
    (.Filter outerJoinPredicate
      (.LeftJoin (.ResolvedTable mytable) (.ResolvedTable mytable2) joinCondition))

/-- The plan the test expects for `filterOverLeftJoin`. -/
def filterOverLeftJoinExpected : Node :=
  .Project [.GetField 5 .Text "mytable2" "t2" false]
    (.Filter (.Unary .IsNull (.GetField 3 .Int32 "mytable2" "i2" false))
      (.LeftJoin
        (.Filter
          (.Binary .Equals (.GetField 1 .Float64 "mytable" "f" false)
            (.Literal "3.14" .Float64))
          (.ResolvedTable mytable))
        (.ResolvedTable mytable2) joinCondition))

/-- The input of the case "pushdown filter to right join". -/
def filterOverRightJoin : Node :=
  .Project [.GetField 2 .Text "mytable2" "t2" false]
    (.Filter outerJoinPredicate
      (.RightJoin (.ResolvedTable mytable) (.ResolvedTable mytable2) joinCondition))

/-- The plan the test expects for `filterOverRightJoin`. -/
def filterOverRightJoinExpected : Node :=
  .Project [.GetField 5 .Text "mytable2" "t2" false]
    (.Filter
      (.Binary .Equals (.GetField 1 .Float64 "mytable" "f" false) (.Literal "3.14" .Float64))
      (.RightJoin (.ResolvedTable mytable)
        (.Filter (.Unary .IsNull (.GetField 0 .Int32 "mytable2" "i2" false))
          (.ResolvedTable mytable2))
        joinCondition))

/-- The input of the case "filter contains join condition (no pushdown
currently possible, but see TODO)", for which the test expects the plan
unchanged. -/
def filterWithJoinCondition : Node :=
  .Project [.GetField 0 .Int32 "mytable" "i" true]
    (.Filter
      (.Binary .And
        (.Binary .Equals (.GetField 1 .Float64 "mytable" "f" true) (.Literal "3.14" .Float64))
        (.Binary .And
          (.Binary .Equals (.GetField 0 .Int32 "mytable" "i" true)
            (.GetField 3 .Int32 "mytable2" "i2" true))
          (.Binary .Equals (.GetField 3 .Int32 "mytable2" "i2" true) (.Literal "20" .Int32))))
      (.CrossJoin (.ResolvedTable mytable) (.ResolvedTable mytable2)))

/-- A `Filter` of `f = 3.14 AND i2 IS NULL` above a cross join whose left side
is itself a cross join, of `mytable` and the table `s`. -/
def filterOverNestedCrossJoin : Node :=
  .Filter outerJoinPredicate
    (.CrossJoin (.CrossJoin (.ResolvedTable mytable) (.ResolvedTable tableNamedS))
      (.ResolvedTable mytable2))

/-- The index on `f` that `mytable` declares in `TestPushdownIndex`. -/
def idxTable1F : Index := { Table := "mytable", Columns := ["f"], Primary := false }

/-- The primary-key index of `mytable` in `TestPushdownIndex`. -/
def idxTable1I : Index := { Table := "mytable", Columns := ["i"], Primary := true }

/-- The primary-key index of `mytable2` in `TestPushdownIndex`. -/
def idxTable2I2 : Index := { Table := "mytable2", Columns := ["i2"], Primary := true }

/-- The table `mytable` of `TestPushdownIndex`: `i` is the primary key, and the
table declares its primary-key index and an index on `f`. -/
def mytableIndexed : Table :=
  { Name := "mytable", Schema := [
      { Name := "i", Typ := .Int32, Source := "mytable", Nullable := false, PrimaryKey := true },
      { Name := "f", Typ := .Float64, Source := "mytable", Nullable := false,
        PrimaryKey := false },
      { Name := "t", Typ := .Text, Source := "mytable", Nullable := false, PrimaryKey := false }],
    Indexes := [idxTable1I, idxTable1F] }

/-- The table `mytable2` of `TestPushdownIndex`, with its primary-key index. -/
def mytable2Indexed : Table :=
  { Name := "mytable2", Schema := [
      { Name := "i2", Typ := .Int32, Source := "mytable2", Nullable := false,
        PrimaryKey := true },
      { Name := "f2", Typ := .Float64, Source := "mytable2", Nullable := false,
        PrimaryKey := false },
      { Name := "t2", Typ := .Text, Source := "mytable2", Nullable := false,
        PrimaryKey := false }],
    Indexes := [idxTable2I2] }

/-- The predicate `mytable.f = 3.14`. -/
def fEquals : Expression :=
  .Binary .Equals (.GetField 1 .Float64 "mytable" "f" true) (.Literal "3.14" .Float64)

/-- The predicate `mytable.t = 'hello'`. -/
def tEqualsHello : Expression :=
  .Binary .Equals (.GetField 2 .Text "mytable" "t" true) (.Literal "hello" .Text)

/-- The predicate `mytable.t = 'goodbye'`. -/
def tEqualsGoodbye : Expression :=
  .Binary .Equals (.GetField 2 .Text "mytable" "t" true) (.Literal "goodbye" .Text)

/-- The table `mytable` of `TestPushdownIndex` carrying the lookup
`idxTable1F.Get(3.14)`. -/
def mytableWithLookup : Table :=
  { mytableIndexed with Lookup := some { index := idxTable1F, Key := "3.14" } }

/-- The table `mytable2` of `TestPushdownIndex` carrying the lookup
`idxTable2I2.Get(21)`. -/
def mytable2WithLookup : Table :=
  { mytable2Indexed with Lookup := some { index := idxTable2I2, Key := "21" } }

/-- The input of the case "single index" of `TestPushdownIndex`. -/
def singleIndex : Node :=
  .Project [.GetField 0 .Int32 "mytable" "i" true]
    (.Filter fEquals (.ResolvedTable mytableIndexed))

/-- The plan the test expects for `singleIndex`. -/
def singleIndexExpected : Node :=
  .Project [.GetField 0 .Int32 "mytable" "i" true]
    (.DecoratedNode .IndexedAccess "Indexed table access on index [mytable.f]"
      (.Filter fEquals (.ResolvedTable mytableWithLookup)))

/-- The input of the case "single index with extra predicates": the `and` is
nested to the right. -/
def singleIndexExtraPredicates : Node :=
  .Project [.GetField 0 .Int32 "mytable" "i" true]
    (.Filter (.Binary .And fEquals (.Binary .And tEqualsHello tEqualsGoodbye))
      (.ResolvedTable mytableIndexed))

/-- The plan the test expects for `singleIndexExtraPredicates`: the `and` is
nested to the left. -/
def singleIndexExtraPredicatesExpected : Node :=
  .Project [.GetField 0 .Int32 "mytable" "i" true]
    (.DecoratedNode .IndexedAccess "Indexed table access on index [mytable.f]"
      (.Filter (.Binary .And (.Binary .And fEquals tEqualsHello) tEqualsGoodbye)
        (.ResolvedTable mytableWithLookup)))

/-- The input of the case "single index to each of two tables". -/
def indexOnTwoTables : Node :=
  .Project [.GetField 0 .Int32 "mytable" "i" true]
    (.Filter
      (.Binary .And fEquals
        (.Binary .Equals (.GetField 3 .Int32 "mytable2" "i2" true) (.Literal "21" .Int32)))
      (.CrossJoin (.ResolvedTable mytableIndexed) (.ResolvedTable mytable2Indexed)))

/-- The plan the test expects for `indexOnTwoTables`, which is also the input
and the expected plan of the case "Index already pushed down, no change to
plan". -/
def indexOnTwoTablesExpected : Node :=
  .Project [.GetField 0 .Int32 "mytable" "i" true]
    (.CrossJoin
      (.DecoratedNode .IndexedAccess "Indexed table access on index [mytable.f]"
        (.Filter fEquals (.ResolvedTable mytableWithLookup)))
      (.DecoratedNode .IndexedAccess "Indexed table access on index [mytable2.i2]"
        (.Filter
          (.Binary .Equals (.GetField 0 .Int32 "mytable2" "i2" true) (.Literal "21" .Int32))
          (.ResolvedTable mytable2WithLookup))))

/-- The input of the case "single index on aliased table". -/
def singleIndexAliased : Node :=
  .Project [.GetField 0 .Int32 "t1" "i" true]
    (.Filter
      (.Binary .Equals (.GetField 1 .Float64 "t1" "f" true) (.Literal "3.14" .Float64))
      (.TableAlias "t1" (.ResolvedTable mytableIndexed)))

/-- The plan the test expects for `singleIndexAliased`. -/
def singleIndexAliasedExpected : Node :=
  .Project [.GetField 0 .Int32 "t1" "i" true]
    (.Filter
      (.Binary .Equals (.GetField 1 .Float64 "t1" "f" true) (.Literal "3.14" .Float64))
      (.TableAlias "t1"
        (.DecoratedNode .IndexedAccess "Indexed table access on index [mytable.f]"
          (.ResolvedTable mytableWithLookup))))

/-- The predicate of the indexed-join cases of `TestPushdownIndex`. -/
def indexedJoinPredicate : Expression :=
  .Binary .And
    (.Binary .Equals (.GetField 3 .Int32 "t2" "i2" true) (.Literal "21" .Int32))
    (.Binary .And
      (.Binary .Equals (.GetField 0 .Text "t1" "i" true) (.Literal "100" .Int32))
      (.Binary .Equals (.GetField 5 .Text "t2" "t2" true) (.Literal "goodbye" .Text)))

/-- The input of the case "two aliased tables, right indexed join". -/
def rightIndexedJoin : Node :=
  .Project [.GetField 0 .Int32 "t1" "i" true]
    (.Filter indexedJoinPredicate
      (.IndexedJoin (.TableAlias "t2" (.ResolvedTable mytable2Indexed))
        (.TableAlias "t1" (.ResolvedTable mytableIndexed)) .Right joinCondition
        [.GetField 0 .Int64 "mytable" "i" false] "mytable.f"))

/-- The plan the test expects for `rightIndexedJoin`. -/
def rightIndexedJoinExpected : Node :=
  .Project [.GetField 3 .Int32 "t1" "i" true]
    (.Filter (.Binary .Equals (.GetField 3 .Text "t1" "i" true) (.Literal "100" .Int32))
      (.IndexedJoin
        (.Filter
          (.Binary .And
            (.Binary .Equals (.GetField 0 .Int32 "t2" "i2" true) (.Literal "21" .Int32))
            (.Binary .Equals (.GetField 2 .Text "t2" "t2" true) (.Literal "goodbye" .Text)))
          (.TableAlias "t2"
            (.DecoratedNode .IndexedAccess "Indexed table access on index [mytable2.i2]"
              (.ResolvedTable mytable2WithLookup))))
        (.TableAlias "t1" (.ResolvedTable mytableIndexed)) .Right joinCondition
        [.GetField 0 .Int64 "mytable" "i" false] "mytable.f"))

/-- The input of the case "two aliased tables, indexed join". -/
def innerIndexedJoin : Node :=
  .Project [.GetField 0 .Int32 "t1" "i" true]
    (.Filter indexedJoinPredicate
      (.IndexedJoin (.TableAlias "t1" (.ResolvedTable mytableIndexed))
        (.TableAlias "t2" (.ResolvedTable mytable2Indexed)) .Inner joinCondition
        [.GetField 0 .Int64 "mytable" "i" false] "mytable.f"))

/-- The plan the test expects for `innerIndexedJoin`. -/
def innerIndexedJoinExpected : Node :=
  .Project [.GetField 0 .Int32 "t1" "i" true]
    (.IndexedJoin
      (.Filter (.Binary .Equals (.GetField 0 .Text "t1" "i" true) (.Literal "100" .Int32))
        (.TableAlias "t1"
          (.DecoratedNode .IndexedAccess "Indexed table access on index [mytable.i]"
            (.ResolvedTable
              { mytableIndexed with Lookup := some { index := idxTable1I, Key := "100" } }))))
      (.Filter
        (.Binary .And
          (.Binary .Equals (.GetField 0 .Int32 "t2" "i2" true) (.Literal "21" .Int32))
          (.Binary .Equals (.GetField 2 .Text "t2" "t2" true) (.Literal "goodbye" .Text)))
        (.TableAlias "t2" (.ResolvedTable mytable2Indexed)))
      .Inner joinCondition [.GetField 0 .Int64 "mytable" "i" false] "mytable.f")

/-- The predicate `mytable.i = 100`. -/
def iEquals100 : Expression :=
  .Binary .Equals (.GetField 0 .Int32 "mytable" "i" true) (.Literal "100" .Int32)

/-- A `Filter` on `mytable.f` above the cross join of `mytable` with itself: the
pair `(mytable, f)` is at the offsets 1 and 4 of the concatenated schema. -/
def filterOverSelfJoin : Node :=
  .Filter (.Unary .IsNull (.GetField 0 .Float64 "mytable" "f" false))
    (.CrossJoin (.ResolvedTable mytable) (.ResolvedTable mytable))

/-- The plan `filterOverSelfJoin` with its indexes recomputed. -/
def filterOverSelfJoinRebound : Node :=
  .Filter (.Unary .IsNull (.GetField 4 .Float64 "mytable" "f" false))
    (.CrossJoin (.ResolvedTable mytable) (.ResolvedTable mytable))

/-- The child of `subqueryOverDuplicateNames`: its schema has the column name
`i` twice, from the source `a` and then from the source `b`. -/
def duplicateNamesProject : Node :=
  .Project [.GetField 0 .Int32 "a" "i" false, .GetField 3 .Int32 "b" "i" false]
    (.CrossJoin (.TableAlias "a" (.ResolvedTable mytable))
      (.TableAlias "b" (.ResolvedTable mytable)))

/-- The plan `duplicateNamesProject` after the projection of `a.i` is dropped. -/
def duplicateNamesProjectPruned : Node :=
  .Project [.GetField 3 .Int32 "b" "i" false]
    (.CrossJoin (.TableAlias "a" (.ResolvedTable mytable))
      (.TableAlias "b" (.ResolvedTable mytable)))

/-- A projection whose schema has the column name `i` twice: first from a
column without a source (an aliased literal of the left side), then from the
source `b`. -/
def sourcelessDuplicateProject : Node :=
  .Project [.GetField 0 .Int32 "" "i" false, .GetField 1 .Int32 "b" "i" false]
    (.CrossJoin (.Project [.Alias "i" (.Literal "1" .Int32)] (.ResolvedTable mytable))
      (.TableAlias "b" (.ResolvedTable mytable)))

/-- An `InsertInto` whose source projects `mytable.i` with the stale index 5. -/
def insertWithStaleIndex : Node :=
  .InsertInto (.ResolvedTable mytable)
    (.Project [.GetField 5 .Int32 "mytable" "i" false] (.ResolvedTable mytable))

/-- The plan `insertWithStaleIndex` with the index 0 in place of 5. -/
def insertWithBoundIndex : Node :=
  .InsertInto (.ResolvedTable mytable)
    (.Project [.GetField 0 .Int32 "mytable" "i" false] (.ResolvedTable mytable))

/-- The plan `projectOverEmptyTable` with the index 0 in place of 7. -/
def projectOverEmptyTableZero : Node :=
  .Project [.GetField 0 .Int32 "t" "a" false] (.ResolvedTable emptyTable)

/-! ## Pruning of `Project` and `GroupBy` -/

theorem foldl_append_eq_filter {α : Type} (p : α → Bool) (l acc : List α) :
    l.foldl (fun remaining e => if p e then remaining ++ [e] else remaining) acc
      = acc ++ l.filter p := by
  induction l generalizing acc with
  | nil => simp
  | cons x xs ih =>
    simp only [List.foldl_cons, List.filter_cons]
    by_cases hx : p x = true
    · simp [hx, ih]
    · simp [hx, ih]

theorem remainingExprs_eq_filter (exprs : List Expression) (cols : usedColumns) :
    remainingExprs exprs cols = exprs.filter (fun e => !shouldPruneExpr e cols) := by
  unfold remainingExprs
  rw [foldl_append_eq_filter (fun e => !shouldPruneExpr e cols)]
  simp

theorem usedColumns_has_iff (cols : usedColumns) (table col : String) :
    cols.has table col = true ↔ (table, col) ∈ cols.entries := by
  simp [usedColumns.has]

theorem shouldPruneExpr_iff (e : Expression) (cols : usedColumns) :
    shouldPruneExpr e cols = true ↔
      ∃ i t table name nullable, e = .GetField i t table name nullable ∧ table ≠ "" ∧
        (table, name) ∉ cols.entries := by
  cases e with
  | GetField i t table name nullable =>
    by_cases ht : table = ""
    · constructor
      · intro h
        simp [shouldPruneExpr, ht] at h
      · rintro ⟨_, _, _, _, _, heq, hne, _⟩
        cases heq
        exact absurd ht hne
    · constructor
      · intro h
        have hmem : (table, name) ∉ cols.entries := by
          intro hin
          simp [shouldPruneExpr, ht, usedColumns.has, hin] at h
        exact ⟨i, t, table, name, nullable, rfl, ht, hmem⟩
      · rintro ⟨_, _, _, _, _, heq, _, hmem⟩
        cases heq
        simp [shouldPruneExpr, ht, usedColumns.has, hmem]
  | _ => simp [shouldPruneExpr]

theorem pruneProject_eq_filter (ps : List Expression) (child : Node) (cols : usedColumns) :
    pruneProject ps child cols =
      if (ps.filter (fun e => !shouldPruneExpr e cols)).length = 0 then child
      else .Project (ps.filter (fun e => !shouldPruneExpr e cols)) child := by
  simp only [pruneProject, remainingExprs_eq_filter]

theorem pruneGroupBy_eq_filter (sel grp : List Expression) (child : Node)
    (cols : usedColumns) :
    pruneGroupBy sel grp child cols =
      if (sel.filter (fun e => !shouldPruneExpr e cols)).length = 0 then child
      else .GroupBy (sel.filter (fun e => !shouldPruneExpr e cols)) grp child := by
  simp only [pruneGroupBy, remainingExprs_eq_filter]

/-- C3 (as amended): `pruneProject` keeps, in their original order, exactly the
projections that `shouldPruneExpr` does not select, and `shouldPruneExpr`
selects an expression if and only if it is a bare column reference with a
non-empty table name whose `(table, name)` is not in the usage set. -/
theorem pruneProject_drop_rule (ps : List Expression) (child : Node) (cols : usedColumns) :
    (pruneProject ps child cols =
        if (ps.filter (fun e => !shouldPruneExpr e cols)).length = 0 then child
        else .Project (ps.filter (fun e => !shouldPruneExpr e cols)) child) ∧
    (∀ e, shouldPruneExpr e cols = true ↔
      ∃ i t table name nullable, e = .GetField i t table name nullable ∧ table ≠ "" ∧
        (table, name) ∉ cols.entries) := by
  exact ⟨pruneProject_eq_filter ps child cols, fun e => shouldPruneExpr_iff e cols⟩

/-- C3 (counterexample): a bare reference to column `a` with an empty table
name meets the drop condition as the claim words it (a bare column reference
whose pair is not in the usage set), yet `pruneProject` keeps it. -/
theorem pruneProject_keeps_reference_without_table :
    specShouldDrop (.GetField 0 .Int32 "" "a" false) usedColumns.empty = true ∧
    pruneProject [.GetField 0 .Int32 "" "a" false]
        (.ResolvedTable { Name := "t", Schema := [] }) usedColumns.empty
      = .Project [.GetField 0 .Int32 "" "a" false]
          (.ResolvedTable { Name := "t", Schema := [] }) := by
  constructor <;> rfl

/-- C4: when no projection survives the pruning, `pruneProject` returns the
child of the `Project`; otherwise it returns a `Project` of the surviving
projections over the same child. -/
theorem pruneProject_collapse (ps : List Expression) (child : Node) (cols : usedColumns) :
    ((∀ e ∈ ps, shouldPruneExpr e cols = true) → pruneProject ps child cols = child) ∧
    ((∃ e ∈ ps, shouldPruneExpr e cols = false) →
      pruneProject ps child cols
        = .Project (ps.filter (fun e => !shouldPruneExpr e cols)) child) := by
  have hrule := pruneProject_eq_filter ps child cols
  constructor
  · intro hall
    have hnil : (ps.filter (fun e => !shouldPruneExpr e cols)).length = 0 := by
      rw [List.length_eq_zero, List.filter_eq_nil_iff]
      intro e he
      simp [hall e he]
    rw [hrule, if_pos hnil]
  · rintro ⟨e, he, hkeep⟩
    have hne : ¬ (ps.filter (fun e => !shouldPruneExpr e cols)).length = 0 := by
      intro hnil
      rw [List.length_eq_zero, List.filter_eq_nil_iff] at hnil
      have := hnil e he
      simp [hkeep] at this
    rw [hrule, if_neg hne]

/-- C5: `pruneGroupBy` applies the drop rule of `pruneProject` to the selected
expressions only: if some selected expression survives the result is a
`GroupBy` of the surviving selected expressions, in order, with the grouping
expressions and the child unchanged; if none survives the result is the
child. -/
theorem pruneGroupBy_rule (sel grp : List Expression) (child : Node) (cols : usedColumns) :
    (pruneGroupBy sel grp child cols =
        if (sel.filter (fun e => !shouldPruneExpr e cols)).length = 0 then child
        else .GroupBy (sel.filter (fun e => !shouldPruneExpr e cols)) grp child) ∧
    (pruneGroupBy sel grp child cols = child ∨
      ∃ remaining, pruneProject sel child cols = .Project remaining child ∧
        pruneGroupBy sel grp child cols = .GroupBy remaining grp child) := by
  have h1 : pruneGroupBy sel grp child cols =
        if (sel.filter (fun e => !shouldPruneExpr e cols)).length = 0 then child
        else .GroupBy (sel.filter (fun e => !shouldPruneExpr e cols)) grp child :=
    pruneGroupBy_eq_filter sel grp child cols
  refine ⟨h1, ?_⟩
  by_cases hnil : (sel.filter (fun e => !shouldPruneExpr e cols)).length = 0
  · left
    rw [h1, if_pos hnil]
  · right
    refine ⟨sel.filter (fun e => !shouldPruneExpr e cols), ?_, ?_⟩
    · rw [pruneProject_eq_filter sel child cols, if_neg hnil]
    · rw [h1, if_neg hnil]

/-! ## The rule `pruneColumns`: gates -/

theorem pruneColumns_of_not_resolved (n : Node) (h : n.Resolved = false) :
    pruneColumns n = .ok n := by
  unfold pruneColumns
  simp [h]

/-- C8: for a plan that is not resolved `pruneColumns` returns the plan itself,
with no error, whatever its root is. -/
theorem pruneColumns_unresolved (n : Node) (h : n.Resolved = false) :
    pruneColumns n = .ok n :=
  pruneColumns_of_not_resolved n h

/-- C8 (witness): an `InsertInto` and a `DescribeQuery` over an unresolved table
are returned as they are. -/
theorem pruneColumns_unresolved_witness :
    (Node.InsertInto (.UnresolvedTable "t") (.UnresolvedTable "u")).Resolved = false ∧
    pruneColumns (.InsertInto (.UnresolvedTable "t") (.UnresolvedTable "u"))
      = .ok (.InsertInto (.UnresolvedTable "t") (.UnresolvedTable "u")) :=
  ⟨rfl, pruneColumns_unresolved _ rfl⟩

/-- C9: `pruneColumns` returns a plan whose root is an `InsertInto` unchanged,
with no error, whatever the subtrees of the `InsertInto` contain. -/
theorem pruneColumns_InsertInto (destination source : Node) :
    pruneColumns (.InsertInto destination source)
      = .ok (.InsertInto destination source) := by
  unfold pruneColumns
  split <;> rfl

/-- C10: on `DescribeQuery(format, child)` the rule `pruneColumns` fails with the
error of `pruneColumns` on `child` when that fails, and otherwise returns
`DescribeQuery(format, c1)` for the result `c1` of `pruneColumns` on `child`. -/
theorem pruneColumns_DescribeQuery (format : String) (child : Node) :
    pruneColumns (.DescribeQuery format child) =
      match pruneColumns child with
      | .error err => .error err
      | .ok pruned => .ok (.DescribeQuery format pruned) := by
  by_cases h : child.Resolved = true
  · conv => lhs; unfold pruneColumns
    simp [Node.Resolved, h]
  · have h1 : child.Resolved = false := by simpa using h
    rw [pruneColumns_of_not_resolved child h1]
    exact pruneColumns_of_not_resolved _ (by simpa [Node.Resolved] using h1)

/-- C4 (witness): a `Project` of one unused column collapses to its child, a
`Project` of a literal is kept. -/
theorem pruneProject_collapse_witness :
    pruneProject [.GetField 0 .Int32 "t" "a" false]
        (.ResolvedTable { Name := "t", Schema := [] }) usedColumns.empty
      = .ResolvedTable { Name := "t", Schema := [] } ∧
    pruneProject [.Literal "1" .Int32]
        (.ResolvedTable { Name := "t", Schema := [] }) usedColumns.empty
      = .Project [.Literal "1" .Int32] (.ResolvedTable { Name := "t", Schema := [] }) :=
  ⟨(pruneProject_collapse _ _ _).1 (by simp [shouldPruneExpr, usedColumns.has, usedColumns.empty]),
   (pruneProject_collapse _ _ _).2 ⟨_, List.mem_singleton_self _, rfl⟩⟩

/-! ## Index recomputation: the positional table -/

theorem buildIndexes_some (rest : Schema) : ∀ (i : Nat) (m : tableCol → Option Nat) (k : tableCol) (j : Nat),
    buildIndexes rest i m k = some j →
      m k = some j ∨ (i ≤ j ∧ ∃ col, rest[j - i]? = some col ∧ col.Source = k.table ∧ col.Name = k.col) := by
  induction rest with
  | nil => intro i m k j h; left; simpa [buildIndexes] using h
  | cons col rest ih =>
    intro i m k j h
    simp only [buildIndexes] at h
    rcases ih _ _ _ _ h with h1 | ⟨hle, c, hc, hs, hn⟩
    · by_cases hk : k = { table := col.Source, col := col.Name }
      · simp only [hk, if_true, Option.some.injEq] at h1
        right
        subst h1
        refine ⟨Nat.le_refl _, col, by simp, ?_, ?_⟩ <;> simp [hk]
      · simp only [hk, if_false] at h1
        exact Or.inl h1
    · right
      refine ⟨by omega, c, ?_, hs, hn⟩
      have hji : j - i = (j - (i + 1)) + 1 := by omega
      rw [hji, List.getElem?_cons_succ]
      exact hc

theorem buildIndexes_none (rest : Schema) : ∀ (i : Nat) (m : tableCol → Option Nat) (k : tableCol),
    buildIndexes rest i m k = none ↔
      (m k = none ∧ ∀ col ∈ rest, ¬ (col.Source = k.table ∧ col.Name = k.col)) := by
  induction rest with
  | nil => intro i m k; simp [buildIndexes]
  | cons col rest ih =>
    intro i m k
    simp only [buildIndexes]
    rw [ih]
    by_cases hk : k = { table := col.Source, col := col.Name }
    · subst hk
      simp
    · have hk2 : ¬ (col.Source = k.table ∧ col.Name = k.col) := by
        rintro ⟨h1, h2⟩
        apply hk
        cases k
        simp_all
      simp only [hk, if_false, List.mem_cons, forall_eq_or_imp]
      constructor
      · rintro ⟨h1, h2⟩
        exact ⟨h1, hk2, h2⟩
      · rintro ⟨h1, _, h2⟩
        exact ⟨h1, h2⟩

theorem indexes_some (schema : Schema) (table name : String) (j : Nat)
    (h : indexes schema { table := table, col := name } = some j) :
    ColumnRef.ValidIn { index := j, table := table, name := name } schema := by
  rcases buildIndexes_some schema 0 _ _ _ h with h1 | ⟨_, c, hc, hs, hn⟩
  · simp at h1
  · exact ⟨c, by simpa using hc, hs, hn⟩

theorem indexes_none_iff (schema : Schema) (table name : String) :
    indexes schema { table := table, col := name } = none ↔
      ColumnRef.MissingIn { index := 0, table := table, name := name } schema := by
  unfold indexes ColumnRef.MissingIn
  rw [buildIndexes_none]
  simp

/-! ## Index recomputation: expressions -/

mutual
theorem TransformUp_fixFieldIndex_spec (idx : tableCol → Option Nat) : ∀ (e : Expression),
    (∀ e1, Expression.TransformUp (fixFieldIndex idx) e = .ok e1 →
      e1.eraseIndexes = e.eraseIndexes ∧
      (∀ r ∈ e1.columnRefs, idx { table := r.table, col := r.name } = some r.index) ∧
      (∀ r ∈ e.columnRefs, idx { table := r.table, col := r.name } ≠ none)) ∧
    (∀ err, Expression.TransformUp (fixFieldIndex idx) e = .error err →
      ∃ r ∈ e.columnRefs, idx { table := r.table, col := r.name } = none ∧
        err = .ErrColumnTableNotFound r.table r.name)
  | .Literal v t => by
    simp [Expression.TransformUp, fixFieldIndex, Expression.columnRefs]
  | .UnresolvedColumn table name => by
    simp [Expression.TransformUp, fixFieldIndex, Expression.columnRefs]
  | .GetField i t table name nullable => by
    cases h : idx { table := table, col := name } with
    | none => simp [Expression.TransformUp, fixFieldIndex, Expression.columnRefs, h]
    | some j =>
      simp [Expression.TransformUp, fixFieldIndex, Expression.columnRefs, h,
        Expression.eraseIndexes]
  | .Alias name child => by
    have ih := TransformUp_fixFieldIndex_spec idx child
    cases hc : Expression.TransformUp (fixFieldIndex idx) child with
    | error err =>
      refine ⟨fun e1 h => ?_, fun err1 h => ?_⟩
      · simp [Expression.TransformUp, hc] at h
      · simp only [Expression.TransformUp, hc, Except.error.injEq] at h
        subst h
        simp only [Expression.columnRefs]
        exact ih.2 err hc
    | ok c1 =>
      obtain ⟨h1, h2, h3⟩ := ih.1 c1 hc
      refine ⟨fun e1 h => ?_, fun err1 h => ?_⟩
      · simp only [Expression.TransformUp, hc, fixFieldIndex, Except.ok.injEq] at h
        subst h
        simp only [Expression.columnRefs]
        exact ⟨by simp [Expression.eraseIndexes, h1], h2, h3⟩
      · simp [Expression.TransformUp, hc, fixFieldIndex] at h
  | .Unary op child => by
    have ih := TransformUp_fixFieldIndex_spec idx child
    cases hc : Expression.TransformUp (fixFieldIndex idx) child with
    | error err =>
      refine ⟨fun e1 h => ?_, fun err1 h => ?_⟩
      · simp [Expression.TransformUp, hc] at h
      · simp only [Expression.TransformUp, hc, Except.error.injEq] at h
        subst h
        simp only [Expression.columnRefs]
        exact ih.2 err hc
    | ok c1 =>
      obtain ⟨h1, h2, h3⟩ := ih.1 c1 hc
      refine ⟨fun e1 h => ?_, fun err1 h => ?_⟩
      · simp only [Expression.TransformUp, hc, fixFieldIndex, Except.ok.injEq] at h
        subst h
        simp only [Expression.columnRefs]
        exact ⟨by simp [Expression.eraseIndexes, h1], h2, h3⟩
      · simp [Expression.TransformUp, hc, fixFieldIndex] at h
  | .Binary op l r => by
    have ihl := TransformUp_fixFieldIndex_spec idx l
    have ihr := TransformUp_fixFieldIndex_spec idx r
    cases hl : Expression.TransformUp (fixFieldIndex idx) l with
    | error err =>
      refine ⟨fun e1 h => ?_, fun err1 h => ?_⟩
      · simp [Expression.TransformUp, hl] at h
      · simp only [Expression.TransformUp, hl, Except.error.injEq] at h
        subst h
        simp only [Expression.columnRefs]
        obtain ⟨r0, hr0, hn, he⟩ := ihl.2 err hl
        exact ⟨r0, List.mem_append_left _ hr0, hn, he⟩
    | ok l1 =>
      obtain ⟨h1, h2, h3⟩ := ihl.1 l1 hl
      cases hr : Expression.TransformUp (fixFieldIndex idx) r with
      | error err =>
        refine ⟨fun e1 h => ?_, fun err1 h => ?_⟩
        · simp [Expression.TransformUp, hl, hr] at h
        · simp only [Expression.TransformUp, hl, hr, Except.error.injEq] at h
          subst h
          simp only [Expression.columnRefs]
          obtain ⟨r0, hr0, hn, he⟩ := ihr.2 err hr
          exact ⟨r0, List.mem_append_right _ hr0, hn, he⟩
      | ok r1 =>
        obtain ⟨k1, k2, k3⟩ := ihr.1 r1 hr
        refine ⟨fun e1 h => ?_, fun err1 h => ?_⟩
        swap
        · simp [Expression.TransformUp, hl, hr, fixFieldIndex] at h
        simp only [Expression.TransformUp, hl, hr, fixFieldIndex, Except.ok.injEq] at h
        subst h
        simp only [Expression.columnRefs]
        refine ⟨by simp [Expression.eraseIndexes, h1, k1], ?_, ?_⟩
        · intro x hx
          rcases List.mem_append.1 hx with hx | hx
          · exact h2 x hx
          · exact k2 x hx
        · intro x hx
          rcases List.mem_append.1 hx with hx | hx
          · exact h3 x hx
          · exact k3 x hx
  | .Call name t args => by
    have ih := TransformUpList_fixFieldIndex_spec idx args
    cases hc : Expression.TransformUpList (fixFieldIndex idx) args with
    | error err =>
      refine ⟨fun e1 h => ?_, fun err1 h => ?_⟩
      · simp [Expression.TransformUp, hc] at h
      · simp only [Expression.TransformUp, hc, Except.error.injEq] at h
        subst h
        simp only [Expression.columnRefs]
        exact ih.2 err hc
    | ok c1 =>
      obtain ⟨h1, h2, h3⟩ := ih.1 c1 hc
      refine ⟨fun e1 h => ?_, fun err1 h => ?_⟩
      · simp only [Expression.TransformUp, hc, fixFieldIndex, Except.ok.injEq] at h
        subst h
        simp only [Expression.columnRefs]
        exact ⟨by simp [Expression.eraseIndexes, h1], h2, h3⟩
      · simp [Expression.TransformUp, hc, fixFieldIndex] at h
theorem TransformUpList_fixFieldIndex_spec (idx : tableCol → Option Nat) :
    ∀ (es : List Expression),
    (∀ es1, Expression.TransformUpList (fixFieldIndex idx) es = .ok es1 →
      Expression.eraseIndexesList es1 = Expression.eraseIndexesList es ∧
      (∀ r ∈ Expression.columnRefsList es1,
        idx { table := r.table, col := r.name } = some r.index) ∧
      (∀ r ∈ Expression.columnRefsList es, idx { table := r.table, col := r.name } ≠ none)) ∧
    (∀ err, Expression.TransformUpList (fixFieldIndex idx) es = .error err →
      ∃ r ∈ Expression.columnRefsList es, idx { table := r.table, col := r.name } = none ∧
        err = .ErrColumnTableNotFound r.table r.name)
  | [] => by
    simp [Expression.TransformUpList, Expression.columnRefsList, Expression.eraseIndexesList]
  | e :: es => by
    have ihl := TransformUp_fixFieldIndex_spec idx e
    have ihr := TransformUpList_fixFieldIndex_spec idx es
    cases hl : Expression.TransformUp (fixFieldIndex idx) e with
    | error err =>
      refine ⟨fun e1 h => ?_, fun err1 h => ?_⟩
      · simp [Expression.TransformUpList, hl] at h
      · simp only [Expression.TransformUpList, hl, Except.error.injEq] at h
        subst h
        simp only [Expression.columnRefsList]
        obtain ⟨r0, hr0, hn, he⟩ := ihl.2 err hl
        exact ⟨r0, List.mem_append_left _ hr0, hn, he⟩
    | ok l1 =>
      obtain ⟨h1, h2, h3⟩ := ihl.1 l1 hl
      cases hr : Expression.TransformUpList (fixFieldIndex idx) es with
      | error err =>
        refine ⟨fun e1 h => ?_, fun err1 h => ?_⟩
        · simp [Expression.TransformUpList, hl, hr] at h
        · simp only [Expression.TransformUpList, hl, hr, Except.error.injEq] at h
          subst h
          simp only [Expression.columnRefsList]
          obtain ⟨r0, hr0, hn, he⟩ := ihr.2 err hr
          exact ⟨r0, List.mem_append_right _ hr0, hn, he⟩
      | ok r1 =>
        obtain ⟨k1, k2, k3⟩ := ihr.1 r1 hr
        refine ⟨fun e1 h => ?_, fun err1 h => ?_⟩
        swap
        · simp [Expression.TransformUpList, hl, hr] at h
        simp only [Expression.TransformUpList, hl, hr, Except.ok.injEq] at h
        subst h
        simp only [Expression.columnRefsList]
        refine ⟨by simp [Expression.eraseIndexesList, h1, k1], ?_, ?_⟩
        · intro x hx
          rcases List.mem_append.1 hx with hx | hx
          · exact h2 x hx
          · exact k2 x hx
        · intro x hx
          rcases List.mem_append.1 hx with hx | hx
          · exact h3 x hx
          · exact k3 x hx
end

/-! ## Expressions up to column indexes -/

mutual
theorem Expression.String_eraseIndexes : ∀ (e : Expression), e.eraseIndexes.String = e.String
  | .Literal _ _ => rfl
  | .GetField _ _ _ _ _ => rfl
  | .UnresolvedColumn _ _ => rfl
  | .Alias name child => by
    simp only [Expression.eraseIndexes, Expression.String, Expression.String_eraseIndexes child]
  | .Unary .Not child => by
    simp only [Expression.eraseIndexes, Expression.String, Expression.String_eraseIndexes child]
  | .Unary .IsNull child => by
    simp only [Expression.eraseIndexes, Expression.String, Expression.String_eraseIndexes child]
  | .Unary (.Aggregate _) child => by
    simp only [Expression.eraseIndexes, Expression.String, Expression.String_eraseIndexes child]
  | .Binary op l r => by
    simp only [Expression.eraseIndexes, Expression.String, Expression.String_eraseIndexes l,
      Expression.String_eraseIndexes r]
  | .Call name t args => by
    simp only [Expression.eraseIndexes, Expression.String,
      Expression.StringList_eraseIndexes args]
theorem Expression.StringList_eraseIndexes : ∀ (es : List Expression),
    Expression.StringList (Expression.eraseIndexesList es) = Expression.StringList es
  | [] => rfl
  | e :: es => by
    simp only [Expression.eraseIndexesList, Expression.StringList,
      Expression.String_eraseIndexes e, Expression.StringList_eraseIndexes es]
end

theorem Expression.Typ_eraseIndexes : ∀ (e : Expression), e.eraseIndexes.Typ = e.Typ
  | .Literal _ _ => rfl
  | .GetField _ _ _ _ _ => rfl
  | .UnresolvedColumn _ _ => rfl
  | .Alias name child => by
    simp only [Expression.eraseIndexes, Expression.Typ, Expression.Typ_eraseIndexes child]
  | .Unary .Not child => rfl
  | .Unary .IsNull child => rfl
  | .Unary (.Aggregate _) child => by
    simp only [Expression.eraseIndexes, Expression.Typ, Expression.Typ_eraseIndexes child]
  | .Binary op l r => by
    cases op <;>
      simp only [Expression.eraseIndexes, Expression.Typ, Expression.Typ_eraseIndexes l]
  | .Call name t args => rfl

mutual
theorem Expression.IsNullable_eraseIndexes : ∀ (e : Expression),
    e.eraseIndexes.IsNullable = e.IsNullable
  | .Literal _ _ => rfl
  | .GetField _ _ _ _ _ => rfl
  | .UnresolvedColumn _ _ => rfl
  | .Alias name child => by
    simp only [Expression.eraseIndexes, Expression.IsNullable,
      Expression.IsNullable_eraseIndexes child]
  | .Unary op child => by
    cases op <;>
      simp only [Expression.eraseIndexes, Expression.IsNullable,
        Expression.IsNullable_eraseIndexes child]
  | .Binary op l r => by
    simp only [Expression.eraseIndexes, Expression.IsNullable,
      Expression.IsNullable_eraseIndexes l, Expression.IsNullable_eraseIndexes r]
  | .Call name t args => by
    simp only [Expression.eraseIndexes, Expression.IsNullable,
      Expression.IsNullableList_eraseIndexes args]
theorem Expression.IsNullableList_eraseIndexes : ∀ (es : List Expression),
    Expression.IsNullableList (Expression.eraseIndexesList es) = Expression.IsNullableList es
  | [] => rfl
  | e :: es => by
    simp only [Expression.eraseIndexesList, Expression.IsNullableList,
      Expression.IsNullable_eraseIndexes e, Expression.IsNullableList_eraseIndexes es]
end

theorem ExpressionToColumn_eraseIndexes (e : Expression) :
    ExpressionToColumn e.eraseIndexes = ExpressionToColumn e := by
  cases e with
  | Literal _ _ => rfl
  | GetField _ _ _ _ _ => rfl
  | UnresolvedColumn _ _ => rfl
  | Alias name child =>
    simp only [Expression.eraseIndexes, ExpressionToColumn, Expression.Typ_eraseIndexes,
      Expression.IsNullable_eraseIndexes]
  | Unary op child =>
    have h1 := Expression.String_eraseIndexes (.Unary op child)
    have h2 := Expression.Typ_eraseIndexes (.Unary op child)
    have h3 := Expression.IsNullable_eraseIndexes (.Unary op child)
    simp only [Expression.eraseIndexes] at h1 h2 h3
    simp only [Expression.eraseIndexes, ExpressionToColumn, h1, h2, h3]
  | Binary op l r =>
    have h1 := Expression.String_eraseIndexes (.Binary op l r)
    have h2 := Expression.Typ_eraseIndexes (.Binary op l r)
    have h3 := Expression.IsNullable_eraseIndexes (.Binary op l r)
    simp only [Expression.eraseIndexes] at h1 h2 h3
    simp only [Expression.eraseIndexes, ExpressionToColumn, h1, h2, h3]
  | Call name t args =>
    have h1 := Expression.String_eraseIndexes (.Call name t args)
    have h2 := Expression.Typ_eraseIndexes (.Call name t args)
    have h3 := Expression.IsNullable_eraseIndexes (.Call name t args)
    simp only [Expression.eraseIndexes] at h1 h2 h3
    simp only [Expression.eraseIndexes, ExpressionToColumn, h1, h2, h3]

theorem ExpressionToColumn_congr {e1 e2 : Expression} (h : e1.eraseIndexes = e2.eraseIndexes) :
    ExpressionToColumn e1 = ExpressionToColumn e2 := by
  rw [← ExpressionToColumn_eraseIndexes e1, h, ExpressionToColumn_eraseIndexes]

theorem eraseIndexesList_eq_map (es : List Expression) :
    Expression.eraseIndexesList es = es.map Expression.eraseIndexes := by
  induction es with
  | nil => rfl
  | cons e es ih => simp [Expression.eraseIndexesList, ih]

theorem map_ExpressionToColumn_congr {es1 es2 : List Expression}
    (h : Expression.eraseIndexesList es1 = Expression.eraseIndexesList es2) :
    es1.map ExpressionToColumn = es2.map ExpressionToColumn := by
  have h1 : (es1.map Expression.eraseIndexes).map ExpressionToColumn
      = (es2.map Expression.eraseIndexes).map ExpressionToColumn := by
    rw [← eraseIndexesList_eq_map, ← eraseIndexesList_eq_map, h]
  simpa [List.map_map, Function.comp_def, ExpressionToColumn_eraseIndexes] using h1

/-! ## Index recomputation: one node -/

theorem columnRefsList_append (a b : List Expression) :
    Expression.columnRefsList (a ++ b)
      = Expression.columnRefsList a ++ Expression.columnRefsList b := by
  induction a with
  | nil => simp [Expression.columnRefsList]
  | cons e es ih => simp [Expression.columnRefsList, ih]

theorem columnRefsList_singleton (e : Expression) :
    Expression.columnRefsList [e] = e.columnRefs := by
  simp [Expression.columnRefsList]

theorem TransformExpressions_fixFieldIndex_ok (idx : tableCol → Option Nat) (m m1 : Node)
    (h : TransformExpressions (fixFieldIndex idx) m = .ok m1) :
    m1.Schema = m.Schema ∧ m1.Children = m.Children ∧
    (∀ r ∈ m1.columnRefs, idx { table := r.table, col := r.name } = some r.index) ∧
    (∀ r ∈ m.columnRefs, idx { table := r.table, col := r.name } ≠ none) := by
  cases m with
  | Project ps c =>
    simp only [TransformExpressions] at h
    cases hps : Expression.TransformUpList (fixFieldIndex idx) ps with
    | error err => simp [hps] at h
    | ok ps1 =>
      simp only [hps, Except.ok.injEq] at h
      subst h
      obtain ⟨h1, h2, h3⟩ := (TransformUpList_fixFieldIndex_spec idx ps).1 ps1 hps
      exact ⟨map_ExpressionToColumn_congr h1, rfl, h2, h3⟩
  | GroupBy sel grp c =>
    simp only [TransformExpressions] at h
    cases hs : Expression.TransformUpList (fixFieldIndex idx) sel with
    | error err => simp [hs] at h
    | ok sel1 =>
      cases hg : Expression.TransformUpList (fixFieldIndex idx) grp with
      | error err => simp [hs, hg] at h
      | ok grp1 =>
        simp only [hs, hg, Except.ok.injEq] at h
        subst h
        obtain ⟨h1, h2, h3⟩ := (TransformUpList_fixFieldIndex_spec idx sel).1 sel1 hs
        obtain ⟨k1, k2, k3⟩ := (TransformUpList_fixFieldIndex_spec idx grp).1 grp1 hg
        refine ⟨map_ExpressionToColumn_congr h1, rfl, ?_, ?_⟩
        · intro r hr
          simp only [Node.columnRefs, Node.Expressions, columnRefsList_append,
            List.mem_append] at hr
          rcases hr with hr | hr
          · exact h2 r hr
          · exact k2 r hr
        · intro r hr
          simp only [Node.columnRefs, Node.Expressions, columnRefsList_append,
            List.mem_append] at hr
          rcases hr with hr | hr
          · exact h3 r hr
          · exact k3 r hr
  | Filter e c | InnerJoin l r e | LeftJoin l r e | RightJoin l r e =>
    simp only [TransformExpressions] at h
    cases he : Expression.TransformUp (fixFieldIndex idx) e with
    | error err => simp [he] at h
    | ok e1 =>
      simp only [he, Except.ok.injEq] at h
      subst h
      obtain ⟨_, h2, h3⟩ := (TransformUp_fixFieldIndex_spec idx e).1 e1 he
      refine ⟨rfl, rfl, ?_, ?_⟩
      · simpa only [Node.columnRefs, Node.Expressions, columnRefsList_singleton] using h2
      · simpa only [Node.columnRefs, Node.Expressions, columnRefsList_singleton] using h3
  | ResolvedTable _ | UnresolvedTable _ | CrossJoin _ _ | IndexedJoin _ _ _ _ _ _
  | TableAlias _ _ | SubqueryAlias _ _ | DescribeQuery _ _ | InsertInto _ _
  | DecoratedNode _ _ _ =>
    simp only [TransformExpressions, Except.ok.injEq] at h
    subst h
    simp [Node.columnRefs, Node.Expressions]

theorem TransformExpressions_fixFieldIndex_error (idx : tableCol → Option Nat) (m : Node)
    (err : AnalyzerError) (h : TransformExpressions (fixFieldIndex idx) m = .error err) :
    ∃ r ∈ m.columnRefs, idx { table := r.table, col := r.name } = none ∧
      err = .ErrColumnTableNotFound r.table r.name := by
  cases m with
  | Project ps c =>
    simp only [TransformExpressions] at h
    cases hps : Expression.TransformUpList (fixFieldIndex idx) ps with
    | ok ps1 => simp [hps] at h
    | error err1 =>
      simp only [hps, Except.error.injEq] at h
      subst h
      exact (TransformUpList_fixFieldIndex_spec idx ps).2 _ hps
  | GroupBy sel grp c =>
    simp only [TransformExpressions] at h
    cases hs : Expression.TransformUpList (fixFieldIndex idx) sel with
    | error err1 =>
      simp only [hs, Except.error.injEq] at h
      subst h
      obtain ⟨r, hr, hn, he⟩ := (TransformUpList_fixFieldIndex_spec idx sel).2 _ hs
      refine ⟨r, ?_, hn, he⟩
      simp only [Node.columnRefs, Node.Expressions, columnRefsList_append, List.mem_append]
      exact Or.inl hr
    | ok sel1 =>
      cases hg : Expression.TransformUpList (fixFieldIndex idx) grp with
      | ok grp1 => simp [hs, hg] at h
      | error err1 =>
        simp only [hs, hg, Except.error.injEq] at h
        subst h
        obtain ⟨r, hr, hn, he⟩ := (TransformUpList_fixFieldIndex_spec idx grp).2 _ hg
        refine ⟨r, ?_, hn, he⟩
        simp only [Node.columnRefs, Node.Expressions, columnRefsList_append, List.mem_append]
        exact Or.inr hr
  | Filter e c | InnerJoin l r e | LeftJoin l r e | RightJoin l r e =>
    simp only [TransformExpressions] at h
    cases he : Expression.TransformUp (fixFieldIndex idx) e with
    | ok e1 => simp [he] at h
    | error err1 =>
      simp only [he, Except.error.injEq] at h
      subst h
      simpa only [Node.columnRefs, Node.Expressions, columnRefsList_singleton] using
        (TransformUp_fixFieldIndex_spec idx e).2 _ he
  | ResolvedTable _ | UnresolvedTable _ | CrossJoin _ _ | IndexedJoin _ _ _ _ _ _
  | TableAlias _ _ | SubqueryAlias _ _ | DescribeQuery _ _ | InsertInto _ _
  | DecoratedNode _ _ _ =>
    simp [TransformExpressions] at h

theorem indexes_eq_some_valid (schema : Schema) (r : ColumnRef)
    (h : indexes schema { table := r.table, col := r.name } = some r.index) :
    r.ValidIn schema := by
  cases r with
  | mk i t n => exact indexes_some schema t n i h

theorem indexes_eq_none_iff (schema : Schema) (r : ColumnRef) :
    indexes schema { table := r.table, col := r.name } = none ↔ r.MissingIn schema := by
  cases r with
  | mk i t n => simpa [ColumnRef.MissingIn] using indexes_none_iff schema t n

theorem fixNodeIndexes_ok (m m1 : Node) (h : fixNodeIndexes m = .ok m1) :
    m1.Schema = m.Schema ∧ m1.Children = m.Children ∧
    (childSchema m ≠ [] →
      (∀ r ∈ m1.columnRefs, r.ValidIn (childSchema m)) ∧
      (∀ r ∈ m.columnRefs, ¬ r.MissingIn (childSchema m))) := by
  unfold fixNodeIndexes at h
  cases hx : m.Expressions with
  | none =>
    simp only [hx, Except.ok.injEq] at h
    subst h
    refine ⟨rfl, rfl, fun _ => ?_⟩
    simp [Node.columnRefs, hx]
  | some exprs =>
    simp only [hx] at h
    by_cases hlen : (childSchema m).length = 0
    · simp only [hlen, if_true, Except.ok.injEq] at h
      subst h
      refine ⟨rfl, rfl, fun hne => ?_⟩
      exact absurd (List.length_eq_zero.1 hlen) hne
    · simp only [hlen, if_false] at h
      obtain ⟨h1, h2, h3, h4⟩ := TransformExpressions_fixFieldIndex_ok _ m m1 h
      refine ⟨h1, h2, fun _ => ⟨?_, ?_⟩⟩
      · intro r hr
        exact indexes_eq_some_valid _ r (h3 r hr)
      · intro r hr hmiss
        exact h4 r hr ((indexes_eq_none_iff _ r).2 hmiss)

theorem fixNodeIndexes_error (m : Node) (err : AnalyzerError)
    (h : fixNodeIndexes m = .error err) :
    childSchema m ≠ [] ∧ ∃ r ∈ m.columnRefs, r.MissingIn (childSchema m) ∧
      err = .ErrColumnTableNotFound r.table r.name := by
  unfold fixNodeIndexes at h
  cases hx : m.Expressions with
  | none => simp [hx] at h
  | some exprs =>
    simp only [hx] at h
    by_cases hlen : (childSchema m).length = 0
    · simp [hlen] at h
    · simp only [hlen, if_false] at h
      obtain ⟨r, hr, hn, he⟩ := TransformExpressions_fixFieldIndex_error _ m err h
      refine ⟨fun hnil => hlen (by simp [hnil]), r, hr, (indexes_eq_none_iff _ r).1 hn, he⟩

/-! ## Index recomputation: the whole plan -/

theorem Node.subtrees_eq (n : Node) :
    n.subtrees = n :: n.Children.flatMap Node.subtrees := by
  cases n <;> simp [Node.subtrees, Node.Children]

theorem childSchema_congr {m1 m2 : Node} (h : m1.Children = m2.Children) :
    childSchema m1 = childSchema m2 := by
  unfold childSchema
  rw [h]

theorem fixNodeIndexes_step (orig rebuilt : Node)
    (hrefs : rebuilt.columnRefs = orig.columnRefs)
    (hcs : childSchema rebuilt = childSchema orig)
    (hs : rebuilt.Schema = orig.Schema)
    (hvalid : ∀ m ∈ rebuilt.Children.flatMap Node.subtrees, m.RefsValid)
    (hnomiss : ∀ m ∈ orig.Children.flatMap Node.subtrees, ∀ r, ¬ m.HasMissingRef r) :
    (∀ n1, fixNodeIndexes rebuilt = .ok n1 →
      n1.Schema = orig.Schema ∧ (∀ m ∈ n1.subtrees, m.RefsValid) ∧
      (∀ m ∈ orig.subtrees, ∀ r, ¬ m.HasMissingRef r)) ∧
    (∀ err, fixNodeIndexes rebuilt = .error err →
      ∃ m ∈ orig.subtrees, ∃ r, m.HasMissingRef r ∧
        err = .ErrColumnTableNotFound r.table r.name) := by
  constructor
  · intro n1 h
    obtain ⟨h1, h2, h3⟩ := fixNodeIndexes_ok rebuilt n1 h
    refine ⟨h1.trans hs, ?_, ?_⟩
    · intro m hm
      rw [Node.subtrees_eq, h2] at hm
      rcases List.mem_cons.1 hm with hm | hm
      · subst hm
        intro hne r hr
        rw [childSchema_congr h2] at hne ⊢
        exact (h3 hne).1 r hr
      · exact hvalid m hm
    · intro m hm r hmiss
      rw [Node.subtrees_eq] at hm
      rcases List.mem_cons.1 hm with hm | hm
      · subst hm
        obtain ⟨hne, hr, hmis⟩ := hmiss
        rw [← hcs] at hne hmis
        rw [← hrefs] at hr
        exact (h3 hne).2 r hr hmis
      · exact hnomiss m hm r hmiss
  · intro err h
    obtain ⟨hne, r, hr, hmis, he⟩ := fixNodeIndexes_error rebuilt err h
    refine ⟨orig, ?_, r, ⟨?_, ?_, ?_⟩, he⟩
    · rw [Node.subtrees_eq]
      exact List.mem_cons_self _ _
    · rw [← hcs]
      exact hne
    · rw [← hrefs]
      exact hr
    · rw [← hcs]
      exact hmis

theorem fixRemainingFieldsIndexes_spec (n : Node) :
    (∀ n1, fixRemainingFieldsIndexes n = .ok n1 →
      n1.Schema = n.Schema ∧ (∀ m ∈ n1.subtrees, m.RefsValid) ∧
      (∀ m ∈ n.subtrees, ∀ r, ¬ m.HasMissingRef r)) ∧
    (∀ err, fixRemainingFieldsIndexes n = .error err →
      ∃ m ∈ n.subtrees, ∃ r, m.HasMissingRef r ∧
        err = .ErrColumnTableNotFound r.table r.name) := by
  induction n with
  | ResolvedTable _ | UnresolvedTable _ =>
    simp only [fixRemainingFieldsIndexes]
    exact fixNodeIndexes_step _ _ rfl rfl rfl (by simp [Node.Children])
      (by simp [Node.Children])
  | SubqueryAlias name c ih =>
    simp only [fixRemainingFieldsIndexes]
    cases hc : fixRemainingFieldsIndexes c with
    | error err =>
      refine ⟨fun n1 h => by simp at h, fun err1 h => ?_⟩
      simp only [Except.error.injEq] at h
      subst h
      obtain ⟨m, hm, r, hr, he⟩ := ih.2 err hc
      exact ⟨m, by simp [Node.subtrees, hm], r, hr, he⟩
    | ok c1 =>
      obtain ⟨h1, h2, h3⟩ := ih.1 c1 hc
      refine ⟨fun n1 h => ?_, fun err1 h => by simp at h⟩
      simp only [Except.ok.injEq] at h
      subst h
      refine ⟨by simp [Node.Schema, h1], ?_, ?_⟩
      · intro m hm
        simp only [Node.subtrees, List.mem_cons] at hm
        rcases hm with hm | hm
        · subst hm
          intro _ r hr
          simp [Node.columnRefs, Node.Expressions] at hr
        · exact h2 m hm
      · intro m hm r hmiss
        simp only [Node.subtrees, List.mem_cons] at hm
        rcases hm with hm | hm
        · subst hm
          have := hmiss.2.1
          simp [Node.columnRefs, Node.Expressions] at this
        · exact h3 m hm r hmiss
  | Project _ c ih | GroupBy _ _ c ih | Filter _ c ih | TableAlias _ c ih
  | DescribeQuery _ c ih | DecoratedNode _ _ c ih =>
    simp only [fixRemainingFieldsIndexes]
    cases hc : fixRemainingFieldsIndexes c with
    | error err =>
      refine ⟨fun n1 h => by simp at h, fun err1 h => ?_⟩
      simp only [Except.error.injEq] at h
      subst h
      obtain ⟨m, hm, r, hr, he⟩ := ih.2 err hc
      exact ⟨m, by simp [Node.subtrees, hm], r, hr, he⟩
    | ok c1 =>
      obtain ⟨h1, h2, h3⟩ := ih.1 c1 hc
      simp only []
      refine fixNodeIndexes_step _ _ rfl ?_ ?_ ?_ ?_
      · simp [childSchema, Node.Children, h1]
      · simp [Node.Schema, h1]
      · simpa [Node.Children] using h2
      · simpa [Node.Children] using h3
  | CrossJoin l r ihl ihr | InnerJoin l r _ ihl ihr | LeftJoin l r _ ihl ihr
  | RightJoin l r _ ihl ihr | IndexedJoin l r _ _ _ _ ihl ihr | InsertInto l r ihl ihr =>
    simp only [fixRemainingFieldsIndexes]
    cases hl : fixRemainingFieldsIndexes l with
    | error err =>
      refine ⟨fun n1 h => by simp at h, fun err1 h => ?_⟩
      simp only [Except.error.injEq] at h
      subst h
      obtain ⟨m, hm, r0, hr, he⟩ := ihl.2 err hl
      exact ⟨m, by simp [Node.subtrees, hm], r0, hr, he⟩
    | ok l1 =>
      obtain ⟨h1, h2, h3⟩ := ihl.1 l1 hl
      cases hr : fixRemainingFieldsIndexes r with
      | error err =>
        refine ⟨fun n1 h => by simp at h, fun err1 h => ?_⟩
        simp only [Except.error.injEq] at h
        subst h
        obtain ⟨m, hm, r0, hr, he⟩ := ihr.2 err hr
        exact ⟨m, by simp [Node.subtrees, hm], r0, hr, he⟩
      | ok r1 =>
        obtain ⟨k1, k2, k3⟩ := ihr.1 r1 hr
        simp only []
        refine fixNodeIndexes_step _ _ rfl ?_ ?_ ?_ ?_
        · simp [childSchema, Node.Children, h1, k1]
        · simp [Node.Schema, h1, k1]
        · intro m hm
          simp only [Node.Children, List.flatMap_cons, List.flatMap_nil, List.append_nil,
            List.mem_append] at hm
          rcases hm with hm | hm
          · exact h2 m hm
          · exact k2 m hm
        · intro m hm
          simp only [Node.Children, List.flatMap_cons, List.flatMap_nil, List.append_nil,
            List.mem_append] at hm
          rcases hm with hm | hm
          · exact h3 m hm
          · exact k3 m hm

/-! ## Index recomputation: validity and missing columns -/

/-- C1 (as amended): when `fixRemainingFieldsIndexes` succeeds, in the returned
plan every column reference held by an expression-carrying node whose
children's concatenated schema is not empty has an index that is an offset
into that schema, and the column at that offset has the table of the reference
as its source and the name of the reference as its name.  The nodes inside
subquery aliases are included. -/
theorem fixRemainingFieldsIndexes_index_validity (n n1 : Node)
    (h : fixRemainingFieldsIndexes n = .ok n1) :
    ∀ m ∈ n1.subtrees, childSchema m ≠ [] → ∀ r ∈ m.columnRefs,
      ∃ col, (childSchema m)[r.index]? = some col ∧ col.Source = r.table ∧
        col.Name = r.name := by
  intro m hm hne r hr
  exact ((fixRemainingFieldsIndexes_spec n).1 n1 h).2.1 m hm hne r hr

/-- C1 (witness): the stale index 5 of the `Filter` above the subquery alias and
the stale index 7 inside the alias are both rebound. -/
theorem fixRemainingFieldsIndexes_index_validity_witness :
    fixRemainingFieldsIndexes stalePlan = .ok reboundPlan ∧
    ∀ m ∈ reboundPlan.subtrees, childSchema m ≠ [] → ∀ r ∈ m.columnRefs,
      ∃ col, (childSchema m)[r.index]? = some col ∧ col.Source = r.table ∧
        col.Name = r.name :=
  ⟨rfl, fixRemainingFieldsIndexes_index_validity stalePlan reboundPlan rfl⟩

/-- C1 (counterexample): over a table with an empty schema the recomputation
succeeds and returns the `Project` as it is; its column reference keeps the
index 7, which is no offset into the empty concatenated child schema. -/
theorem fixRemainingFieldsIndexes_empty_schema_counterexample :
    fixRemainingFieldsIndexes projectOverEmptyTable = .ok projectOverEmptyTable ∧
    ({ index := 7, table := "t", name := "a" } : ColumnRef) ∈
      projectOverEmptyTable.columnRefs ∧
    ¬ ColumnRef.ValidIn { index := 7, table := "t", name := "a" }
      (childSchema projectOverEmptyTable) := by
  refine ⟨rfl, by decide, ?_⟩
  rintro ⟨col, hcol, _⟩
  simp [childSchema, projectOverEmptyTable, emptyTable, Node.Children, Node.Schema] at hcol

/-- C2 (as amended): when some expression-carrying node of the plan, with a
non-empty concatenated child schema, holds a column reference whose
`(table, name)` does not occur in that schema, `fixRemainingFieldsIndexes`
returns no plan but the error `ErrColumnTableNotFound` built from the table and
the name of such a reference of the plan (the first one the bottom-up traversal
meets). -/
theorem fixRemainingFieldsIndexes_column_not_found (n : Node)
    (h : ∃ m ∈ n.subtrees, ∃ r, m.HasMissingRef r) :
    ∃ m ∈ n.subtrees, ∃ r, m.HasMissingRef r ∧
      fixRemainingFieldsIndexes n = .error (.ErrColumnTableNotFound r.table r.name) := by
  cases hfix : fixRemainingFieldsIndexes n with
  | ok n1 =>
    obtain ⟨m, hm, r, hr⟩ := h
    exact absurd hr (((fixRemainingFieldsIndexes_spec n).1 n1 hfix).2.2 m hm r)
  | error err =>
    obtain ⟨m, hm, r, hr, he⟩ := (fixRemainingFieldsIndexes_spec n).2 err hfix
    exact ⟨m, hm, r, hr, by rw [he]⟩

/-- C2 (witness): `mytable` has no column `a`, and the recomputation fails with
the error built from `mytable` and `a`. -/
theorem fixRemainingFieldsIndexes_column_not_found_witness :
    ∃ m ∈ projectOfTwoMissingColumns.subtrees, ∃ r, m.HasMissingRef r ∧
      fixRemainingFieldsIndexes projectOfTwoMissingColumns
        = .error (.ErrColumnTableNotFound r.table r.name) :=
  fixRemainingFieldsIndexes_column_not_found projectOfTwoMissingColumns
    ⟨projectOfTwoMissingColumns, by simp [projectOfTwoMissingColumns, Node.subtrees],
      { index := 0, table := "mytable", name := "a" },
      by simp [Node.HasMissingRef, childSchema, projectOfTwoMissingColumns, Node.Children,
        Node.Schema, mytable],
      by decide,
      by simp [ColumnRef.MissingIn, childSchema, projectOfTwoMissingColumns, Node.Children,
        Node.Schema, mytable]⟩

/-- C2 (counterexample): a reference to the missing column `b` does not make
the recomputation return the error built from `b` when another missing
reference is met first, and a reference over an empty child schema, whose pair
occurs nowhere in it, raises no error at all. -/
theorem fixRemainingFieldsIndexes_column_not_found_counterexample :
    (projectOfTwoMissingColumns.HasMissingRef { index := 1, table := "mytable", name := "b" } ∧
      fixRemainingFieldsIndexes projectOfTwoMissingColumns
        ≠ .error (.ErrColumnTableNotFound "mytable" "b")) ∧
    (({ index := 7, table := "t", name := "a" } : ColumnRef) ∈
        projectOverEmptyTable.columnRefs ∧
      ColumnRef.MissingIn { index := 7, table := "t", name := "a" }
        (childSchema projectOverEmptyTable) ∧
      fixRemainingFieldsIndexes projectOverEmptyTable = .ok projectOverEmptyTable) := by
  refine ⟨⟨⟨?_, by decide, ?_⟩, ?_⟩, by decide, ?_, rfl⟩
  · simp [childSchema, projectOfTwoMissingColumns, Node.Children, Node.Schema, mytable]
  · simp [ColumnRef.MissingIn, childSchema, projectOfTwoMissingColumns, Node.Children,
      Node.Schema, mytable]
  · have h : fixRemainingFieldsIndexes projectOfTwoMissingColumns
        = .error (.ErrColumnTableNotFound "mytable" "a") := rfl
    rw [h]
    simp
  · simp [ColumnRef.MissingIn, childSchema, projectOverEmptyTable, emptyTable, Node.Children,
      Node.Schema]

/-! ## The traversals in the form of the source -/

theorem pruneSubqueryColumns_eq (name : String) (child : Node) (parentColumns : usedColumns) :
    pruneSubqueryColumns name child parentColumns =
      match translateColumns (tableByCol child.Schema) name (parentColumns.columnsOf name)
          usedColumns.empty with
      | .error err => .error err
      | .ok translated =>
        match pruneUnusedColumns child (findUsedColumns translated child) with
        | .error err => .error err
        | .ok node =>
          match pruneSubqueries node (findUsedColumns translated child) with
          | .error err => .error err
          | .ok node1 => .ok (.SubqueryAlias name node1) := by
  rw [pruneSubqueryColumns]
  cases translateColumns (tableByCol child.Schema) name (parentColumns.columnsOf name)
      usedColumns.empty with
  | error err => rfl
  | ok translated =>
    simp only []
    split
    · simp_all
    · rename_i node heq
      simp only [heq]

/-- The form of the source: `fixRemainingFieldsIndexes` is `plan.TransformUp`
applied to its closure. -/
theorem fixRemainingFieldsIndexes_eq_TransformUp (n : Node) :
    fixRemainingFieldsIndexes n = TransformUp fixRemainingFieldsIndexesVisit n := by
  induction n with
  | ResolvedTable _ | UnresolvedTable _ | SubqueryAlias _ _ _ =>
    simp only [fixRemainingFieldsIndexes, TransformUp, fixRemainingFieldsIndexesVisit]
  | Project _ c ih | GroupBy _ _ c ih | Filter _ c ih | TableAlias _ c ih
  | DescribeQuery _ c ih | DecoratedNode _ _ c ih =>
    simp only [fixRemainingFieldsIndexes, TransformUp, ← ih]
    cases fixRemainingFieldsIndexes c <;> simp only [fixRemainingFieldsIndexesVisit]
  | CrossJoin l r ihl ihr | InnerJoin l r _ ihl ihr | LeftJoin l r _ ihl ihr
  | RightJoin l r _ ihl ihr | IndexedJoin l r _ _ _ _ ihl ihr | InsertInto l r ihl ihr =>
    simp only [fixRemainingFieldsIndexes, TransformUp, ← ihl, ← ihr]
    cases fixRemainingFieldsIndexes l with
    | error _ => rfl
    | ok _ => cases fixRemainingFieldsIndexes r <;> simp only [fixRemainingFieldsIndexesVisit]

/-- The form of the source: `pruneSubqueries` is `plan.TransformUp` applied to its
closure. -/
theorem pruneSubqueries_eq_TransformUp (n : Node) (parentColumns : usedColumns) :
    pruneSubqueries n parentColumns = TransformUp (pruneSubqueriesVisit parentColumns) n := by
  induction n with
  | ResolvedTable _ | UnresolvedTable _ | SubqueryAlias _ _ _ =>
    simp only [pruneSubqueries, TransformUp, pruneSubqueriesVisit]
  | Project _ c ih | GroupBy _ _ c ih | Filter _ c ih | TableAlias _ c ih
  | DescribeQuery _ c ih | DecoratedNode _ _ c ih =>
    rw [pruneSubqueries]
    simp only [TransformUp, ← ih]
    cases pruneSubqueries c parentColumns <;> simp only [pruneSubqueriesVisit]
  | CrossJoin l r ihl ihr | InnerJoin l r _ ihl ihr | LeftJoin l r _ ihl ihr
  | RightJoin l r _ ihl ihr | IndexedJoin l r _ _ _ _ ihl ihr | InsertInto l r ihl ihr =>
    rw [pruneSubqueries]
    simp only [TransformUp, ← ihl, ← ihr]
    cases pruneSubqueries l parentColumns with
    | error _ => rfl
    | ok _ => cases pruneSubqueries r parentColumns <;> simp only [pruneSubqueriesVisit]

/-! ## The usage set only grows -/

theorem usedColumns.has_add (cols : usedColumns) (t c t1 c1 : String) :
    (cols.add t c).has t1 c1 = true ↔ cols.has t1 c1 = true ∨ (t1 = t ∧ c1 = c) := by
  unfold usedColumns.add
  by_cases h : cols.has t c = true
  · simp only [h, if_true]
    constructor
    · exact Or.inl
    · rintro (h1 | ⟨rfl, rfl⟩)
      · exact h1
      · exact h
  · simp only [h, if_false]
    simp [usedColumns.has]

theorem usedColumns.has_add_of_has (cols : usedColumns) (t c t1 c1 : String)
    (h : cols.has t1 c1 = true) : (cols.add t c).has t1 c1 = true :=
  (usedColumns.has_add cols t c t1 c1).2 (Or.inl h)

theorem usedColumns.has_add_self (cols : usedColumns) (t c : String) :
    (cols.add t c).has t c = true :=
  (usedColumns.has_add cols t c t c).2 (Or.inr ⟨rfl, rfl⟩)

theorem usedColumns.mem_columnsOf (cols : usedColumns) (t c : String) :
    c ∈ cols.columnsOf t ↔ cols.has t c = true := by
  rw [usedColumns_has_iff]
  simp only [usedColumns.columnsOf, List.mem_map, List.mem_filter, decide_eq_true_eq]
  constructor
  · rintro ⟨⟨a, b⟩, ⟨hm, rfl⟩, rfl⟩
    exact hm
  · intro h
    exact ⟨(t, c), ⟨h, rfl⟩, rfl⟩

mutual
theorem addUsedColumnsExpr_mono (t c : String) : ∀ (e : Expression) (cols : usedColumns),
    cols.has t c = true → (addUsedColumnsExpr cols e).has t c = true
  | .Literal _ _, cols, h => by simpa [addUsedColumnsExpr] using h
  | .GetField _ _ _ _ _, cols, h => by
    simp only [addUsedColumnsExpr]
    exact usedColumns.has_add_of_has _ _ _ _ _ h
  | .UnresolvedColumn _ _, cols, h => by simpa [addUsedColumnsExpr] using h
  | .Alias _ child, cols, h => by
    simp only [addUsedColumnsExpr]
    exact addUsedColumnsExpr_mono t c child cols h
  | .Unary _ child, cols, h => by
    simp only [addUsedColumnsExpr]
    exact addUsedColumnsExpr_mono t c child cols h
  | .Binary _ l r, cols, h => by
    simp only [addUsedColumnsExpr]
    exact addUsedColumnsExpr_mono t c r _ (addUsedColumnsExpr_mono t c l cols h)
  | .Call _ _ args, cols, h => by
    simp only [addUsedColumnsExpr]
    exact addUsedColumns_mono t c args cols h
theorem addUsedColumns_mono (t c : String) : ∀ (es : List Expression) (cols : usedColumns),
    cols.has t c = true → (addUsedColumns cols es).has t c = true
  | [], cols, h => by simpa [addUsedColumns] using h
  | e :: es, cols, h => by
    simp only [addUsedColumns]
    exact addUsedColumns_mono t c es _ (addUsedColumnsExpr_mono t c e cols h)
end

theorem addUsedProjectColumns_mono (t c : String) (ps : List Expression) (cols : usedColumns)
    (h : cols.has t c = true) : (addUsedProjectColumns cols ps).has t c = true := by
  unfold addUsedProjectColumns
  exact addUsedColumns_mono t c _ cols h

theorem findUsedColumnsVisit_mono (t c : String) (cols : usedColumns) (n : Node)
    (h : cols.has t c = true) : (findUsedColumnsVisit cols n).1.has t c = true := by
  unfold findUsedColumnsVisit
  split
  · exact addUsedProjectColumns_mono t c _ cols h
  · exact addUsedColumns_mono t c _ _ (addUsedProjectColumns_mono t c _ cols h)
  · exact h
  · split
    · exact addUsedColumns_mono t c _ cols h
    · exact h

theorem Inspect_invariant {σ : Type} (f : σ → Node → σ × Bool) (P : σ → Prop)
    (hf : ∀ s m, P s → P (f s m).1) : ∀ (n : Node) (s : σ), P s → P (Inspect f s n) := by
  intro n
  induction n with
  | ResolvedTable _ | UnresolvedTable _ =>
    intro s hs
    simp only [Inspect]
    exact hf _ _ hs
  | Project _ c ih | GroupBy _ _ c ih | Filter _ c ih | TableAlias _ c ih
  | DescribeQuery _ c ih | DecoratedNode _ _ c ih | SubqueryAlias _ c ih =>
    intro s hs
    simp only [Inspect]
    split
    · exact ih _ (hf _ _ hs)
    · exact hf _ _ hs
  | CrossJoin l r ihl ihr | InnerJoin l r _ ihl ihr | LeftJoin l r _ ihl ihr
  | RightJoin l r _ ihl ihr | IndexedJoin l r _ _ _ _ ihl ihr | InsertInto l r ihl ihr =>
    intro s hs
    simp only [Inspect]
    split
    · exact ihr _ (ihl _ (hf _ _ hs))
    · exact hf _ _ hs

theorem findUsedColumns_mono (t c : String) (n : Node) (cols : usedColumns)
    (h : cols.has t c = true) : (findUsedColumns cols n).has t c = true :=
  Inspect_invariant findUsedColumnsVisit (fun s => s.has t c = true)
    (fun s m hs => findUsedColumnsVisit_mono t c s m hs) n cols h

theorem foldl_add_has (schema : Schema) : ∀ (init : usedColumns) (t c : String),
    (init.has t c = true ∨ ∃ col ∈ schema, col.Source = t ∧ col.Name = c) →
    (schema.foldl (fun columns col => columns.add col.Source col.Name) init).has t c = true := by
  induction schema with
  | nil =>
    intro init t c h
    rcases h with h | ⟨col, hcol, _⟩
    · exact h
    · cases hcol
  | cons x xs ih =>
    intro init t c h
    simp only [List.foldl_cons]
    apply ih
    rcases h with h | ⟨col, hcol, hs, hn⟩
    · exact Or.inl (usedColumns.has_add_of_has _ _ _ _ _ h)
    · rcases List.mem_cons.1 hcol with rfl | hmem
      · left
        rw [← hs, ← hn]
        exact usedColumns.has_add_self _ _ _
      · exact Or.inr ⟨col, hmem, hs, hn⟩

theorem columnsUsedByNode_covers (n : Node) : (columnsUsedByNode n).Covers n.Schema := by
  intro col hcol
  exact foldl_add_has n.Schema usedColumns.empty col.Source col.Name
    (Or.inr ⟨col, hcol, rfl, rfl⟩)

theorem findUsedColumns_covers (n m : Node) (cols : usedColumns) (h : cols.Covers m.Schema) :
    (findUsedColumns cols n).Covers m.Schema := by
  intro col hcol
  exact findUsedColumns_mono _ _ n cols (h col hcol)

/-! ## Subquery translation and plans without pruning targets -/

theorem foldl_tableByCol (schema : Schema) : ∀ (init : String → Option String) (k : String),
    (∃ col ∈ schema, col.Name = k ∧
      schema.foldl (fun m col => fun k => if k = col.Name then some col.Source else m k) init k
        = some col.Source) ∨
    ((∀ col ∈ schema, col.Name ≠ k) ∧
      schema.foldl (fun m col => fun k => if k = col.Name then some col.Source else m k) init k
        = init k) := by
  induction schema with
  | nil => intro init k; right; simp
  | cons x xs ih =>
    intro init k
    simp only [List.foldl_cons]
    rcases ih (fun k => if k = x.Name then some x.Source else init k) k with
      ⟨col, hcol, hn, hv⟩ | ⟨hall, hv⟩
    · exact Or.inl ⟨col, List.mem_cons_of_mem _ hcol, hn, hv⟩
    · by_cases hk : k = x.Name
      · left
        refine ⟨x, List.mem_cons_self _ _, hk.symm, ?_⟩
        rw [hv]
        simp [hk]
      · right
        refine ⟨?_, ?_⟩
        · intro col hcol
          rcases List.mem_cons.1 hcol with rfl | hmem
          · exact fun h => hk h.symm
          · exact hall col hmem
        · rw [hv]
          simp [hk]

theorem tableByCol_of_mem (schema : Schema) (hnds : NamesDetermineSource schema)
    (col : Column) (hcol : col ∈ schema) : tableByCol schema col.Name = some col.Source := by
  unfold tableByCol
  rcases foldl_tableByCol schema (fun _ => none) col.Name with ⟨c, hc, hn, hv⟩ | ⟨hall, _⟩
  · rw [hv, hnds c hc col hcol hn]
  · exact absurd rfl (hall col hcol)

theorem tableByCol_eq_some (schema : Schema) (k src : String)
    (h : tableByCol schema k = some src) :
    ∃ col ∈ schema, col.Name = k ∧ col.Source = src := by
  unfold tableByCol at h
  rcases foldl_tableByCol schema (fun _ => none) k with ⟨c, hc, hn, hv⟩ | ⟨_, hv⟩
  · rw [hv] at h
    exact ⟨c, hc, hn, by simpa using h⟩
  · rw [hv] at h
    cases h

theorem translateColumns_ok (byCol : String → Option String) (subquery : String) :
    ∀ (l : List String) (init res : usedColumns),
      translateColumns byCol subquery l init = .ok res →
      (∀ t c, init.has t c = true → res.has t c = true) ∧
      (∀ c ∈ l, ∃ src, byCol c = some src ∧ res.has src c = true) := by
  intro l
  induction l with
  | nil =>
    intro init res h
    simp only [translateColumns, Except.ok.injEq] at h
    subst h
    exact ⟨fun _ _ h => h, fun c hc => by cases hc⟩
  | cons x xs ih =>
    intro init res h
    simp only [translateColumns] at h
    cases hx : byCol x with
    | none => simp [hx] at h
    | some table =>
      simp only [hx] at h
      obtain ⟨h1, h2⟩ := ih _ _ h
      refine ⟨fun t c hin => h1 t c (usedColumns.has_add_of_has _ _ _ _ _ hin), ?_⟩
      intro c hc
      rcases List.mem_cons.1 hc with rfl | hmem
      · exact ⟨table, hx, h1 _ _ (usedColumns.has_add_self _ _ _)⟩
      · exact h2 c hmem

theorem pruneUnusedColumns_of_PruneFree (cols : usedColumns) (n : Node) (h : n.PruneFree) :
    pruneUnusedColumns n cols = .ok n := by
  induction n with
  | ResolvedTable _ | UnresolvedTable _ =>
    simp only [pruneUnusedColumns, TransformUp, pruneUnusedColumnsVisit]
  | Project _ _ _ | GroupBy _ _ _ _ | SubqueryAlias _ _ _ => exact absurd h (by simp [Node.PruneFree])
  | Filter _ c ih | TableAlias _ c ih | DescribeQuery _ c ih | DecoratedNode _ _ c ih =>
    simp only [Node.PruneFree] at h
    have := ih h
    simp only [pruneUnusedColumns] at this
    simp only [pruneUnusedColumns, TransformUp, this, pruneUnusedColumnsVisit]
  | CrossJoin l r ihl ihr | InnerJoin l r _ ihl ihr | LeftJoin l r _ ihl ihr
  | RightJoin l r _ ihl ihr | IndexedJoin l r _ _ _ _ ihl ihr | InsertInto l r ihl ihr =>
    simp only [Node.PruneFree] at h
    have h1 := ihl h.1
    have h2 := ihr h.2
    simp only [pruneUnusedColumns] at h1 h2
    simp only [pruneUnusedColumns, TransformUp, h1, h2, pruneUnusedColumnsVisit]

theorem pruneSubqueries_of_PruneFree (cols : usedColumns) (n : Node) (h : n.PruneFree) :
    pruneSubqueries n cols = .ok n := by
  induction n with
  | ResolvedTable _ | UnresolvedTable _ => simp only [pruneSubqueries]
  | Project _ _ _ | GroupBy _ _ _ _ | SubqueryAlias _ _ _ => exact absurd h (by simp [Node.PruneFree])
  | Filter _ c ih | TableAlias _ c ih | DescribeQuery _ c ih | DecoratedNode _ _ c ih =>
    simp only [Node.PruneFree] at h
    rw [pruneSubqueries, ih h]
  | CrossJoin l r ihl ihr | InnerJoin l r _ ihl ihr | LeftJoin l r _ ihl ihr
  | RightJoin l r _ ihl ihr | IndexedJoin l r _ _ _ _ ihl ihr | InsertInto l r ihl ihr =>
    simp only [Node.PruneFree] at h
    rw [pruneSubqueries, ihl h.1, ihr h.2]

/-! ## Schema preservation of the pruning steps -/

theorem shouldPruneExpr_false_of_covers (ps : List Expression) (cols : usedColumns)
    (h : cols.Covers (ps.map ExpressionToColumn)) :
    ∀ e ∈ ps, shouldPruneExpr e cols = false := by
  intro e he
  cases e with
  | GetField i t table name nullable =>
    have hc := h (ExpressionToColumn (.GetField i t table name nullable))
      (List.mem_map_of_mem _ he)
    simp only [ExpressionToColumn] at hc
    simp [shouldPruneExpr, hc]
  | _ => simp [shouldPruneExpr]

theorem filter_keep_eq_self (ps : List Expression) (cols : usedColumns)
    (h : cols.Covers (ps.map ExpressionToColumn)) :
    ps.filter (fun e => !shouldPruneExpr e cols) = ps := by
  rw [List.filter_eq_self]
  intro e he
  simp [shouldPruneExpr_false_of_covers ps cols h e he]

theorem pruneProject_of_covers (ps : List Expression) (child : Node) (cols : usedColumns)
    (hne : ps ≠ []) (h : cols.Covers (ps.map ExpressionToColumn)) :
    pruneProject ps child cols = .Project ps child := by
  rw [pruneProject_eq_filter, filter_keep_eq_self ps cols h, if_neg]
  simpa using hne

theorem pruneGroupBy_of_covers (sel grp : List Expression) (child : Node) (cols : usedColumns)
    (hne : sel ≠ []) (h : cols.Covers (sel.map ExpressionToColumn)) :
    pruneGroupBy sel grp child cols = .GroupBy sel grp child := by
  rw [pruneGroupBy_eq_filter, filter_keep_eq_self sel cols h, if_neg]
  simpa using hne

theorem Covers_append (cols : usedColumns) (a b : Schema) :
    cols.Covers (a ++ b) ↔ cols.Covers a ∧ cols.Covers b := by
  simp only [usedColumns.Covers, List.mem_append]
  constructor
  · intro h
    exact ⟨fun col hc => h col (Or.inl hc), fun col hc => h col (Or.inr hc)⟩
  · rintro ⟨h1, h2⟩ col (hc | hc)
    · exact h1 col hc
    · exact h2 col hc

theorem prune_schema_preserved (n : Node) :
    ∀ (cols : usedColumns) (n1 n2 : Node), n.SchemaAnchored → cols.Covers n.Schema →
      pruneUnusedColumns n cols = .ok n1 → pruneSubqueries n1 cols = .ok n2 →
      n2.Schema = n.Schema := by
  induction n with
  | ResolvedTable _ | UnresolvedTable _ =>
    intro cols n1 n2 _ _ h1 h2
    simp only [pruneUnusedColumns, TransformUp, pruneUnusedColumnsVisit, Except.ok.injEq] at h1
    subst h1
    simp only [pruneSubqueries, Except.ok.injEq] at h2
    subst h2
    rfl
  | Project ps c _ =>
    intro cols n1 n2 ha hcov h1 h2
    simp only [pruneUnusedColumns, TransformUp] at h1
    cases hc : TransformUp (pruneUnusedColumnsVisit cols) c with
    | error err => simp [hc] at h1
    | ok c1 =>
      simp only [hc, pruneUnusedColumnsVisit, Except.ok.injEq] at h1
      rw [pruneProject_of_covers ps c1 cols ha hcov] at h1
      subst h1
      rw [pruneSubqueries] at h2
      cases hs : pruneSubqueries c1 cols with
      | error err => simp [hs] at h2
      | ok c2 =>
        simp only [hs, Except.ok.injEq] at h2
        subst h2
        rfl
  | GroupBy sel grp c _ =>
    intro cols n1 n2 ha hcov h1 h2
    simp only [pruneUnusedColumns, TransformUp] at h1
    cases hc : TransformUp (pruneUnusedColumnsVisit cols) c with
    | error err => simp [hc] at h1
    | ok c1 =>
      simp only [hc, pruneUnusedColumnsVisit, Except.ok.injEq] at h1
      rw [pruneGroupBy_of_covers sel grp c1 cols ha hcov] at h1
      subst h1
      rw [pruneSubqueries] at h2
      cases hs : pruneSubqueries c1 cols with
      | error err => simp [hs] at h2
      | ok c2 =>
        simp only [hs, Except.ok.injEq] at h2
        subst h2
        rfl
  | SubqueryAlias name c ih =>
    intro cols n1 n2 ha hcov h1 h2
    simp only [pruneUnusedColumns, TransformUp, pruneUnusedColumnsVisit, Except.ok.injEq] at h1
    subst h1
    rw [pruneSubqueries, pruneSubqueryColumns_eq] at h2
    cases ht : translateColumns (tableByCol c.Schema) name (cols.columnsOf name)
        usedColumns.empty with
    | error err => simp [ht] at h2
    | ok translated =>
      simp only [ht] at h2
      cases hp : pruneUnusedColumns c (findUsedColumns translated c) with
      | error err => simp [hp] at h2
      | ok node =>
        simp only [hp] at h2
        cases hs : pruneSubqueries node (findUsedColumns translated c) with
        | error err => simp [hs] at h2
        | ok node1 =>
          simp only [hs, Except.ok.injEq] at h2
          subst h2
          have hcov1 : (findUsedColumns translated c).Covers c.Schema := by
            intro col hcol
            apply findUsedColumns_mono
            have hin : col.Name ∈ cols.columnsOf name := by
              rw [usedColumns.mem_columnsOf]
              have := hcov { col with Source := name }
                (by simp only [Node.Schema, renameSource, List.mem_map]; exact ⟨col, hcol, rfl⟩)
              simpa using this
            obtain ⟨src, hsrc, hhas⟩ := (translateColumns_ok _ _ _ _ _ ht).2 _ hin
            rw [tableByCol_of_mem c.Schema ha.1 col hcol] at hsrc
            cases hsrc
            exact hhas
          have := ih _ _ _ ha.2 hcov1 hp hs
          simp only [Node.Schema, this]
  | TableAlias name c _ =>
    intro cols n1 n2 ha _ h1 h2
    simp only [Node.SchemaAnchored] at ha
    have hp := pruneUnusedColumns_of_PruneFree cols (.TableAlias name c) ha
    rw [hp] at h1
    cases h1
    rw [pruneSubqueries_of_PruneFree cols (.TableAlias name c) ha] at h2
    cases h2
    rfl
  | InsertInto d s _ _ =>
    intro cols n1 n2 _ _ h1 h2
    simp only [pruneUnusedColumns, TransformUp] at h1
    cases hd : TransformUp (pruneUnusedColumnsVisit cols) d with
    | error err => simp [hd] at h1
    | ok d1 =>
      cases hs : TransformUp (pruneUnusedColumnsVisit cols) s with
      | error err => simp [hd, hs] at h1
      | ok s1 =>
        simp only [hd, hs, pruneUnusedColumnsVisit, Except.ok.injEq] at h1
        subst h1
        rw [pruneSubqueries] at h2
        cases hd2 : pruneSubqueries d1 cols with
        | error err => simp [hd2] at h2
        | ok d2 =>
          cases hs2 : pruneSubqueries s1 cols with
          | error err => simp [hd2, hs2] at h2
          | ok s2 =>
            simp only [hd2, hs2, Except.ok.injEq] at h2
            subst h2
            rfl
  | Filter _ c ih | DescribeQuery _ c ih | DecoratedNode _ _ c ih =>
    intro cols n1 n2 ha hcov h1 h2
    simp only [pruneUnusedColumns, TransformUp] at h1
    cases hc : TransformUp (pruneUnusedColumnsVisit cols) c with
    | error err => simp [hc] at h1
    | ok c1 =>
      simp only [hc, pruneUnusedColumnsVisit, Except.ok.injEq] at h1
      subst h1
      rw [pruneSubqueries] at h2
      cases hs : pruneSubqueries c1 cols with
      | error err => simp [hs] at h2
      | ok c2 =>
        simp only [hs, Except.ok.injEq] at h2
        subst h2
        exact ih cols c1 c2 ha hcov hc hs
  | CrossJoin l r ihl ihr | InnerJoin l r _ ihl ihr | LeftJoin l r _ ihl ihr
  | RightJoin l r _ ihl ihr | IndexedJoin l r _ _ _ _ ihl ihr =>
    intro cols n1 n2 ha hcov h1 h2
    simp only [pruneUnusedColumns, TransformUp] at h1
    simp only [Node.Schema, Covers_append] at hcov
    cases hl : TransformUp (pruneUnusedColumnsVisit cols) l with
    | error err => simp [hl] at h1
    | ok l1 =>
      cases hr : TransformUp (pruneUnusedColumnsVisit cols) r with
      | error err => simp [hl, hr] at h1
      | ok r1 =>
        simp only [hl, hr, pruneUnusedColumnsVisit, Except.ok.injEq] at h1
        subst h1
        rw [pruneSubqueries] at h2
        cases hl2 : pruneSubqueries l1 cols with
        | error err => simp [hl2] at h2
        | ok l2 =>
          cases hr2 : pruneSubqueries r1 cols with
          | error err => simp [hl2, hr2] at h2
          | ok r2 =>
            simp only [hl2, hr2, Except.ok.injEq] at h2
            subst h2
            simp only [Node.Schema, ihl cols l1 l2 ha.1 hcov.1 hl hl2,
              ihr cols r1 r2 ha.2 hcov.2 hr hr2]

/-! ## Schema preservation of the rule -/

theorem pruneColumns_InsertInto_eq (d s : Node) :
    pruneColumns (.InsertInto d s) = .ok (.InsertInto d s) := by
  unfold pruneColumns
  split <;> rfl

theorem pruneColumns_DescribeQuery_eq (format : String) (child : Node) :
    pruneColumns (.DescribeQuery format child) =
      match pruneColumns child with
      | .error err => .error err
      | .ok pruned => .ok (.DescribeQuery format pruned) := by
  by_cases h : child.Resolved = true
  · conv => lhs; unfold pruneColumns
    simp [Node.Resolved, h]
  · have h1 : child.Resolved = false := by simpa using h
    rw [pruneColumns_of_not_resolved child h1]
    exact pruneColumns_of_not_resolved _ (by simpa [Node.Resolved] using h1)

theorem pruneColumns_eq_of_resolved (n : Node) (hres : n.Resolved = true)
    (hI : ∀ d s, n ≠ .InsertInto d s) (hD : ∀ f c, n ≠ .DescribeQuery f c) :
    pruneColumns n =
      match pruneUnusedColumns n (findUsedColumns (columnsUsedByNode n) n) with
      | .error err => .error err
      | .ok n1 =>
        match pruneSubqueries n1 (findUsedColumns (columnsUsedByNode n) n) with
        | .error err => .error err
        | .ok n2 => fixRemainingFieldsIndexes n2 := by
  cases n with
  | InsertInto d s => exact absurd rfl (hI d s)
  | DescribeQuery f c => exact absurd rfl (hD f c)
  | _ =>
    conv => lhs; unfold pruneColumns
    simp only [hres, Bool.not_true, Bool.false_eq_true, if_false]

theorem pruneColumns_schema_of_not_DescribeQuery (n n1 : Node)
    (hD : ∀ f c, n ≠ .DescribeQuery f c) (ha : n.SchemaAnchored)
    (h : pruneColumns n = .ok n1) : n1.Schema = n.Schema := by
  by_cases hres : n.Resolved = true
  · by_cases hI : ∃ d s, n = .InsertInto d s
    · obtain ⟨d, s, rfl⟩ := hI
      rw [pruneColumns_InsertInto_eq] at h
      cases h
      rfl
    · have hI1 : ∀ d s, n ≠ .InsertInto d s := fun d s hn => hI ⟨d, s, hn⟩
      rw [pruneColumns_eq_of_resolved n hres hI1 hD] at h
      cases h1 : pruneUnusedColumns n (findUsedColumns (columnsUsedByNode n) n) with
      | error err => simp [h1] at h
      | ok m1 =>
        simp only [h1] at h
        cases h2 : pruneSubqueries m1 (findUsedColumns (columnsUsedByNode n) n) with
        | error err => simp [h2] at h
        | ok m2 =>
          simp only [h2] at h
          rw [((fixRemainingFieldsIndexes_spec m2).1 n1 h).1]
          exact prune_schema_preserved n _ m1 m2 ha
            (findUsedColumns_covers n n _ (columnsUsedByNode_covers n)) h1 h2
  · have hres1 : n.Resolved = false := by simpa using hres
    rw [pruneColumns_of_not_resolved n hres1] at h
    cases h
    rfl

theorem pruneColumns_schema_of_anchored (n : Node) :
    ∀ n1, n.SchemaAnchored → pruneColumns n = .ok n1 → n1.Schema = n.Schema := by
  induction n with
  | DescribeQuery f c ih =>
    intro n1 ha h
    rw [pruneColumns_DescribeQuery_eq] at h
    cases hc : pruneColumns c with
    | error err => simp [hc] at h
    | ok c1 =>
      simp only [hc, Except.ok.injEq] at h
      subst h
      exact ih c1 ha hc
  | _ =>
    intro n1 ha h
    exact pruneColumns_schema_of_not_DescribeQuery _ n1 (by intro f c hn; cases hn) ha h

/-! ## Evaluation of the rule on example plans -/

theorem pruneColumns_eval (n n1 n2 : Node) (r : Except AnalyzerError Node)
    (hres : n.Resolved = true)
    (hI : ∀ d s, n ≠ .InsertInto d s) (hD : ∀ f c, n ≠ .DescribeQuery f c)
    (h1 : pruneUnusedColumns n (findUsedColumns (columnsUsedByNode n) n) = .ok n1)
    (h2 : pruneSubqueries n1 (findUsedColumns (columnsUsedByNode n) n) = .ok n2)
    (h3 : fixRemainingFieldsIndexes n2 = r) : pruneColumns n = r := by
  rw [pruneColumns_eq_of_resolved n hres hI hD, h1]
  simp only [h2, h3]

theorem pruneColumns_eval_error (n n1 : Node) (err : AnalyzerError)
    (hres : n.Resolved = true)
    (hI : ∀ d s, n ≠ .InsertInto d s) (hD : ∀ f c, n ≠ .DescribeQuery f c)
    (h1 : pruneUnusedColumns n (findUsedColumns (columnsUsedByNode n) n) = .ok n1)
    (h2 : pruneSubqueries n1 (findUsedColumns (columnsUsedByNode n) n) = .error err) :
    pruneColumns n = .error err := by
  rw [pruneColumns_eq_of_resolved n hres hI hD, h1]
  simp only [h2]

theorem pruneSubqueryColumns_eval (name : String) (child node node1 : Node)
    (parentColumns translated : usedColumns)
    (h1 : translateColumns (tableByCol child.Schema) name (parentColumns.columnsOf name)
      usedColumns.empty = .ok translated)
    (h2 : pruneUnusedColumns child (findUsedColumns translated child) = .ok node)
    (h3 : pruneSubqueries node (findUsedColumns translated child) = .ok node1) :
    pruneSubqueryColumns name child parentColumns = .ok (.SubqueryAlias name node1) := by
  rw [pruneSubqueryColumns_eq, h1]
  simp only [h2, h3]

theorem pruneSubqueryColumns_eval_error (name : String) (child : Node)
    (parentColumns : usedColumns) (err : AnalyzerError)
    (h1 : translateColumns (tableByCol child.Schema) name (parentColumns.columnsOf name)
      usedColumns.empty = .error err) :
    pruneSubqueryColumns name child parentColumns = .error err := by
  rw [pruneSubqueryColumns_eq, h1]

theorem pruneColumns_aliasOverProject :
    pruneColumns aliasOverProject = .ok (.TableAlias "x" (.ResolvedTable mytable)) :=
  pruneColumns_eval aliasOverProject (.TableAlias "x" (.ResolvedTable mytable))
    (.TableAlias "x" (.ResolvedTable mytable)) _ rfl
    (by intro d s h; cases h) (by intro f c h; cases h) rfl
    (by simp [pruneSubqueries]) rfl

theorem pruneColumns_emptyProject :
    pruneColumns emptyProject = .ok (.ResolvedTable mytable) :=
  pruneColumns_eval emptyProject (.ResolvedTable mytable) (.ResolvedTable mytable) _ rfl
    (by intro d s h; cases h) (by intro f c h; cases h) rfl
    (by simp [pruneSubqueries]) rfl

theorem pruneColumns_subqueryOverDuplicateNames :
    pruneColumns subqueryOverDuplicateNames = .ok
      (.SubqueryAlias "s"
        (.Project [.GetField 3 .Int32 "b" "i" false]
          (.CrossJoin (.TableAlias "a" (.ResolvedTable mytable))
            (.TableAlias "b" (.ResolvedTable mytable))))) :=
  pruneColumns_eval subqueryOverDuplicateNames subqueryOverDuplicateNames
    (.SubqueryAlias "s"
        (.Project [.GetField 3 .Int32 "b" "i" false]
          (.CrossJoin (.TableAlias "a" (.ResolvedTable mytable))
            (.TableAlias "b" (.ResolvedTable mytable))))) _ rfl
    (by intro d s h; cases h) (by intro f c h; cases h) rfl
    (by
      rw [subqueryOverDuplicateNames, pruneSubqueries]
      exact pruneSubqueryColumns_eval "s" _
        (.Project [.GetField 3 .Int32 "b" "i" false]
          (.CrossJoin (.TableAlias "a" (.ResolvedTable mytable))
            (.TableAlias "b" (.ResolvedTable mytable))))
        (.Project [.GetField 3 .Int32 "b" "i" false]
          (.CrossJoin (.TableAlias "a" (.ResolvedTable mytable))
            (.TableAlias "b" (.ResolvedTable mytable))))
        _ { entries := [("b", "i")] } rfl rfl (by simp [pruneSubqueries]))
    rfl

theorem pruneSubqueries_Project_eval (ps : List Expression) (c c1 : Node)
    (parentColumns : usedColumns) (h : pruneSubqueries c parentColumns = .ok c1) :
    pruneSubqueries (.Project ps c) parentColumns = .ok (.Project ps c1) := by
  rw [pruneSubqueries, h]

theorem pruneSubqueries_SubqueryAlias (name : String) (c : Node) (parentColumns : usedColumns) :
    pruneSubqueries (.SubqueryAlias name c) parentColumns
      = pruneSubqueryColumns name c parentColumns := by
  rw [pruneSubqueries]

theorem pruneColumns_projectOverSubquery :
    pruneColumns projectOverSubquery = .ok projectOverSubqueryPruned :=
  pruneColumns_eval projectOverSubquery projectOverSubquery projectOverSubqueryPruned _ rfl
    (by intro d s h; cases h) (by intro f c h; cases h) rfl
    (pruneSubqueries_Project_eval _ _ _ _
      (by
        rw [pruneSubqueries_SubqueryAlias]
        exact pruneSubqueryColumns_eval "s" _
          (.Project [.GetField 1 .Float64 "mytable" "f" false] (.ResolvedTable mytable))
          (.Project [.GetField 1 .Float64 "mytable" "f" false] (.ResolvedTable mytable))
          _ { entries := [("mytable", "f")] } rfl rfl (by simp [pruneSubqueries])))
    rfl

/-! ## Schema preservation at the root -/

/-- C6 (as amended): when `pruneColumns` succeeds on a plan whose schema is
anchored (every `Project` or `GroupBy` that defines columns of the root schema
has a non-empty list, every `TableAlias` on the way wraps a plan without
`Project`, `GroupBy` and `SubqueryAlias`, and every `SubqueryAlias` on the way
has a child schema in which columns of one name have one source), the schema
of the result equals the schema of the plan, column by column. -/
theorem pruneColumns_preserves_schema (n n1 : Node) (ha : n.SchemaAnchored)
    (h : pruneColumns n = .ok n1) : n1.Schema = n.Schema :=
  pruneColumns_schema_of_anchored n n1 ha h

/-- C6 (witness): the subquery under the root `Project` loses its unused column
`i`, the root schema stays `[s.f]`. -/
theorem pruneColumns_preserves_schema_witness :
    projectOverSubquery.SchemaAnchored ∧
    pruneColumns projectOverSubquery = .ok projectOverSubqueryPruned ∧
    projectOverSubqueryPruned.Schema = projectOverSubquery.Schema :=
  ⟨by simp [projectOverSubquery, Node.SchemaAnchored],
   pruneColumns_projectOverSubquery,
   pruneColumns_preserves_schema projectOverSubquery projectOverSubqueryPruned
     (by simp [projectOverSubquery, Node.SchemaAnchored]) pruneColumns_projectOverSubquery⟩

/-- C6 (counterexample): three resolved plans on which `pruneColumns` succeeds
and changes the root schema: a `TableAlias` over a `Project` (the `Project` is
removed and the alias exposes every column of the table), a `SubqueryAlias`
whose child has two columns named `i` (one of them is pruned), and a `Project`
with no projection (replaced by its child). -/
theorem pruneColumns_schema_counterexample :
    (aliasOverProject.Resolved = true ∧
      ∃ n1, pruneColumns aliasOverProject = .ok n1 ∧ n1.Schema ≠ aliasOverProject.Schema) ∧
    (subqueryOverDuplicateNames.Resolved = true ∧
      ∃ n1, pruneColumns subqueryOverDuplicateNames = .ok n1 ∧
        n1.Schema ≠ subqueryOverDuplicateNames.Schema) ∧
    (emptyProject.Resolved = true ∧
      ∃ n1, pruneColumns emptyProject = .ok n1 ∧ n1.Schema ≠ emptyProject.Schema) :=
  ⟨⟨rfl, _, pruneColumns_aliasOverProject, by decide⟩,
   ⟨rfl, _, pruneColumns_subqueryOverDuplicateNames, by decide⟩,
   ⟨rfl, _, pruneColumns_emptyProject, by decide⟩⟩

/-! ## The usage analysis covers the references it scans -/

theorem mem_columnRefsList (es : List Expression) (r : ColumnRef) :
    r ∈ Expression.columnRefsList es ↔ ∃ e ∈ es, r ∈ e.columnRefs := by
  induction es with
  | nil => simp [Expression.columnRefsList]
  | cons e es ih => simp [Expression.columnRefsList, ih]

mutual
theorem addUsedColumnsExpr_refs : ∀ (e : Expression) (cols : usedColumns),
    ∀ r ∈ e.columnRefs, (addUsedColumnsExpr cols e).has r.table r.name = true
  | .Literal _ _, cols, r, hr => by simp [Expression.columnRefs] at hr
  | .UnresolvedColumn _ _, cols, r, hr => by simp [Expression.columnRefs] at hr
  | .GetField _ _ _ _ _, cols, r, hr => by
    simp only [Expression.columnRefs, List.mem_singleton] at hr
    subst hr
    simp only [addUsedColumnsExpr]
    exact usedColumns.has_add_self _ _ _
  | .Alias _ child, cols, r, hr => by
    simp only [Expression.columnRefs] at hr
    simp only [addUsedColumnsExpr]
    exact addUsedColumnsExpr_refs child cols r hr
  | .Unary _ child, cols, r, hr => by
    simp only [Expression.columnRefs] at hr
    simp only [addUsedColumnsExpr]
    exact addUsedColumnsExpr_refs child cols r hr
  | .Binary _ l r0, cols, r, hr => by
    simp only [Expression.columnRefs, List.mem_append] at hr
    simp only [addUsedColumnsExpr]
    rcases hr with hr | hr
    · exact addUsedColumnsExpr_mono _ _ r0 _ (addUsedColumnsExpr_refs l cols r hr)
    · exact addUsedColumnsExpr_refs r0 _ r hr
  | .Call _ _ args, cols, r, hr => by
    simp only [Expression.columnRefs] at hr
    simp only [addUsedColumnsExpr]
    exact addUsedColumns_refs args cols r hr
theorem addUsedColumns_refs : ∀ (es : List Expression) (cols : usedColumns),
    ∀ r ∈ Expression.columnRefsList es, (addUsedColumns cols es).has r.table r.name = true
  | [], cols, r, hr => by simp [Expression.columnRefsList] at hr
  | e :: es, cols, r, hr => by
    simp only [Expression.columnRefsList, List.mem_append] at hr
    simp only [addUsedColumns]
    rcases hr with hr | hr
    · exact addUsedColumns_mono _ _ es _ (addUsedColumnsExpr_refs e cols r hr)
    · exact addUsedColumns_refs es _ r hr
end

theorem addUsedProjectColumns_refs (ps : List Expression) (cols : usedColumns) :
    ∀ e ∈ ps, e.isGetField = false → ∀ r ∈ e.columnRefs,
      (addUsedProjectColumns cols ps).has r.table r.name = true := by
  intro e he hbare r hr
  simp only [addUsedProjectColumns]
  rw [foldl_append_eq_filter (fun e : Expression => !e.isGetField), List.nil_append]
  apply addUsedColumns_refs
  rw [mem_columnRefsList]
  exact ⟨e, List.mem_filter.2 ⟨he, by simp [hbare]⟩, hr⟩

theorem Node.UsesCovered_mono (cols cols1 : usedColumns)
    (hm : ∀ t c, cols.has t c = true → cols1.has t c = true) :
    ∀ (n : Node), n.UsesCovered cols → n.UsesCovered cols1 := by
  intro n
  induction n with
  | ResolvedTable _ | UnresolvedTable _ | SubqueryAlias _ _ _ => intro _; trivial
  | Project ps c ih =>
    intro h
    exact ⟨fun e he hb r hr => hm _ _ (h.1 e he hb r hr), ih h.2⟩
  | GroupBy sel grp c ih =>
    intro h
    exact ⟨fun e he hb r hr => hm _ _ (h.1 e he hb r hr), fun r hr => hm _ _ (h.2.1 r hr),
      ih h.2.2⟩
  | Filter e c ih =>
    intro h
    exact ⟨fun r hr => hm _ _ (h.1 r hr), ih h.2⟩
  | InnerJoin l r cond ihl ihr | LeftJoin l r cond ihl ihr | RightJoin l r cond ihl ihr =>
    intro h
    exact ⟨fun x hx => hm _ _ (h.1 x hx), ihl h.2.1, ihr h.2.2⟩
  | CrossJoin l r ihl ihr | IndexedJoin l r _ _ _ _ ihl ihr | InsertInto l r ihl ihr =>
    intro h
    exact ⟨ihl h.1, ihr h.2⟩
  | TableAlias _ c ih | DescribeQuery _ c ih | DecoratedNode _ _ c ih =>
    intro h
    exact ih h

theorem findUsedColumns_uses (n : Node) :
    ∀ (cols : usedColumns), n.UsesCovered (findUsedColumns cols n) := by
  induction n with
  | ResolvedTable _ | UnresolvedTable _ | SubqueryAlias _ _ _ => intro _; trivial
  | Project ps c ih =>
    intro cols
    have hstep : findUsedColumns cols (.Project ps c)
        = findUsedColumns (addUsedProjectColumns cols ps) c := by
      simp [findUsedColumns, Inspect, findUsedColumnsVisit]
    rw [hstep]
    exact ⟨fun e he hb r hr => findUsedColumns_mono _ _ c _
      (addUsedProjectColumns_refs ps cols e he hb r hr), ih _⟩
  | GroupBy sel grp c ih =>
    intro cols
    have hstep : findUsedColumns cols (.GroupBy sel grp c)
        = findUsedColumns (addUsedColumns (addUsedProjectColumns cols sel) grp) c := by
      simp [findUsedColumns, Inspect, findUsedColumnsVisit]
    rw [hstep]
    exact ⟨fun e he hb r hr => findUsedColumns_mono _ _ c _
        (addUsedColumns_mono _ _ grp _ (addUsedProjectColumns_refs sel cols e he hb r hr)),
      fun r hr => findUsedColumns_mono _ _ c _ (addUsedColumns_refs grp _ r hr), ih _⟩
  | Filter e c ih =>
    intro cols
    have hstep : findUsedColumns cols (.Filter e c)
        = findUsedColumns (addUsedColumns cols [e]) c := by
      simp [findUsedColumns, Inspect, findUsedColumnsVisit, Node.Expressions]
    rw [hstep]
    exact ⟨fun r hr => findUsedColumns_mono _ _ c _
      (addUsedColumns_refs [e] cols r (by simpa [Expression.columnRefsList] using hr)), ih _⟩
  | InnerJoin l r cond ihl ihr | LeftJoin l r cond ihl ihr | RightJoin l r cond ihl ihr =>
    intro cols
    simp only [findUsedColumns, Inspect, findUsedColumnsVisit, Node.Expressions, if_true]
    refine ⟨fun x hx => ?_, ?_, ?_⟩
    · exact findUsedColumns_mono _ _ r _ (findUsedColumns_mono _ _ l _
        (addUsedColumns_refs [cond] cols x (by simpa [Expression.columnRefsList] using hx)))
    · exact Node.UsesCovered_mono _ _ (fun t c h => findUsedColumns_mono t c r _ h) l (ihl _)
    · exact ihr _
  | CrossJoin l r ihl ihr | IndexedJoin l r _ _ _ _ ihl ihr | InsertInto l r ihl ihr =>
    intro cols
    simp only [findUsedColumns, Inspect, findUsedColumnsVisit, Node.Expressions, if_true]
    refine ⟨?_, ?_⟩
    · exact Node.UsesCovered_mono _ _ (fun t c h => findUsedColumns_mono t c r _ h) l (ihl _)
    · exact ihr _
  | TableAlias _ c ih | DescribeQuery _ c ih | DecoratedNode _ _ c ih =>
    intro cols
    simp only [findUsedColumns, Inspect, findUsedColumnsVisit, Node.Expressions, if_true]
    exact ih _

/-! ## What pruning keeps -/

theorem HasPair_append (a b : Schema) (t c : String) :
    HasPair (a ++ b) t c ↔ HasPair a t c ∨ HasPair b t c := by
  simp only [HasPair, List.mem_append]
  constructor
  · rintro ⟨col, hc | hc, h⟩
    · exact Or.inl ⟨col, hc, h⟩
    · exact Or.inr ⟨col, hc, h⟩
  · rintro (⟨col, hc, h⟩ | ⟨col, hc, h⟩)
    · exact ⟨col, Or.inl hc, h⟩
    · exact ⟨col, Or.inr hc, h⟩

theorem HasPair_renameSource (name : String) (schema : Schema) (t c : String) :
    HasPair (renameSource name schema) t c ↔ t = name ∧ ∃ col ∈ schema, col.Name = c := by
  simp only [HasPair, renameSource, List.mem_map]
  constructor
  · rintro ⟨col, ⟨col0, h0, rfl⟩, hs, hn⟩
    exact ⟨hs.symm, col0, h0, hn⟩
  · rintro ⟨rfl, col0, h0, hn⟩
    exact ⟨{ col0 with Source := t }, ⟨col0, h0, rfl⟩, rfl, hn⟩

theorem not_missing_of_HasPair (r : ColumnRef) (schema : Schema)
    (h : HasPair schema r.table r.name) : ¬ r.MissingIn schema := by
  intro hm
  obtain ⟨col, hc, hs, hn⟩ := h
  exact hm col hc ⟨hs, hn⟩

theorem shouldPruneExpr_true_column (e : Expression) (cols : usedColumns)
    (h : shouldPruneExpr e cols = true) :
    (ExpressionToColumn e).Source ≠ "" ∧
      cols.has (ExpressionToColumn e).Source (ExpressionToColumn e).Name = false := by
  cases e with
  | GetField i t table name nullable =>
    by_cases ht : table = ""
    · simp [shouldPruneExpr, ht] at h
    · simp only [shouldPruneExpr, ht, if_false, Bool.not_eq_true'] at h
      exact ⟨ht, h⟩
  | _ => simp [shouldPruneExpr] at h

theorem kept_refs_used (e : Expression) (cols : usedColumns)
    (hkeep : shouldPruneExpr e cols = false)
    (hcov : e.isGetField = false → ∀ r ∈ e.columnRefs, cols.has r.table r.name = true) :
    ∀ r ∈ e.columnRefs, r.table = "" ∨ cols.has r.table r.name = true := by
  intro r hr
  cases e with
  | GetField i t table name nullable =>
    simp only [Expression.columnRefs, List.mem_singleton] at hr
    subst hr
    by_cases ht : table = ""
    · exact Or.inl ht
    · right
      simpa [shouldPruneExpr, ht] using hkeep
  | Literal _ _ => exact Or.inr (hcov rfl r hr)
  | UnresolvedColumn _ _ => exact Or.inr (hcov rfl r hr)
  | Alias _ _ => exact Or.inr (hcov rfl r hr)
  | Unary _ _ => exact Or.inr (hcov rfl r hr)
  | Binary _ _ _ => exact Or.inr (hcov rfl r hr)
  | Call _ _ _ => exact Or.inr (hcov rfl r hr)

theorem KeepsUsed_refl (cols : usedColumns) (schema : Schema) : KeepsUsed cols schema schema :=
  fun col hc _ => ⟨col, hc, rfl, rfl⟩

theorem KeepsUsed_append (cols : usedColumns) (a b a1 b1 : Schema)
    (ha : KeepsUsed cols a a1) (hb : KeepsUsed cols b b1) :
    KeepsUsed cols (a ++ b) (a1 ++ b1) := by
  intro col hc hp
  rw [HasPair_append]
  rcases List.mem_append.1 hc with hc | hc
  · exact Or.inl (ha col hc hp)
  · exact Or.inr (hb col hc hp)

theorem HasPair_of_KeepsUsed (cols : usedColumns) (before after : Schema)
    (hk : KeepsUsed cols before after) (t c : String) (hp : HasPair before t c)
    (hu : t = "" ∨ cols.has t c = true) : HasPair after t c := by
  obtain ⟨col, hc, hs, hn⟩ := hp
  have := hk col hc (by rw [hs, hn]; exact hu)
  rwa [hs, hn] at this

theorem KeepsUsed_filter (cols : usedColumns) (ps : List Expression) :
    KeepsUsed cols (ps.map ExpressionToColumn)
      ((ps.filter (fun e => !shouldPruneExpr e cols)).map ExpressionToColumn) := by
  intro col hc hp
  obtain ⟨e, he, rfl⟩ := List.mem_map.1 hc
  cases hs : shouldPruneExpr e cols with
  | false =>
    exact ⟨ExpressionToColumn e,
      List.mem_map_of_mem _ (List.mem_filter.2 ⟨he, by simp [hs]⟩), rfl, rfl⟩
  | true =>
    obtain ⟨h1, h2⟩ := shouldPruneExpr_true_column e cols hs
    rcases hp with hp | hp
    · exact absurd hp h1
    · rw [h2] at hp
      cases hp

theorem KeepsUsed_of_all_pruned (cols : usedColumns) (ps : List Expression) (after : Schema)
    (h : (ps.filter (fun e => !shouldPruneExpr e cols)).length = 0) :
    KeepsUsed cols (ps.map ExpressionToColumn) after := by
  intro col hc hp
  have := KeepsUsed_filter cols ps col hc hp
  rw [List.length_eq_zero.1 h] at this
  obtain ⟨_, hmem, _⟩ := this
  cases hmem

/-! ## The usage set is sufficient for the pruning steps -/

theorem refsOccur_rebuilt (cols : usedColumns) (orig new : Node)
    (hrefs : ∀ r ∈ new.columnRefs,
      r ∈ orig.columnRefs ∧ (r.table = "" ∨ cols.has r.table r.name = true))
    (hk : KeepsUsed cols (childSchema orig) (childSchema new))
    (ho : orig.RefsOccur) : new.RefsOccur := by
  intro r hr
  obtain ⟨h1, h2⟩ := hrefs r hr
  exact HasPair_of_KeepsUsed cols _ _ hk _ _ (ho r h1) h2

theorem refsOccur_of_no_expressions (m : Node) (h : m.Expressions = none) : m.RefsOccur := by
  intro r hr
  simp [Node.columnRefs, h] at hr

theorem prune_keeps_used (n : Node) :
    ∀ (cols : usedColumns) (n1 n2 : Node),
      (∀ m ∈ n.subtrees, m.RefsOccur) → (∀ m ∈ n.subtrees, m.AliasWellFormed) →
      n.UsesCovered cols →
      pruneUnusedColumns n cols = .ok n1 → pruneSubqueries n1 cols = .ok n2 →
      KeepsUsed cols n.Schema n2.Schema ∧ (∀ m ∈ n2.subtrees, m.RefsOccur) := by
  induction n with
  | ResolvedTable _ | UnresolvedTable _ =>
    intro cols n1 n2 hro _ _ h1 h2
    simp only [pruneUnusedColumns, TransformUp, pruneUnusedColumnsVisit, Except.ok.injEq] at h1
    subst h1
    simp only [pruneSubqueries, Except.ok.injEq] at h2
    subst h2
    exact ⟨KeepsUsed_refl _ _, hro⟩
  | TableAlias name c _ =>
    intro cols n1 n2 hro haw _ h1 h2
    have hpf : c.PruneFree := haw (.TableAlias name c) (by simp [Node.subtrees])
    rw [pruneUnusedColumns_of_PruneFree cols (.TableAlias name c) hpf] at h1
    cases h1
    rw [pruneSubqueries_of_PruneFree cols (.TableAlias name c) hpf] at h2
    cases h2
    exact ⟨KeepsUsed_refl _ _, hro⟩
  | Project ps c ih =>
    intro cols n1 n2 hro haw huc h1 h2
    simp only [pruneUnusedColumns, TransformUp] at h1
    have hroc : ∀ m ∈ c.subtrees, m.RefsOccur := fun m hm => hro m (by simp [Node.subtrees, hm])
    have hawc : ∀ m ∈ c.subtrees, m.AliasWellFormed :=
      fun m hm => haw m (by simp [Node.subtrees, hm])
    cases hc : TransformUp (pruneUnusedColumnsVisit cols) c with
    | error err => simp [hc] at h1
    | ok c1 =>
      simp only [hc, pruneUnusedColumnsVisit, Except.ok.injEq] at h1
      rw [pruneProject_eq_filter] at h1
      by_cases hlen : (ps.filter (fun e => !shouldPruneExpr e cols)).length = 0
      · rw [if_pos hlen] at h1
        subst h1
        obtain ⟨_, kb⟩ := ih cols c1 n2 hroc hawc huc.2 hc h2
        exact ⟨KeepsUsed_of_all_pruned cols ps _ hlen, kb⟩
      · rw [if_neg hlen] at h1
        subst h1
        rw [pruneSubqueries] at h2
        cases hs : pruneSubqueries c1 cols with
        | error err => simp [hs] at h2
        | ok c2 =>
          simp only [hs, Except.ok.injEq] at h2
          subst h2
          obtain ⟨ka, kb⟩ := ih cols c1 c2 hroc hawc huc.2 hc hs
          refine ⟨KeepsUsed_filter cols ps, ?_⟩
          intro m hm
          simp only [Node.subtrees, List.mem_cons] at hm
          rcases hm with rfl | hm
          · apply refsOccur_rebuilt cols (.Project ps c) _ ?_ ?_
              (hro _ (by simp [Node.subtrees]))
            · intro r hr
              simp only [Node.columnRefs, Node.Expressions, mem_columnRefsList] at hr ⊢
              obtain ⟨e, he, hre⟩ := hr
              have hef := List.mem_filter.1 he
              exact ⟨⟨e, hef.1, hre⟩, kept_refs_used e cols (by simpa using hef.2)
                (fun hb => huc.1 e hef.1 hb) r hre⟩
            · simpa [childSchema, Node.Children] using ka
          · exact kb m hm
  | GroupBy sel grp c ih =>
    intro cols n1 n2 hro haw huc h1 h2
    simp only [pruneUnusedColumns, TransformUp] at h1
    have hroc : ∀ m ∈ c.subtrees, m.RefsOccur := fun m hm => hro m (by simp [Node.subtrees, hm])
    have hawc : ∀ m ∈ c.subtrees, m.AliasWellFormed :=
      fun m hm => haw m (by simp [Node.subtrees, hm])
    cases hc : TransformUp (pruneUnusedColumnsVisit cols) c with
    | error err => simp [hc] at h1
    | ok c1 =>
      simp only [hc, pruneUnusedColumnsVisit, Except.ok.injEq] at h1
      rw [pruneGroupBy_eq_filter] at h1
      by_cases hlen : (sel.filter (fun e => !shouldPruneExpr e cols)).length = 0
      · rw [if_pos hlen] at h1
        subst h1
        obtain ⟨_, kb⟩ := ih cols c1 n2 hroc hawc huc.2.2 hc h2
        exact ⟨KeepsUsed_of_all_pruned cols sel _ hlen, kb⟩
      · rw [if_neg hlen] at h1
        subst h1
        rw [pruneSubqueries] at h2
        cases hs : pruneSubqueries c1 cols with
        | error err => simp [hs] at h2
        | ok c2 =>
          simp only [hs, Except.ok.injEq] at h2
          subst h2
          obtain ⟨ka, kb⟩ := ih cols c1 c2 hroc hawc huc.2.2 hc hs
          refine ⟨KeepsUsed_filter cols sel, ?_⟩
          intro m hm
          simp only [Node.subtrees, List.mem_cons] at hm
          rcases hm with rfl | hm
          · apply refsOccur_rebuilt cols (.GroupBy sel grp c) _ ?_ ?_
              (hro _ (by simp [Node.subtrees]))
            · intro r hr
              simp only [Node.columnRefs, Node.Expressions, columnRefsList_append,
                List.mem_append, mem_columnRefsList] at hr ⊢
              rcases hr with ⟨e, he, hre⟩ | ⟨e, he, hre⟩
              · have hef := List.mem_filter.1 he
                exact ⟨Or.inl ⟨e, hef.1, hre⟩, kept_refs_used e cols (by simpa using hef.2)
                  (fun hb => huc.1 e hef.1 hb) r hre⟩
              · exact ⟨Or.inr ⟨e, he, hre⟩,
                  Or.inr (huc.2.1 r ((mem_columnRefsList grp r).2 ⟨e, he, hre⟩))⟩
            · simpa [childSchema, Node.Children] using ka
          · exact kb m hm
  | SubqueryAlias name c ih =>
    intro cols n1 n2 hro haw _ h1 h2
    simp only [pruneUnusedColumns, TransformUp, pruneUnusedColumnsVisit, Except.ok.injEq] at h1
    subst h1
    have hname : name ≠ "" := haw (.SubqueryAlias name c) (by simp [Node.subtrees])
    have hroc : ∀ m ∈ c.subtrees, m.RefsOccur := fun m hm => hro m (by simp [Node.subtrees, hm])
    have hawc : ∀ m ∈ c.subtrees, m.AliasWellFormed :=
      fun m hm => haw m (by simp [Node.subtrees, hm])
    rw [pruneSubqueries, pruneSubqueryColumns_eq] at h2
    cases ht : translateColumns (tableByCol c.Schema) name (cols.columnsOf name)
        usedColumns.empty with
    | error err => simp [ht] at h2
    | ok translated =>
      simp only [ht] at h2
      cases hp : pruneUnusedColumns c (findUsedColumns translated c) with
      | error err => simp [hp] at h2
      | ok node =>
        simp only [hp] at h2
        cases hs : pruneSubqueries node (findUsedColumns translated c) with
        | error err => simp [hs] at h2
        | ok node1 =>
          simp only [hs, Except.ok.injEq] at h2
          subst h2
          obtain ⟨ka, kb⟩ := ih _ node node1 hroc hawc (findUsedColumns_uses c translated) hp hs
          refine ⟨?_, ?_⟩
          · intro col hcol hp0
            simp only [Node.Schema] at hcol ⊢
            obtain ⟨col0, hcol0, rfl⟩ := List.mem_map.1 hcol
            have hhas : cols.has name col0.Name = true := by
              rcases hp0 with hp0 | hp0
              · exact absurd hp0 hname
              · exact hp0
            obtain ⟨src, hsrc, htr⟩ := (translateColumns_ok _ _ _ _ _ ht).2 col0.Name
              ((usedColumns.mem_columnsOf cols name col0.Name).2 hhas)
            obtain ⟨colL, hL, hLn, hLs⟩ := tableByCol_eq_some c.Schema col0.Name src hsrc
            have hkept := ka colL hL (Or.inr (by
              rw [hLn, hLs]
              exact findUsedColumns_mono _ _ c translated htr))
            obtain ⟨col1, h1m, _, h1n⟩ := hkept
            rw [HasPair_renameSource]
            exact ⟨rfl, col1, h1m, h1n.trans hLn⟩
          · intro m hm
            simp only [Node.subtrees, List.mem_cons] at hm
            rcases hm with rfl | hm
            · exact refsOccur_of_no_expressions _ rfl
            · exact kb m hm
  | Filter e c ih =>
    intro cols n1 n2 hro haw huc h1 h2
    simp only [pruneUnusedColumns, TransformUp] at h1
    have hroc : ∀ m ∈ c.subtrees, m.RefsOccur := fun m hm => hro m (by simp [Node.subtrees, hm])
    have hawc : ∀ m ∈ c.subtrees, m.AliasWellFormed :=
      fun m hm => haw m (by simp [Node.subtrees, hm])
    cases hc : TransformUp (pruneUnusedColumnsVisit cols) c with
    | error err => simp [hc] at h1
    | ok c1 =>
      simp only [hc, pruneUnusedColumnsVisit, Except.ok.injEq] at h1
      subst h1
      rw [pruneSubqueries] at h2
      cases hs : pruneSubqueries c1 cols with
      | error err => simp [hs] at h2
      | ok c2 =>
        simp only [hs, Except.ok.injEq] at h2
        subst h2
        obtain ⟨ka, kb⟩ := ih cols c1 c2 hroc hawc huc.2 hc hs
        refine ⟨ka, ?_⟩
        intro m hm
        simp only [Node.subtrees, List.mem_cons] at hm
        rcases hm with rfl | hm
        · apply refsOccur_rebuilt cols (.Filter e c) _ ?_ ?_ (hro _ (by simp [Node.subtrees]))
          · intro r hr
            refine ⟨hr, Or.inr (huc.1 r ?_)⟩
            simpa [Node.columnRefs, Node.Expressions, columnRefsList_singleton] using hr
          · simpa [childSchema, Node.Children] using ka
        · exact kb m hm
  | DescribeQuery _ c ih | DecoratedNode _ _ c ih =>
    intro cols n1 n2 hro haw huc h1 h2
    simp only [pruneUnusedColumns, TransformUp] at h1
    have hroc : ∀ m ∈ c.subtrees, m.RefsOccur := fun m hm => hro m (by simp [Node.subtrees, hm])
    have hawc : ∀ m ∈ c.subtrees, m.AliasWellFormed :=
      fun m hm => haw m (by simp [Node.subtrees, hm])
    cases hc : TransformUp (pruneUnusedColumnsVisit cols) c with
    | error err => simp [hc] at h1
    | ok c1 =>
      simp only [hc, pruneUnusedColumnsVisit, Except.ok.injEq] at h1
      subst h1
      rw [pruneSubqueries] at h2
      cases hs : pruneSubqueries c1 cols with
      | error err => simp [hs] at h2
      | ok c2 =>
        simp only [hs, Except.ok.injEq] at h2
        subst h2
        obtain ⟨ka, kb⟩ := ih cols c1 c2 hroc hawc huc hc hs
        refine ⟨ka, ?_⟩
        intro m hm
        simp only [Node.subtrees, List.mem_cons] at hm
        rcases hm with rfl | hm
        · exact refsOccur_of_no_expressions _ rfl
        · exact kb m hm
  | InnerJoin l r cond ihl ihr | LeftJoin l r cond ihl ihr | RightJoin l r cond ihl ihr =>
    intro cols n1 n2 hro haw huc h1 h2
    simp only [pruneUnusedColumns, TransformUp] at h1
    have hrol : ∀ m ∈ l.subtrees, m.RefsOccur := fun m hm => hro m (by simp [Node.subtrees, hm])
    have hawl : ∀ m ∈ l.subtrees, m.AliasWellFormed :=
      fun m hm => haw m (by simp [Node.subtrees, hm])
    have hror : ∀ m ∈ r.subtrees, m.RefsOccur := fun m hm => hro m (by simp [Node.subtrees, hm])
    have hawr : ∀ m ∈ r.subtrees, m.AliasWellFormed :=
      fun m hm => haw m (by simp [Node.subtrees, hm])
    cases hl : TransformUp (pruneUnusedColumnsVisit cols) l with
    | error err => simp [hl] at h1
    | ok l1 =>
      cases hr : TransformUp (pruneUnusedColumnsVisit cols) r with
      | error err => simp [hl, hr] at h1
      | ok r1 =>
        simp only [hl, hr, pruneUnusedColumnsVisit, Except.ok.injEq] at h1
        subst h1
        rw [pruneSubqueries] at h2
        cases hl2 : pruneSubqueries l1 cols with
        | error err => simp [hl2] at h2
        | ok l2 =>
          cases hr2 : pruneSubqueries r1 cols with
          | error err => simp [hl2, hr2] at h2
          | ok r2 =>
            simp only [hl2, hr2, Except.ok.injEq] at h2
            subst h2
            obtain ⟨la, lb⟩ := ihl cols l1 l2 hrol hawl huc.2.1 hl hl2
            obtain ⟨ra, rb⟩ := ihr cols r1 r2 hror hawr huc.2.2 hr hr2
            have hk := KeepsUsed_append cols _ _ _ _ la ra
            refine ⟨hk, ?_⟩
            intro m hm
            simp only [Node.subtrees, List.mem_cons, List.mem_append] at hm
            rcases hm with rfl | hm | hm
            · refine refsOccur_rebuilt cols _ _ ?_ ?_ (hro _ (List.mem_of_mem_head? rfl))
              · intro x hx
                refine ⟨hx, Or.inr (huc.1 x ?_)⟩
                simpa [Node.columnRefs, Node.Expressions, columnRefsList_singleton] using hx
              · simpa [childSchema, Node.Children] using hk
            · exact lb m hm
            · exact rb m hm
  | CrossJoin l r ihl ihr | IndexedJoin l r _ _ _ _ ihl ihr =>
    intro cols n1 n2 hro haw huc h1 h2
    simp only [pruneUnusedColumns, TransformUp] at h1
    have hrol : ∀ m ∈ l.subtrees, m.RefsOccur := fun m hm => hro m (by simp [Node.subtrees, hm])
    have hawl : ∀ m ∈ l.subtrees, m.AliasWellFormed :=
      fun m hm => haw m (by simp [Node.subtrees, hm])
    have hror : ∀ m ∈ r.subtrees, m.RefsOccur := fun m hm => hro m (by simp [Node.subtrees, hm])
    have hawr : ∀ m ∈ r.subtrees, m.AliasWellFormed :=
      fun m hm => haw m (by simp [Node.subtrees, hm])
    cases hl : TransformUp (pruneUnusedColumnsVisit cols) l with
    | error err => simp [hl] at h1
    | ok l1 =>
      cases hr : TransformUp (pruneUnusedColumnsVisit cols) r with
      | error err => simp [hl, hr] at h1
      | ok r1 =>
        simp only [hl, hr, pruneUnusedColumnsVisit, Except.ok.injEq] at h1
        subst h1
        rw [pruneSubqueries] at h2
        cases hl2 : pruneSubqueries l1 cols with
        | error err => simp [hl2] at h2
        | ok l2 =>
          cases hr2 : pruneSubqueries r1 cols with
          | error err => simp [hl2, hr2] at h2
          | ok r2 =>
            simp only [hl2, hr2, Except.ok.injEq] at h2
            subst h2
            obtain ⟨la, lb⟩ := ihl cols l1 l2 hrol hawl huc.1 hl hl2
            obtain ⟨ra, rb⟩ := ihr cols r1 r2 hror hawr huc.2 hr hr2
            refine ⟨KeepsUsed_append cols _ _ _ _ la ra, ?_⟩
            intro m hm
            simp only [Node.subtrees, List.mem_cons, List.mem_append] at hm
            rcases hm with rfl | hm | hm
            · exact refsOccur_of_no_expressions _ rfl
            · exact lb m hm
            · exact rb m hm
  | InsertInto l r ihl ihr =>
    intro cols n1 n2 hro haw huc h1 h2
    simp only [pruneUnusedColumns, TransformUp] at h1
    have hrol : ∀ m ∈ l.subtrees, m.RefsOccur := fun m hm => hro m (by simp [Node.subtrees, hm])
    have hawl : ∀ m ∈ l.subtrees, m.AliasWellFormed :=
      fun m hm => haw m (by simp [Node.subtrees, hm])
    have hror : ∀ m ∈ r.subtrees, m.RefsOccur := fun m hm => hro m (by simp [Node.subtrees, hm])
    have hawr : ∀ m ∈ r.subtrees, m.AliasWellFormed :=
      fun m hm => haw m (by simp [Node.subtrees, hm])
    cases hl : TransformUp (pruneUnusedColumnsVisit cols) l with
    | error err => simp [hl] at h1
    | ok l1 =>
      cases hr : TransformUp (pruneUnusedColumnsVisit cols) r with
      | error err => simp [hl, hr] at h1
      | ok r1 =>
        simp only [hl, hr, pruneUnusedColumnsVisit, Except.ok.injEq] at h1
        subst h1
        rw [pruneSubqueries] at h2
        cases hl2 : pruneSubqueries l1 cols with
        | error err => simp [hl2] at h2
        | ok l2 =>
          cases hr2 : pruneSubqueries r1 cols with
          | error err => simp [hl2, hr2] at h2
          | ok r2 =>
            simp only [hl2, hr2, Except.ok.injEq] at h2
            subst h2
            obtain ⟨_, lb⟩ := ihl cols l1 l2 hrol hawl huc.1 hl hl2
            obtain ⟨_, rb⟩ := ihr cols r1 r2 hror hawr huc.2 hr hr2
            refine ⟨fun col hc => by simp [Node.Schema] at hc, ?_⟩
            intro m hm
            simp only [Node.subtrees, List.mem_cons, List.mem_append] at hm
            rcases hm with rfl | hm | hm
            · exact refsOccur_of_no_expressions _ rfl
            · exact lb m hm
            · exact rb m hm

/-! ## The rule never loses a referenced column -/

theorem translateColumns_error (byCol : String → Option String) (subquery : String) :
    ∀ (l : List String) (init : usedColumns) (err : AnalyzerError),
      translateColumns byCol subquery l init = .error err →
      ∃ col ∈ l, byCol col = none ∧ err = .MissingProjectedColumn col subquery := by
  intro l
  induction l with
  | nil => intro init err h; simp [translateColumns] at h
  | cons x xs ih =>
    intro init err h
    simp only [translateColumns] at h
    cases hx : byCol x with
    | none =>
      simp only [hx, Except.error.injEq] at h
      exact ⟨x, List.mem_cons_self _ _, hx, h.symm⟩
    | some table =>
      simp only [hx] at h
      obtain ⟨col, hc, hn, he⟩ := ih _ _ h
      exact ⟨col, List.mem_cons_of_mem _ hc, hn, he⟩

theorem pruneUnusedColumns_ok (cols : usedColumns) (n : Node) :
    ∃ n1, pruneUnusedColumns n cols = .ok n1 := by
  induction n with
  | ResolvedTable _ | UnresolvedTable _ | SubqueryAlias _ _ _ =>
    exact ⟨_, by simp only [pruneUnusedColumns, TransformUp, pruneUnusedColumnsVisit]; rfl⟩
  | Project _ c ih | GroupBy _ _ c ih | Filter _ c ih | TableAlias _ c ih
  | DescribeQuery _ c ih | DecoratedNode _ _ c ih =>
    obtain ⟨c1, hc⟩ := ih
    simp only [pruneUnusedColumns] at hc
    exact ⟨_, by simp only [pruneUnusedColumns, TransformUp, hc, pruneUnusedColumnsVisit]; rfl⟩
  | CrossJoin l r ihl ihr | InnerJoin l r _ ihl ihr | LeftJoin l r _ ihl ihr
  | RightJoin l r _ ihl ihr | IndexedJoin l r _ _ _ _ ihl ihr | InsertInto l r ihl ihr =>
    obtain ⟨l1, hl⟩ := ihl
    obtain ⟨r1, hr⟩ := ihr
    simp only [pruneUnusedColumns] at hl hr
    exact ⟨_, by simp only [pruneUnusedColumns, TransformUp, hl, hr, pruneUnusedColumnsVisit]; rfl⟩

theorem pruneSubqueries_error_kind (n : Node) :
    ∀ (cols : usedColumns) (n1 : Node) (err : AnalyzerError),
      pruneUnusedColumns n cols = .ok n1 → pruneSubqueries n1 cols = .error err →
      ∃ col sq, err = .MissingProjectedColumn col sq := by
  induction n with
  | ResolvedTable _ | UnresolvedTable _ =>
    intro cols n1 err h1 h2
    simp only [pruneUnusedColumns, TransformUp, pruneUnusedColumnsVisit, Except.ok.injEq] at h1
    subst h1
    simp [pruneSubqueries] at h2
  | SubqueryAlias name c ih =>
    intro cols n1 err h1 h2
    simp only [pruneUnusedColumns, TransformUp, pruneUnusedColumnsVisit, Except.ok.injEq] at h1
    subst h1
    rw [pruneSubqueries, pruneSubqueryColumns_eq] at h2
    cases ht : translateColumns (tableByCol c.Schema) name (cols.columnsOf name)
        usedColumns.empty with
    | error err1 =>
      simp only [ht, Except.error.injEq] at h2
      subst h2
      obtain ⟨col, _, _, he⟩ := translateColumns_error _ _ _ _ _ ht
      exact ⟨col, name, he⟩
    | ok translated =>
      simp only [ht] at h2
      cases hp : pruneUnusedColumns c (findUsedColumns translated c) with
      | error err1 =>
        obtain ⟨x, hx⟩ := pruneUnusedColumns_ok (findUsedColumns translated c) c
        rw [hx] at hp
        cases hp
      | ok node =>
        simp only [hp] at h2
        cases hs : pruneSubqueries node (findUsedColumns translated c) with
        | ok node1 => simp [hs] at h2
        | error err1 =>
          simp only [hs, Except.error.injEq] at h2
          subst h2
          exact ih _ node _ hp hs
  | Project ps c ih =>
    intro cols n1 err h1 h2
    simp only [pruneUnusedColumns, TransformUp] at h1
    cases hc : TransformUp (pruneUnusedColumnsVisit cols) c with
    | error err1 => simp [hc] at h1
    | ok c1 =>
      simp only [hc, pruneUnusedColumnsVisit, Except.ok.injEq] at h1
      rw [pruneProject_eq_filter] at h1
      by_cases hlen : (ps.filter (fun e => !shouldPruneExpr e cols)).length = 0
      · rw [if_pos hlen] at h1
        subst h1
        exact ih cols c1 err hc h2
      · rw [if_neg hlen] at h1
        subst h1
        rw [pruneSubqueries] at h2
        cases hs : pruneSubqueries c1 cols with
        | ok c2 => simp [hs] at h2
        | error err1 =>
          simp only [hs, Except.error.injEq] at h2
          subst h2
          exact ih cols c1 _ hc hs
  | GroupBy sel grp c ih =>
    intro cols n1 err h1 h2
    simp only [pruneUnusedColumns, TransformUp] at h1
    cases hc : TransformUp (pruneUnusedColumnsVisit cols) c with
    | error err1 => simp [hc] at h1
    | ok c1 =>
      simp only [hc, pruneUnusedColumnsVisit, Except.ok.injEq] at h1
      rw [pruneGroupBy_eq_filter] at h1
      by_cases hlen : (sel.filter (fun e => !shouldPruneExpr e cols)).length = 0
      · rw [if_pos hlen] at h1
        subst h1
        exact ih cols c1 err hc h2
      · rw [if_neg hlen] at h1
        subst h1
        rw [pruneSubqueries] at h2
        cases hs : pruneSubqueries c1 cols with
        | ok c2 => simp [hs] at h2
        | error err1 =>
          simp only [hs, Except.error.injEq] at h2
          subst h2
          exact ih cols c1 _ hc hs
  | Filter _ c ih | TableAlias _ c ih | DescribeQuery _ c ih | DecoratedNode _ _ c ih =>
    intro cols n1 err h1 h2
    simp only [pruneUnusedColumns, TransformUp] at h1
    cases hc : TransformUp (pruneUnusedColumnsVisit cols) c with
    | error err1 => simp [hc] at h1
    | ok c1 =>
      simp only [hc, pruneUnusedColumnsVisit, Except.ok.injEq] at h1
      subst h1
      rw [pruneSubqueries] at h2
      cases hs : pruneSubqueries c1 cols with
      | ok c2 => simp [hs] at h2
      | error err1 =>
        simp only [hs, Except.error.injEq] at h2
        subst h2
        exact ih cols c1 _ hc hs
  | CrossJoin l r ihl ihr | InnerJoin l r _ ihl ihr | LeftJoin l r _ ihl ihr
  | RightJoin l r _ ihl ihr | IndexedJoin l r _ _ _ _ ihl ihr | InsertInto l r ihl ihr =>
    intro cols n1 err h1 h2
    simp only [pruneUnusedColumns, TransformUp] at h1
    cases hl : TransformUp (pruneUnusedColumnsVisit cols) l with
    | error err1 => simp [hl] at h1
    | ok l1 =>
      cases hr : TransformUp (pruneUnusedColumnsVisit cols) r with
      | error err1 => simp [hl, hr] at h1
      | ok r1 =>
        simp only [hl, hr, pruneUnusedColumnsVisit, Except.ok.injEq] at h1
        subst h1
        rw [pruneSubqueries] at h2
        cases hl2 : pruneSubqueries l1 cols with
        | error err1 =>
          simp only [hl2, Except.error.injEq] at h2
          subst h2
          exact ihl cols l1 _ hl hl2
        | ok l2 =>
          cases hr2 : pruneSubqueries r1 cols with
          | ok r2 => simp [hl2, hr2] at h2
          | error err1 =>
            simp only [hl2, hr2, Except.error.injEq] at h2
            subst h2
            exact ihr cols r1 _ hr hr2

theorem pruneColumns_sufficient_of_not_DescribeQuery (n : Node)
    (hD : ∀ f c, n ≠ .DescribeQuery f c)
    (hro : ∀ m ∈ n.subtrees, m.RefsOccur) (haw : ∀ m ∈ n.subtrees, m.AliasWellFormed) :
    (∃ n1, pruneColumns n = .ok n1) ∨
      (∃ col sq, pruneColumns n = .error (.MissingProjectedColumn col sq)) := by
  by_cases hres : n.Resolved = true
  · by_cases hI : ∃ d s, n = .InsertInto d s
    · obtain ⟨d, s, rfl⟩ := hI
      exact Or.inl ⟨_, pruneColumns_InsertInto_eq d s⟩
    · have hI1 : ∀ d s, n ≠ .InsertInto d s := fun d s hn => hI ⟨d, s, hn⟩
      rw [pruneColumns_eq_of_resolved n hres hI1 hD]
      obtain ⟨m1, h1⟩ := pruneUnusedColumns_ok (findUsedColumns (columnsUsedByNode n) n) n
      simp only [h1]
      cases h2 : pruneSubqueries m1 (findUsedColumns (columnsUsedByNode n) n) with
      | error err =>
        obtain ⟨col, sq, he⟩ := pruneSubqueries_error_kind n _ m1 err h1 h2
        exact Or.inr ⟨col, sq, by rw [he]⟩
      | ok m2 =>
        simp only []
        obtain ⟨_, kb⟩ := prune_keeps_used n _ m1 m2 hro haw
          (findUsedColumns_uses n (columnsUsedByNode n)) h1 h2
        cases h3 : fixRemainingFieldsIndexes m2 with
        | ok m3 => exact Or.inl ⟨m3, rfl⟩
        | error err =>
          obtain ⟨m, hm, r, hmiss, _⟩ := (fixRemainingFieldsIndexes_spec m2).2 err h3
          exact absurd hmiss.2.2 (not_missing_of_HasPair r _ (kb m hm r hmiss.2.1))
  · have hres1 : n.Resolved = false := by simpa using hres
    exact Or.inl ⟨n, pruneColumns_of_not_resolved n hres1⟩

theorem pruneColumns_sufficient (n : Node) :
    (∀ m ∈ n.subtrees, m.RefsOccur) → (∀ m ∈ n.subtrees, m.AliasWellFormed) →
    ((∃ n1, pruneColumns n = .ok n1) ∨
      (∃ col sq, pruneColumns n = .error (.MissingProjectedColumn col sq))) := by
  induction n with
  | DescribeQuery f c ih =>
    intro hro haw
    rw [pruneColumns_DescribeQuery_eq]
    rcases ih (fun m hm => hro m (by simp [Node.subtrees, hm]))
      (fun m hm => haw m (by simp [Node.subtrees, hm])) with ⟨c1, hc⟩ | ⟨col, sq, hc⟩
    · exact Or.inl ⟨_, by rw [hc]⟩
    · exact Or.inr ⟨col, sq, by rw [hc]⟩
  | _ =>
    intro hro haw
    exact pruneColumns_sufficient_of_not_DescribeQuery _ (by intro f c hn; cases hn) hro haw

/-! ## Sufficiency of the usage set -/

theorem pruneColumns_aliasOverComputedProject :
    pruneColumns aliasOverComputedProject = .error (.ErrColumnTableNotFound "x" "f") :=
  pruneColumns_eval aliasOverComputedProject
    (.Project [.GetField 0 .Float64 "x" "f" false]
      (.TableAlias "x"
        (.Project [.Alias "c" (.GetField 0 .Int32 "mytable" "i" false)]
          (.ResolvedTable mytable))))
    (.Project [.GetField 0 .Float64 "x" "f" false]
      (.TableAlias "x"
        (.Project [.Alias "c" (.GetField 0 .Int32 "mytable" "i" false)]
          (.ResolvedTable mytable)))) _ rfl
    (by intro d s h; cases h) (by intro f c h; cases h) rfl
    (by simp [pruneSubqueries]) rfl

theorem pruneSubqueries_CrossJoin_eval_error (l l1 r : Node) (parentColumns : usedColumns)
    (err : AnalyzerError) (hl : pruneSubqueries l parentColumns = .ok l1)
    (hr : pruneSubqueries r parentColumns = .error err) :
    pruneSubqueries (.CrossJoin l r) parentColumns = .error err := by
  rw [pruneSubqueries, hl]
  simp only [hr]

theorem pruneColumns_aliasNameClash :
    pruneColumns aliasNameClash = .error (.MissingProjectedColumn "z" "s") :=
  pruneColumns_eval_error aliasNameClash aliasNameClash _ rfl
    (by intro d s h; cases h) (by intro f c h; cases h) rfl
    (pruneSubqueries_CrossJoin_eval_error _ (.ResolvedTable tableNamedS) _ _ _
      (by simp [pruneSubqueries])
      (by
        rw [pruneSubqueries_SubqueryAlias]
        exact pruneSubqueryColumns_eval_error "s" _ _ _ rfl))

theorem pruneColumns_unnamedSubquery :
    pruneColumns unnamedSubquery = .error (.ErrColumnTableNotFound "" "i") :=
  pruneColumns_eval unnamedSubquery unnamedSubquery
    (.Project [.GetField 1 .Float64 "" "f" false]
      (.Project [.GetField 0 .Int32 "" "i" false, .GetField 1 .Float64 "" "f" false]
        (.SubqueryAlias ""
          (.Project [.GetField 1 .Float64 "mytable" "f" false] (.ResolvedTable mytable))))) _
    rfl (by intro d s h; cases h) (by intro f c h; cases h) rfl
    (pruneSubqueries_Project_eval _ _ _ _ (pruneSubqueries_Project_eval _ _ _ _
      (by
        rw [pruneSubqueries_SubqueryAlias]
        exact pruneSubqueryColumns_eval "" _
          (.Project [.GetField 1 .Float64 "mytable" "f" false] (.ResolvedTable mytable))
          (.Project [.GetField 1 .Float64 "mytable" "f" false] (.ResolvedTable mytable))
          _ { entries := [("mytable", "f")] } rfl rfl (by simp [pruneSubqueries]))))
    rfl

theorem refsOccur_aliasOverComputedProject :
    ∀ m ∈ aliasOverComputedProject.subtrees, m.RefsOccur := by
  intro m hm
  simp only [aliasOverComputedProject, Node.subtrees, List.mem_cons, List.mem_singleton,
    List.not_mem_nil, or_false] at hm
  rcases hm with rfl | rfl | rfl | rfl <;> intro r hr <;>
    simp [Node.columnRefs, Node.Expressions, Expression.columnRefsList,
      Expression.columnRefs] at hr
  · subst hr
    simp [HasPair, childSchema, Node.Children, Node.Schema, renameSource, ExpressionToColumn]
  · rcases hr with rfl | rfl <;>
      simp [HasPair, childSchema, Node.Children, Node.Schema, mytable]

theorem refsOccur_aliasNameClash : ∀ m ∈ aliasNameClash.subtrees, m.RefsOccur := by
  intro m hm
  simp only [aliasNameClash, Node.subtrees, List.mem_cons, List.mem_singleton, List.cons_append,
    List.nil_append, List.not_mem_nil, or_false] at hm
  rcases hm with rfl | rfl | rfl | rfl <;> exact refsOccur_of_no_expressions _ rfl

theorem refsOccur_unnamedSubquery : ∀ m ∈ unnamedSubquery.subtrees, m.RefsOccur := by
  intro m hm
  simp only [unnamedSubquery, Node.subtrees, List.mem_cons, List.mem_singleton,
    List.not_mem_nil, or_false] at hm
  rcases hm with rfl | rfl | rfl | rfl | rfl <;> intro r hr <;>
    simp [Node.columnRefs, Node.Expressions, Expression.columnRefsList,
      Expression.columnRefs] at hr
  · subst hr
    simp [HasPair, childSchema, Node.Children, Node.Schema, ExpressionToColumn]
  · rcases hr with rfl | rfl <;>
      simp [HasPair, childSchema, Node.Children, Node.Schema, renameSource, ExpressionToColumn]
  · rcases hr with rfl | rfl <;>
      simp [HasPair, childSchema, Node.Children, Node.Schema, mytable]

theorem refsOccur_projectOverSubquery : ∀ m ∈ projectOverSubquery.subtrees, m.RefsOccur := by
  intro m hm
  simp only [projectOverSubquery, Node.subtrees, List.mem_cons, List.mem_singleton,
    List.not_mem_nil, or_false] at hm
  rcases hm with rfl | rfl | rfl | rfl <;> intro r hr <;>
    simp [Node.columnRefs, Node.Expressions, Expression.columnRefsList,
      Expression.columnRefs] at hr
  · subst hr
    simp [HasPair, childSchema, Node.Children, Node.Schema, renameSource, ExpressionToColumn]
  · rcases hr with rfl | rfl <;>
      simp [HasPair, childSchema, Node.Children, Node.Schema, mytable]

theorem aliasWellFormed_projectOverSubquery :
    ∀ m ∈ projectOverSubquery.subtrees, m.AliasWellFormed := by
  intro m hm
  simp only [projectOverSubquery, Node.subtrees, List.mem_cons, List.mem_singleton,
    List.not_mem_nil, or_false] at hm
  rcases hm with rfl | rfl | rfl | rfl <;> simp [Node.AliasWellFormed]

/-- C7 (as amended): for every plan whose column references all have their
`(table, name)` in the concatenated child schema of their operator, in which
every `TableAlias` wraps a plan without `Project`, `GroupBy` and `SubqueryAlias`
and every `SubqueryAlias` has a non-empty name, pruning with the computed usage
set never removes a column that a surviving expression still references:
`pruneColumns` does not return a column-not-found error.  It returns a plan, or
the invariant-violation error of `pruneSubqueryColumns`. -/
theorem pruneColumns_usage_set_sufficient (n : Node)
    (hrefs : ∀ m ∈ n.subtrees, m.RefsOccur)
    (halias : ∀ m ∈ n.subtrees, m.AliasWellFormed) :
    (∃ n1, pruneColumns n = .ok n1) ∨
      (∃ col sq, pruneColumns n = .error (.MissingProjectedColumn col sq)) :=
  pruneColumns_sufficient n hrefs halias

/-- C7 (witness): the plan `projectOverSubquery` meets the hypotheses, and
`pruneColumns` returns a plan for it. -/
theorem pruneColumns_usage_set_sufficient_witness :
    (∀ m ∈ projectOverSubquery.subtrees, m.RefsOccur) ∧
    (∀ m ∈ projectOverSubquery.subtrees, m.AliasWellFormed) ∧
    ((∃ n1, pruneColumns projectOverSubquery = .ok n1) ∨
      (∃ col sq, pruneColumns projectOverSubquery = .error (.MissingProjectedColumn col sq))) :=
  ⟨refsOccur_projectOverSubquery, aliasWellFormed_projectOverSubquery,
   pruneColumns_usage_set_sufficient projectOverSubquery refsOccur_projectOverSubquery
     aliasWellFormed_projectOverSubquery⟩

/-- C7 (counterexample): three resolved plans whose column references all occur
in the concatenated child schema of their operator and on which `pruneColumns`
fails: below a `TableAlias` the column `f` that the root references is pruned
(column-not-found), a subquery alias that shares its name with a table makes
`pruneSubqueryColumns` fail, and below a subquery alias with an empty name the
column `i` that the `Project` above references is pruned (column-not-found). -/
theorem pruneColumns_usage_set_counterexample :
    (aliasOverComputedProject.Resolved = true ∧
      (∀ m ∈ aliasOverComputedProject.subtrees, m.RefsOccur) ∧
      pruneColumns aliasOverComputedProject = .error (.ErrColumnTableNotFound "x" "f")) ∧
    (aliasNameClash.Resolved = true ∧
      (∀ m ∈ aliasNameClash.subtrees, m.RefsOccur) ∧
      pruneColumns aliasNameClash = .error (.MissingProjectedColumn "z" "s")) ∧
    (unnamedSubquery.Resolved = true ∧
      (∀ m ∈ unnamedSubquery.subtrees, m.RefsOccur) ∧
      pruneColumns unnamedSubquery = .error (.ErrColumnTableNotFound "" "i")) :=
  ⟨⟨rfl, refsOccur_aliasOverComputedProject, pruneColumns_aliasOverComputedProject⟩,
   ⟨rfl, refsOccur_aliasNameClash, pruneColumns_aliasNameClash⟩,
   ⟨rfl, refsOccur_unnamedSubquery, pruneColumns_unnamedSubquery⟩⟩

/-! ## The usage set holds exactly what the scan adds -/

mutual
theorem addUsedColumnsExpr_has : ∀ (e : Expression) (cols : usedColumns) (t c : String),
    (addUsedColumnsExpr cols e).has t c = true →
      cols.has t c = true ∨ ∃ r ∈ e.columnRefs, r.table = t ∧ r.name = c
  | .Literal _ _, cols, t, c, h => Or.inl (by simpa [addUsedColumnsExpr] using h)
  | .UnresolvedColumn _ _, cols, t, c, h => Or.inl (by simpa [addUsedColumnsExpr] using h)
  | .GetField i ty table name nl, cols, t, c, h => by
    simp only [addUsedColumnsExpr] at h
    rcases (usedColumns.has_add _ _ _ _ _).1 h with h | ⟨h1, h2⟩
    · exact Or.inl h
    · exact Or.inr ⟨{ index := i, table := table, name := name },
        by simp [Expression.columnRefs], h1.symm, h2.symm⟩
  | .Alias _ child, cols, t, c, h => by
    simp only [addUsedColumnsExpr] at h
    simpa only [Expression.columnRefs] using addUsedColumnsExpr_has child cols t c h
  | .Unary _ child, cols, t, c, h => by
    simp only [addUsedColumnsExpr] at h
    simpa only [Expression.columnRefs] using addUsedColumnsExpr_has child cols t c h
  | .Binary _ l r0, cols, t, c, h => by
    simp only [addUsedColumnsExpr] at h
    simp only [Expression.columnRefs, List.mem_append]
    rcases addUsedColumnsExpr_has r0 _ t c h with h | ⟨r, hr, hx⟩
    · rcases addUsedColumnsExpr_has l cols t c h with h | ⟨r, hr, hx⟩
      · exact Or.inl h
      · exact Or.inr ⟨r, Or.inl hr, hx⟩
    · exact Or.inr ⟨r, Or.inr hr, hx⟩
  | .Call _ _ args, cols, t, c, h => by
    simp only [addUsedColumnsExpr] at h
    simpa only [Expression.columnRefs] using addUsedColumns_has args cols t c h
theorem addUsedColumns_has : ∀ (es : List Expression) (cols : usedColumns) (t c : String),
    (addUsedColumns cols es).has t c = true →
      cols.has t c = true ∨ ∃ r ∈ Expression.columnRefsList es, r.table = t ∧ r.name = c
  | [], cols, t, c, h => Or.inl (by simpa [addUsedColumns] using h)
  | e :: es, cols, t, c, h => by
    simp only [addUsedColumns] at h
    simp only [Expression.columnRefsList, List.mem_append]
    rcases addUsedColumns_has es _ t c h with h | ⟨r, hr, hx⟩
    · rcases addUsedColumnsExpr_has e cols t c h with h | ⟨r, hr, hx⟩
      · exact Or.inl h
      · exact Or.inr ⟨r, Or.inl hr, hx⟩
    · exact Or.inr ⟨r, Or.inr hr, hx⟩
end

theorem addUsedColumns_has_iff (es : List Expression) (cols : usedColumns) (t c : String) :
    (addUsedColumns cols es).has t c = true ↔
      cols.has t c = true ∨ ∃ r ∈ Expression.columnRefsList es, r.table = t ∧ r.name = c := by
  constructor
  · exact addUsedColumns_has es cols t c
  · rintro (h | ⟨r, hr, rfl, rfl⟩)
    · exact addUsedColumns_mono _ _ es cols h
    · exact addUsedColumns_refs es cols r hr

theorem addUsedProjectColumns_eq (cols : usedColumns) (ps : List Expression) :
    addUsedProjectColumns cols ps = addUsedColumns cols (ps.filter (fun e => !e.isGetField)) := by
  simp only [addUsedProjectColumns]
  rw [foldl_append_eq_filter (fun e : Expression => !e.isGetField), List.nil_append]

theorem addUsedProjectColumns_has_iff (ps : List Expression) (cols : usedColumns)
    (t c : String) :
    (addUsedProjectColumns cols ps).has t c = true ↔
      cols.has t c = true ∨
        ∃ e ∈ ps, e.isGetField = false ∧ ∃ r ∈ e.columnRefs, r.table = t ∧ r.name = c := by
  rw [addUsedProjectColumns_eq, addUsedColumns_has_iff]
  constructor
  · rintro (h | ⟨r, hr, hx⟩)
    · exact Or.inl h
    · obtain ⟨e, he, hre⟩ := (mem_columnRefsList _ r).1 hr
      have hef := List.mem_filter.1 he
      exact Or.inr ⟨e, hef.1, by simpa using hef.2, r, hre, hx⟩
  · rintro (h | ⟨e, he, hb, r, hr, hx⟩)
    · exact Or.inl h
    · exact Or.inr ⟨r, (mem_columnRefsList _ r).2
        ⟨e, List.mem_filter.2 ⟨he, by simp [hb]⟩, hr⟩, hx⟩

theorem findUsedColumnsVisit_has_iff (m : Node) (cols : usedColumns) (t c : String) :
    (findUsedColumnsVisit cols m).1.has t c = true ↔
      cols.has t c = true ∨ ∃ r ∈ m.contributions, r.table = t ∧ r.name = c := by
  cases m with
  | Project ps ch =>
    simp only [findUsedColumnsVisit, Node.contributions, ← addUsedProjectColumns_eq]
    rw [addUsedProjectColumns_eq, addUsedColumns_has_iff]
  | GroupBy sel grp ch =>
    simp only [findUsedColumnsVisit, Node.contributions]
    rw [addUsedColumns_has_iff, addUsedProjectColumns_eq, addUsedColumns_has_iff]
    simp only [List.mem_append]
    constructor
    · rintro ((h | ⟨r, hr, hx⟩) | ⟨r, hr, hx⟩)
      · exact Or.inl h
      · exact Or.inr ⟨r, Or.inl hr, hx⟩
      · exact Or.inr ⟨r, Or.inr hr, hx⟩
    · rintro (h | ⟨r, hr | hr, hx⟩)
      · exact Or.inl (Or.inl h)
      · exact Or.inl (Or.inr ⟨r, hr, hx⟩)
      · exact Or.inr ⟨r, hr, hx⟩
  | SubqueryAlias name ch => simp [findUsedColumnsVisit, Node.contributions]
  | Filter e ch | InnerJoin l r e | LeftJoin l r e | RightJoin l r e =>
    simp only [findUsedColumnsVisit, Node.contributions, Node.columnRefs, Node.Expressions]
    rw [addUsedColumns_has_iff]
  | ResolvedTable _ | UnresolvedTable _ | CrossJoin _ _ | IndexedJoin _ _ _ _ _ _
  | TableAlias _ _ | DescribeQuery _ _ | InsertInto _ _ | DecoratedNode _ _ _ =>
    simp [findUsedColumnsVisit, Node.contributions, Node.columnRefs, Node.Expressions]

theorem findUsedColumns_has_iff (n : Node) : ∀ (cols : usedColumns) (t c : String),
    (findUsedColumns cols n).has t c = true ↔
      cols.has t c = true ∨ ∃ m ∈ n.scope, ∃ r ∈ m.contributions, r.table = t ∧ r.name = c := by
  induction n with
  | ResolvedTable _ | UnresolvedTable _ =>
    intro cols t c
    simp only [findUsedColumns, Inspect, Node.scope, List.mem_singleton, exists_eq_left]
    exact findUsedColumnsVisit_has_iff _ cols t c
  | SubqueryAlias name ch _ =>
    intro cols t c
    simp [findUsedColumns, Inspect, findUsedColumnsVisit, Node.scope, Node.contributions]
  | Project _ ch ih | GroupBy _ _ ch ih | Filter _ ch ih | TableAlias _ ch ih
  | DescribeQuery _ ch ih | DecoratedNode _ _ ch ih =>
    intro cols t c
    simp only [findUsedColumns] at ih
    simp only [findUsedColumns, Inspect, Node.scope, List.mem_cons, exists_eq_or_imp]
    rw [if_pos (by rfl), ih, findUsedColumnsVisit_has_iff, or_assoc]
  | CrossJoin l r ihl ihr | InnerJoin l r _ ihl ihr | LeftJoin l r _ ihl ihr
  | RightJoin l r _ ihl ihr | IndexedJoin l r _ _ _ _ ihl ihr | InsertInto l r ihl ihr =>
    intro cols t c
    simp only [findUsedColumns] at ihl ihr
    simp only [findUsedColumns, Inspect, Node.scope, List.mem_cons, exists_eq_or_imp,
      List.mem_append, or_and_right, exists_or]
    rw [if_pos (by rfl), ihr, ihl, findUsedColumnsVisit_has_iff, or_assoc, or_assoc]
    simp only [exists_eq_left]

/-! ## Usage analysis: the rules of the scan -/

theorem findUsedColumns_hideSubqueries (n : Node) :
    ∀ (cols : usedColumns), findUsedColumns cols n.hideSubqueries = findUsedColumns cols n := by
  induction n with
  | ResolvedTable _ | UnresolvedTable _ => intro cols; rfl
  | SubqueryAlias name ch _ => intro cols; rfl
  | Project _ ch ih | GroupBy _ _ ch ih | Filter _ ch ih | TableAlias _ ch ih
  | DescribeQuery _ ch ih | DecoratedNode _ _ ch ih =>
    intro cols
    simp only [findUsedColumns] at ih
    simp only [findUsedColumns, Node.hideSubqueries, Inspect]
    rw [if_pos (by rfl), if_pos (by rfl), ih]
    rfl
  | CrossJoin l r ihl ihr | InnerJoin l r _ ihl ihr | LeftJoin l r _ ihl ihr
  | RightJoin l r _ ihl ihr | IndexedJoin l r _ _ _ _ ihl ihr | InsertInto l r ihl ihr =>
    intro cols
    simp only [findUsedColumns] at ihl ihr
    simp only [findUsedColumns, Node.hideSubqueries, Inspect]
    rw [if_pos (by rfl), if_pos (by rfl), ihr, ihl]
    rfl

/-- C18: for every `Project` that `findUsedColumns` visits, every column
reference inside a projection that is not itself a bare column reference is in
the resulting usage set; the step at the `Project` adds the references of
those projections and nothing else, the bare column references among the
projections being discarded. -/
theorem findUsedColumns_Project_rule (n : Node) (cols : usedColumns) (ps : List Expression)
    (ch : Node) (hm : Node.Project ps ch ∈ n.scope) :
    (∀ e ∈ ps, e.isGetField = false → ∀ r ∈ e.columnRefs,
      (findUsedColumns cols n).has r.table r.name = true) ∧
    (∀ start : usedColumns,
      findUsedColumnsVisit start (.Project ps ch) = (addUsedProjectColumns start ps, true) ∧
      addUsedProjectColumns start ps
        = addUsedColumns start (ps.filter (fun e => !e.isGetField)) ∧
      ∀ t c, (addUsedProjectColumns start ps).has t c = true ↔
        start.has t c = true ∨
          ∃ e ∈ ps, e.isGetField = false ∧ ∃ r ∈ e.columnRefs, r.table = t ∧ r.name = c) := by
  refine ⟨?_, fun start => ⟨rfl, addUsedProjectColumns_eq start ps,
    addUsedProjectColumns_has_iff ps start⟩⟩
  intro e he hb r hr
  rw [findUsedColumns_has_iff]
  refine Or.inr ⟨_, hm, r, ?_, rfl, rfl⟩
  simp only [Node.contributions, mem_columnRefsList]
  exact ⟨e, List.mem_filter.2 ⟨he, by simp [hb]⟩, hr⟩

/-- C18 (witness): in `aliasOverComputedProject` the inner `Project` is visited;
the reference to `i` inside its alias is added, its bare reference to `f` is
not. -/
theorem findUsedColumns_Project_rule_witness :
    Node.Project [.GetField 1 .Float64 "mytable" "f" false,
        .Alias "c" (.GetField 0 .Int32 "mytable" "i" false)] (.ResolvedTable mytable)
      ∈ aliasOverComputedProject.scope ∧
    (findUsedColumns usedColumns.empty aliasOverComputedProject).has "mytable" "i" = true ∧
    (findUsedColumns usedColumns.empty aliasOverComputedProject).has "mytable" "f" = false :=
  ⟨by simp [aliasOverComputedProject, Node.scope],
   (findUsedColumns_Project_rule aliasOverComputedProject usedColumns.empty
      [.GetField 1 .Float64 "mytable" "f" false,
        .Alias "c" (.GetField 0 .Int32 "mytable" "i" false)] (.ResolvedTable mytable)
      (by simp [aliasOverComputedProject, Node.scope])).1
      (.Alias "c" (.GetField 0 .Int32 "mytable" "i" false)) (by simp) rfl
      { index := 0, table := "mytable", name := "i" } (by simp [Expression.columnRefs]),
   by decide⟩

/-- C19: for every `GroupBy` that `findUsedColumns` visits, every column
reference of a grouping expression (a bare one included) and every column
reference inside a selected expression that is not itself a bare column
reference is in the resulting usage set; the step at the `GroupBy` adds these
references and nothing else. -/
theorem findUsedColumns_GroupBy_rule (n : Node) (cols : usedColumns)
    (sel grp : List Expression) (ch : Node) (hm : Node.GroupBy sel grp ch ∈ n.scope) :
    (∀ r ∈ Expression.columnRefsList grp,
      (findUsedColumns cols n).has r.table r.name = true) ∧
    (∀ e ∈ sel, e.isGetField = false → ∀ r ∈ e.columnRefs,
      (findUsedColumns cols n).has r.table r.name = true) ∧
    (∀ start : usedColumns,
      findUsedColumnsVisit start (.GroupBy sel grp ch)
        = (addUsedColumns (addUsedProjectColumns start sel) grp, true) ∧
      ∀ t c, (addUsedColumns (addUsedProjectColumns start sel) grp).has t c = true ↔
        start.has t c = true ∨
          (∃ e ∈ sel, e.isGetField = false ∧ ∃ r ∈ e.columnRefs, r.table = t ∧ r.name = c) ∨
          (∃ r ∈ Expression.columnRefsList grp, r.table = t ∧ r.name = c)) := by
  refine ⟨?_, ?_, fun start => ⟨rfl, fun t c => ?_⟩⟩
  · intro r hr
    rw [findUsedColumns_has_iff]
    refine Or.inr ⟨_, hm, r, ?_, rfl, rfl⟩
    simp only [Node.contributions, List.mem_append]
    exact Or.inr hr
  · intro e he hb r hr
    rw [findUsedColumns_has_iff]
    refine Or.inr ⟨_, hm, r, ?_, rfl, rfl⟩
    simp only [Node.contributions, List.mem_append, mem_columnRefsList]
    exact Or.inl ⟨e, List.mem_filter.2 ⟨he, by simp [hb]⟩, hr⟩
  · rw [addUsedColumns_has_iff, addUsedProjectColumns_has_iff, or_assoc]

/-- C19 (witness): in `groupByPlan` the bare grouping reference to `f` and the
reference to `i` inside the count are added. -/
theorem findUsedColumns_GroupBy_rule_witness :
    groupByPlan ∈ groupByPlan.scope ∧
    (findUsedColumns usedColumns.empty groupByPlan).has "mytable" "f" = true ∧
    (findUsedColumns usedColumns.empty groupByPlan).has "mytable" "i" = true :=
  ⟨by simp [groupByPlan, Node.scope],
   (findUsedColumns_GroupBy_rule groupByPlan usedColumns.empty
      [.GetField 1 .Float64 "mytable" "f" false,
        .Unary (.Aggregate "COUNT") (.GetField 0 .Int32 "mytable" "i" false)]
      [.GetField 1 .Float64 "mytable" "f" false] (.ResolvedTable mytable)
      (by simp [groupByPlan, Node.scope])).1
      { index := 1, table := "mytable", name := "f" }
      (by simp [Expression.columnRefsList, Expression.columnRefs]),
   by decide⟩

/-- C20: `findUsedColumns` does not descend into a `SubqueryAlias`: on a plan
whose root is a `SubqueryAlias` it returns the usage set unchanged, its result
is the same when the child of every subquery alias it reaches is replaced by an
empty leaf, and a pair is in the resulting set only if it was in the initial
set or is contributed by a node reached without entering a subquery alias. -/
theorem findUsedColumns_subquery_boundary (n : Node) (cols : usedColumns) :
    (∀ name child, findUsedColumns cols (.SubqueryAlias name child) = cols) ∧
    findUsedColumns cols n.hideSubqueries = findUsedColumns cols n ∧
    (∀ t c, cols.has t c = false →
      (∀ m ∈ n.scope, ∀ r ∈ m.contributions, ¬ (r.table = t ∧ r.name = c)) →
      (findUsedColumns cols n).has t c = false) := by
  refine ⟨fun _ _ => rfl, findUsedColumns_hideSubqueries n cols, ?_⟩
  intro t c hc hnone
  cases h : (findUsedColumns cols n).has t c with
  | false => rfl
  | true =>
    rcases (findUsedColumns_has_iff n cols t c).1 h with h1 | ⟨m, hm, r, hr, hx⟩
    · rw [hc] at h1
      cases h1
    · exact absurd hx (hnone m hm r hr)

/-! ## Index recomputation: offsets -/

theorem index_eq_of_nodup_map {α β : Type} (f : α → β) (l : List α) (hn : (l.map f).Nodup)
    (i j : Nat) (a b : α) (hi : l[i]? = some a) (hj : l[j]? = some b) (hab : f a = f b) :
    i = j := by
  obtain ⟨hil, hia⟩ := List.getElem?_eq_some_iff.1 hi
  obtain ⟨hjl, hjb⟩ := List.getElem?_eq_some_iff.1 hj
  have hil1 : i < (l.map f).length := by simpa using hil
  have hjl1 : j < (l.map f).length := by simpa using hjl
  have : (l.map f)[i] = (l.map f)[j] := by
    simp only [List.getElem_map, hia, hjb, hab]
  exact (hn.getElem_inj_iff).1 this

theorem offset_of_valid (schema : Schema) (hn : (schemaPairs schema).Nodup) (r : ColumnRef)
    (hv : r.ValidIn schema) (j : Nat) (col : Column) (hj : schema[j]? = some col)
    (hs : col.Source = r.table) (hc : col.Name = r.name) : r.index = j := by
  obtain ⟨col0, h0, hs0, hc0⟩ := hv
  exact index_eq_of_nodup_map (fun col : Column => (col.Source, col.Name)) schema hn _ _ _ _ h0 hj
    (by simp [hs0, hc0, hs, hc])

/-- C11: when `fixRemainingFieldsIndexes` succeeds, at every node of the result
whose concatenated child schema has pairwise distinct `(source, name)` pairs,
every column reference carries exactly the offset of its pair in that schema;
when the schema is the concatenation `left ++ right`, a reference to the column
at position `j` of `right` carries `left.length + j`. -/
theorem fixRemainingFieldsIndexes_offsets (n n1 : Node)
    (h : fixRemainingFieldsIndexes n = .ok n1) :
    ∀ m ∈ n1.subtrees, (schemaPairs (childSchema m)).Nodup → ∀ r ∈ m.columnRefs,
      (∀ j col, (childSchema m)[j]? = some col → col.Source = r.table → col.Name = r.name →
        r.index = j) ∧
      (∀ left right, childSchema m = left ++ right →
        ∀ j col, right[j]? = some col → col.Source = r.table → col.Name = r.name →
          r.index = left.length + j) := by
  intro m hm hn r hr
  have hvalid := ((fixRemainingFieldsIndexes_spec n).1 n1 h).2.1 m hm
  have hfirst : ∀ j col, (childSchema m)[j]? = some col → col.Source = r.table →
      col.Name = r.name → r.index = j := by
    intro j col hj hs hc
    have hne : childSchema m ≠ [] := by
      intro hnil
      rw [hnil] at hj
      simp at hj
    exact offset_of_valid _ hn r (hvalid hne r hr) j col hj hs hc
  refine ⟨hfirst, ?_⟩
  intro left right hlr j col hj hs hc
  apply hfirst (left.length + j) col _ hs hc
  rw [hlr, List.getElem?_append_right (Nat.le_add_right _ _)]
  simpa using hj

/-- C11 (witness): on the plan of the test the reference of the filter to
`mytable.f` gets 0, its reference to `mytable2.i2` gets 2 and the reference of
the `Project` to `mytable2.t2` gets 1, whatever index they carried. -/
theorem fixRemainingFieldsIndexes_offsets_witness :
    fixRemainingFieldsIndexes projectedJoinPlan = .ok projectedJoinPlanRebound ∧
    ∀ m ∈ projectedJoinPlanRebound.subtrees, (schemaPairs (childSchema m)).Nodup →
      ∀ r ∈ m.columnRefs,
        (∀ j col, (childSchema m)[j]? = some col → col.Source = r.table →
          col.Name = r.name → r.index = j) ∧
        (∀ left right, childSchema m = left ++ right →
          ∀ j col, right[j]? = some col → col.Source = r.table → col.Name = r.name →
            r.index = left.length + j) :=
  ⟨rfl, fixRemainingFieldsIndexes_offsets projectedJoinPlan projectedJoinPlanRebound rfl⟩

/-! ## Index recomputation across subquery aliases -/

theorem childSchema_eq_flatMap (m : Node) : childSchema m = m.Children.flatMap Node.Schema := by
  cases m <;> simp [childSchema, Node.Children]

theorem mem_childSchema_of_child (m k : Node) (hk : k ∈ m.Children) (col : Column)
    (hc : col ∈ k.Schema) : col ∈ childSchema m := by
  rw [childSchema_eq_flatMap, List.mem_flatMap]
  exact ⟨k, hk, hc⟩

theorem mem_subtrees_of_child (m k x : Node) (hk : k ∈ m.Children) (hx : x ∈ k.subtrees) :
    x ∈ m.subtrees := by
  rw [Node.subtrees_eq]
  exact List.mem_cons_of_mem _ (List.mem_flatMap.2 ⟨k, hk, hx⟩)

theorem fixNodeIndexes_subquery_step (orig rebuilt n1 : Node)
    (hnot : ∀ name c, orig ≠ .SubqueryAlias name c)
    (hfix : fixNodeIndexes rebuilt = .ok n1)
    (hkids : ∀ name c, (∃ k ∈ orig.Children, Node.SubqueryAlias name c ∈ k.subtrees) →
      ∃ c1, fixRemainingFieldsIndexes c = .ok c1 ∧
        ∃ k1 ∈ rebuilt.Children, Node.SubqueryAlias name c1 ∈ k1.subtrees) :
    ∀ name c, Node.SubqueryAlias name c ∈ orig.subtrees →
      ∃ c1, fixRemainingFieldsIndexes c = .ok c1 ∧ Node.SubqueryAlias name c1 ∈ n1.subtrees := by
  intro name c hmem
  rw [Node.subtrees_eq] at hmem
  rcases List.mem_cons.1 hmem with heq | hmem
  · exact absurd heq.symm (hnot name c)
  · obtain ⟨k, hk, hx⟩ := List.mem_flatMap.1 hmem
    obtain ⟨c1, hc1, k1, hk1, hx1⟩ := hkids name c ⟨k, hk, hx⟩
    refine ⟨c1, hc1, mem_subtrees_of_child n1 k1 _ ?_ hx1⟩
    rw [(fixNodeIndexes_ok rebuilt n1 hfix).2.1]
    exact hk1

theorem fixRemainingFieldsIndexes_subqueries (n : Node) :
    ∀ n1, fixRemainingFieldsIndexes n = .ok n1 →
      ∀ name c, Node.SubqueryAlias name c ∈ n.subtrees →
        ∃ c1, fixRemainingFieldsIndexes c = .ok c1 ∧
          Node.SubqueryAlias name c1 ∈ n1.subtrees := by
  induction n with
  | ResolvedTable _ | UnresolvedTable _ =>
    intro n1 h
    simp only [fixRemainingFieldsIndexes] at h
    refine fixNodeIndexes_subquery_step _ _ n1 (by intro a b hh; cases hh) h ?_
    rintro name c ⟨k, hk, _⟩
    simp [Node.Children] at hk
  | SubqueryAlias name0 c0 ih =>
    intro n1 h name c hmem
    simp only [fixRemainingFieldsIndexes] at h
    cases hc : fixRemainingFieldsIndexes c0 with
    | error err => simp [hc] at h
    | ok c01 =>
      simp only [hc, Except.ok.injEq] at h
      subst h
      simp only [Node.subtrees, List.mem_cons] at hmem
      rcases hmem with heq | hmem
      · cases heq
        exact ⟨c01, hc, by simp [Node.subtrees]⟩
      · obtain ⟨c1, hc1, hx⟩ := ih c01 hc name c hmem
        exact ⟨c1, hc1, by simp [Node.subtrees, hx]⟩
  | Project _ ch ih | GroupBy _ _ ch ih | Filter _ ch ih | TableAlias _ ch ih
  | DescribeQuery _ ch ih | DecoratedNode _ _ ch ih =>
    intro n1 h
    simp only [fixRemainingFieldsIndexes] at h
    cases hc : fixRemainingFieldsIndexes ch with
    | error err => simp [hc] at h
    | ok ch1 =>
      simp only [hc] at h
      refine fixNodeIndexes_subquery_step _ _ n1 (by intro a b hh; cases hh) h ?_
      rintro name c ⟨k, hk, hx⟩
      simp only [Node.Children, List.mem_singleton] at hk
      subst hk
      obtain ⟨c1, hc1, hx1⟩ := ih ch1 hc name c hx
      exact ⟨c1, hc1, ch1, by simp [Node.Children], hx1⟩
  | CrossJoin l r ihl ihr | InnerJoin l r _ ihl ihr | LeftJoin l r _ ihl ihr
  | RightJoin l r _ ihl ihr | IndexedJoin l r _ _ _ _ ihl ihr | InsertInto l r ihl ihr =>
    intro n1 h
    simp only [fixRemainingFieldsIndexes] at h
    cases hl : fixRemainingFieldsIndexes l with
    | error err => simp [hl] at h
    | ok l1 =>
      cases hr : fixRemainingFieldsIndexes r with
      | error err => simp [hl, hr] at h
      | ok r1 =>
        simp only [hl, hr] at h
        refine fixNodeIndexes_subquery_step _ _ n1 (by intro a b hh; cases hh) h ?_
        rintro name c ⟨k, hk, hx⟩
        simp only [Node.Children, List.mem_cons, List.mem_singleton, List.not_mem_nil,
          or_false] at hk
        rcases hk with rfl | rfl
        · obtain ⟨c1, hc1, hx1⟩ := ihl l1 hl name c hx
          exact ⟨c1, hc1, l1, by simp [Node.Children], hx1⟩
        · obtain ⟨c1, hc1, hx1⟩ := ihr r1 hr name c hx
          exact ⟨c1, hc1, r1, by simp [Node.Children], hx1⟩

/-- C12: when `fixRemainingFieldsIndexes` succeeds on a plan, every
`SubqueryAlias(name, child)` of the plan appears in the result with the same
name and with `child` replaced by the result of `fixRemainingFieldsIndexes` on
`child`, inside which every reference is valid in the concatenated schema of
the children of its node; and in the result the parent of an alias binds its references against
the schema of the alias, in which every column has the alias name as its
source: a reference of the parent to a column of the alias carries an offset at
which the concatenated child schema has a column with that source and name. -/
theorem fixRemainingFieldsIndexes_across_subquery (n n1 : Node)
    (h : fixRemainingFieldsIndexes n = .ok n1) :
    (∀ name child, Node.SubqueryAlias name child ∈ n.subtrees →
      ∃ c1, fixRemainingFieldsIndexes child = .ok c1 ∧
        fixRemainingFieldsIndexes (.SubqueryAlias name child) = .ok (.SubqueryAlias name c1) ∧
        Node.SubqueryAlias name c1 ∈ n1.subtrees ∧ (∀ m ∈ c1.subtrees, m.RefsValid)) ∧
    (∀ m ∈ n1.subtrees, ∀ name c1, Node.SubqueryAlias name c1 ∈ m.Children →
      (∀ col ∈ (Node.SubqueryAlias name c1).Schema, col.Source = name ∧ col ∈ childSchema m) ∧
      ∀ r ∈ m.columnRefs, r.table = name → (∃ col ∈ c1.Schema, col.Name = r.name) →
        ∃ col, (childSchema m)[r.index]? = some col ∧ col.Source = name ∧
          col.Name = r.name) := by
  constructor
  · intro name child hmem
    obtain ⟨c1, hc1, hx⟩ := fixRemainingFieldsIndexes_subqueries n n1 h name child hmem
    exact ⟨c1, hc1, by simp only [fixRemainingFieldsIndexes, hc1], hx,
      ((fixRemainingFieldsIndexes_spec child).1 c1 hc1).2.1⟩
  · intro m hm name c1 hch
    constructor
    · intro col hcol
      refine ⟨?_, mem_childSchema_of_child m _ hch col hcol⟩
      simp only [Node.Schema, renameSource, List.mem_map] at hcol
      obtain ⟨col0, _, rfl⟩ := hcol
      rfl
    · intro r hr ht ⟨col0, hcol0, _⟩
      have hne : childSchema m ≠ [] := by
        intro hnil
        have := mem_childSchema_of_child m _ hch { col0 with Source := name }
          (by simp only [Node.Schema, renameSource, List.mem_map]; exact ⟨col0, hcol0, rfl⟩)
        rw [hnil] at this
        cases this
      obtain ⟨col, hcol, hs, hc⟩ := ((fixRemainingFieldsIndexes_spec n).1 n1 h).2.1 m hm hne r hr
      exact ⟨col, hcol, hs.trans ht, hc⟩

/-- C12 (witness): in `stalePlan` the child of the alias `s` is replaced by its
recomputation, and the `Filter` above binds its reference to `s.f`. -/
theorem fixRemainingFieldsIndexes_across_subquery_witness :
    fixRemainingFieldsIndexes stalePlan = .ok reboundPlan ∧
    (∀ name child, Node.SubqueryAlias name child ∈ stalePlan.subtrees →
      ∃ c1, fixRemainingFieldsIndexes child = .ok c1 ∧
        fixRemainingFieldsIndexes (.SubqueryAlias name child) = .ok (.SubqueryAlias name c1) ∧
        Node.SubqueryAlias name c1 ∈ reboundPlan.subtrees ∧ (∀ m ∈ c1.subtrees, m.RefsValid)) :=
  ⟨rfl, (fixRemainingFieldsIndexes_across_subquery stalePlan reboundPlan rfl).1⟩

/-! ## Translation of the usage set at a subquery alias -/

theorem pruneSubqueryColumns_ok_inv (name : String) (child result : Node)
    (parentColumns : usedColumns)
    (h : pruneSubqueryColumns name child parentColumns = .ok result) :
    ∃ translated node node1,
      translateColumns (tableByCol child.Schema) name (parentColumns.columnsOf name)
        usedColumns.empty = .ok translated ∧
      pruneUnusedColumns child (findUsedColumns translated child) = .ok node ∧
      pruneSubqueries node (findUsedColumns translated child) = .ok node1 ∧
      result = .SubqueryAlias name node1 := by
  rw [pruneSubqueryColumns_eq] at h
  cases h1 : translateColumns (tableByCol child.Schema) name (parentColumns.columnsOf name)
      usedColumns.empty with
  | error err => simp [h1] at h
  | ok translated =>
    cases h2 : pruneUnusedColumns child (findUsedColumns translated child) with
    | error err => simp [h1, h2] at h
    | ok node =>
      cases h3 : pruneSubqueries node (findUsedColumns translated child) with
      | error err => simp [h1, h2, h3] at h
      | ok node1 =>
        simp only [h1, h2, h3, Except.ok.injEq] at h
        exact ⟨translated, node, node1, rfl, h2, h3, h.symm⟩

theorem pruneSubqueryColumns_twoColumnProject :
    pruneSubqueryColumns "s" twoColumnProject { entries := [("s", "f")] } =
      .ok (.SubqueryAlias "s" oneColumnProject) :=
  pruneSubqueryColumns_eval "s" twoColumnProject oneColumnProject oneColumnProject
    { entries := [("s", "f")] } { entries := [("mytable", "f")] } rfl rfl
    (by simp [pruneSubqueries, oneColumnProject])

theorem pruneProject_keeps (e : Expression) (ps : List Expression) (child : Node)
    (cols : usedColumns) (hmem : e ∈ ps) (hkeep : shouldPruneExpr e cols = false) :
    ∃ remaining, pruneProject ps child cols = .Project remaining child ∧ e ∈ remaining := by
  have hin : e ∈ ps.filter (fun e => !shouldPruneExpr e cols) :=
    List.mem_filter.2 ⟨hmem, by simp [hkeep]⟩
  refine ⟨_, ?_, hin⟩
  rw [pruneProject_eq_filter, if_neg]
  intro h0
  rw [List.length_eq_zero] at h0
  rw [h0] at hin
  cases hin

theorem pruneGroupBy_keeps (e : Expression) (sel grp : List Expression) (child : Node)
    (cols : usedColumns) (hmem : e ∈ sel) (hkeep : shouldPruneExpr e cols = false) :
    ∃ remaining, pruneGroupBy sel grp child cols = .GroupBy remaining grp child ∧
      e ∈ remaining := by
  have hin : e ∈ sel.filter (fun e => !shouldPruneExpr e cols) :=
    List.mem_filter.2 ⟨hmem, by simp [hkeep]⟩
  refine ⟨_, ?_, hin⟩
  rw [pruneGroupBy_eq_filter, if_neg]
  intro h0
  rw [List.length_eq_zero] at h0
  rw [h0] at hin
  cases hin

/-- C13: when `pruneSubqueryColumns` succeeds on `SubqueryAlias(name, child)`
with the parent usage set `P`, the child is pruned (by `pruneUnusedColumns`,
then `pruneSubqueries`) with one usage set `cols`, and for every column name
`c` of `P[name]` this set holds `(s, c)`, where `s` is the source that the
schema of `child` gives for the column named `c`; hence a bare projection of
`(s, c)` is not pruned: `shouldPruneExpr` answers false for it, and
`pruneProject` and `pruneGroupBy` keep it in the node they return. -/
theorem pruneSubqueryColumns_translation (name : String) (child result : Node)
    (P : usedColumns) (h : pruneSubqueryColumns name child P = .ok result) :
    ∃ cols node node1,
      pruneUnusedColumns child cols = .ok node ∧ pruneSubqueries node cols = .ok node1 ∧
      result = .SubqueryAlias name node1 ∧
      ∀ c, P.has name c = true →
        ∃ s, tableByCol child.Schema c = some s ∧
          (∃ col ∈ child.Schema, col.Name = c ∧ col.Source = s) ∧
          cols.has s c = true ∧
          ∀ i t nullable,
            shouldPruneExpr (.GetField i t s c nullable) cols = false ∧
            (∀ ps ch, .GetField i t s c nullable ∈ ps →
              ∃ remaining, pruneProject ps ch cols = .Project remaining ch ∧
                .GetField i t s c nullable ∈ remaining) ∧
            (∀ sel grp ch, .GetField i t s c nullable ∈ sel →
              ∃ remaining, pruneGroupBy sel grp ch cols = .GroupBy remaining grp ch ∧
                .GetField i t s c nullable ∈ remaining) := by
  obtain ⟨translated, node, node1, h1, h2, h3, hres⟩ :=
    pruneSubqueryColumns_ok_inv name child result P h
  refine ⟨findUsedColumns translated child, node, node1, h2, h3, hres, ?_⟩
  intro c hc
  obtain ⟨s, hs, hhas⟩ := (translateColumns_ok _ _ _ _ _ h1).2 c
    ((usedColumns.mem_columnsOf P name c).2 hc)
  have hcols : (findUsedColumns translated child).has s c = true :=
    findUsedColumns_mono s c child translated hhas
  have hkeep : ∀ i t nullable,
      shouldPruneExpr (.GetField i t s c nullable) (findUsedColumns translated child)
        = false := by
    intro i t nullable
    simp [shouldPruneExpr, hcols]
  refine ⟨s, hs, tableByCol_eq_some _ _ _ hs, hcols, ?_⟩
  intro i t nullable
  exact ⟨hkeep i t nullable,
    fun ps ch hmem => pruneProject_keeps _ ps ch _ hmem (hkeep i t nullable),
    fun sel grp ch hmem => pruneGroupBy_keeps _ sel grp ch _ hmem (hkeep i t nullable)⟩

/-- C13 (witness): the alias `s` over `twoColumnProject`, of which the parent
uses the column `f`: the child is pruned with a set that holds
`(mytable, f)`. -/
theorem pruneSubqueryColumns_translation_witness :
    pruneSubqueryColumns "s" twoColumnProject { entries := [("s", "f")] } =
      .ok (.SubqueryAlias "s" oneColumnProject) ∧
    ∃ cols node node1,
      pruneUnusedColumns twoColumnProject cols = .ok node ∧
      pruneSubqueries node cols = .ok node1 ∧
      Node.SubqueryAlias "s" oneColumnProject = .SubqueryAlias "s" node1 ∧
      ∀ c, usedColumns.has { entries := [("s", "f")] } "s" c = true →
        ∃ s, tableByCol twoColumnProject.Schema c = some s ∧
          (∃ col ∈ twoColumnProject.Schema, col.Name = c ∧ col.Source = s) ∧
          cols.has s c = true ∧
          ∀ i t nullable,
            shouldPruneExpr (.GetField i t s c nullable) cols = false ∧
            (∀ ps ch, .GetField i t s c nullable ∈ ps →
              ∃ remaining, pruneProject ps ch cols = .Project remaining ch ∧
                .GetField i t s c nullable ∈ remaining) ∧
            (∀ sel grp ch, .GetField i t s c nullable ∈ sel →
              ∃ remaining, pruneGroupBy sel grp ch cols = .GroupBy remaining grp ch ∧
                .GetField i t s c nullable ∈ remaining) :=
  ⟨pruneSubqueryColumns_twoColumnProject,
   pruneSubqueryColumns_translation "s" twoColumnProject _ { entries := [("s", "f")] }
     pruneSubqueryColumns_twoColumnProject⟩

/-! ## The invariant-violation error of a subquery alias -/

theorem pruneProject_NoSubqueryAlias (ps : List Expression) (c : Node) (cols : usedColumns)
    (h : c.NoSubqueryAlias) : (pruneProject ps c cols).NoSubqueryAlias := by
  rw [pruneProject_eq_filter]
  split
  · exact h
  · exact h

theorem pruneGroupBy_NoSubqueryAlias (sel grp : List Expression) (c : Node)
    (cols : usedColumns) (h : c.NoSubqueryAlias) :
    (pruneGroupBy sel grp c cols).NoSubqueryAlias := by
  rw [pruneGroupBy_eq_filter]
  split
  · exact h
  · exact h

theorem pruneUnusedColumns_NoSubqueryAlias (cols : usedColumns) (n : Node) :
    ∀ n1, n.NoSubqueryAlias → pruneUnusedColumns n cols = .ok n1 → n1.NoSubqueryAlias := by
  induction n with
  | ResolvedTable _ | UnresolvedTable _ =>
    intro n1 hn h
    simp only [pruneUnusedColumns, TransformUp, pruneUnusedColumnsVisit, Except.ok.injEq] at h
    subst h
    exact hn
  | SubqueryAlias _ _ _ =>
    intro n1 hn
    exact absurd hn (by simp [Node.NoSubqueryAlias])
  | Project _ c ih | GroupBy _ _ c ih | Filter _ c ih | TableAlias _ c ih
  | DescribeQuery _ c ih | DecoratedNode _ _ c ih =>
    intro n1 hn h
    simp only [Node.NoSubqueryAlias] at hn
    simp only [pruneUnusedColumns, TransformUp] at h
    cases hc : TransformUp (pruneUnusedColumnsVisit cols) c with
    | error err => simp [hc] at h
    | ok c1 =>
      have hc1 := ih c1 hn (by simpa only [pruneUnusedColumns] using hc)
      simp only [hc, pruneUnusedColumnsVisit, Except.ok.injEq] at h
      subst h
      first
        | exact pruneProject_NoSubqueryAlias _ _ _ hc1
        | exact pruneGroupBy_NoSubqueryAlias _ _ _ _ hc1
        | exact hc1
  | CrossJoin l r ihl ihr | InnerJoin l r _ ihl ihr | LeftJoin l r _ ihl ihr
  | RightJoin l r _ ihl ihr | IndexedJoin l r _ _ _ _ ihl ihr | InsertInto l r ihl ihr =>
    intro n1 hn h
    simp only [Node.NoSubqueryAlias] at hn
    simp only [pruneUnusedColumns, TransformUp] at h
    cases hl : TransformUp (pruneUnusedColumnsVisit cols) l with
    | error err => simp [hl] at h
    | ok l1 =>
      cases hr : TransformUp (pruneUnusedColumnsVisit cols) r with
      | error err => simp [hl, hr] at h
      | ok r1 =>
        have hl1 := ihl l1 hn.1 (by simpa only [pruneUnusedColumns] using hl)
        have hr1 := ihr r1 hn.2 (by simpa only [pruneUnusedColumns] using hr)
        simp only [hl, hr, pruneUnusedColumnsVisit, Except.ok.injEq] at h
        subst h
        exact ⟨hl1, hr1⟩

theorem pruneSubqueries_of_NoSubqueryAlias (cols : usedColumns) (n : Node)
    (h : n.NoSubqueryAlias) : pruneSubqueries n cols = .ok n := by
  induction n with
  | ResolvedTable _ | UnresolvedTable _ => simp only [pruneSubqueries]
  | SubqueryAlias _ _ _ => exact absurd h (by simp [Node.NoSubqueryAlias])
  | Project _ c ih | GroupBy _ _ c ih | Filter _ c ih | TableAlias _ c ih
  | DescribeQuery _ c ih | DecoratedNode _ _ c ih =>
    simp only [Node.NoSubqueryAlias] at h
    rw [pruneSubqueries, ih h]
  | CrossJoin l r ihl ihr | InnerJoin l r _ ihl ihr | LeftJoin l r _ ihl ihr
  | RightJoin l r _ ihl ihr | IndexedJoin l r _ _ _ _ ihl ihr | InsertInto l r ihl ihr =>
    simp only [Node.NoSubqueryAlias] at h
    rw [pruneSubqueries, ihl h.1, ihr h.2]

theorem tableByCol_eq_none_iff (schema : Schema) (k : String) :
    tableByCol schema k = none ↔ ∀ col ∈ schema, col.Name ≠ k := by
  constructor
  · intro h col hcol hname
    rcases foldl_tableByCol schema (fun _ => none) k with ⟨c, _, _, hc⟩ | ⟨hall, _⟩
    · simp only [tableByCol] at h
      rw [h] at hc
      cases hc
    · exact hall col hcol hname
  · intro hall
    rcases foldl_tableByCol schema (fun _ => none) k with ⟨c, hc, hn, _⟩ | ⟨_, hnone⟩
    · exact absurd hn (hall c hc)
    · simpa only [tableByCol] using hnone

theorem translateColumns_fails (byCol : String → Option String) (subquery : String) :
    ∀ (l : List String) (init : usedColumns), (∃ col ∈ l, byCol col = none) →
      ∃ err, translateColumns byCol subquery l init = .error err := by
  intro l
  induction l with
  | nil =>
    rintro init ⟨col, hcol, _⟩
    cases hcol
  | cons c rest ih =>
    rintro init ⟨col, hcol, hnone⟩
    cases hb : byCol c with
    | none => exact ⟨_, by simp only [translateColumns, hb]; rfl⟩
    | some table =>
      rcases List.mem_cons.1 hcol with rfl | hmem
      · rw [hb] at hnone
        cases hnone
      · obtain ⟨err, herr⟩ := ih (init.add table c) ⟨col, hmem, hnone⟩
        exact ⟨err, by simp only [translateColumns, hb, herr]⟩

theorem pruneSubqueryColumns_error_of_missing (name : String) (child : Node)
    (P : usedColumns) (c : String) (hc : P.has name c = true)
    (hmiss : ∀ col ∈ child.Schema, col.Name ≠ c) :
    ∃ err, pruneSubqueryColumns name child P = .error err := by
  obtain ⟨err, herr⟩ := translateColumns_fails (tableByCol child.Schema) name
    (P.columnsOf name) usedColumns.empty
    ⟨c, (usedColumns.mem_columnsOf P name c).2 hc, (tableByCol_eq_none_iff _ _).2 hmiss⟩
  exact ⟨err, pruneSubqueryColumns_eval_error name child P err herr⟩

theorem pruneSubqueryColumns_error_inv (name : String) (child : Node) (P : usedColumns)
    (hchild : child.NoSubqueryAlias) (err : AnalyzerError)
    (h : pruneSubqueryColumns name child P = .error err) :
    ∃ c, P.has name c = true ∧ (∀ col ∈ child.Schema, col.Name ≠ c) ∧
      err = .MissingProjectedColumn c name := by
  rw [pruneSubqueryColumns_eq] at h
  cases h1 : translateColumns (tableByCol child.Schema) name (P.columnsOf name)
      usedColumns.empty with
  | error err1 =>
    simp only [h1, Except.error.injEq] at h
    subst h
    obtain ⟨c, hc, hnone, rfl⟩ := translateColumns_error _ _ _ _ _ h1
    exact ⟨c, (usedColumns.mem_columnsOf P name c).1 hc,
      (tableByCol_eq_none_iff _ _).1 hnone, rfl⟩
  | ok translated =>
    obtain ⟨node, h2⟩ := pruneUnusedColumns_ok (findUsedColumns translated child) child
    have h3 := pruneSubqueries_of_NoSubqueryAlias (findUsedColumns translated child) node
      (pruneUnusedColumns_NoSubqueryAlias _ child node hchild h2)
    simp [h1, h2, h3] at h

theorem quoteChar_of_plain (lib : QuoteTables) (ch : Char)
    (h : 32 ≤ ch.toNat ∧ ch.toNat < 127 ∧ ch.toNat ≠ 34 ∧ ch.toNat ≠ 92) :
    quoteChar lib ch = [ch] := by
  unfold quoteChar
  rw [if_neg (by omega), if_pos ⟨h.1, h.2.1⟩]

theorem flatMap_quoteChar_of_plain (lib : QuoteTables) (l : List Char)
    (h : ∀ ch ∈ l, 32 ≤ ch.toNat ∧ ch.toNat < 127 ∧ ch.toNat ≠ 34 ∧ ch.toNat ≠ 92) :
    l.flatMap (quoteChar lib) = l := by
  induction l with
  | nil => rfl
  | cons c cs ih =>
    simp only [List.flatMap_cons, quoteChar_of_plain lib c (h c (List.mem_cons_self _ _)),
      ih (fun ch hch => h ch (List.mem_cons_of_mem _ hch))]
    rfl

theorem quoted_of_plain (lib : QuoteTables) (s : String) (h : plainName s) :
    quoted lib s = "\"" ++ s ++ "\"" := by
  cases s with
  | mk l =>
    simp only [quoted, flatMap_quoteChar_of_plain lib l h]
    rfl

/-- C14: for a `SubqueryAlias(name, child)` whose child contains no
`SubqueryAlias` and every parent usage set `P`, `pruneSubqueryColumns` fails if
and only if some column name of `P[name]` is the name of no column of the
schema of `child`; when it fails no plan is returned, and the error is the one
formatted with such a column name and the alias name, whose message is
"this is likely a bug: missing projected column", the column name as `%q`
writes it, "on subquery" and the alias name as `%q` writes it; for names made
of printable ASCII characters other than the double quote and the backslash
these are the names themselves between double quotes. -/
theorem pruneSubqueryColumns_invariant_violation (name : String) (child : Node)
    (P : usedColumns) (hchild : child.NoSubqueryAlias) :
    ((∃ err, pruneSubqueryColumns name child P = .error err) ↔
      ∃ c, P.has name c = true ∧ ∀ col ∈ child.Schema, col.Name ≠ c) ∧
    (∀ err, pruneSubqueryColumns name child P = .error err →
      (∀ result, pruneSubqueryColumns name child P ≠ .ok result) ∧
      ∃ c, P.has name c = true ∧ (∀ col ∈ child.Schema, col.Name ≠ c) ∧
        err = .MissingProjectedColumn c name ∧
        (∀ lib, err.message lib =
          some ("this is likely a bug: missing projected column " ++ quoted lib c ++
            " on subquery " ++ quoted lib name)) ∧
        (plainName c → plainName name → ∀ lib, err.message lib =
          some ("this is likely a bug: missing projected column " ++
            ("\"" ++ c ++ "\"") ++ " on subquery " ++ ("\"" ++ name ++ "\"")))) := by
  refine ⟨⟨?_, ?_⟩, ?_⟩
  · rintro ⟨err, h⟩
    obtain ⟨c, hc, hmiss, _⟩ := pruneSubqueryColumns_error_inv name child P hchild err h
    exact ⟨c, hc, hmiss⟩
  · rintro ⟨c, hc, hmiss⟩
    exact pruneSubqueryColumns_error_of_missing name child P c hc hmiss
  · intro err h
    refine ⟨fun result hres => ?_, ?_⟩
    · rw [h] at hres
      cases hres
    · obtain ⟨c, hc, hmiss, rfl⟩ := pruneSubqueryColumns_error_inv name child P hchild err h
      refine ⟨c, hc, hmiss, rfl, fun lib => rfl, fun hpc hpn lib => ?_⟩
      simp only [AnalyzerError.message, quoted_of_plain lib c hpc,
        quoted_of_plain lib name hpn]

/-- C14 (witness): the parent uses the column `z` of the alias `s`, whose child
`twoColumnProject` has the columns `f` and `i` only; a column name with a double
quote in it is written with the backslash of `%q`. -/
theorem pruneSubqueryColumns_invariant_violation_witness :
    twoColumnProject.NoSubqueryAlias ∧
    pruneSubqueryColumns "s" twoColumnProject { entries := [("s", "z")] } =
      .error (.MissingProjectedColumn "z" "s") ∧
    (∀ lib, (AnalyzerError.MissingProjectedColumn "z" "s").message lib =
      some "this is likely a bug: missing projected column \"z\" on subquery \"s\"") ∧
    (∀ lib, (AnalyzerError.MissingProjectedColumn "a\"b" "s").message lib =
      some "this is likely a bug: missing projected column \"a\\\"b\" on subquery \"s\"") ∧
    ((∃ err, pruneSubqueryColumns "s" twoColumnProject { entries := [("s", "z")] }
        = .error err) ↔
      ∃ c, usedColumns.has { entries := [("s", "z")] } "s" c = true ∧
        ∀ col ∈ twoColumnProject.Schema, col.Name ≠ c) :=
  ⟨by simp [twoColumnProject, Node.NoSubqueryAlias],
   pruneSubqueryColumns_eval_error "s" twoColumnProject _ _ rfl,
   fun _ => rfl, fun _ => rfl,
   (pruneSubqueryColumns_invariant_violation "s" twoColumnProject { entries := [("s", "z")] }
     (by simp [twoColumnProject, Node.NoSubqueryAlias])).1⟩

/-! ## Indexes inside a pruned subquery alias -/

theorem columnRefsList_of_sublist (es es0 : List Expression) (h : es.Sublist es0) :
    ∀ r ∈ Expression.columnRefsList es, r ∈ Expression.columnRefsList es0 := by
  intro r hr
  obtain ⟨e, he, hre⟩ := (mem_columnRefsList es r).1 hr
  exact (mem_columnRefsList es0 r).2 ⟨e, h.subset he, hre⟩

theorem KeepsExpressionsOf_of_eq (m m0 : Node) (h : m.heldExpressions = m0.heldExpressions) :
    m.KeepsExpressionsOf m0 := by
  simp only [Node.KeepsExpressionsOf, h, List.Sublist.refl]

theorem prune_keeps_expressions (n : Node) :
    ∀ (cols : usedColumns) (n1 n2 : Node),
      pruneUnusedColumns n cols = .ok n1 → pruneSubqueries n1 cols = .ok n2 →
      ∀ m ∈ n2.subtrees, ∃ m0 ∈ n.subtrees, m.KeepsExpressionsOf m0 := by
  induction n with
  | ResolvedTable _ | UnresolvedTable _ =>
    intro cols n1 n2 h1 h2 m hm
    simp only [pruneUnusedColumns, TransformUp, pruneUnusedColumnsVisit, Except.ok.injEq] at h1
    subst h1
    simp only [pruneSubqueries, Except.ok.injEq] at h2
    subst h2
    exact ⟨m, hm, KeepsExpressionsOf_of_eq _ _ rfl⟩
  | SubqueryAlias name c ih =>
    intro cols n1 n2 h1 h2 m hm
    simp only [pruneUnusedColumns, TransformUp, pruneUnusedColumnsVisit, Except.ok.injEq] at h1
    subst h1
    rw [pruneSubqueries] at h2
    obtain ⟨translated, node, node1, _, hp, hs, rfl⟩ :=
      pruneSubqueryColumns_ok_inv name c n2 cols h2
    simp only [Node.subtrees, List.mem_cons] at hm ⊢
    rcases hm with rfl | hm
    · exact ⟨_, Or.inl rfl, KeepsExpressionsOf_of_eq _ _ rfl⟩
    · obtain ⟨m0, hm0, hk⟩ := ih _ node node1 hp hs m hm
      exact ⟨m0, Or.inr hm0, hk⟩
  | Project ps c ih =>
    intro cols n1 n2 h1 h2 m hm
    simp only [pruneUnusedColumns, TransformUp] at h1
    cases hc : TransformUp (pruneUnusedColumnsVisit cols) c with
    | error err1 => simp [hc] at h1
    | ok c1 =>
      simp only [hc, pruneUnusedColumnsVisit, Except.ok.injEq] at h1
      rw [pruneProject_eq_filter] at h1
      simp only [Node.subtrees, List.mem_cons]
      by_cases hlen : (ps.filter (fun e => !shouldPruneExpr e cols)).length = 0
      · rw [if_pos hlen] at h1
        subst h1
        obtain ⟨m0, hm0, hk⟩ := ih cols c1 n2 hc h2 m hm
        exact ⟨m0, Or.inr hm0, hk⟩
      · rw [if_neg hlen] at h1
        subst h1
        rw [pruneSubqueries] at h2
        cases hs : pruneSubqueries c1 cols with
        | error err1 => simp [hs] at h2
        | ok c2 =>
          simp only [hs, Except.ok.injEq] at h2
          subst h2
          simp only [Node.subtrees, List.mem_cons] at hm
          rcases hm with rfl | hm
          · exact ⟨_, Or.inl rfl, List.filter_sublist _⟩
          · obtain ⟨m0, hm0, hk⟩ := ih cols c1 c2 hc hs m hm
            exact ⟨m0, Or.inr hm0, hk⟩
  | GroupBy sel grp c ih =>
    intro cols n1 n2 h1 h2 m hm
    simp only [pruneUnusedColumns, TransformUp] at h1
    cases hc : TransformUp (pruneUnusedColumnsVisit cols) c with
    | error err1 => simp [hc] at h1
    | ok c1 =>
      simp only [hc, pruneUnusedColumnsVisit, Except.ok.injEq] at h1
      rw [pruneGroupBy_eq_filter] at h1
      simp only [Node.subtrees, List.mem_cons]
      by_cases hlen : (sel.filter (fun e => !shouldPruneExpr e cols)).length = 0
      · rw [if_pos hlen] at h1
        subst h1
        obtain ⟨m0, hm0, hk⟩ := ih cols c1 n2 hc h2 m hm
        exact ⟨m0, Or.inr hm0, hk⟩
      · rw [if_neg hlen] at h1
        subst h1
        rw [pruneSubqueries] at h2
        cases hs : pruneSubqueries c1 cols with
        | error err1 => simp [hs] at h2
        | ok c2 =>
          simp only [hs, Except.ok.injEq] at h2
          subst h2
          simp only [Node.subtrees, List.mem_cons] at hm
          rcases hm with rfl | hm
          · exact ⟨_, Or.inl rfl,
              List.Sublist.append (List.filter_sublist _) (List.Sublist.refl _)⟩
          · obtain ⟨m0, hm0, hk⟩ := ih cols c1 c2 hc hs m hm
            exact ⟨m0, Or.inr hm0, hk⟩
  | Filter _ c ih | TableAlias _ c ih | DescribeQuery _ c ih | DecoratedNode _ _ c ih =>
    intro cols n1 n2 h1 h2 m hm
    simp only [pruneUnusedColumns, TransformUp] at h1
    cases hc : TransformUp (pruneUnusedColumnsVisit cols) c with
    | error err1 => simp [hc] at h1
    | ok c1 =>
      simp only [hc, pruneUnusedColumnsVisit, Except.ok.injEq] at h1
      subst h1
      rw [pruneSubqueries] at h2
      cases hs : pruneSubqueries c1 cols with
      | error err1 => simp [hs] at h2
      | ok c2 =>
        simp only [hs, Except.ok.injEq] at h2
        subst h2
        simp only [Node.subtrees, List.mem_cons] at hm ⊢
        rcases hm with rfl | hm
        · exact ⟨_, Or.inl rfl, KeepsExpressionsOf_of_eq _ _ rfl⟩
        · obtain ⟨m0, hm0, hk⟩ := ih cols c1 c2 hc hs m hm
          exact ⟨m0, Or.inr hm0, hk⟩
  | CrossJoin l r ihl ihr | InnerJoin l r _ ihl ihr | LeftJoin l r _ ihl ihr
  | RightJoin l r _ ihl ihr | IndexedJoin l r _ _ _ _ ihl ihr | InsertInto l r ihl ihr =>
    intro cols n1 n2 h1 h2 m hm
    simp only [pruneUnusedColumns, TransformUp] at h1
    cases hl : TransformUp (pruneUnusedColumnsVisit cols) l with
    | error err1 => simp [hl] at h1
    | ok l1 =>
      cases hr : TransformUp (pruneUnusedColumnsVisit cols) r with
      | error err1 => simp [hl, hr] at h1
      | ok r1 =>
        simp only [hl, hr, pruneUnusedColumnsVisit, Except.ok.injEq] at h1
        subst h1
        rw [pruneSubqueries] at h2
        cases hsl : pruneSubqueries l1 cols with
        | error err1 => simp [hsl] at h2
        | ok l2 =>
          cases hsr : pruneSubqueries r1 cols with
          | error err1 => simp [hsl, hsr] at h2
          | ok r2 =>
            simp only [hsl, hsr, Except.ok.injEq] at h2
            subst h2
            simp only [Node.subtrees, List.mem_cons, List.mem_append] at hm ⊢
            rcases hm with rfl | hm | hm
            · exact ⟨_, Or.inl rfl, KeepsExpressionsOf_of_eq _ _ rfl⟩
            · obtain ⟨m0, hm0, hk⟩ := ihl cols l1 l2 hl hsl m hm
              exact ⟨m0, Or.inr (Or.inl hm0), hk⟩
            · obtain ⟨m0, hm0, hk⟩ := ihr cols r1 r2 hr hsr m hm
              exact ⟨m0, Or.inr (Or.inr hm0), hk⟩

theorem pruneSubqueryColumns_staleTwoColumnProject :
    pruneSubqueryColumns "s" staleTwoColumnProject { entries := [("s", "f")] } =
      .ok (.SubqueryAlias "s" staleOneColumnProject) :=
  pruneSubqueryColumns_eval "s" staleTwoColumnProject staleOneColumnProject
    staleOneColumnProject { entries := [("s", "f")] } { entries := [("mytable", "f")] }
    rfl rfl (by simp [pruneSubqueries, staleOneColumnProject])

/-- C15: when `pruneSubqueryColumns` succeeds on `SubqueryAlias(name, child)`,
the result is a `SubqueryAlias` with the same name whose child is the pruned
child (`pruneUnusedColumns`, then `pruneSubqueries`, with one usage set), and
every node inside it holds expressions of a node of `child`, unchanged and in
order: every column reference that survives carries the index, the table and
the name it had in the input. -/
theorem pruneSubqueryColumns_keeps_indexes (name : String) (child result : Node)
    (P : usedColumns) (h : pruneSubqueryColumns name child P = .ok result) :
    ∃ cols node node1,
      pruneUnusedColumns child cols = .ok node ∧ pruneSubqueries node cols = .ok node1 ∧
      result = .SubqueryAlias name node1 ∧
      ∀ m ∈ node1.subtrees, ∃ m0 ∈ child.subtrees,
        m.heldExpressions.Sublist m0.heldExpressions ∧
        ∀ r ∈ Expression.columnRefsList m.heldExpressions,
          r ∈ Expression.columnRefsList m0.heldExpressions := by
  obtain ⟨translated, node, node1, _, h2, h3, hres⟩ :=
    pruneSubqueryColumns_ok_inv name child result P h
  refine ⟨findUsedColumns translated child, node, node1, h2, h3, hres, ?_⟩
  intro m hm
  obtain ⟨m0, hm0, hk⟩ := prune_keeps_expressions child _ node node1 h2 h3 m hm
  exact ⟨m0, hm0, hk, columnRefsList_of_sublist _ _ hk⟩

/-- C15 (witness): the alias `s` over `staleTwoColumnProject`, of which the
parent uses the column `f`: the surviving reference to `f` keeps its stale
index. -/
theorem pruneSubqueryColumns_keeps_indexes_witness :
    pruneSubqueryColumns "s" staleTwoColumnProject { entries := [("s", "f")] } =
      .ok (.SubqueryAlias "s" staleOneColumnProject) ∧
    ∃ cols node node1,
      pruneUnusedColumns staleTwoColumnProject cols = .ok node ∧
      pruneSubqueries node cols = .ok node1 ∧
      Node.SubqueryAlias "s" staleOneColumnProject = .SubqueryAlias "s" node1 ∧
      ∀ m ∈ node1.subtrees, ∃ m0 ∈ staleTwoColumnProject.subtrees,
        m.heldExpressions.Sublist m0.heldExpressions ∧
        ∀ r ∈ Expression.columnRefsList m.heldExpressions,
          r ∈ Expression.columnRefsList m0.heldExpressions :=
  ⟨pruneSubqueryColumns_staleTwoColumnProject,
   pruneSubqueryColumns_keeps_indexes "s" staleTwoColumnProject _ { entries := [("s", "f")] }
     pruneSubqueryColumns_staleTwoColumnProject⟩

/-! ## The final index recomputation and subquery aliases -/

theorem pruneColumns_ok_inv (n n3 : Node) (hres : n.Resolved = true)
    (hI : ∀ d s, n ≠ .InsertInto d s) (hD : ∀ f c, n ≠ .DescribeQuery f c)
    (h : pruneColumns n = .ok n3) :
    ∃ n1 n2,
      pruneUnusedColumns n (findUsedColumns (columnsUsedByNode n) n) = .ok n1 ∧
      pruneSubqueries n1 (findUsedColumns (columnsUsedByNode n) n) = .ok n2 ∧
      fixRemainingFieldsIndexes n2 = .ok n3 := by
  rw [pruneColumns_eq_of_resolved n hres hI hD] at h
  cases h1 : pruneUnusedColumns n (findUsedColumns (columnsUsedByNode n) n) with
  | error err => simp [h1] at h
  | ok n1 =>
    cases h2 : pruneSubqueries n1 (findUsedColumns (columnsUsedByNode n) n) with
    | error err => simp [h1, h2] at h
    | ok n2 =>
      simp only [h1, h2] at h
      exact ⟨n1, n2, rfl, h2, h⟩

theorem pruneSubqueries_staleProjectOverSubquery :
    pruneSubqueries staleProjectOverSubquery
        (findUsedColumns (columnsUsedByNode staleProjectOverSubquery) staleProjectOverSubquery)
      = .ok staleProjectOverSubqueryPruned :=
  pruneSubqueries_Project_eval _ _ _ _
    (by
      rw [pruneSubqueries_SubqueryAlias]
      exact pruneSubqueryColumns_staleTwoColumnProject)

theorem pruneColumns_staleProjectOverSubquery :
    pruneColumns staleProjectOverSubquery = .ok projectOverSubqueryPruned :=
  pruneColumns_eval staleProjectOverSubquery staleProjectOverSubquery
    staleProjectOverSubqueryPruned _ rfl
    (by intro d s h; cases h) (by intro f c h; cases h) rfl
    pruneSubqueries_staleProjectOverSubquery rfl

/-- C16 (counterexample): on the resolved plan `staleProjectOverSubquery` the
pruning steps of `pruneColumns` leave the index 7 on the reference to
`mytable.f` inside the subquery alias `s`, and the index recomputation that
`pruneColumns` runs afterwards changes it to 1. -/
theorem pruneColumns_subquery_pinned_counterexample :
    staleProjectOverSubquery.Resolved = true ∧
    pruneUnusedColumns staleProjectOverSubquery
        (findUsedColumns (columnsUsedByNode staleProjectOverSubquery) staleProjectOverSubquery)
      = .ok staleProjectOverSubquery ∧
    pruneSubqueries staleProjectOverSubquery
        (findUsedColumns (columnsUsedByNode staleProjectOverSubquery) staleProjectOverSubquery)
      = .ok (.Project [.GetField 0 .Float64 "s" "f" false]
          (.SubqueryAlias "s"
            (.Project [.GetField 7 .Float64 "mytable" "f" false] (.ResolvedTable mytable)))) ∧
    fixRemainingFieldsIndexes (.Project [.GetField 0 .Float64 "s" "f" false]
        (.SubqueryAlias "s"
          (.Project [.GetField 7 .Float64 "mytable" "f" false] (.ResolvedTable mytable))))
      = .ok (.Project [.GetField 0 .Float64 "s" "f" false]
          (.SubqueryAlias "s"
            (.Project [.GetField 1 .Float64 "mytable" "f" false] (.ResolvedTable mytable)))) ∧
    pruneColumns staleProjectOverSubquery
      = .ok (.Project [.GetField 0 .Float64 "s" "f" false]
          (.SubqueryAlias "s"
            (.Project [.GetField 1 .Float64 "mytable" "f" false] (.ResolvedTable mytable)))) :=
  ⟨rfl, rfl, pruneSubqueries_staleProjectOverSubquery, rfl,
    pruneColumns_staleProjectOverSubquery⟩

/-- C16 (as amended): for a resolved plan that is neither an `InsertInto` nor a
`DescribeQuery` and on which `pruneColumns` succeeds, the result is the index
recomputation of the pruned plan, and the recomputation enters the subquery
aliases: every `SubqueryAlias(name, c)` of the pruned plan appears in the result
with the same name and with `c` replaced by the recomputation of `c`, in which
every reference of a node whose concatenated child schema is not empty is valid
in that schema. -/
theorem pruneColumns_recomputes_inside_subqueries (n n3 : Node) (hres : n.Resolved = true)
    (hI : ∀ d s, n ≠ .InsertInto d s) (hD : ∀ f c, n ≠ .DescribeQuery f c)
    (h : pruneColumns n = .ok n3) :
    ∃ n1 n2,
      pruneUnusedColumns n (findUsedColumns (columnsUsedByNode n) n) = .ok n1 ∧
      pruneSubqueries n1 (findUsedColumns (columnsUsedByNode n) n) = .ok n2 ∧
      fixRemainingFieldsIndexes n2 = .ok n3 ∧
      ∀ name c, Node.SubqueryAlias name c ∈ n2.subtrees →
        ∃ c1, fixRemainingFieldsIndexes c = .ok c1 ∧
          Node.SubqueryAlias name c1 ∈ n3.subtrees ∧ ∀ m ∈ c1.subtrees, m.RefsValid := by
  obtain ⟨n1, n2, h1, h2, h3⟩ := pruneColumns_ok_inv n n3 hres hI hD h
  refine ⟨n1, n2, h1, h2, h3, ?_⟩
  intro name c hmem
  obtain ⟨c1, hc1, hx⟩ := fixRemainingFieldsIndexes_subqueries n2 n3 h3 name c hmem
  exact ⟨c1, hc1, hx, ((fixRemainingFieldsIndexes_spec c).1 c1 hc1).2.1⟩

/-- C16 (witness): the plan `staleProjectOverSubquery`, whose result is
`projectOverSubqueryPruned`. -/
theorem pruneColumns_recomputes_inside_subqueries_witness :
    staleProjectOverSubquery.Resolved = true ∧
    pruneColumns staleProjectOverSubquery = .ok projectOverSubqueryPruned ∧
    ∃ n1 n2,
      pruneUnusedColumns staleProjectOverSubquery
        (findUsedColumns (columnsUsedByNode staleProjectOverSubquery) staleProjectOverSubquery)
        = .ok n1 ∧
      pruneSubqueries n1
        (findUsedColumns (columnsUsedByNode staleProjectOverSubquery) staleProjectOverSubquery)
        = .ok n2 ∧
      fixRemainingFieldsIndexes n2 = .ok projectOverSubqueryPruned ∧
      ∀ name c, Node.SubqueryAlias name c ∈ n2.subtrees →
        ∃ c1, fixRemainingFieldsIndexes c = .ok c1 ∧
          Node.SubqueryAlias name c1 ∈ projectOverSubqueryPruned.subtrees ∧
          ∀ m ∈ c1.subtrees, m.RefsValid :=
  ⟨rfl, pruneColumns_staleProjectOverSubquery,
   pruneColumns_recomputes_inside_subqueries staleProjectOverSubquery
     projectOverSubqueryPruned rfl (by intro d s h; cases h) (by intro f c h; cases h)
     pruneColumns_staleProjectOverSubquery⟩

/-! ## Scenario S6 -/

theorem pruneColumns_scenarioS6_eq : pruneColumns scenarioS6 = .ok scenarioS6 :=
  pruneColumns_eval scenarioS6 scenarioS6 scenarioS6 _ rfl
    (by intro d s h; cases h) (by intro f c h; cases h) rfl
    (by simp [pruneSubqueries, scenarioS6]) rfl

/-- C17 (counterexample): on the plan of scenario S6 `pruneColumns` succeeds,
and the plan it returns is not a `Project` over `RT(mytable)`: the inner
`Project` is still there. -/
theorem pruneColumns_scenarioS6_counterexample :
    (∃ n1, pruneColumns scenarioS6 = .ok n1) ∧
    (∀ ps, pruneColumns scenarioS6 ≠ .ok (.Project ps (.ResolvedTable mytable))) ∧
    pruneColumns scenarioS6 ≠ .ok (.ResolvedTable mytable) := by
  refine ⟨⟨_, pruneColumns_scenarioS6_eq⟩, ?_, ?_⟩
  · intro ps h
    rw [pruneColumns_scenarioS6_eq] at h
    simp only [scenarioS6, Except.ok.injEq, Node.Project.injEq] at h
    cases h.2
  · intro h
    rw [pruneColumns_scenarioS6_eq] at h
    simp only [scenarioS6, Except.ok.injEq] at h
    cases h

/-- C17 (as amended): with `mytable(i, f, t)`, `pruneColumns` returns the plan
`Project[i, f, t](Project[i, f, t](RT(mytable)))` of scenario S6 as it is: the
usage set is seeded with the three columns of the root schema, so
`shouldPruneExpr` answers false for every projection of the inner `Project`,
which keeps its three projections and is not replaced by its child. -/
theorem pruneColumns_scenarioS6 :
    pruneColumns scenarioS6 =
      .ok (.Project allColumnsOfMytable
        (.Project allColumnsOfMytable (.ResolvedTable mytable))) ∧
    (∀ e ∈ allColumnsOfMytable,
      shouldPruneExpr e (findUsedColumns (columnsUsedByNode scenarioS6) scenarioS6) = false) ∧
    pruneProject allColumnsOfMytable (.ResolvedTable mytable)
        (findUsedColumns (columnsUsedByNode scenarioS6) scenarioS6)
      = .Project allColumnsOfMytable (.ResolvedTable mytable) :=
  ⟨pruneColumns_scenarioS6_eq, by decide, rfl⟩

/-! ## Usage analysis of other nodes and the prune predicate -/

theorem contributions_of_other (m : Node) (es : List Expression)
    (hP : ∀ ps c, m ≠ .Project ps c) (hG : ∀ sel grp c, m ≠ .GroupBy sel grp c)
    (hes : m.Expressions = some es) :
    m.contributions = Expression.columnRefsList es ∧
    ∀ start : usedColumns, findUsedColumnsVisit start m = (addUsedColumns start es, true) := by
  cases m with
  | Project ps c => exact absurd rfl (hP ps c)
  | GroupBy sel grp c => exact absurd rfl (hG sel grp c)
  | Filter e c | InnerJoin l r e | LeftJoin l r e | RightJoin l r e =>
    simp only [Node.Expressions, Option.some.injEq] at hes
    subst hes
    exact ⟨by simp [Node.contributions, Node.columnRefs, Node.Expressions],
      fun start => by simp [findUsedColumnsVisit, Node.Expressions]⟩
  | _ => simp [Node.Expressions] at hes

/-- C21: for every expression-carrying node other than `Project` and `GroupBy`
that `findUsedColumns` reaches without entering a subquery alias (a `Filter`, a
join with a condition), the resulting usage set holds the `(table, name)` of
every column reference occurring anywhere in the expressions of the node; the
step at such a node is `addUsedColumns` on all its expressions. -/
theorem findUsedColumns_other_nodes (n : Node) (cols : usedColumns) (m : Node)
    (es : List Expression) (hm : m ∈ n.scope)
    (hP : ∀ ps c, m ≠ .Project ps c) (hG : ∀ sel grp c, m ≠ .GroupBy sel grp c)
    (hes : m.Expressions = some es) :
    (∀ r ∈ Expression.columnRefsList es,
      (findUsedColumns cols n).has r.table r.name = true) ∧
    (∀ start : usedColumns,
      findUsedColumnsVisit start m = (addUsedColumns start es, true) ∧
      ∀ r ∈ Expression.columnRefsList es,
        (addUsedColumns start es).has r.table r.name = true) := by
  obtain ⟨hc, hv⟩ := contributions_of_other m es hP hG hes
  refine ⟨fun r hr => ?_, fun start => ⟨hv start, fun r hr => ?_⟩⟩
  · exact (findUsedColumns_has_iff n cols r.table r.name).2
      (Or.inr ⟨m, hm, r, by rw [hc]; exact hr, rfl, rfl⟩)
  · have := (findUsedColumnsVisit_has_iff m start r.table r.name).2
      (Or.inr ⟨r, by rw [hc]; exact hr, rfl, rfl⟩)
    rw [hv start] at this
    exact this

/-- C21 (witness): the `Filter` at the root of `stalePlan`, whose expression
refers to `s.f`. -/
theorem findUsedColumns_other_nodes_witness :
    stalePlan ∈ stalePlan.scope ∧
    (findUsedColumns usedColumns.empty stalePlan).has "s" "f" = true :=
  ⟨by simp [stalePlan, Node.scope],
   (findUsedColumns_other_nodes stalePlan usedColumns.empty stalePlan
      [.Unary .IsNull (.GetField 5 .Float64 "s" "f" false)]
      (by simp [stalePlan, Node.scope])
      (by intro ps c h; cases h) (by intro sel grp c h; cases h) rfl).1
     { index := 5, table := "s", name := "f" }
     (by simp [Expression.columnRefsList, Expression.columnRefs])⟩

/-- C28: `shouldPruneExpr(e, cols)` is true exactly when `e` is a bare column
reference whose table name is not empty and whose `(table, name)` is not in
`cols`; a bare column reference with an empty table name is never pruned, and
neither is an expression that is not a bare column reference (an alias, a
literal, a function call, an operator). -/
theorem shouldPruneExpr_exact (e : Expression) (cols : usedColumns) :
    (shouldPruneExpr e cols = true ↔
      ∃ i t table name nullable, e = .GetField i t table name nullable ∧ table ≠ "" ∧
        cols.has table name = false) ∧
    (∀ i t name nullable, shouldPruneExpr (.GetField i t "" name nullable) cols = false) ∧
    (e.isGetField = false → shouldPruneExpr e cols = false) ∧
    (∀ name child, shouldPruneExpr (.Alias name child) cols = false) ∧
    (∀ v t, shouldPruneExpr (.Literal v t) cols = false) ∧
    (∀ name t args, shouldPruneExpr (.Call name t args) cols = false) := by
  refine ⟨?_, ?_, ?_, ?_, ?_, ?_⟩
  · rw [shouldPruneExpr_iff]
    constructor
    · rintro ⟨i, t, table, name, nullable, heq, hne, hmem⟩
      refine ⟨i, t, table, name, nullable, heq, hne, ?_⟩
      cases hh : cols.has table name with
      | false => rfl
      | true => exact absurd ((usedColumns_has_iff cols table name).1 hh) hmem
    · rintro ⟨i, t, table, name, nullable, heq, hne, hhas⟩
      refine ⟨i, t, table, name, nullable, heq, hne, fun hin => ?_⟩
      rw [(usedColumns_has_iff cols table name).2 hin] at hhas
      cases hhas
  · intro i t name nullable
    simp [shouldPruneExpr]
  · intro h
    cases e with
    | GetField i t table name nullable => simp [Expression.isGetField] at h
    | _ => simp [shouldPruneExpr]
  · intro name child
    simp [shouldPruneExpr]
  · intro v t
    simp [shouldPruneExpr]
  · intro name t args
    simp [shouldPruneExpr]

/-! ## Index recomputation changes indexes only -/

theorem TransformExpressions_fixFieldIndex_erase (idx : tableCol → Option Nat) (m m1 : Node)
    (h : TransformExpressions (fixFieldIndex idx) m = .ok m1) :
    m1.eraseIndexes = m.eraseIndexes := by
  cases m with
  | Project ps c =>
    simp only [TransformExpressions] at h
    cases hps : Expression.TransformUpList (fixFieldIndex idx) ps with
    | error err => simp [hps] at h
    | ok ps1 =>
      simp only [hps, Except.ok.injEq] at h
      subst h
      simp only [Node.eraseIndexes, ((TransformUpList_fixFieldIndex_spec idx ps).1 ps1 hps).1]
  | GroupBy sel grp c =>
    simp only [TransformExpressions] at h
    cases hs : Expression.TransformUpList (fixFieldIndex idx) sel with
    | error err => simp [hs] at h
    | ok sel1 =>
      cases hg : Expression.TransformUpList (fixFieldIndex idx) grp with
      | error err => simp [hs, hg] at h
      | ok grp1 =>
        simp only [hs, hg, Except.ok.injEq] at h
        subst h
        simp only [Node.eraseIndexes,
          ((TransformUpList_fixFieldIndex_spec idx sel).1 sel1 hs).1,
          ((TransformUpList_fixFieldIndex_spec idx grp).1 grp1 hg).1]
  | Filter e c | InnerJoin l r e | LeftJoin l r e | RightJoin l r e =>
    simp only [TransformExpressions] at h
    cases he : Expression.TransformUp (fixFieldIndex idx) e with
    | error err => simp [he] at h
    | ok e1 =>
      simp only [he, Except.ok.injEq] at h
      subst h
      simp only [Node.eraseIndexes, ((TransformUp_fixFieldIndex_spec idx e).1 e1 he).1]
  | _ =>
    simp only [TransformExpressions, Except.ok.injEq] at h
    subst h
    rfl

theorem fixNodeIndexes_erase (m m1 : Node) (h : fixNodeIndexes m = .ok m1) :
    m1.eraseIndexes = m.eraseIndexes := by
  unfold fixNodeIndexes at h
  cases hx : m.Expressions with
  | none =>
    simp only [hx, Except.ok.injEq] at h
    subst h
    rfl
  | some exprs =>
    simp only [hx] at h
    by_cases hlen : (childSchema m).length = 0
    · simp only [hlen, if_true, Except.ok.injEq] at h
      subst h
      rfl
    · simp only [hlen, if_false] at h
      exact TransformExpressions_fixFieldIndex_erase _ m m1 h

theorem fixRemainingFieldsIndexes_erase (n : Node) :
    ∀ n1, fixRemainingFieldsIndexes n = .ok n1 → n1.eraseIndexes = n.eraseIndexes := by
  induction n with
  | ResolvedTable _ | UnresolvedTable _ =>
    intro n1 h
    simp only [fixRemainingFieldsIndexes] at h
    exact fixNodeIndexes_erase _ n1 h
  | SubqueryAlias name c ih =>
    intro n1 h
    simp only [fixRemainingFieldsIndexes] at h
    cases hc : fixRemainingFieldsIndexes c with
    | error err => simp [hc] at h
    | ok c1 =>
      simp only [hc, Except.ok.injEq] at h
      subst h
      simp only [Node.eraseIndexes, ih c1 hc]
  | Project _ c ih | GroupBy _ _ c ih | Filter _ c ih | TableAlias _ c ih
  | DescribeQuery _ c ih | DecoratedNode _ _ c ih =>
    intro n1 h
    simp only [fixRemainingFieldsIndexes] at h
    cases hc : fixRemainingFieldsIndexes c with
    | error err => simp [hc] at h
    | ok c1 =>
      simp only [hc] at h
      rw [fixNodeIndexes_erase _ n1 h]
      simp only [Node.eraseIndexes, ih c1 hc]
  | CrossJoin l r ihl ihr | InnerJoin l r _ ihl ihr | LeftJoin l r _ ihl ihr
  | RightJoin l r _ ihl ihr | IndexedJoin l r _ _ _ _ ihl ihr | InsertInto l r ihl ihr =>
    intro n1 h
    simp only [fixRemainingFieldsIndexes] at h
    cases hl : fixRemainingFieldsIndexes l with
    | error err => simp [hl] at h
    | ok l1 =>
      cases hr : fixRemainingFieldsIndexes r with
      | error err => simp [hl, hr] at h
      | ok r1 =>
        simp only [hl, hr] at h
        rw [fixNodeIndexes_erase _ n1 h]
        simp only [Node.eraseIndexes, ihl l1 hl, ihr r1 hr]

theorem map_ExpressionToColumn_eraseIndexesList (es : List Expression) :
    (Expression.eraseIndexesList es).map ExpressionToColumn = es.map ExpressionToColumn := by
  simp [eraseIndexesList_eq_map, List.map_map, Function.comp_def,
    ExpressionToColumn_eraseIndexes]

theorem Node.Schema_eraseIndexes (n : Node) : n.eraseIndexes.Schema = n.Schema := by
  induction n with
  | ResolvedTable _ | UnresolvedTable _ => rfl
  | Project ps c ih | GroupBy ps _ c ih =>
    simp only [Node.eraseIndexes, Node.Schema, map_ExpressionToColumn_eraseIndexesList]
  | Filter _ c ih | TableAlias _ c ih | SubqueryAlias _ c ih | DescribeQuery _ c ih
  | DecoratedNode _ _ c ih =>
    simp only [Node.eraseIndexes, Node.Schema, ih]
  | CrossJoin l r ihl ihr | InnerJoin l r _ ihl ihr | LeftJoin l r _ ihl ihr
  | RightJoin l r _ ihl ihr | IndexedJoin l r _ _ _ _ ihl ihr =>
    simp only [Node.eraseIndexes, Node.Schema, ihl, ihr]
  | InsertInto l r ihl ihr => rfl

theorem Node.subtrees_eraseIndexes (n : Node) :
    n.eraseIndexes.subtrees = n.subtrees.map Node.eraseIndexes := by
  induction n with
  | ResolvedTable _ | UnresolvedTable _ => rfl
  | Project _ c ih | GroupBy _ _ c ih | Filter _ c ih | TableAlias _ c ih
  | SubqueryAlias _ c ih | DescribeQuery _ c ih | DecoratedNode _ _ c ih =>
    simp only [Node.eraseIndexes, Node.subtrees, List.map_cons, ih]
  | CrossJoin l r ihl ihr | InnerJoin l r _ ihl ihr | LeftJoin l r _ ihl ihr
  | RightJoin l r _ ihl ihr | IndexedJoin l r _ _ _ _ ihl ihr | InsertInto l r ihl ihr =>
    simp only [Node.eraseIndexes, Node.subtrees, List.map_cons, List.map_append, ihl, ihr]

theorem subtrees_schema_of_erase (n n1 : Node) (h : n1.eraseIndexes = n.eraseIndexes) :
    n1.subtrees.map Node.Schema = n.subtrees.map Node.Schema := by
  have h1 : (n1.subtrees.map Node.eraseIndexes).map Node.Schema
      = (n.subtrees.map Node.eraseIndexes).map Node.Schema := by
    rw [← Node.subtrees_eraseIndexes, ← Node.subtrees_eraseIndexes, h]
  simpa [List.map_map, Function.comp_def, Node.Schema_eraseIndexes] using h1

/-- C30: whenever `fixRemainingFieldsIndexes` succeeds on `n`, the result equals
`n` up to the index fields of the column references: with every index reset to
zero the two plans are the same plan (same tree shape, same kind and
non-expression fields of every node, same expressions apart from the indexes,
same table, name, type and nullability of every reference); consequently the
nodes of the result have, one by one, the schemas of the nodes of `n`, and the
root schema is unchanged. -/
theorem fixRemainingFieldsIndexes_changes_indexes_only (n n1 : Node)
    (h : fixRemainingFieldsIndexes n = .ok n1) :
    n1.eraseIndexes = n.eraseIndexes ∧
    n1.subtrees.map Node.eraseIndexes = n.subtrees.map Node.eraseIndexes ∧
    n1.subtrees.map Node.Schema = n.subtrees.map Node.Schema ∧
    n1.Schema = n.Schema := by
  have he := fixRemainingFieldsIndexes_erase n n1 h
  refine ⟨he, ?_, subtrees_schema_of_erase n n1 he, ?_⟩
  · rw [← Node.subtrees_eraseIndexes, ← Node.subtrees_eraseIndexes, he]
  · rw [← Node.Schema_eraseIndexes n1, he, Node.Schema_eraseIndexes]

/-- C30 (witness): `stalePlan` and its recomputation `reboundPlan` differ in the
indexes 5 and 7, which become 0 and 1, and in nothing else. -/
theorem fixRemainingFieldsIndexes_changes_indexes_only_witness :
    fixRemainingFieldsIndexes stalePlan = .ok reboundPlan ∧
    reboundPlan.eraseIndexes = stalePlan.eraseIndexes ∧
    reboundPlan.subtrees.map Node.eraseIndexes = stalePlan.subtrees.map Node.eraseIndexes ∧
    reboundPlan.subtrees.map Node.Schema = stalePlan.subtrees.map Node.Schema ∧
    reboundPlan.Schema = stalePlan.Schema :=
  ⟨rfl, fixRemainingFieldsIndexes_changes_indexes_only stalePlan reboundPlan rfl⟩

/-! ## The projections of the root -/

theorem eraseIndexes_eq_Project (res : Node) (ps : List Expression) (c : Node)
    (h : res.eraseIndexes = .Project ps c) :
    ∃ ps1 c1, res = .Project ps1 c1 ∧ Expression.eraseIndexesList ps1 = ps ∧
      c1.eraseIndexes = c := by
  cases res with
  | Project ps1 c1 =>
    simp only [Node.eraseIndexes, Node.Project.injEq] at h
    exact ⟨ps1, c1, rfl, h.1, h.2⟩
  | _ => simp [Node.eraseIndexes] at h

theorem eraseIndexes_eq_GroupBy (res : Node) (sel grp : List Expression) (c : Node)
    (h : res.eraseIndexes = .GroupBy sel grp c) :
    ∃ sel1 grp1 c1, res = .GroupBy sel1 grp1 c1 ∧ Expression.eraseIndexesList sel1 = sel ∧
      Expression.eraseIndexesList grp1 = grp ∧ c1.eraseIndexes = c := by
  cases res with
  | GroupBy sel1 grp1 c1 =>
    simp only [Node.eraseIndexes, Node.GroupBy.injEq] at h
    exact ⟨sel1, grp1, c1, rfl, h.1, h.2.1, h.2.2⟩
  | _ => simp [Node.eraseIndexes] at h

theorem length_of_eraseIndexesList_eq {es1 es2 : List Expression}
    (h : Expression.eraseIndexesList es1 = Expression.eraseIndexesList es2) :
    es1.length = es2.length := by
  have := congrArg List.length h
  simpa [eraseIndexesList_eq_map] using this

theorem remainingExprs_of_covers (ps : List Expression) (cols : usedColumns)
    (h : cols.Covers (ps.map ExpressionToColumn)) : remainingExprs ps cols = ps := by
  rw [remainingExprs_eq_filter, filter_keep_eq_self ps cols h]

theorem pruneColumns_root_Project (ps : List Expression) (c res : Node)
    (hres : (Node.Project ps c).Resolved = true) (hne : ps ≠ [])
    (h : pruneColumns (.Project ps c) = .ok res) :
    ∃ ps1 c1, res = .Project ps1 c1 ∧ ps1.length = ps.length ∧
      Expression.eraseIndexesList ps1 = Expression.eraseIndexesList ps := by
  obtain ⟨n1, n2, h1, h2, h3⟩ := pruneColumns_ok_inv _ res hres
    (by intro d s hh; cases hh) (by intro f x hh; cases hh) h
  have hcov := findUsedColumns_covers (.Project ps c) (.Project ps c) _
    (columnsUsedByNode_covers (.Project ps c))
  simp only [pruneUnusedColumns, TransformUp] at h1
  cases hc : TransformUp (pruneUnusedColumnsVisit
      (findUsedColumns (columnsUsedByNode (.Project ps c)) (.Project ps c))) c with
  | error err => simp [hc] at h1
  | ok c1 =>
    simp only [hc, pruneUnusedColumnsVisit, Except.ok.injEq] at h1
    rw [pruneProject_of_covers ps c1 _ hne hcov] at h1
    subst h1
    rw [pruneSubqueries] at h2
    cases hs : pruneSubqueries c1
        (findUsedColumns (columnsUsedByNode (.Project ps c)) (.Project ps c)) with
    | error err => simp [hs] at h2
    | ok c2 =>
      simp only [hs, Except.ok.injEq] at h2
      subst h2
      have he := fixRemainingFieldsIndexes_erase _ res h3
      simp only [Node.eraseIndexes] at he
      obtain ⟨ps1, c3, rfl, hps, _⟩ := eraseIndexes_eq_Project res _ _ he
      exact ⟨ps1, c3, rfl, length_of_eraseIndexesList_eq hps, hps⟩

theorem pruneColumns_root_GroupBy (sel grp : List Expression) (c res : Node)
    (hres : (Node.GroupBy sel grp c).Resolved = true) (hne : sel ≠ [])
    (h : pruneColumns (.GroupBy sel grp c) = .ok res) :
    ∃ sel1 grp1 c1, res = .GroupBy sel1 grp1 c1 ∧ sel1.length = sel.length ∧
      Expression.eraseIndexesList sel1 = Expression.eraseIndexesList sel ∧
      Expression.eraseIndexesList grp1 = Expression.eraseIndexesList grp := by
  obtain ⟨n1, n2, h1, h2, h3⟩ := pruneColumns_ok_inv _ res hres
    (by intro d s hh; cases hh) (by intro f x hh; cases hh) h
  have hcov := findUsedColumns_covers (.GroupBy sel grp c) (.GroupBy sel grp c) _
    (columnsUsedByNode_covers (.GroupBy sel grp c))
  simp only [pruneUnusedColumns, TransformUp] at h1
  cases hc : TransformUp (pruneUnusedColumnsVisit
      (findUsedColumns (columnsUsedByNode (.GroupBy sel grp c)) (.GroupBy sel grp c))) c with
  | error err => simp [hc] at h1
  | ok c1 =>
    simp only [hc, pruneUnusedColumnsVisit, Except.ok.injEq] at h1
    rw [pruneGroupBy_of_covers sel grp c1 _ hne hcov] at h1
    subst h1
    rw [pruneSubqueries] at h2
    cases hs : pruneSubqueries c1
        (findUsedColumns (columnsUsedByNode (.GroupBy sel grp c)) (.GroupBy sel grp c)) with
    | error err => simp [hs] at h2
    | ok c2 =>
      simp only [hs, Except.ok.injEq] at h2
      subst h2
      have he := fixRemainingFieldsIndexes_erase _ res h3
      simp only [Node.eraseIndexes] at he
      obtain ⟨sel1, grp1, c3, rfl, hsel, hgrp, _⟩ := eraseIndexes_eq_GroupBy res _ _ _ he
      exact ⟨sel1, grp1, c3, rfl, length_of_eraseIndexesList_eq hsel, hsel, hgrp⟩

theorem pruneColumns_emptyProjectOverComputed :
    pruneColumns emptyProjectOverComputed =
      .ok (.Project [.Alias "c" (.GetField 0 .Int32 "mytable" "i" false)]
        (.ResolvedTable mytable)) :=
  pruneColumns_eval emptyProjectOverComputed computedProject computedProject _ rfl
    (by intro d s h; cases h) (by intro f c h; cases h) rfl
    (by simp [pruneSubqueries, computedProject]) rfl

theorem pruneColumns_emptyGroupByOverComputed :
    pruneColumns emptyGroupByOverComputed =
      .ok (.Project [.Alias "c" (.GetField 0 .Int32 "mytable" "i" false)]
        (.ResolvedTable mytable)) :=
  pruneColumns_eval emptyGroupByOverComputed computedProject computedProject _ rfl
    (by intro d s h; cases h) (by intro f c h; cases h) rfl
    (by simp [pruneSubqueries, computedProject]) rfl

/-- C29 (counterexample): the resolved plan `emptyProjectOverComputed` has a
`Project` with no projection at its root, and the plan `pruneColumns` returns
has a `Project` with one projection at its root: the root was replaced by its
child.  The same happens to the `GroupBy` without selected expressions at the
root of `emptyGroupByOverComputed`. -/
theorem pruneColumns_root_projections_counterexample :
    emptyProjectOverComputed.Resolved = true ∧
    (∃ c, emptyProjectOverComputed = .Project [] c) ∧
    pruneColumns emptyProjectOverComputed =
      .ok (.Project [.Alias "c" (.GetField 0 .Int32 "mytable" "i" false)]
        (.ResolvedTable mytable)) ∧
    emptyGroupByOverComputed.Resolved = true ∧
    (∃ grp c, emptyGroupByOverComputed = .GroupBy [] grp c) ∧
    pruneColumns emptyGroupByOverComputed =
      .ok (.Project [.Alias "c" (.GetField 0 .Int32 "mytable" "i" false)]
        (.ResolvedTable mytable)) :=
  ⟨rfl, ⟨_, rfl⟩, pruneColumns_emptyProjectOverComputed, rfl, ⟨_, _, rfl⟩,
    pruneColumns_emptyGroupByOverComputed⟩

/-- C29 (as amended): for every resolved plan whose root is a `Project` (or a
`GroupBy`), the pruning loop removes none of the projections (selected
expressions) of the root under the usage set of `pruneColumns`, which is
initialised with the schema of the root; when the list of the root is not empty
and `pruneColumns` succeeds, the root of the result is a `Project` (a `GroupBy`)
whose list has the same length and the same expressions up to the indexes of
the column references. -/
theorem pruneColumns_root_projections_survive (n res : Node) (hres : n.Resolved = true)
    (h : pruneColumns n = .ok res) :
    (∀ ps c, n = .Project ps c →
      remainingExprs ps (findUsedColumns (columnsUsedByNode n) n) = ps ∧
      (ps ≠ [] → ∃ ps1 c1, res = .Project ps1 c1 ∧ ps1.length = ps.length ∧
        Expression.eraseIndexesList ps1 = Expression.eraseIndexesList ps)) ∧
    (∀ sel grp c, n = .GroupBy sel grp c →
      remainingExprs sel (findUsedColumns (columnsUsedByNode n) n) = sel ∧
      (sel ≠ [] → ∃ sel1 grp1 c1, res = .GroupBy sel1 grp1 c1 ∧ sel1.length = sel.length ∧
        Expression.eraseIndexesList sel1 = Expression.eraseIndexesList sel ∧
        Expression.eraseIndexesList grp1 = Expression.eraseIndexesList grp)) := by
  constructor
  · rintro ps c rfl
    exact ⟨remainingExprs_of_covers ps _
        (findUsedColumns_covers (.Project ps c) (.Project ps c) _
          (columnsUsedByNode_covers (.Project ps c))),
      fun hne => pruneColumns_root_Project ps c res hres hne h⟩
  · rintro sel grp c rfl
    exact ⟨remainingExprs_of_covers sel _
        (findUsedColumns_covers (.GroupBy sel grp c) (.GroupBy sel grp c) _
          (columnsUsedByNode_covers (.GroupBy sel grp c))),
      fun hne => pruneColumns_root_GroupBy sel grp c res hres hne h⟩

/-- C29 (witness): the root `Project` of `projectOverSubquery` keeps its
projection of `s.f`. -/
theorem pruneColumns_root_projections_survive_witness :
    projectOverSubquery.Resolved = true ∧
    pruneColumns projectOverSubquery = .ok projectOverSubqueryPruned ∧
    ∃ ps1 c1, projectOverSubqueryPruned = .Project ps1 c1 ∧ ps1.length = 1 ∧
      Expression.eraseIndexesList ps1
        = Expression.eraseIndexesList [.GetField 0 .Float64 "s" "f" false] :=
  ⟨rfl, pruneColumns_projectOverSubquery,
   ((pruneColumns_root_projections_survive projectOverSubquery projectOverSubqueryPruned rfl
      pruneColumns_projectOverSubquery).1 _ _ rfl).2 (by simp)⟩

/-! ## Idempotence of the pruning pass -/

mutual
theorem TransformUp_fixFieldIndex_idem (idx : tableCol → Option Nat) : ∀ (e e1 : Expression),
    Expression.TransformUp (fixFieldIndex idx) e = .ok e1 →
    Expression.TransformUp (fixFieldIndex idx) e1 = .ok e1
  | .Literal v t, e1, h => by
    simp only [Expression.TransformUp, fixFieldIndex, Except.ok.injEq] at h
    subst h
    simp only [Expression.TransformUp, fixFieldIndex]
  | .UnresolvedColumn table name, e1, h => by
    simp only [Expression.TransformUp, fixFieldIndex, Except.ok.injEq] at h
    subst h
    simp only [Expression.TransformUp, fixFieldIndex]
  | .GetField i t table name nullable, e1, h => by
    cases hk : idx { table := table, col := name } with
    | none => simp [Expression.TransformUp, fixFieldIndex, hk] at h
    | some j =>
      simp only [Expression.TransformUp, fixFieldIndex, hk, Except.ok.injEq] at h
      subst h
      simp only [Expression.TransformUp, fixFieldIndex, hk]
  | .Alias name child, e1, h => by
    cases hc : Expression.TransformUp (fixFieldIndex idx) child with
    | error err => simp [Expression.TransformUp, hc] at h
    | ok c1 =>
      simp only [Expression.TransformUp, hc, fixFieldIndex, Except.ok.injEq] at h
      subst h
      simp only [Expression.TransformUp, TransformUp_fixFieldIndex_idem idx child c1 hc,
        fixFieldIndex]
  | .Unary op child, e1, h => by
    cases hc : Expression.TransformUp (fixFieldIndex idx) child with
    | error err => simp [Expression.TransformUp, hc] at h
    | ok c1 =>
      simp only [Expression.TransformUp, hc, fixFieldIndex, Except.ok.injEq] at h
      subst h
      simp only [Expression.TransformUp, TransformUp_fixFieldIndex_idem idx child c1 hc,
        fixFieldIndex]
  | .Binary op l r, e1, h => by
    cases hl : Expression.TransformUp (fixFieldIndex idx) l with
    | error err => simp [Expression.TransformUp, hl] at h
    | ok l1 =>
      cases hr : Expression.TransformUp (fixFieldIndex idx) r with
      | error err => simp [Expression.TransformUp, hl, hr] at h
      | ok r1 =>
        simp only [Expression.TransformUp, hl, hr, fixFieldIndex, Except.ok.injEq] at h
        subst h
        simp only [Expression.TransformUp, TransformUp_fixFieldIndex_idem idx l l1 hl,
          TransformUp_fixFieldIndex_idem idx r r1 hr, fixFieldIndex]
  | .Call name t args, e1, h => by
    cases hc : Expression.TransformUpList (fixFieldIndex idx) args with
    | error err => simp [Expression.TransformUp, hc] at h
    | ok c1 =>
      simp only [Expression.TransformUp, hc, fixFieldIndex, Except.ok.injEq] at h
      subst h
      simp only [Expression.TransformUp, TransformUpList_fixFieldIndex_idem idx args c1 hc,
        fixFieldIndex]
theorem TransformUpList_fixFieldIndex_idem (idx : tableCol → Option Nat) :
    ∀ (es es1 : List Expression),
    Expression.TransformUpList (fixFieldIndex idx) es = .ok es1 →
    Expression.TransformUpList (fixFieldIndex idx) es1 = .ok es1
  | [], es1, h => by
    simp only [Expression.TransformUpList, Except.ok.injEq] at h
    subst h
    simp only [Expression.TransformUpList]
  | e :: es, es1, h => by
    cases he : Expression.TransformUp (fixFieldIndex idx) e with
    | error err => simp [Expression.TransformUpList, he] at h
    | ok e1 =>
      cases hes : Expression.TransformUpList (fixFieldIndex idx) es with
      | error err => simp [Expression.TransformUpList, he, hes] at h
      | ok es2 =>
        simp only [Expression.TransformUpList, he, hes, Except.ok.injEq] at h
        subst h
        simp only [Expression.TransformUpList, TransformUp_fixFieldIndex_idem idx e e1 he,
          TransformUpList_fixFieldIndex_idem idx es es2 hes]
end

theorem TransformExpressions_fixFieldIndex_idem (idx : tableCol → Option Nat) (m m1 : Node)
    (h : TransformExpressions (fixFieldIndex idx) m = .ok m1) :
    TransformExpressions (fixFieldIndex idx) m1 = .ok m1 ∧
    (m.Expressions = none → m1.Expressions = none) := by
  cases m with
  | Project ps c =>
    simp only [TransformExpressions] at h
    cases hps : Expression.TransformUpList (fixFieldIndex idx) ps with
    | error err => simp [hps] at h
    | ok ps1 =>
      simp only [hps, Except.ok.injEq] at h
      subst h
      simp [TransformExpressions, TransformUpList_fixFieldIndex_idem idx ps ps1 hps,
        Node.Expressions]
  | GroupBy sel grp c =>
    simp only [TransformExpressions] at h
    cases hs : Expression.TransformUpList (fixFieldIndex idx) sel with
    | error err => simp [hs] at h
    | ok sel1 =>
      cases hg : Expression.TransformUpList (fixFieldIndex idx) grp with
      | error err => simp [hs, hg] at h
      | ok grp1 =>
        simp only [hs, hg, Except.ok.injEq] at h
        subst h
        simp [TransformExpressions, TransformUpList_fixFieldIndex_idem idx sel sel1 hs,
          TransformUpList_fixFieldIndex_idem idx grp grp1 hg, Node.Expressions]
  | Filter e c | InnerJoin l r e | LeftJoin l r e | RightJoin l r e =>
    simp only [TransformExpressions] at h
    cases he : Expression.TransformUp (fixFieldIndex idx) e with
    | error err => simp [he] at h
    | ok e1 =>
      simp only [he, Except.ok.injEq] at h
      subst h
      simp [TransformExpressions, TransformUp_fixFieldIndex_idem idx e e1 he,
        Node.Expressions]
  | _ =>
    simp only [TransformExpressions, Except.ok.injEq] at h
    subst h
    simp [TransformExpressions]

theorem fixNodeIndexes_idem (m m1 : Node) (h : fixNodeIndexes m = .ok m1) :
    fixNodeIndexes m1 = .ok m1 := by
  have hch := (fixNodeIndexes_ok m m1 h).2.1
  unfold fixNodeIndexes at h
  cases hx : m.Expressions with
  | none =>
    simp only [hx, Except.ok.injEq] at h
    subst h
    simp only [fixNodeIndexes, hx]
  | some exprs =>
    simp only [hx] at h
    by_cases hlen : (childSchema m).length = 0
    · simp only [hlen, if_true, Except.ok.injEq] at h
      subst h
      simp only [fixNodeIndexes, hx, hlen, if_true]
    · simp only [hlen, if_false] at h
      have hidem := (TransformExpressions_fixFieldIndex_idem _ m m1 h).1
      unfold fixNodeIndexes
      cases hx1 : m1.Expressions with
      | none => rfl
      | some exprs1 =>
        simp only [childSchema_congr hch, hlen, if_false]
        exact hidem

theorem fixRemainingFieldsIndexes_of_fixed_children (m : Node)
    (h : ∀ k ∈ m.Children, fixRemainingFieldsIndexes k = .ok k) :
    fixRemainingFieldsIndexes m = fixNodeIndexes m := by
  cases m with
  | ResolvedTable _ | UnresolvedTable _ => simp only [fixRemainingFieldsIndexes]
  | SubqueryAlias name c =>
    have hc := h c (by simp [Node.Children])
    simp only [fixRemainingFieldsIndexes, hc, fixNodeIndexes, Node.Expressions]
  | Project _ c | GroupBy _ _ c | Filter _ c | TableAlias _ c
  | DescribeQuery _ c | DecoratedNode _ _ c =>
    have hc := h c (by simp [Node.Children])
    simp only [fixRemainingFieldsIndexes, hc]
  | CrossJoin l r | InnerJoin l r _ | LeftJoin l r _
  | RightJoin l r _ | IndexedJoin l r _ _ _ _ | InsertInto l r =>
    have hl := h l (by simp [Node.Children])
    have hr := h r (by simp [Node.Children])
    simp only [fixRemainingFieldsIndexes, hl, hr]

theorem fixRemainingFieldsIndexes_idem (n : Node) :
    ∀ n1, fixRemainingFieldsIndexes n = .ok n1 → fixRemainingFieldsIndexes n1 = .ok n1 := by
  induction n with
  | ResolvedTable _ | UnresolvedTable _ =>
    intro n1 h
    simp only [fixRemainingFieldsIndexes] at h
    have hch := (fixNodeIndexes_ok _ n1 h).2.1
    rw [fixRemainingFieldsIndexes_of_fixed_children n1
      (by rw [hch]; simp [Node.Children])]
    exact fixNodeIndexes_idem _ n1 h
  | SubqueryAlias name c ih =>
    intro n1 h
    simp only [fixRemainingFieldsIndexes] at h
    cases hc : fixRemainingFieldsIndexes c with
    | error err => simp [hc] at h
    | ok c1 =>
      simp only [hc, Except.ok.injEq] at h
      subst h
      simp only [fixRemainingFieldsIndexes, ih c1 hc]
  | Project _ c ih | GroupBy _ _ c ih | Filter _ c ih | TableAlias _ c ih
  | DescribeQuery _ c ih | DecoratedNode _ _ c ih =>
    intro n1 h
    simp only [fixRemainingFieldsIndexes] at h
    cases hc : fixRemainingFieldsIndexes c with
    | error err => simp [hc] at h
    | ok c1 =>
      simp only [hc] at h
      have hch := (fixNodeIndexes_ok _ n1 h).2.1
      rw [fixRemainingFieldsIndexes_of_fixed_children n1
        (by rw [hch]; simpa [Node.Children] using ih c1 hc)]
      exact fixNodeIndexes_idem _ n1 h
  | CrossJoin l r ihl ihr | InnerJoin l r _ ihl ihr | LeftJoin l r _ ihl ihr
  | RightJoin l r _ ihl ihr | IndexedJoin l r _ _ _ _ ihl ihr | InsertInto l r ihl ihr =>
    intro n1 h
    simp only [fixRemainingFieldsIndexes] at h
    cases hl : fixRemainingFieldsIndexes l with
    | error err => simp [hl] at h
    | ok l1 =>
      cases hr : fixRemainingFieldsIndexes r with
      | error err => simp [hl, hr] at h
      | ok r1 =>
        simp only [hl, hr] at h
        have hch := (fixNodeIndexes_ok _ n1 h).2.1
        rw [fixRemainingFieldsIndexes_of_fixed_children n1
          (by rw [hch]; simpa [Node.Children] using ⟨ihl l1 hl, ihr r1 hr⟩)]
        exact fixNodeIndexes_idem _ n1 h
theorem shouldPruneExpr_eraseIndexes (e : Expression) (cols : usedColumns) :
    shouldPruneExpr e.eraseIndexes cols = shouldPruneExpr e cols := by
  cases e <;> simp [Expression.eraseIndexes, shouldPruneExpr]

theorem shouldPruneExpr_false_mono (e : Expression) (cols cols1 : usedColumns)
    (hsub : ∀ t c, cols.has t c = true → cols1.has t c = true)
    (h : shouldPruneExpr e cols = false) : shouldPruneExpr e cols1 = false := by
  cases e with
  | GetField i t table name nullable =>
    by_cases ht : table = ""
    · simp [shouldPruneExpr, ht]
    · simp only [shouldPruneExpr, ht, if_false, Bool.not_eq_false'] at h ⊢
      exact hsub _ _ h
  | _ => simp [shouldPruneExpr]

theorem keep_all_eraseIndexesList (ps : List Expression) (cols : usedColumns) :
    (Expression.eraseIndexesList ps ≠ [] ∧
      ∀ e ∈ Expression.eraseIndexesList ps, shouldPruneExpr e cols = false) ↔
    (ps ≠ [] ∧ ∀ e ∈ ps, shouldPruneExpr e cols = false) := by
  rw [eraseIndexesList_eq_map]
  constructor
  · rintro ⟨hne, hall⟩
    refine ⟨by intro h; exact hne (by simp [h]), fun e he => ?_⟩
    rw [← shouldPruneExpr_eraseIndexes]
    exact hall _ (List.mem_map_of_mem _ he)
  · rintro ⟨hne, hall⟩
    refine ⟨by simpa using hne, fun e he => ?_⟩
    obtain ⟨e0, he0, rfl⟩ := List.mem_map.1 he
    rw [shouldPruneExpr_eraseIndexes]
    exact hall e0 he0

theorem Node.PruneStable_eraseIndexes (cols : usedColumns) (n : Node) :
    n.eraseIndexes.PruneStable cols ↔ n.PruneStable cols := by
  induction n with
  | ResolvedTable _ | UnresolvedTable _ | SubqueryAlias _ _ _ =>
    simp [Node.eraseIndexes, Node.PruneStable]
  | Project ps c ih | GroupBy ps _ c ih =>
    simp only [Node.eraseIndexes, Node.PruneStable, ih, ← and_assoc,
      keep_all_eraseIndexesList]
  | Filter _ c ih | TableAlias _ c ih | DescribeQuery _ c ih | DecoratedNode _ _ c ih =>
    simp only [Node.eraseIndexes, Node.PruneStable, ih]
  | CrossJoin l r ihl ihr | InnerJoin l r _ ihl ihr | LeftJoin l r _ ihl ihr
  | RightJoin l r _ ihl ihr | IndexedJoin l r _ _ _ _ ihl ihr | InsertInto l r ihl ihr =>
    simp only [Node.eraseIndexes, Node.PruneStable, ihl, ihr]

theorem Node.NoSubqueryAlias_eraseIndexes (n : Node) :
    n.eraseIndexes.NoSubqueryAlias ↔ n.NoSubqueryAlias := by
  induction n with
  | ResolvedTable _ | UnresolvedTable _ | SubqueryAlias _ _ _ =>
    simp [Node.eraseIndexes, Node.NoSubqueryAlias]
  | Project _ c ih | GroupBy _ _ c ih | Filter _ c ih | TableAlias _ c ih
  | DescribeQuery _ c ih | DecoratedNode _ _ c ih =>
    simp only [Node.eraseIndexes, Node.NoSubqueryAlias, ih]
  | CrossJoin l r ihl ihr | InnerJoin l r _ ihl ihr | LeftJoin l r _ ihl ihr
  | RightJoin l r _ ihl ihr | IndexedJoin l r _ _ _ _ ihl ihr | InsertInto l r ihl ihr =>
    simp only [Node.eraseIndexes, Node.NoSubqueryAlias, ihl, ihr]

theorem Node.PruneStable_mono (cols cols1 : usedColumns)
    (hsub : ∀ t c, cols.has t c = true → cols1.has t c = true) (n : Node) :
    n.PruneStable cols → n.PruneStable cols1 := by
  induction n with
  | ResolvedTable _ | UnresolvedTable _ | SubqueryAlias _ _ _ =>
    simp [Node.PruneStable]
  | Project ps c ih | GroupBy ps _ c ih =>
    simp only [Node.PruneStable]
    rintro ⟨hne, hall, hc⟩
    exact ⟨hne, fun e he => shouldPruneExpr_false_mono e cols cols1 hsub (hall e he), ih hc⟩
  | Filter _ c ih | TableAlias _ c ih | DescribeQuery _ c ih | DecoratedNode _ _ c ih =>
    simp only [Node.PruneStable]
    exact ih
  | CrossJoin l r ihl ihr | InnerJoin l r _ ihl ihr | LeftJoin l r _ ihl ihr
  | RightJoin l r _ ihl ihr | IndexedJoin l r _ _ _ _ ihl ihr | InsertInto l r ihl ihr =>
    simp only [Node.PruneStable]
    rintro ⟨hl, hr⟩
    exact ⟨ihl hl, ihr hr⟩

theorem pruneProject_PruneStable (ps : List Expression) (c : Node) (cols : usedColumns)
    (h : c.PruneStable cols) : (pruneProject ps c cols).PruneStable cols := by
  rw [pruneProject_eq_filter]
  split
  · exact h
  · rename_i hlen
    refine ⟨fun h0 => hlen (by simp [h0]), fun e he => ?_, h⟩
    simpa using (List.mem_filter.1 he).2

theorem pruneGroupBy_PruneStable (sel grp : List Expression) (c : Node) (cols : usedColumns)
    (h : c.PruneStable cols) : (pruneGroupBy sel grp c cols).PruneStable cols := by
  rw [pruneGroupBy_eq_filter]
  split
  · exact h
  · rename_i hlen
    refine ⟨fun h0 => hlen (by simp [h0]), fun e he => ?_, h⟩
    simpa using (List.mem_filter.1 he).2

theorem pruneUnusedColumns_PruneStable (cols : usedColumns) (n : Node) :
    ∀ n1, pruneUnusedColumns n cols = .ok n1 → n1.PruneStable cols := by
  induction n with
  | ResolvedTable _ | UnresolvedTable _ | SubqueryAlias _ _ _ =>
    intro n1 h
    simp only [pruneUnusedColumns, TransformUp, pruneUnusedColumnsVisit, Except.ok.injEq] at h
    subst h
    simp [Node.PruneStable]
  | Project _ c ih | GroupBy _ _ c ih | Filter _ c ih | TableAlias _ c ih
  | DescribeQuery _ c ih | DecoratedNode _ _ c ih =>
    intro n1 h
    simp only [pruneUnusedColumns, TransformUp] at h
    cases hc : TransformUp (pruneUnusedColumnsVisit cols) c with
    | error err => simp [hc] at h
    | ok c1 =>
      have hc1 := ih c1 (by simpa only [pruneUnusedColumns] using hc)
      simp only [hc, pruneUnusedColumnsVisit, Except.ok.injEq] at h
      subst h
      first
        | exact pruneProject_PruneStable _ _ _ hc1
        | exact pruneGroupBy_PruneStable _ _ _ _ hc1
        | exact hc1
  | CrossJoin l r ihl ihr | InnerJoin l r _ ihl ihr | LeftJoin l r _ ihl ihr
  | RightJoin l r _ ihl ihr | IndexedJoin l r _ _ _ _ ihl ihr | InsertInto l r ihl ihr =>
    intro n1 h
    simp only [pruneUnusedColumns, TransformUp] at h
    cases hl : TransformUp (pruneUnusedColumnsVisit cols) l with
    | error err => simp [hl] at h
    | ok l1 =>
      cases hr : TransformUp (pruneUnusedColumnsVisit cols) r with
      | error err => simp [hl, hr] at h
      | ok r1 =>
        have hl1 := ihl l1 (by simpa only [pruneUnusedColumns] using hl)
        have hr1 := ihr r1 (by simpa only [pruneUnusedColumns] using hr)
        simp only [hl, hr, pruneUnusedColumnsVisit, Except.ok.injEq] at h
        subst h
        exact ⟨hl1, hr1⟩

theorem filter_keep_of_all (ps : List Expression) (cols : usedColumns)
    (hall : ∀ e ∈ ps, shouldPruneExpr e cols = false) :
    ps.filter (fun e => !shouldPruneExpr e cols) = ps := by
  rw [List.filter_eq_self]
  intro e he
  simp [hall e he]

theorem pruneUnusedColumns_of_PruneStable (cols : usedColumns) (n : Node)
    (h : n.PruneStable cols) : pruneUnusedColumns n cols = .ok n := by
  induction n with
  | ResolvedTable _ | UnresolvedTable _ | SubqueryAlias _ _ _ =>
    simp only [pruneUnusedColumns, TransformUp, pruneUnusedColumnsVisit]
  | Project ps c ih =>
    obtain ⟨hne, hall, hc⟩ := h
    have := ih hc
    simp only [pruneUnusedColumns] at this
    simp only [pruneUnusedColumns, TransformUp, this, pruneUnusedColumnsVisit]
    rw [pruneProject_eq_filter, filter_keep_of_all ps cols hall, if_neg (by simpa using hne)]
  | GroupBy sel grp c ih =>
    obtain ⟨hne, hall, hc⟩ := h
    have := ih hc
    simp only [pruneUnusedColumns] at this
    simp only [pruneUnusedColumns, TransformUp, this, pruneUnusedColumnsVisit]
    rw [pruneGroupBy_eq_filter, filter_keep_of_all sel cols hall, if_neg (by simpa using hne)]
  | Filter _ c ih | TableAlias _ c ih | DescribeQuery _ c ih | DecoratedNode _ _ c ih =>
    simp only [Node.PruneStable] at h
    have := ih h
    simp only [pruneUnusedColumns] at this
    simp only [pruneUnusedColumns, TransformUp, this, pruneUnusedColumnsVisit]
  | CrossJoin l r ihl ihr | InnerJoin l r _ ihl ihr | LeftJoin l r _ ihl ihr
  | RightJoin l r _ ihl ihr | IndexedJoin l r _ _ _ _ ihl ihr | InsertInto l r ihl ihr =>
    simp only [Node.PruneStable] at h
    have h1 := ihl h.1
    have h2 := ihr h.2
    simp only [pruneUnusedColumns] at h1 h2
    simp only [pruneUnusedColumns, TransformUp, h1, h2, pruneUnusedColumnsVisit]
theorem usageOf_DescribeQuery (format : String) (c : Node) :
    usageOf (.DescribeQuery format c) = usageOf c := by
  simp [usageOf, columnsUsedByNode, Node.Schema, findUsedColumns, Inspect,
    findUsedColumnsVisit, Node.Expressions]

theorem pruneColumns_fixed_of_stable (n : Node) :
    n.PruneStable (usageOf n) → n.NoSubqueryAlias → fixRemainingFieldsIndexes n = .ok n →
    pruneColumns n = .ok n := by
  induction n with
  | DescribeQuery format c ih =>
    intro hst hsa hfix
    rw [usageOf_DescribeQuery] at hst
    simp only [Node.PruneStable] at hst
    simp only [Node.NoSubqueryAlias] at hsa
    simp only [fixRemainingFieldsIndexes] at hfix
    cases hc : fixRemainingFieldsIndexes c with
    | error err => simp [hc] at hfix
    | ok c1 =>
      simp only [hc, fixNodeIndexes, Node.Expressions, Except.ok.injEq,
        Node.DescribeQuery.injEq, true_and] at hfix
      subst hfix
      rw [pruneColumns_DescribeQuery_eq, ih hst hsa hc]
  | InsertInto d s _ _ =>
    intro _ _ _
    exact pruneColumns_InsertInto_eq d s
  | ResolvedTable _ | UnresolvedTable _ | Project _ _ _ | GroupBy _ _ _ _ | Filter _ _ _
  | CrossJoin _ _ _ _ | InnerJoin _ _ _ _ _ | LeftJoin _ _ _ _ _ | RightJoin _ _ _ _ _
  | IndexedJoin _ _ _ _ _ _ _ _ | TableAlias _ _ _ | SubqueryAlias _ _ _
  | DecoratedNode _ _ _ _ =>
    intro hst hsa hfix
    cases hres : Node.Resolved _ with
    | false => exact pruneColumns_of_not_resolved _ hres
    | true =>
      exact pruneColumns_eval _ _ _ _ hres
        (by intro d s hh; cases hh) (by intro f x hh; cases hh)
        (pruneUnusedColumns_of_PruneStable _ _ hst)
        (pruneSubqueries_of_NoSubqueryAlias _ _ hsa) hfix

theorem pruneColumns_idempotent_core (P P1 : Node) (hres : P.Resolved = true)
    (hI : ∀ d s, P ≠ .InsertInto d s) (hD : ∀ f c, P ≠ .DescribeQuery f c)
    (hSA : P.NoSubqueryAlias) (h : pruneColumns P = .ok P1)
    (hU : ∀ t c, (usageOf P).has t c = true → (usageOf P1).has t c = true) :
    pruneColumns P1 = .ok P1 := by
  obtain ⟨n1, n2, h1, h2, h3⟩ := pruneColumns_ok_inv P P1 hres hI hD h
  have hsa1 := pruneUnusedColumns_NoSubqueryAlias _ P n1 hSA h1
  rw [pruneSubqueries_of_NoSubqueryAlias _ n1 hsa1, Except.ok.injEq] at h2
  subst h2
  have he := fixRemainingFieldsIndexes_erase n1 P1 h3
  have hst1 : P1.PruneStable (usageOf P) := by
    rw [← Node.PruneStable_eraseIndexes, he, Node.PruneStable_eraseIndexes]
    exact pruneUnusedColumns_PruneStable _ P n1 h1
  have hsa2 : P1.NoSubqueryAlias := by
    rw [← Node.NoSubqueryAlias_eraseIndexes, he, Node.NoSubqueryAlias_eraseIndexes]
    exact hsa1
  exact pruneColumns_fixed_of_stable P1 (Node.PruneStable_mono _ _ hU P1 hst1) hsa2
    (fixRemainingFieldsIndexes_idem n1 P1 h3)

theorem pruneColumns_idempotent_aux (P : Node) :
    ∀ P1, P.NoSubqueryAlias → pruneColumns P = .ok P1 →
      (∀ t c, (usageOf P).has t c = true → (usageOf P1).has t c = true) →
      pruneColumns P1 = .ok P1 := by
  induction P with
  | DescribeQuery format c ih =>
    intro P1 hSA h hU
    simp only [Node.NoSubqueryAlias] at hSA
    rw [pruneColumns_DescribeQuery_eq] at h
    cases hc : pruneColumns c with
    | error err => simp [hc] at h
    | ok c1 =>
      simp only [hc, Except.ok.injEq] at h
      subst h
      rw [usageOf_DescribeQuery, usageOf_DescribeQuery] at hU
      rw [pruneColumns_DescribeQuery_eq, ih c1 hSA hc hU]
  | InsertInto d s _ _ =>
    intro P1 _ h _
    rw [pruneColumns_InsertInto_eq, Except.ok.injEq] at h
    subst h
    exact pruneColumns_InsertInto_eq d s
  | ResolvedTable _ | UnresolvedTable _ | Project _ _ _ | GroupBy _ _ _ _ | Filter _ _ _
  | CrossJoin _ _ _ _ | InnerJoin _ _ _ _ _ | LeftJoin _ _ _ _ _ | RightJoin _ _ _ _ _
  | IndexedJoin _ _ _ _ _ _ _ _ | TableAlias _ _ _ | SubqueryAlias _ _ _
  | DecoratedNode _ _ _ _ =>
    intro P1 hSA h hU
    cases hres : Node.Resolved _ with
    | false =>
      have h0 := pruneColumns_of_not_resolved _ hres
      rw [h0, Except.ok.injEq] at h
      subst h
      exact h0
    | true =>
      exact pruneColumns_idempotent_core _ P1 hres
        (by intro d s hh; cases hh) (by intro f x hh; cases hh) hSA h hU

theorem pruneColumns_literalOverGroupBy :
    pruneColumns literalOverGroupBy = .ok literalOverGroupByPruned :=
  pruneColumns_eval literalOverGroupBy literalOverGroupByPruned literalOverGroupByPruned _ rfl
    (by intro d s h; cases h) (by intro f c h; cases h) rfl
    (by simp [pruneSubqueries, literalOverGroupByPruned]) rfl

theorem pruneColumns_literalOverGroupByPruned :
    pruneColumns literalOverGroupByPruned = .ok literalOverTable :=
  pruneColumns_eval literalOverGroupByPruned literalOverTable literalOverTable _ rfl
    (by intro d s h; cases h) (by intro f c h; cases h) rfl
    (by simp [pruneSubqueries, literalOverTable]) rfl

theorem pruneColumns_projectOverProject :
    pruneColumns projectOverProject = .ok projectOverProjectPruned :=
  pruneColumns_eval projectOverProject
    (.Project [.GetField 1 .Float64 "mytable" "f" false]
      (.Project [.GetField 1 .Float64 "mytable" "f" false] (.ResolvedTable mytable)))
    (.Project [.GetField 1 .Float64 "mytable" "f" false]
      (.Project [.GetField 1 .Float64 "mytable" "f" false] (.ResolvedTable mytable)))
    _ rfl
    (by intro d s h; cases h) (by intro f c h; cases h) rfl
    (by simp [pruneSubqueries]) rfl

/-- C22 (counterexample): on the resolved plan `literalOverGroupBy` the pass
succeeds and replaces the `GroupBy`, whose only selected column nothing uses, by
its child; the pair `(mytable, f)` that the grouping expression contributed is
no longer in the usage set of the result, and a second run of the pass removes
the inner `Project`: it returns a plan different from the plan it was given. -/
theorem pruneColumns_idempotence_counterexample :
    literalOverGroupBy.Resolved = true ∧
    pruneColumns literalOverGroupBy = .ok literalOverGroupByPruned ∧
    pruneColumns literalOverGroupByPruned =
      .ok (.Project [.Literal "1" .Int64] (.ResolvedTable mytable)) ∧
    pruneColumns literalOverGroupByPruned ≠ .ok literalOverGroupByPruned ∧
    (usageOf literalOverGroupBy).has "mytable" "f" = true ∧
    (usageOf literalOverGroupByPruned).has "mytable" "f" = false := by
  refine ⟨rfl, pruneColumns_literalOverGroupBy, pruneColumns_literalOverGroupByPruned, ?_,
    by decide, by decide⟩
  intro h
  rw [pruneColumns_literalOverGroupByPruned] at h
  simp only [literalOverTable, literalOverGroupByPruned, Except.ok.injEq,
    Node.Project.injEq] at h
  cases h.2

/-- C22 (as amended): when `pruneColumns` succeeds on a plan `P` without
`SubqueryAlias` with the result `P1`, and every pair of the usage set computed
for `P` is in the usage set computed for `P1`, then `pruneColumns` succeeds on
`P1` and returns `P1` itself.  (The usage set of the result loses pairs when a
`GroupBy` whose grouping expressions contributed them is replaced by its
child.) -/
theorem pruneColumns_idempotent_of_usage (P P1 : Node) (hSA : P.NoSubqueryAlias)
    (h : pruneColumns P = .ok P1)
    (hU : ∀ t c, (usageOf P).has t c = true → (usageOf P1).has t c = true) :
    pruneColumns P1 = .ok P1 :=
  pruneColumns_idempotent_aux P P1 hSA h hU

/-- C22 (witness): `projectOverProject` loses the projection of `i` in the
first run, and the second run returns its input. -/
theorem pruneColumns_idempotent_of_usage_witness :
    projectOverProject.NoSubqueryAlias ∧
    pruneColumns projectOverProject = .ok projectOverProjectPruned ∧
    pruneColumns projectOverProjectPruned = .ok projectOverProjectPruned :=
  ⟨by simp [projectOverProject, Node.NoSubqueryAlias], pruneColumns_projectOverProject,
   pruneColumns_idempotent_of_usage projectOverProject projectOverProjectPruned
     (by simp [projectOverProject, Node.NoSubqueryAlias]) pruneColumns_projectOverProject
     (by
      intro t c hh
      have e1 : usageOf projectOverProject = { entries := [("mytable", "f")] } := rfl
      have e2 : usageOf projectOverProjectPruned = { entries := [("mytable", "f")] } := rfl
      rw [e2]
      rw [e1] at hh
      exact hh)⟩

/-! ## Filter pushdown above tables -/

theorem pushdownFiltersAboveTables_tests :
    pushdownFiltersAboveTables filterOverCrossJoin = .ok filterOverCrossJoinExpected ∧
    pushdownFiltersAboveTables filterOverAliasedCrossJoin
      = .ok filterOverAliasedCrossJoinExpected ∧
    pushdownFiltersAboveTables filterOverLeftJoin = .ok filterOverLeftJoinExpected ∧
    pushdownFiltersAboveTables filterOverRightJoin = .ok filterOverRightJoinExpected ∧
    pushdownFiltersAboveTables filterWithJoinCondition = .ok filterWithJoinCondition :=
  ⟨rfl, rfl, rfl, rfl, rfl⟩
theorem filterAbove_Schema (cs : List Expression) (n : Node) :
    (filterAbove cs n).Schema = n.Schema := by
  cases cs <;> rfl

theorem pushInto_of_not_join (cs : List Expression) (n : Node) (h : n.isJoin = false) :
    pushInto cs n = filterAbove cs n := by
  cases n <;> first | rfl | simp [Node.isJoin] at h

theorem pushInto_Schema (n : Node) : ∀ cs, (pushInto cs n).Schema = n.Schema := by
  induction n with
  | CrossJoin l r ihl ihr =>
    intro cs
    simp only [pushInto]
    split
    · rw [filterAbove_Schema]
    · simp only [Node.Schema, ihl, ihr]
  | InnerJoin l r cond ihl ihr =>
    intro cs
    simp only [pushInto]
    split
    · rw [filterAbove_Schema]
    · simp only [Node.Schema, ihl, ihr]
  | LeftJoin l r cond ihl ihr =>
    intro cs
    simp only [pushInto]
    split
    · rw [filterAbove_Schema]
    · rw [filterAbove_Schema]
      simp only [Node.Schema, ihl]
  | RightJoin l r cond ihl ihr =>
    intro cs
    simp only [pushInto]
    split
    · rw [filterAbove_Schema]
    · rw [filterAbove_Schema]
      simp only [Node.Schema, ihr]
  | IndexedJoin l r jt cond keys idx ihl ihr =>
    intro cs
    simp only [pushInto]
    split
    · rw [filterAbove_Schema]
    · split
      · simp only [Node.Schema, ihl, ihr]
      · rw [filterAbove_Schema]
        simp only [Node.Schema, ihl]
  | _ =>
    intro cs
    simp only [pushInto, filterAbove_Schema]

theorem pushdownFilter_Schema (e : Expression) (c n1 : Node)
    (h : pushdownFilter e c = some n1) : n1.Schema = c.Schema := by
  unfold pushdownFilter at h
  split at h
  · simp only [Option.some.injEq] at h
    subst h
    exact pushInto_Schema c _
  · cases h

theorem relocateFilters_Schema (n : Node) : (relocateFilters n).1.Schema = n.Schema := by
  induction n with
  | ResolvedTable _ | UnresolvedTable _ | SubqueryAlias _ _ _ => rfl
  | Filter e c ih =>
    simp only [relocateFilters]
    cases hp : pushdownFilter e (relocateFilters c).1 with
    | none => simp only [Node.Schema, ih]
    | some n1 =>
      simp only [Node.Schema]
      rw [pushdownFilter_Schema e _ n1 hp, ih]
  | Project _ c ih | GroupBy _ _ c ih => rfl
  | TableAlias _ c ih | DescribeQuery _ c ih | DecoratedNode _ _ c ih =>
    simp only [relocateFilters, Node.Schema, ih]
  | CrossJoin l r ihl ihr | InnerJoin l r _ ihl ihr | LeftJoin l r _ ihl ihr
  | RightJoin l r _ ihl ihr | IndexedJoin l r _ _ _ _ ihl ihr =>
    simp only [relocateFilters, Node.Schema, ihl, ihr]
  | InsertInto l r ihl ihr => rfl

theorem relocateFilters_unchanged (n : Node) :
    (relocateFilters n).2 = false → (relocateFilters n).1 = n := by
  induction n with
  | ResolvedTable _ | UnresolvedTable _ | SubqueryAlias _ _ _ => intro _; rfl
  | Filter e c ih =>
    simp only [relocateFilters]
    cases hp : pushdownFilter e (relocateFilters c).1 with
    | none =>
      intro h
      simp only [ih h]
    | some n1 =>
      intro h
      cases h
  | Project _ c ih | GroupBy _ _ c ih | TableAlias _ c ih | DescribeQuery _ c ih
  | DecoratedNode _ _ c ih =>
    simp only [relocateFilters]
    intro h
    rw [ih h]
  | CrossJoin l r ihl ihr | InnerJoin l r _ ihl ihr | LeftJoin l r _ ihl ihr
  | RightJoin l r _ ihl ihr | IndexedJoin l r _ _ _ _ ihl ihr | InsertInto l r ihl ihr =>
    simp only [relocateFilters, Bool.or_eq_false_iff]
    rintro ⟨h1, h2⟩
    rw [ihl h1, ihr h2]

theorem pushdownFiltersAboveTables_of_no_relocation (n : Node)
    (h : (relocateFilters n).2 = false) : pushdownFiltersAboveTables n = .ok n := by
  unfold pushdownFiltersAboveTables
  split
  · rfl
  · simp [h]

theorem classifyConjunct_LeftOnly_iff (l r : Schema) (e : Expression) :
    classifyConjunct l r e = .LeftOnly ↔ e.refersOnlyTo l = true := by
  unfold classifyConjunct
  by_cases h1 : e.refersOnlyTo l = true
  · simp [h1]
  · by_cases h2 : e.refersOnlyTo r = true
    · simp [h1, h2]
    · simp [h1, h2]

theorem classifyConjunct_RightOnly_iff (l r : Schema) (e : Expression) :
    classifyConjunct l r e = .RightOnly ↔
      e.refersOnlyTo l = false ∧ e.refersOnlyTo r = true := by
  unfold classifyConjunct
  by_cases h1 : e.refersOnlyTo l = true
  · simp [h1]
  · by_cases h2 : e.refersOnlyTo r = true
    · simp [h1, h2]
    · simp [h1, h2]

theorem classifyConjunct_Join_iff (l r : Schema) (e : Expression) :
    classifyConjunct l r e = .Join ↔
      e.refersOnlyTo l = false ∧ e.refersOnlyTo r = false := by
  unfold classifyConjunct
  by_cases h1 : e.refersOnlyTo l = true
  · simp [h1]
  · by_cases h2 : e.refersOnlyTo r = true
    · simp [h1, h2]
    · simp [h1, h2]

theorem refersOnlyTo_iff (e : Expression) (schema : Schema) :
    e.refersOnlyTo schema = true ↔
      e.columnRefs ≠ [] ∧ ∀ r ∈ e.columnRefs, HasPair schema r.table r.name := by
  unfold Expression.refersOnlyTo HasPair
  simp only [Bool.and_eq_true, Bool.not_eq_true', List.isEmpty_eq_false, List.all_eq_true,
    List.any_eq_true, beq_iff_eq, ne_eq]

theorem refersOnlyTo_false_of_OnlyIn (e : Expression) (side other : Schema) (r : ColumnRef)
    (hr : r ∈ e.columnRefs) (h : r.OnlyIn side other) : e.refersOnlyTo other = false := by
  cases hx : e.refersOnlyTo other with
  | false => rfl
  | true => exact absurd (((refersOnlyTo_iff e other).1 hx).2 r hr) h.2
theorem classify_beq_LeftOnly (l r : Schema) (e : Expression) :
    (classifyConjunct l r e == .LeftOnly) = e.refersOnlyTo l := by
  unfold classifyConjunct
  cases e.refersOnlyTo l <;> cases e.refersOnlyTo r <;> rfl

theorem classify_bne_LeftOnly (l r : Schema) (e : Expression) :
    (classifyConjunct l r e != .LeftOnly) = !e.refersOnlyTo l := by
  unfold classifyConjunct
  cases e.refersOnlyTo l <;> cases e.refersOnlyTo r <;> rfl

theorem classify_beq_RightOnly (l r : Schema) (e : Expression) :
    (classifyConjunct l r e == .RightOnly) = (!e.refersOnlyTo l && e.refersOnlyTo r) := by
  unfold classifyConjunct
  cases e.refersOnlyTo l <;> cases e.refersOnlyTo r <;> rfl

theorem classify_bne_RightOnly (l r : Schema) (e : Expression) :
    (classifyConjunct l r e != .RightOnly) = !(!e.refersOnlyTo l && e.refersOnlyTo r) := by
  unfold classifyConjunct
  cases e.refersOnlyTo l <;> cases e.refersOnlyTo r <;> rfl

theorem classify_beq_Join (l r : Schema) (e : Expression) :
    (classifyConjunct l r e == .Join) = (!e.refersOnlyTo l && !e.refersOnlyTo r) := by
  unfold classifyConjunct
  cases e.refersOnlyTo l <;> cases e.refersOnlyTo r <;> rfl

theorem relocateFilters_Filter (e : Expression) (c : Node) :
    relocateFilters (.Filter e c) =
      match pushdownFilter e (relocateFilters c).1 with
      | some n1 => (n1, true)
      | none => (.Filter e (relocateFilters c).1, (relocateFilters c).2) := by
  simp only [relocateFilters]

theorem any_join_false_of_one_sided (cs : List Expression) (l r : Schema)
    (h : ∀ c ∈ cs, c.refersOnlyTo l = true ∨ c.refersOnlyTo r = true) :
    cs.any (fun e => classifyConjunct l r e == .Join) = false := by
  rw [List.any_eq_false]
  intro c hc
  rw [classify_beq_Join]
  rcases h c hc with h1 | h1 <;> simp [h1]

theorem pushdownFilter_CrossJoin_eq (predicate : Expression) (L R : Node)
    (h : ∀ c ∈ splitConjunction predicate,
      c.refersOnlyTo L.Schema = true ∨ c.refersOnlyTo R.Schema = true) :
    pushdownFilter predicate (.CrossJoin L R) = some
      (.CrossJoin
        (pushInto ((splitConjunction predicate).filter (fun e => e.refersOnlyTo L.Schema)) L)
        (pushInto
          ((splitConjunction predicate).filter
            (fun e => !e.refersOnlyTo L.Schema && e.refersOnlyTo R.Schema)) R)) := by
  have hany := any_join_false_of_one_sided _ _ _ h
  simp only [pushdownFilter, relocatable, hany, Bool.not_false, if_true, pushInto,
    classify_beq_LeftOnly, classify_beq_RightOnly]
  rfl

theorem pushdownFiltersAboveTables_filterOverNestedCrossJoin :
    pushdownFiltersAboveTables filterOverNestedCrossJoin = .ok
      (.CrossJoin
        (.CrossJoin
          (.Filter
            (.Binary .Equals (.GetField 1 .Float64 "mytable" "f" false)
              (.Literal "3.14" .Float64))
            (.ResolvedTable mytable))
          (.ResolvedTable tableNamedS))
        (.Filter (.Unary .IsNull (.GetField 0 .Int32 "mytable2" "i2" false))
          (.ResolvedTable mytable2))) := rfl

/-- C25 (counterexample): in `filterOverNestedCrossJoin` each conjunct of the
`Filter` refers to columns of one side of the cross join only, and the rewrite
does not return the join of a `Filter` above the left side and a `Filter` above
the right side: the left side is itself a cross join and its conjunct goes
further down, above the table `mytable`. -/
theorem pushdownFilter_CrossJoin_counterexample :
    (∀ c ∈ splitConjunction outerJoinPredicate,
      c.refersOnlyTo (Node.CrossJoin (.ResolvedTable mytable) (.ResolvedTable tableNamedS)).Schema
          = true ∨
        c.refersOnlyTo (Node.ResolvedTable mytable2).Schema = true) ∧
    pushdownFiltersAboveTables filterOverNestedCrossJoin = .ok
      (.CrossJoin
        (.CrossJoin
          (.Filter
            (.Binary .Equals (.GetField 1 .Float64 "mytable" "f" false)
              (.Literal "3.14" .Float64))
            (.ResolvedTable mytable))
          (.ResolvedTable tableNamedS))
        (.Filter (.Unary .IsNull (.GetField 0 .Int32 "mytable2" "i2" false))
          (.ResolvedTable mytable2))) ∧
    (∀ p q, pushdownFiltersAboveTables filterOverNestedCrossJoin ≠ .ok
      (.CrossJoin
        (.Filter p (.CrossJoin (.ResolvedTable mytable) (.ResolvedTable tableNamedS)))
        (.Filter q (.ResolvedTable mytable2)))) := by
  refine ⟨by decide, pushdownFiltersAboveTables_filterOverNestedCrossJoin, ?_⟩
  intro p q h
  rw [pushdownFiltersAboveTables_filterOverNestedCrossJoin] at h
  simp only [Except.ok.injEq, Node.CrossJoin.injEq] at h
  cases h.1

/-- C25 (as amended): above `CrossJoin(L, R)`, when every top-level conjunct of
the predicate (nested `and` flattened) refers to columns of one side only, the
rewrite of the `Filter` returns the cross join, with no `Filter` above it, of
`L` with the conjuncts of `L` pushed into it and `R` with the conjuncts of `R`
pushed into it; a side that is not a join receives its conjuncts as a `Filter`
of their `and` directly above it (a side without conjunct is left as it is),
and a side that is a join receives them further down.  When nothing else is
relocated inside `L` and `R`, the rule returns the index recomputation of that
plan, in which every column reference is rebound to the schema below its
node. -/
theorem pushdownFilter_CrossJoin (predicate : Expression) (L R : Node)
    (h : ∀ c ∈ splitConjunction predicate,
      c.refersOnlyTo L.Schema = true ∨ c.refersOnlyTo R.Schema = true) :
    pushdownFilter predicate (.CrossJoin L R) = some
      (.CrossJoin
        (pushInto ((splitConjunction predicate).filter (fun e => e.refersOnlyTo L.Schema)) L)
        (pushInto
          ((splitConjunction predicate).filter
            (fun e => !e.refersOnlyTo L.Schema && e.refersOnlyTo R.Schema)) R)) ∧
    (L.isJoin = false → ∀ cs, pushInto cs L = filterAbove cs L) ∧
    (R.isJoin = false → ∀ cs, pushInto cs R = filterAbove cs R) ∧
    ((Node.Filter predicate (.CrossJoin L R)).Resolved = true →
      (relocateFilters L).2 = false → (relocateFilters R).2 = false →
      pushdownFiltersAboveTables (.Filter predicate (.CrossJoin L R)) =
        fixRemainingFieldsIndexes
          (.CrossJoin
            (pushInto
              ((splitConjunction predicate).filter (fun e => e.refersOnlyTo L.Schema)) L)
            (pushInto
              ((splitConjunction predicate).filter
                (fun e => !e.refersOnlyTo L.Schema && e.refersOnlyTo R.Schema)) R)) ∧
      ∀ res, pushdownFiltersAboveTables (.Filter predicate (.CrossJoin L R)) = .ok res →
        ∀ m ∈ res.subtrees, m.RefsValid) := by
  have heq := pushdownFilter_CrossJoin_eq predicate L R h
  refine ⟨heq, fun hL cs => pushInto_of_not_join cs L hL,
    fun hR cs => pushInto_of_not_join cs R hR, ?_⟩
  intro hres hL hR
  have hrule : pushdownFiltersAboveTables (.Filter predicate (.CrossJoin L R)) =
      fixRemainingFieldsIndexes
        (.CrossJoin
          (pushInto
            ((splitConjunction predicate).filter (fun e => e.refersOnlyTo L.Schema)) L)
          (pushInto
            ((splitConjunction predicate).filter
              (fun e => !e.refersOnlyTo L.Schema && e.refersOnlyTo R.Schema)) R)) := by
    have hrel : relocateFilters (.Filter predicate (.CrossJoin L R)) =
        (.CrossJoin
          (pushInto
            ((splitConjunction predicate).filter (fun e => e.refersOnlyTo L.Schema)) L)
          (pushInto
            ((splitConjunction predicate).filter
              (fun e => !e.refersOnlyTo L.Schema && e.refersOnlyTo R.Schema)) R), true) := by
      rw [relocateFilters_Filter]
      simp only [relocateFilters, relocateFilters_unchanged L hL,
        relocateFilters_unchanged R hR, heq]
    unfold pushdownFiltersAboveTables
    simp only [hres, Bool.not_true, hrel]
    rfl
  refine ⟨hrule, fun res hok => ?_⟩
  rw [hrule] at hok
  exact ((fixRemainingFieldsIndexes_spec _).1 res hok).2.1

/-- C25 (witness): the `Filter` above the cross join of `mytable` and
`mytable2` of the test: both sides are tables and receive a `Filter`. -/
theorem pushdownFilter_CrossJoin_witness :
    pushdownFilter
      (.Binary .And
        (.Binary .Equals (.GetField 1 .Float64 "mytable" "f" true) (.Literal "3.14" .Float64))
        (.Binary .And
          (.Binary .Equals (.GetField 3 .Int32 "mytable2" "i2" true) (.Literal "21" .Int32))
          (.Binary .Equals (.GetField 5 .Int32 "mytable2" "t2" true)
            (.Literal "hello" .Text))))
      (.CrossJoin (.ResolvedTable mytable) (.ResolvedTable mytable2)) = some
      (.CrossJoin
        (.Filter
          (.Binary .Equals (.GetField 1 .Float64 "mytable" "f" true)
            (.Literal "3.14" .Float64))
          (.ResolvedTable mytable))
        (.Filter
          (.Binary .And
            (.Binary .Equals (.GetField 3 .Int32 "mytable2" "i2" true) (.Literal "21" .Int32))
            (.Binary .Equals (.GetField 5 .Int32 "mytable2" "t2" true)
              (.Literal "hello" .Text)))
          (.ResolvedTable mytable2))) :=
  (pushdownFilter_CrossJoin _ (.ResolvedTable mytable) (.ResolvedTable mytable2)
    (by decide)).1

theorem relocatable_false_of_join_conjunct (cs : List Expression) (J : Node) (l r : Schema)
    (hJ : (∃ L R, J = .CrossJoin L R ∧ L.Schema = l ∧ R.Schema = r) ∨
      (∃ L R cond, J = .InnerJoin L R cond ∧ L.Schema = l ∧ R.Schema = r) ∨
      (∃ L R cond, J = .LeftJoin L R cond ∧ L.Schema = l ∧ R.Schema = r) ∨
      (∃ L R cond, J = .RightJoin L R cond ∧ L.Schema = l ∧ R.Schema = r))
    (hc : ∃ c ∈ cs, (∃ x ∈ c.columnRefs, x.OnlyIn l r) ∧ (∃ x ∈ c.columnRefs, x.OnlyIn r l)) :
    relocatable cs J = false := by
  obtain ⟨c, hmem, ⟨x, hx, hxl⟩, ⟨y, hy, hyr⟩⟩ := hc
  have h1 : c.refersOnlyTo l = false := refersOnlyTo_false_of_OnlyIn c r l y hy hyr
  have h2 : c.refersOnlyTo r = false := refersOnlyTo_false_of_OnlyIn c l r x hx hxl
  have hany : cs.any (fun e => classifyConjunct l r e == .Join) = true := by
    rw [List.any_eq_true]
    exact ⟨c, hmem, by rw [classify_beq_Join]; simp [h1, h2]⟩
  rcases hJ with ⟨L, R, rfl, rfl, rfl⟩ | ⟨L, R, cond, rfl, rfl, rfl⟩ |
    ⟨L, R, cond, rfl, rfl, rfl⟩ | ⟨L, R, cond, rfl, rfl, rfl⟩ <;>
    simp [relocatable, hany]

/-- C26: for a `Filter` above a join (cross, inner, left or right) one of
whose top-level conjuncts refers to a column that only the left side has and to
a column that only the right side has, the rewrite relocates no conjunct, not
even those that refer to one side: the `Filter` stays above the join with its
predicate as it is, and when nothing is relocated inside the sides of the join
the rule returns the plan itself. -/
theorem pushdownFilter_join_conjunct_blocks (predicate : Expression) (J L R : Node)
    (hJ : J = .CrossJoin L R ∨ (∃ cond, J = .InnerJoin L R cond) ∨
      (∃ cond, J = .LeftJoin L R cond) ∨ (∃ cond, J = .RightJoin L R cond))
    (hc : ∃ c ∈ splitConjunction predicate,
      (∃ x ∈ c.columnRefs, x.OnlyIn L.Schema R.Schema) ∧
      (∃ x ∈ c.columnRefs, x.OnlyIn R.Schema L.Schema)) :
    pushdownFilter predicate J = none ∧
    relocateFilters (.Filter predicate J) =
      (.Filter predicate (relocateFilters J).1, (relocateFilters J).2) ∧
    ((relocateFilters J).2 = false →
      pushdownFiltersAboveTables (.Filter predicate J) = .ok (.Filter predicate J)) := by
  have h1 : pushdownFilter predicate J = none := by
    have := relocatable_false_of_join_conjunct (splitConjunction predicate) J
      L.Schema R.Schema
      (by
        rcases hJ with rfl | ⟨cond, rfl⟩ | ⟨cond, rfl⟩ | ⟨cond, rfl⟩
        · exact Or.inl ⟨L, R, rfl, rfl, rfl⟩
        · exact Or.inr (Or.inl ⟨L, R, cond, rfl, rfl, rfl⟩)
        · exact Or.inr (Or.inr (Or.inl ⟨L, R, cond, rfl, rfl, rfl⟩))
        · exact Or.inr (Or.inr (Or.inr ⟨L, R, cond, rfl, rfl, rfl⟩))) hc
    simp [pushdownFilter, this]
  have h2 : pushdownFilter predicate (relocateFilters J).1 = none := by
    have := relocatable_false_of_join_conjunct (splitConjunction predicate)
      (relocateFilters J).1 L.Schema R.Schema
      (by
        rcases hJ with rfl | ⟨cond, rfl⟩ | ⟨cond, rfl⟩ | ⟨cond, rfl⟩
        · exact Or.inl ⟨_, _, rfl, relocateFilters_Schema L, relocateFilters_Schema R⟩
        · exact Or.inr (Or.inl
            ⟨_, _, cond, rfl, relocateFilters_Schema L, relocateFilters_Schema R⟩)
        · exact Or.inr (Or.inr (Or.inl
            ⟨_, _, cond, rfl, relocateFilters_Schema L, relocateFilters_Schema R⟩))
        · exact Or.inr (Or.inr (Or.inr
            ⟨_, _, cond, rfl, relocateFilters_Schema L, relocateFilters_Schema R⟩))) hc
    simp [pushdownFilter, this]
  have h3 : relocateFilters (.Filter predicate J) =
      (.Filter predicate (relocateFilters J).1, (relocateFilters J).2) := by
    rw [relocateFilters_Filter, h2]
  refine ⟨h1, h3, fun hflag => ?_⟩
  exact pushdownFiltersAboveTables_of_no_relocation _ (by rw [h3]; exact hflag)

/-- C26 (witness): the `Filter` of `filterWithJoinCondition`, whose conjunct
`mytable.i = mytable2.i2` refers to both sides of the cross join: the two
conjuncts that refer to one side stay where they are. -/
theorem pushdownFilter_join_conjunct_blocks_witness :
    pushdownFiltersAboveTables filterWithJoinCondition = .ok filterWithJoinCondition ∧
    pushdownFilter
      (.Binary .And
        (.Binary .Equals (.GetField 1 .Float64 "mytable" "f" true) (.Literal "3.14" .Float64))
        (.Binary .And
          (.Binary .Equals (.GetField 0 .Int32 "mytable" "i" true)
            (.GetField 3 .Int32 "mytable2" "i2" true))
          (.Binary .Equals (.GetField 3 .Int32 "mytable2" "i2" true) (.Literal "20" .Int32))))
      (.CrossJoin (.ResolvedTable mytable) (.ResolvedTable mytable2)) = none :=
  ⟨rfl,
   (pushdownFilter_join_conjunct_blocks _
      (.CrossJoin (.ResolvedTable mytable) (.ResolvedTable mytable2))
      (.ResolvedTable mytable) (.ResolvedTable mytable2) (Or.inl rfl)
      ⟨.Binary .Equals (.GetField 0 .Int32 "mytable" "i" true)
          (.GetField 3 .Int32 "mytable2" "i2" true),
        by simp [splitConjunction],
        ⟨{ index := 0, table := "mytable", name := "i" },
          by simp [Expression.columnRefs],
          by simp [ColumnRef.OnlyIn, HasPair, Node.Schema, mytable, mytable2]⟩,
        ⟨{ index := 3, table := "mytable2", name := "i2" },
          by simp [Expression.columnRefs],
          by simp [ColumnRef.OnlyIn, HasPair, Node.Schema, mytable, mytable2]⟩⟩).1⟩

/-! ## Index selection -/

theorem pushdownFilters_tests :
    pushdownFilters singleIndex = .ok singleIndexExpected ∧
    pushdownFilters singleIndexExtraPredicates = .ok singleIndexExtraPredicatesExpected ∧
    pushdownFilters indexOnTwoTables = .ok indexOnTwoTablesExpected ∧
    pushdownFilters indexOnTwoTablesExpected = .ok indexOnTwoTablesExpected ∧
    pushdownFilters singleIndexAliased = .ok singleIndexAliasedExpected ∧
    pushdownFilters innerIndexedJoin = .ok innerIndexedJoinExpected ∧
    pushdownFilters rightIndexedJoin = .ok rightIndexedJoinExpected ∧
    pushdownFilters filterOverCrossJoin = .ok filterOverCrossJoinExpected ∧
    pushdownFilters filterOverLeftJoin = .ok filterOverLeftJoinExpected ∧
    pushdownFilters filterOverRightJoin = .ok filterOverRightJoinExpected ∧
    pushdownFilters filterWithJoinCondition = .ok filterWithJoinCondition :=
  ⟨rfl, rfl, rfl, rfl, rfl, rfl, rfl, rfl, rfl, rfl, rfl⟩
theorem findSome_of_unique {α β : Type} (f : α → Option β) (v : β) :
    ∀ (l : List α), (∃ e ∈ l, f e = some v) → (∀ e ∈ l, ∀ w, f e = some w → w = v) →
      l.findSome? f = some v := by
  intro l
  induction l with
  | nil =>
    rintro ⟨e, he, _⟩ _
    cases he
  | cons a l ih =>
    intro hex huniq
    cases hfa : f a with
    | some w =>
      simp only [List.findSome?, hfa]
      rw [huniq a (List.mem_cons_self _ _) w hfa]
    | none =>
      simp only [List.findSome?, hfa]
      apply ih
      · obtain ⟨e, he, hfe⟩ := hex
        rcases List.mem_cons.1 he with rfl | he
        · rw [hfa] at hfe
          cases hfe
        · exact ⟨e, he, hfe⟩
      · exact fun e he w hw => huniq e (List.mem_cons_of_mem _ he) w hw

theorem findSome_skip_prefix {α β : Type} (g : α → Option β) (x : α) (post : List α) :
    ∀ (pre : List α), (∀ j ∈ pre, g j = none) →
      (pre ++ x :: post).findSome? g = (x :: post).findSome? g := by
  intro pre
  induction pre with
  | nil => intro _; rfl
  | cons a pre ih =>
    intro h
    simp only [List.cons_append, List.findSome?, h a (List.mem_cons_self _ _)]
    exact ih (fun j hj => h j (List.mem_cons_of_mem _ hj))

theorem splitConjunction_of_not_and (e : Expression) (h : e.isAnd = false) :
    splitConjunction e = [e] := by
  cases e with
  | Binary op l r =>
    cases op <;> first | rfl | simp [Expression.isAnd] at h
  | _ => rfl

theorem splitConjunction_atoms : ∀ (e c : Expression),
    c ∈ splitConjunction e → c.isAnd = false
  | .Binary op l r, c, hc => by
    cases op with
    | And =>
      simp only [splitConjunction, List.mem_append] at hc
      rcases hc with hc | hc
      · exact splitConjunction_atoms l c hc
      · exact splitConjunction_atoms r c hc
    | _ =>
      simp only [splitConjunction, List.mem_singleton] at hc
      subst hc
      rfl
  | .Literal _ _, c, hc | .GetField _ _ _ _ _, c, hc | .UnresolvedColumn _ _, c, hc
  | .Alias _ _, c, hc | .Unary _ _, c, hc | .Call _ _ _, c, hc => by
    simp only [splitConjunction, List.mem_singleton] at hc
    subst hc
    rfl

theorem splitConjunction_joinConjunction (cs : List Expression) :
    ∀ (e : Expression), (∀ c ∈ cs, c.isAnd = false) →
      splitConjunction (joinConjunction e cs) = splitConjunction e ++ cs := by
  induction cs with
  | nil =>
    intro e _
    simp [joinConjunction]
  | cons c cs ih =>
    intro e h
    have hc := splitConjunction_of_not_and c (h c (List.mem_cons_self _ _))
    have := ih (.Binary .And e c) (fun x hx => h x (List.mem_cons_of_mem _ hx))
    simp only [joinConjunction, List.foldl_cons] at this ⊢
    rw [this]
    simp [splitConjunction, hc]

theorem splitConjunction_rejoin (predicate : Expression) :
    splitConjunction (rejoin predicate) = splitConjunction predicate := by
  unfold rejoin
  have hat := fun c hc => splitConjunction_atoms predicate c hc
  cases h : splitConjunction predicate with
  | nil => simp only [h]
  | cons c cs =>
    rw [h] at hat
    simp only
    rw [splitConjunction_joinConjunction cs c (fun x hx => hat x (List.mem_cons_of_mem _ hx)),
      splitConjunction_of_not_and c (hat c (List.mem_cons_self _ _))]
    rfl
theorem findSome_none_of_all {α β : Type} (f : α → Option β) :
    ∀ (l : List α), (∀ e ∈ l, f e = none) → l.findSome? f = none := by
  intro l
  induction l with
  | nil => intro _; rfl
  | cons a l ih =>
    intro h
    simp only [List.findSome?, h a (List.mem_cons_self _ _)]
    exact ih (fun e he => h e (List.mem_cons_of_mem _ he))

theorem selectIndex_eq (t : Table) (cs : List Expression) (idx : Index) (pre post : List Index)
    (c v : String) (hno : t.Lookup = none)
    (hord : orderedIndexes t = pre ++ idx :: post)
    (hpre : ∀ j ∈ pre, ∀ col rest, j.Columns = col :: rest →
      ∀ e ∈ cs, equalityKey t.Name col e = none)
    (hcol : idx.Columns = [c])
    (hex : ∃ e ∈ cs, equalityKey t.Name c e = some v)
    (huniq : ∀ e ∈ cs, ∀ w, equalityKey t.Name c e = some w → w = v) :
    selectIndex t t.Name cs = some { index := idx, Key := v } := by
  have hidx : lookupFor t.Name cs idx = some { index := idx, Key := v } := by
    simp only [lookupFor, hcol, findSome_of_unique _ v cs hex huniq]
  have hnone : ∀ j ∈ pre, lookupFor t.Name cs j = none := by
    intro j hj
    unfold lookupFor
    cases hc : j.Columns with
    | nil => rfl
    | cons col rest =>
      simp only [findSome_none_of_all _ cs (hpre j hj col rest hc)]
  simp only [selectIndex, hno, hord, findSome_skip_prefix _ idx post pre hnone,
    List.findSome?, hidx]

/-- C27 (counterexample): three `Filter`s directly above a table that declares
an index on `f`, with the conjunct `f = 3.14`.  Above the table that already
carries an index lookup the rule changes nothing and adds no decorator; with
the conjunct `i = 100` on the primary key the primary-key index is selected,
not the index on `f`; and a predicate whose `and` is nested to the right is
rebuilt with the `and` nested to the left. -/
theorem pushdownIndex_counterexample :
    idxTable1F ∈ mytableWithLookup.Indexes ∧
    pushdownIndex fEquals (.ResolvedTable mytableWithLookup) = none ∧
    pushdownFilters (.Filter fEquals (.ResolvedTable mytableWithLookup))
      = .ok (.Filter fEquals (.ResolvedTable mytableWithLookup)) ∧
    pushdownIndex (.Binary .And fEquals iEquals100) (.ResolvedTable mytableIndexed) = some
      (.DecoratedNode .IndexedAccess "Indexed table access on index [mytable.i]"
        (.Filter (.Binary .And fEquals iEquals100)
          (.ResolvedTable
            { mytableIndexed with Lookup := some { index := idxTable1I, Key := "100" } }))) ∧
    pushdownIndex (.Binary .And fEquals (.Binary .And tEqualsHello tEqualsGoodbye))
        (.ResolvedTable mytableIndexed) = some
      (.DecoratedNode .IndexedAccess "Indexed table access on index [mytable.f]"
        (.Filter (.Binary .And (.Binary .And fEquals tEqualsHello) tEqualsGoodbye)
          (.ResolvedTable mytableWithLookup))) :=
  ⟨by decide, rfl, rfl, rfl, rfl⟩

/-- C27 (as amended): for a `Filter` directly above a `ResolvedTable` that
carries no index lookup yet, let `idx` be the first index of the table, in the
order primary-key index then declaration, whose leading column has an equality
with a literal among the conjuncts; when `idx` is an index on the single column
`c` and the conjuncts equate `c` with the literal `v`, the rule puts the lookup
`idx.Get(v)` on the table, wraps the `Filter` in a decorator of kind
indexed-access labelled "Indexed table access on index [<table>.<c>]", and the
`Filter` keeps every conjunct of the original predicate, in order, its `and`
rebuilt nested to the left. -/
theorem pushdownIndex_single_column (predicate : Expression) (t : Table) (idx : Index)
    (pre post : List Index) (c v : String)
    (hno : t.Lookup = none)
    (hord : orderedIndexes t = pre ++ idx :: post)
    (hpre : ∀ j ∈ pre, ∀ col rest, j.Columns = col :: rest →
      ∀ e ∈ splitConjunction predicate, equalityKey t.Name col e = none)
    (hcol : idx.Columns = [c]) (htab : idx.Table = t.Name)
    (hex : ∃ i ty nullable tv, Expression.Binary .Equals
      (.GetField i ty t.Name c nullable) (.Literal v tv) ∈ splitConjunction predicate)
    (huniq : ∀ e ∈ splitConjunction predicate, ∀ w, equalityKey t.Name c e = some w → w = v) :
    pushdownIndex predicate (.ResolvedTable t) = some
      (.DecoratedNode .IndexedAccess
        ("Indexed table access on index [" ++ (t.Name ++ "." ++ c) ++ "]")
        (.Filter (rejoin predicate)
          (.ResolvedTable { t with Lookup := some { index := idx, Key := v } }))) ∧
    splitConjunction (rejoin predicate) = splitConjunction predicate ∧
    selectIndexes (.Filter predicate (.ResolvedTable t)) =
      (.DecoratedNode .IndexedAccess
        ("Indexed table access on index [" ++ (t.Name ++ "." ++ c) ++ "]")
        (.Filter (rejoin predicate)
          (.ResolvedTable { t with Lookup := some { index := idx, Key := v } })), true) ∧
    ((Node.Filter predicate (.ResolvedTable t)).Resolved = true →
      pushdownFilters (.Filter predicate (.ResolvedTable t)) =
        fixRemainingFieldsIndexes
          (.DecoratedNode .IndexedAccess
            ("Indexed table access on index [" ++ (t.Name ++ "." ++ c) ++ "]")
            (.Filter (rejoin predicate)
              (.ResolvedTable { t with Lookup := some { index := idx, Key := v } })))) := by
  have hsel := selectIndex_eq t (splitConjunction predicate) idx pre post c v hno hord hpre
    hcol
    (by
      obtain ⟨i, ty, nullable, tv, hmem⟩ := hex
      exact ⟨_, hmem, by simp [equalityKey]⟩)
    huniq
  have hlabel : indexedAccessLabel idx =
      "Indexed table access on index [" ++ (t.Name ++ "." ++ c) ++ "]" := by
    simp only [indexedAccessLabel, Index.Expressions, hcol, htab, List.map_cons, List.map_nil]
    rfl
  have hpush : pushdownIndex predicate (.ResolvedTable t) = some
      (.DecoratedNode .IndexedAccess
        ("Indexed table access on index [" ++ (t.Name ++ "." ++ c) ++ "]")
        (.Filter (rejoin predicate)
          (.ResolvedTable { t with Lookup := some { index := idx, Key := v } }))) := by
    simp only [pushdownIndex, hsel, hlabel]
  have hsi : selectIndexes (.Filter predicate (.ResolvedTable t)) =
      (.DecoratedNode .IndexedAccess
        ("Indexed table access on index [" ++ (t.Name ++ "." ++ c) ++ "]")
        (.Filter (rejoin predicate)
          (.ResolvedTable { t with Lookup := some { index := idx, Key := v } })), true) := by
    simp only [selectIndexes, hpush]
  refine ⟨hpush, splitConjunction_rejoin predicate, hsi, fun hres => ?_⟩
  have hrel : relocateFilters (.Filter predicate (.ResolvedTable t)) =
      (.Filter predicate (.ResolvedTable t), false) := by
    simp [relocateFilters, pushdownFilter, relocatable]
  unfold pushdownFilters
  simp only [hres, Bool.not_true, hrel, hsi]
  rfl

/-- C27 (witness): the `Filter` of the case "single index" of
`TestPushdownIndex`: the index on `f` comes after the primary-key index, for
whose column `i` the predicate has no equality. -/
theorem pushdownIndex_single_column_witness :
    pushdownIndex fEquals (.ResolvedTable mytableIndexed) = some
      (.DecoratedNode .IndexedAccess "Indexed table access on index [mytable.f]"
        (.Filter fEquals (.ResolvedTable mytableWithLookup))) :=
  (pushdownIndex_single_column fEquals mytableIndexed idxTable1F [idxTable1I] [] "f" "3.14"
    rfl rfl
    (by
      intro j hj col rest hc e he
      simp only [List.mem_singleton] at hj
      subst hj
      simp only [idxTable1I, List.cons.injEq] at hc
      obtain ⟨rfl, _⟩ := hc
      have hs : splitConjunction fEquals = [fEquals] := rfl
      rw [hs, List.mem_singleton] at he
      subst he
      rfl)
    rfl rfl
    ⟨1, .Float64, true, .Float64, by
      show _ ∈ [fEquals]
      exact List.mem_singleton.2 rfl⟩
    (by
      intro e he w hw
      have hs : splitConjunction fEquals = [fEquals] := rfl
      rw [hs, List.mem_singleton] at he
      subst he
      have hk : equalityKey mytableIndexed.Name "f" fEquals = some "3.14" := rfl
      rw [hk] at hw
      exact (Option.some.inj hw).symm)).1

/-! ## Idempotence of the recomputation and monotonicity of pruning -/

/-- C31: when `fixRemainingFieldsIndexes` succeeds on a plan `n` with the result
`n1`, `fixRemainingFieldsIndexes` succeeds on `n1` and returns `n1` itself. -/
theorem fixRemainingFieldsIndexes_idempotent (n n1 : Node)
    (h : fixRemainingFieldsIndexes n = .ok n1) : fixRemainingFieldsIndexes n1 = .ok n1 :=
  fixRemainingFieldsIndexes_idem n n1 h

/-- C31 (witness): `stalePlan` is recomputed into `reboundPlan`, which the
recomputation returns as it is. -/
theorem fixRemainingFieldsIndexes_idempotent_witness :
    fixRemainingFieldsIndexes stalePlan = .ok reboundPlan ∧
    fixRemainingFieldsIndexes reboundPlan = .ok reboundPlan :=
  ⟨rfl, fixRemainingFieldsIndexes_idempotent stalePlan reboundPlan rfl⟩

theorem remainingExprs_sublist_of_subset (ps : List Expression) (cols cols1 : usedColumns)
    (hsub : ∀ t c, cols.has t c = true → cols1.has t c = true) :
    (remainingExprs ps cols).Sublist (remainingExprs ps cols1) := by
  rw [remainingExprs_eq_filter, remainingExprs_eq_filter]
  apply List.monotone_filter_right
  intro e he
  simp only [Bool.not_eq_true'] at he ⊢
  exact shouldPruneExpr_false_mono e cols cols1 hsub he

/-- C36: for usage sets `cols ⊆ cols1`, every projection (selected expression)
that `pruneProject` (`pruneGroupBy`) keeps under `cols` is kept under `cols1`,
in the same order; and when the operator collapses to its child under `cols1`,
no expression remaining, it collapses under `cols` too. -/
theorem prune_monotone (cols cols1 : usedColumns)
    (hsub : ∀ t c, cols.has t c = true → cols1.has t c = true)
    (ps grp : List Expression) (child : Node) :
    pruneProject ps child cols =
      (if (remainingExprs ps cols).length = 0 then child
        else .Project (remainingExprs ps cols) child) ∧
    pruneGroupBy ps grp child cols =
      (if (remainingExprs ps cols).length = 0 then child
        else .GroupBy (remainingExprs ps cols) grp child) ∧
    (remainingExprs ps cols).Sublist (remainingExprs ps cols1) ∧
    (∀ e ∈ remainingExprs ps cols, e ∈ remainingExprs ps cols1) ∧
    ((remainingExprs ps cols1).length = 0 →
      (remainingExprs ps cols).length = 0 ∧
      pruneProject ps child cols1 = child ∧ pruneProject ps child cols = child ∧
      pruneGroupBy ps grp child cols1 = child ∧ pruneGroupBy ps grp child cols = child) := by
  have hs := remainingExprs_sublist_of_subset ps cols cols1 hsub
  refine ⟨rfl, rfl, hs, fun e he => hs.subset he, fun h0 => ?_⟩
  have h1 : (remainingExprs ps cols).length = 0 := by
    have := hs.length_le
    omega
  refine ⟨h1, ?_, ?_, ?_, ?_⟩
  · simp only [pruneProject, h0, if_true]
  · simp only [pruneProject, h1, if_true]
  · simp only [pruneGroupBy, h0, if_true]
  · simp only [pruneGroupBy, h1, if_true]

/-- C36 (witness): under the empty usage set the two projections of
`twoColumnProject` are dropped, under the set that holds `(mytable, f)` the
projection of `f` is kept. -/
theorem prune_monotone_witness :
    (remainingExprs [.GetField 1 .Float64 "mytable" "f" false,
        .GetField 0 .Int32 "mytable" "i" false] usedColumns.empty).Sublist
      (remainingExprs [.GetField 1 .Float64 "mytable" "f" false,
        .GetField 0 .Int32 "mytable" "i" false] { entries := [("mytable", "f")] }) :=
  (prune_monotone usedColumns.empty { entries := [("mytable", "f")] }
    (by intro t c h; simp [usedColumns.has, usedColumns.empty] at h)
    [.GetField 1 .Float64 "mytable" "f" false, .GetField 0 .Int32 "mytable" "i" false] []
    (.ResolvedTable mytable)).2.2.1

/-! ## Index recomputation binds the last matching column -/

theorem buildIndexes_last (rest : Schema) :
    ∀ (i : Nat) (m : tableCol → Option Nat) (k : tableCol) (j : Nat),
      buildIndexes rest i m k = some j →
      ∀ j1 col, rest[j1]? = some col → col.Source = k.table → col.Name = k.col →
        i + j1 ≤ j := by
  induction rest with
  | nil =>
    intro i m k j _ j1 col h1
    simp at h1
  | cons c rest ih =>
    intro i m k j h j1 col h1 hs hn
    simp only [buildIndexes] at h
    cases j1 with
    | zero =>
      simp only [List.getElem?_cons_zero, Option.some.injEq] at h1
      subst h1
      rcases buildIndexes_some rest (i + 1) _ k j h with h2 | ⟨h2, _⟩
      · have hk : k = { table := c.Source, col := c.Name } := by
          cases k
          simp_all
        simp only [hk, if_true, Option.some.injEq] at h2
        omega
      · omega
    | succ j2 =>
      simp only [List.getElem?_cons_succ] at h1
      have := ih (i + 1) _ k j h j2 col h1 hs hn
      omega

theorem indexes_last (schema : Schema) (k : tableCol) (j : Nat)
    (h : indexes schema k = some j) :
    ∀ j1 col, schema[j1]? = some col → col.Source = k.table → col.Name = k.col → j1 ≤ j := by
  intro j1 col h1 hs hn
  have := buildIndexes_last schema 0 _ k j h j1 col h1 hs hn
  omega

theorem fixNodeIndexes_lookup (m m1 : Node) (h : fixNodeIndexes m = .ok m1)
    (hne : childSchema m1 ≠ []) (hexpr : m.Expressions ≠ none) :
    ∀ r ∈ m1.columnRefs,
      indexes (childSchema m1) { table := r.table, col := r.name } = some r.index := by
  have hch := (fixNodeIndexes_ok m m1 h).2.1
  have hcs : childSchema m1 = childSchema m := childSchema_congr hch
  unfold fixNodeIndexes at h
  cases hx : m.Expressions with
  | none => exact absurd hx hexpr
  | some exprs =>
    simp only [hx] at h
    by_cases hlen : (childSchema m).length = 0
    · exact absurd (hcs.trans (List.length_eq_zero.1 hlen)) hne
    · simp only [hlen, if_false] at h
      rw [hcs]
      exact (TransformExpressions_fixFieldIndex_ok _ m m1 h).2.2.1

theorem fixRemainingFieldsIndexes_forall (P : Node → Prop)
    (hnode : ∀ m m1, fixNodeIndexes m = .ok m1 → P m1)
    (hsa : ∀ name c, P (.SubqueryAlias name c)) (n : Node) :
    ∀ n1, fixRemainingFieldsIndexes n = .ok n1 → ∀ x ∈ n1.subtrees, P x := by
  induction n with
  | ResolvedTable _ | UnresolvedTable _ =>
    intro n1 h x hx
    simp only [fixRemainingFieldsIndexes] at h
    have hch := (fixNodeIndexes_ok _ n1 h).2.1
    rw [Node.subtrees_eq, hch] at hx
    simp only [Node.Children, List.flatMap_nil, List.mem_singleton] at hx
    subst hx
    exact hnode _ _ h
  | SubqueryAlias name c ih =>
    intro n1 h x hx
    simp only [fixRemainingFieldsIndexes] at h
    cases hc : fixRemainingFieldsIndexes c with
    | error err => simp [hc] at h
    | ok c1 =>
      simp only [hc, Except.ok.injEq] at h
      subst h
      simp only [Node.subtrees, List.mem_cons] at hx
      rcases hx with rfl | hx
      · exact hsa name c1
      · exact ih c1 hc x hx
  | Project _ c ih | GroupBy _ _ c ih | Filter _ c ih | TableAlias _ c ih
  | DescribeQuery _ c ih | DecoratedNode _ _ c ih =>
    intro n1 h x hx
    simp only [fixRemainingFieldsIndexes] at h
    cases hc : fixRemainingFieldsIndexes c with
    | error err => simp [hc] at h
    | ok c1 =>
      simp only [hc] at h
      have hch := (fixNodeIndexes_ok _ n1 h).2.1
      rw [Node.subtrees_eq, hch] at hx
      simp only [Node.Children, List.flatMap_cons, List.flatMap_nil, List.append_nil,
        List.mem_cons] at hx
      rcases hx with rfl | hx
      · exact hnode _ _ h
      · exact ih c1 hc x hx
  | CrossJoin l r ihl ihr | InnerJoin l r _ ihl ihr | LeftJoin l r _ ihl ihr
  | RightJoin l r _ ihl ihr | IndexedJoin l r _ _ _ _ ihl ihr | InsertInto l r ihl ihr =>
    intro n1 h x hx
    simp only [fixRemainingFieldsIndexes] at h
    cases hl : fixRemainingFieldsIndexes l with
    | error err => simp [hl] at h
    | ok l1 =>
      cases hr : fixRemainingFieldsIndexes r with
      | error err => simp [hl, hr] at h
      | ok r1 =>
        simp only [hl, hr] at h
        have hch := (fixNodeIndexes_ok _ n1 h).2.1
        rw [Node.subtrees_eq, hch] at hx
        simp only [Node.Children, List.flatMap_cons, List.flatMap_nil, List.append_nil,
          List.mem_cons, List.mem_append] at hx
        rcases hx with rfl | hx | hx
        · exact hnode _ _ h
        · exact ihl l1 hl x hx
        · exact ihr r1 hr x hx

theorem fixNodeIndexes_Expressions_none (m m1 : Node) (h : fixNodeIndexes m = .ok m1)
    (hx : m.Expressions = none) : m1.columnRefs = [] := by
  simp only [fixNodeIndexes, hx, Except.ok.injEq] at h
  subst h
  simp [Node.columnRefs, hx]

theorem fixRemainingFieldsIndexes_lookup (n n1 : Node)
    (h : fixRemainingFieldsIndexes n = .ok n1) :
    ∀ m ∈ n1.subtrees, childSchema m ≠ [] → ∀ r ∈ m.columnRefs,
      indexes (childSchema m) { table := r.table, col := r.name } = some r.index := by
  refine fixRemainingFieldsIndexes_forall
    (fun m => childSchema m ≠ [] → ∀ r ∈ m.columnRefs,
      indexes (childSchema m) { table := r.table, col := r.name } = some r.index)
    ?_ ?_ n n1 h
  · intro m m1 hm hne r hr
    cases hx : m.Expressions with
    | none =>
      rw [fixNodeIndexes_Expressions_none m m1 hm hx] at hr
      cases hr
    | some exprs =>
      exact fixNodeIndexes_lookup m m1 hm hne (by simp [hx]) r hr
  · intro name c _ r hr
    simp [Node.columnRefs, Node.Expressions] at hr

/-- C34: when `fixRemainingFieldsIndexes` succeeds, every column reference of a
node whose concatenated child schema is not empty gets the largest offset at
which that schema has a column with the source and the name of the reference:
the column at the index of the reference has them, and no column at a larger
offset has; the index the reference carried on input plays no part.  For one
reference the closure always succeeds when the schema has such a column, with
that largest offset, whatever the index on input. -/
theorem fixRemainingFieldsIndexes_binds_last (n n1 : Node)
    (h : fixRemainingFieldsIndexes n = .ok n1) :
    (∀ m ∈ n1.subtrees, childSchema m ≠ [] → ∀ r ∈ m.columnRefs,
      r.ValidIn (childSchema m) ∧
      indexes (childSchema m) { table := r.table, col := r.name } = some r.index ∧
      ∀ j col, (childSchema m)[j]? = some col → col.Source = r.table → col.Name = r.name →
        j ≤ r.index) ∧
    (∀ (schema : Schema) (i : Nat) (t : SqlType) (table name : String) (nullable : Bool),
      (∃ col ∈ schema, col.Source = table ∧ col.Name = name) →
      ∃ j, fixFieldIndex (indexes schema) (.GetField i t table name nullable) =
          .ok (.GetField j t table name nullable) ∧
        (∃ col, schema[j]? = some col ∧ col.Source = table ∧ col.Name = name) ∧
        ∀ j1 col, schema[j1]? = some col → col.Source = table → col.Name = name →
          j1 ≤ j) := by
  refine ⟨?_, ?_⟩
  · intro m hm hne r hr
    have hl := fixRemainingFieldsIndexes_lookup n n1 h m hm hne r hr
    exact ⟨indexes_eq_some_valid _ r hl, hl, indexes_last _ _ _ hl⟩
  · rintro schema i t table name nullable ⟨col, hcol, hs, hn⟩
    cases hj : indexes schema { table := table, col := name } with
    | none =>
      exact absurd ⟨hs, hn⟩ ((indexes_none_iff schema table name).1 hj col hcol)
    | some j =>
      exact ⟨j, by simp only [fixFieldIndex, hj], indexes_some schema table name j hj,
        indexes_last schema _ j hj⟩

/-- C34 (witness): above the cross join of `mytable` with itself the reference
to `mytable.f`, which carried the index 0, gets the offset 4 of the second
occurrence of the pair, not the offset 1 of the first. -/
theorem fixRemainingFieldsIndexes_binds_last_witness :
    fixRemainingFieldsIndexes filterOverSelfJoin = .ok filterOverSelfJoinRebound ∧
    ∀ m ∈ filterOverSelfJoinRebound.subtrees, childSchema m ≠ [] → ∀ r ∈ m.columnRefs,
      r.ValidIn (childSchema m) ∧
      indexes (childSchema m) { table := r.table, col := r.name } = some r.index ∧
      ∀ j col, (childSchema m)[j]? = some col → col.Source = r.table → col.Name = r.name →
        j ≤ r.index :=
  ⟨rfl,
    (fixRemainingFieldsIndexes_binds_last filterOverSelfJoin filterOverSelfJoinRebound rfl).1⟩

/-! ## The shortcut of the recomputation for an empty child schema -/

theorem fixNodeIndexes_of_empty (m : Node) (hempty : childSchema m = []) :
    fixNodeIndexes m = .ok m := by
  unfold fixNodeIndexes
  cases m.Expressions with
  | none => rfl
  | some _ => simp [hempty]

theorem childSchema_of_fixed_child (c c1 : Node)
    (h : fixRemainingFieldsIndexes c = .ok c1) : c1.Schema = c.Schema :=
  ((fixRemainingFieldsIndexes_spec c).1 c1 h).1

theorem fixNodeIndexes_rebuilt_empty (orig rebuilt : Node) (r : Except AnalyzerError Node)
    (hempty : childSchema orig = []) (h : fixNodeIndexes rebuilt = r)
    (hcs : childSchema rebuilt = childSchema orig) : r = .ok rebuilt := by
  rw [← h]
  exact fixNodeIndexes_of_empty rebuilt (hcs.trans hempty)

/-- C33: for an expression-carrying node `n` whose children's concatenated
schema is empty, the closure of `fixRemainingFieldsIndexes` returns `n` itself
without an error, whatever column references its expressions hold; in the
traversal, a result for `n` holds the expressions of `n` as they were, an error
for `n` is the error of one of its children, and `n` comes back unchanged when
its children do. -/
theorem fixRemainingFieldsIndexes_empty_child_schema (n : Node)
    (hexpr : n.Expressions ≠ none) (hempty : childSchema n = []) :
    fixRemainingFieldsIndexesVisit n = .ok n ∧
    fixNodeIndexes n = .ok n ∧
    (∀ n1, fixRemainingFieldsIndexes n = .ok n1 →
      n1.Expressions = n.Expressions ∧ n1.heldExpressions = n.heldExpressions ∧
      childSchema n1 = []) ∧
    (∀ err, fixRemainingFieldsIndexes n = .error err →
      ∃ k ∈ n.Children, fixRemainingFieldsIndexes k = .error err) ∧
    ((∀ k ∈ n.Children, fixRemainingFieldsIndexes k = .ok k) →
      fixRemainingFieldsIndexes n = .ok n) := by
  have hnode := fixNodeIndexes_of_empty n hempty
  refine ⟨?_, hnode, ?_, ?_, ?_⟩
  · cases n with
    | SubqueryAlias _ _ => exact absurd rfl hexpr
    | _ => exact hnode
  · intro n1 h
    cases n with
    | Project _ c | GroupBy _ _ c | Filter _ c =>
      simp only [fixRemainingFieldsIndexes] at h
      cases hc : fixRemainingFieldsIndexes c with
      | error err => simp [hc] at h
      | ok c1 =>
        simp only [hc] at h
        have hs := childSchema_of_fixed_child c c1 hc
        have h1 := fixNodeIndexes_rebuilt_empty _ _ _ hempty h (by
          simp only [childSchema_eq_flatMap, Node.Children, List.flatMap_cons,
            List.flatMap_nil, hs])
        simp only [Except.ok.injEq] at h1
        subst h1
        refine ⟨rfl, rfl, ?_⟩
        rw [← hempty]
        simp only [childSchema_eq_flatMap, Node.Children, List.flatMap_cons,
          List.flatMap_nil, hs]
    | InnerJoin l r _ | LeftJoin l r _ | RightJoin l r _ =>
      simp only [fixRemainingFieldsIndexes] at h
      cases hl : fixRemainingFieldsIndexes l with
      | error err => simp [hl] at h
      | ok l1 =>
        cases hr : fixRemainingFieldsIndexes r with
        | error err => simp [hl, hr] at h
        | ok r1 =>
          simp only [hl, hr] at h
          have hsl := childSchema_of_fixed_child l l1 hl
          have hsr := childSchema_of_fixed_child r r1 hr
          have h1 := fixNodeIndexes_rebuilt_empty _ _ _ hempty h (by
            simp only [childSchema_eq_flatMap, Node.Children, List.flatMap_cons,
              List.flatMap_nil, hsl, hsr])
          simp only [Except.ok.injEq] at h1
          subst h1
          refine ⟨rfl, rfl, ?_⟩
          rw [← hempty]
          simp only [childSchema_eq_flatMap, Node.Children, List.flatMap_cons,
            List.flatMap_nil, hsl, hsr]
    | _ => exact absurd rfl hexpr
  · intro err h
    cases n with
    | Project _ c | GroupBy _ _ c | Filter _ c =>
      simp only [fixRemainingFieldsIndexes] at h
      cases hc : fixRemainingFieldsIndexes c with
      | error err1 =>
        simp only [hc, Except.error.injEq] at h
        subst h
        exact ⟨c, by simp [Node.Children], hc⟩
      | ok c1 =>
        simp only [hc] at h
        have hs := childSchema_of_fixed_child c c1 hc
        have h1 := fixNodeIndexes_rebuilt_empty _ _ _ hempty h (by
          simp only [childSchema_eq_flatMap, Node.Children, List.flatMap_cons,
            List.flatMap_nil, hs])
        cases h1
    | InnerJoin l r _ | LeftJoin l r _ | RightJoin l r _ =>
      simp only [fixRemainingFieldsIndexes] at h
      cases hl : fixRemainingFieldsIndexes l with
      | error err1 =>
        simp only [hl, Except.error.injEq] at h
        subst h
        exact ⟨l, by simp [Node.Children], hl⟩
      | ok l1 =>
        cases hr : fixRemainingFieldsIndexes r with
        | error err1 =>
          simp only [hl, hr, Except.error.injEq] at h
          subst h
          exact ⟨r, by simp [Node.Children], hr⟩
        | ok r1 =>
          simp only [hl, hr] at h
          have hsl := childSchema_of_fixed_child l l1 hl
          have hsr := childSchema_of_fixed_child r r1 hr
          have h1 := fixNodeIndexes_rebuilt_empty _ _ _ hempty h (by
            simp only [childSchema_eq_flatMap, Node.Children, List.flatMap_cons,
              List.flatMap_nil, hsl, hsr])
          cases h1
    | _ => exact absurd rfl hexpr
  · intro hk
    rw [fixRemainingFieldsIndexes_of_fixed_children n hk]
    exact hnode

/-- C33 (witness): the projection of the column reference `t.a` over a table
without columns comes back as it is, the reference keeping its index 7. -/
theorem fixRemainingFieldsIndexes_empty_child_schema_witness :
    fixRemainingFieldsIndexesVisit projectOverEmptyTable = .ok projectOverEmptyTable ∧
    fixRemainingFieldsIndexes projectOverEmptyTable = .ok projectOverEmptyTable :=
  have h := fixRemainingFieldsIndexes_empty_child_schema projectOverEmptyTable
    (by simp [projectOverEmptyTable, Node.Expressions]) rfl
  ⟨h.1, h.2.2.2.2 (by
    intro k hk
    simp only [projectOverEmptyTable, Node.Children, List.mem_singleton] at hk
    subst hk
    rfl)⟩

/-! ## Translation at a subquery alias with duplicate column names -/

theorem tableByCol_last (pre post : Schema) (last : Column)
    (hpost : ∀ x ∈ post, x.Name ≠ last.Name) :
    tableByCol (pre ++ last :: post) last.Name = some last.Source := by
  unfold tableByCol
  rw [List.foldl_append, List.foldl_cons]
  generalize List.foldl _ _ pre = m0
  rcases foldl_tableByCol post
    (fun k => if k = last.Name then some last.Source else m0 k) last.Name with
    ⟨col, hcol, hn, _⟩ | ⟨_, hv⟩
  · exact absurd hn (hpost col hcol)
  · exact hv.trans (by simp)

theorem translateColumns_has_iff (byCol : String → Option String) (subquery : String) :
    ∀ (l : List String) (init res : usedColumns),
      translateColumns byCol subquery l init = .ok res →
      ∀ t c, res.has t c = true ↔ init.has t c = true ∨ (c ∈ l ∧ byCol c = some t) := by
  intro l
  induction l with
  | nil =>
    intro init res h t c
    simp only [translateColumns, Except.ok.injEq] at h
    subst h
    simp
  | cons x xs ih =>
    intro init res h t c
    simp only [translateColumns] at h
    cases hx : byCol x with
    | none => simp [hx] at h
    | some table =>
      simp only [hx] at h
      rw [ih _ _ h t c, usedColumns.has_add]
      constructor
      · rintro ((h1 | ⟨rfl, rfl⟩) | ⟨h1, h2⟩)
        · exact Or.inl h1
        · exact Or.inr ⟨List.mem_cons_self _ _, hx⟩
        · exact Or.inr ⟨List.mem_cons_of_mem _ h1, h2⟩
      · rintro (h1 | ⟨h1, h2⟩)
        · exact Or.inl (Or.inl h1)
        · rcases List.mem_cons.1 h1 with rfl | h3
          · rw [hx] at h2
            exact Or.inl (Or.inr ⟨(Option.some.inj h2).symm, rfl⟩)
          · exact Or.inr ⟨h3, h2⟩

theorem pruneSubqueries_PruneStable (cols cols1 : usedColumns) (n : Node) :
    ∀ n1, pruneSubqueries n cols = .ok n1 → n.PruneStable cols1 → n1.PruneStable cols1 := by
  induction n with
  | ResolvedTable _ | UnresolvedTable _ =>
    intro n1 h hs
    simp only [pruneSubqueries, Except.ok.injEq] at h
    subst h
    exact hs
  | SubqueryAlias name c _ =>
    intro n1 h _
    simp only [pruneSubqueries] at h
    obtain ⟨_, _, _, _, _, _, rfl⟩ := pruneSubqueryColumns_ok_inv name c n1 cols h
    simp [Node.PruneStable]
  | Project _ c ih | GroupBy _ _ c ih =>
    intro n1 h hs
    simp only [pruneSubqueries] at h
    cases hc : pruneSubqueries c cols with
    | error err => simp [hc] at h
    | ok c1 =>
      simp only [hc, Except.ok.injEq] at h
      subst h
      exact ⟨hs.1, hs.2.1, ih c1 hc hs.2.2⟩
  | Filter _ c ih | TableAlias _ c ih | DescribeQuery _ c ih | DecoratedNode _ _ c ih =>
    intro n1 h hs
    simp only [pruneSubqueries] at h
    cases hc : pruneSubqueries c cols with
    | error err => simp [hc] at h
    | ok c1 =>
      simp only [hc, Except.ok.injEq] at h
      subst h
      exact ih c1 hc hs
  | CrossJoin l r ihl ihr | InnerJoin l r _ ihl ihr | LeftJoin l r _ ihl ihr
  | RightJoin l r _ ihl ihr | IndexedJoin l r _ _ _ _ ihl ihr | InsertInto l r ihl ihr =>
    intro n1 h hs
    simp only [pruneSubqueries] at h
    cases hl : pruneSubqueries l cols with
    | error err => simp [hl] at h
    | ok l1 =>
      cases hr : pruneSubqueries r cols with
      | error err => simp [hl, hr] at h
      | ok r1 =>
        simp only [hl, hr, Except.ok.injEq] at h
        subst h
        exact ⟨ihl l1 hl hs.1, ihr r1 hr hs.2⟩

theorem Node.PruneStable_scope (cols : usedColumns) (n : Node) (h : n.PruneStable cols) :
    ∀ m ∈ n.scope,
      (∀ ps ch, m = .Project ps ch → ∀ e ∈ ps, shouldPruneExpr e cols = false) ∧
      (∀ sel grp ch, m = .GroupBy sel grp ch → ∀ e ∈ sel, shouldPruneExpr e cols = false) := by
  induction n with
  | ResolvedTable _ | UnresolvedTable _ | SubqueryAlias _ _ _ =>
    intro m hm
    simp only [Node.scope, List.mem_singleton] at hm
    subst hm
    exact ⟨fun _ _ he => (by cases he), fun _ _ _ he => (by cases he)⟩
  | Project ps c ih =>
    intro m hm
    simp only [Node.scope, List.mem_cons] at hm
    rcases hm with rfl | hm
    · refine ⟨fun ps1 ch he e hmem => ?_, fun _ _ _ he => (by cases he)⟩
      cases he
      exact h.2.1 e hmem
    · exact ih h.2.2 m hm
  | GroupBy sel grp c ih =>
    intro m hm
    simp only [Node.scope, List.mem_cons] at hm
    rcases hm with rfl | hm
    · refine ⟨fun _ _ he => (by cases he), fun sel1 grp1 ch he e hmem => ?_⟩
      cases he
      exact h.2.1 e hmem
    · exact ih h.2.2 m hm
  | Filter _ c ih | TableAlias _ c ih | DescribeQuery _ c ih | DecoratedNode _ _ c ih =>
    intro m hm
    simp only [Node.scope, List.mem_cons] at hm
    rcases hm with rfl | hm
    · exact ⟨fun _ _ he => (by cases he), fun _ _ _ he => (by cases he)⟩
    · exact ih h m hm
  | CrossJoin l r ihl ihr | InnerJoin l r _ ihl ihr | LeftJoin l r _ ihl ihr
  | RightJoin l r _ ihl ihr | IndexedJoin l r _ _ _ _ ihl ihr | InsertInto l r ihl ihr =>
    intro m hm
    simp only [Node.scope, List.mem_cons, List.mem_append] at hm
    rcases hm with rfl | hm | hm
    · exact ⟨fun _ _ he => (by cases he), fun _ _ _ he => (by cases he)⟩
    · exact ihl h.1 m hm
    · exact ihr h.2 m hm

/-- C35 (counterexample): the child of the alias `s` has two columns named `i`,
the first without a source and the last from `b`; the parent uses `(s, i)`,
which is translated to `(b, i)` only, and nothing inside the child refers to
the first column, yet its bare projection is kept: the result is the alias
over the child as it was. -/
theorem pruneSubqueryColumns_duplicate_names_counterexample :
    sourcelessDuplicateProject.Schema.map (fun col => (col.Source, col.Name)) =
      [("", "i"), ("b", "i")] ∧
    tableByCol sourcelessDuplicateProject.Schema "i" = some "b" ∧
    (∀ m ∈ sourcelessDuplicateProject.scope, ∀ r ∈ m.contributions,
      ¬ (r.table = "" ∧ r.name = "i")) ∧
    pruneSubqueryColumns "s" sourcelessDuplicateProject { entries := [("s", "i")] } =
      .ok (.SubqueryAlias "s" sourcelessDuplicateProject) :=
  ⟨rfl, rfl, by decide,
    pruneSubqueryColumns_eval "s" sourcelessDuplicateProject sourcelessDuplicateProject
      sourcelessDuplicateProject _ _ rfl rfl
      (by simp [pruneSubqueries, sourcelessDuplicateProject])⟩

/-- C35: when `pruneSubqueryColumns` succeeds on an alias whose child schema
has a last column named `c`, the parent's use of `(alias, c)` is translated
to the source of that last column only; for a non-empty source `s` other
than it that no node of the child outside nested subquery aliases refers to
outside a bare projection, `(s, c)` is not in the usage set, and the bare
projection of `(s, c)` is dropped by `shouldPruneExpr` and occurs in no
`Project` and in no `GroupBy` of the pruned child outside nested subquery
aliases. -/
theorem pruneSubqueryColumns_duplicate_names (name : String) (child result : Node)
    (P : usedColumns) (h : pruneSubqueryColumns name child P = .ok result)
    (c : String) (pre post : Schema) (last : Column)
    (hschema : child.Schema = pre ++ last :: post) (hname : last.Name = c)
    (hpost : ∀ x ∈ post, x.Name ≠ c) :
    ∃ cols node node1,
      pruneUnusedColumns child cols = .ok node ∧ pruneSubqueries node cols = .ok node1 ∧
      result = .SubqueryAlias name node1 ∧
      tableByCol child.Schema c = some last.Source ∧
      (P.has name c = true → cols.has last.Source c = true) ∧
      ∀ s, s ≠ last.Source → s ≠ "" →
        (∀ m ∈ child.scope, ∀ r ∈ m.contributions, ¬ (r.table = s ∧ r.name = c)) →
        cols.has s c = false ∧
        ∀ i t nullable,
          shouldPruneExpr (.GetField i t s c nullable) cols = true ∧
          (∀ ps, .GetField i t s c nullable ∉ remainingExprs ps cols) ∧
          (∀ m ∈ node1.scope,
            (∀ ps ch, m = .Project ps ch → .GetField i t s c nullable ∉ ps) ∧
            (∀ sel grp ch, m = .GroupBy sel grp ch → .GetField i t s c nullable ∉ sel)) := by
  obtain ⟨translated, node, node1, h1, h2, h3, hres⟩ :=
    pruneSubqueryColumns_ok_inv name child result P h
  have hlast : tableByCol child.Schema c = some last.Source := by
    rw [hschema, ← hname]
    exact tableByCol_last pre post last (fun x hx => hname ▸ hpost x hx)
  have htr := translateColumns_has_iff _ _ _ _ _ h1
  refine ⟨findUsedColumns translated child, node, node1, h2, h3, hres, hlast, ?_, ?_⟩
  · intro hP
    rw [findUsedColumns_has_iff]
    left
    rw [htr]
    right
    exact ⟨(usedColumns.mem_columnsOf P name c).2 hP, hlast⟩
  · intro s hs hne hnone
    have hnot : (findUsedColumns translated child).has s c = false := by
      rw [Bool.eq_false_iff]
      intro hhas
      rw [findUsedColumns_has_iff, htr] at hhas
      rcases hhas with (hempty | ⟨_, hby⟩) | ⟨m, hm, r, hr, hrt, hrn⟩
      · simp [usedColumns.has, usedColumns.empty] at hempty
      · rw [hlast] at hby
        exact hs (Option.some.inj hby).symm
      · exact hnone m hm r hr ⟨hrt, hrn⟩
    refine ⟨hnot, fun i t nullable => ?_⟩
    have hprune : shouldPruneExpr (.GetField i t s c nullable)
        (findUsedColumns translated child) = true := by
      simp [shouldPruneExpr, hne, hnot]
    refine ⟨hprune, ?_, ?_⟩
    · intro ps hmem
      rw [remainingExprs_eq_filter, List.mem_filter] at hmem
      simp [hprune] at hmem
    · intro m hm
      have hstable := pruneSubqueries_PruneStable _ _ node node1 h3
        (pruneUnusedColumns_PruneStable _ child node h2)
      have hsc := Node.PruneStable_scope _ node1 hstable m hm
      refine ⟨fun ps ch he hmem => ?_, fun sel grp ch he hmem => ?_⟩
      · have := hsc.1 ps ch he _ hmem
        rw [hprune] at this
        cases this
      · have := hsc.2 sel grp ch he _ hmem
        rw [hprune] at this
        cases this

/-- C35 (witness): the child of the alias `s` projects `a.i` and `b.i`; the
parent's use of `(s, i)` is translated to `(b, i)`, and the bare projection
of `a.i` is dropped. -/
theorem pruneSubqueryColumns_duplicate_names_witness :
    pruneSubqueryColumns "s" duplicateNamesProject { entries := [("s", "i")] } =
      .ok (.SubqueryAlias "s" duplicateNamesProjectPruned) ∧
    ∃ cols node node1,
      pruneUnusedColumns duplicateNamesProject cols = .ok node ∧
      pruneSubqueries node cols = .ok node1 ∧
      Node.SubqueryAlias "s" duplicateNamesProjectPruned = .SubqueryAlias "s" node1 ∧
      tableByCol duplicateNamesProject.Schema "i" = some "b" ∧
      (usedColumns.has { entries := [("s", "i")] } "s" "i" = true →
        cols.has "b" "i" = true) ∧
      ∀ s, s ≠ "b" → s ≠ "" →
        (∀ m ∈ duplicateNamesProject.scope, ∀ r ∈ m.contributions,
          ¬ (r.table = s ∧ r.name = "i")) →
        cols.has s "i" = false ∧
        ∀ i t nullable,
          shouldPruneExpr (.GetField i t s "i" nullable) cols = true ∧
          (∀ ps, .GetField i t s "i" nullable ∉ remainingExprs ps cols) ∧
          (∀ m ∈ node1.scope,
            (∀ ps ch, m = .Project ps ch → .GetField i t s "i" nullable ∉ ps) ∧
            (∀ sel grp ch, m = .GroupBy sel grp ch →
              .GetField i t s "i" nullable ∉ sel)) :=
  have h : pruneSubqueryColumns "s" duplicateNamesProject { entries := [("s", "i")] } =
      .ok (.SubqueryAlias "s" duplicateNamesProjectPruned) :=
    pruneSubqueryColumns_eval "s" duplicateNamesProject duplicateNamesProjectPruned
      duplicateNamesProjectPruned _ _ rfl rfl
      (by simp [pruneSubqueries, duplicateNamesProjectPruned])
  ⟨h, pruneSubqueryColumns_duplicate_names "s" duplicateNamesProject
    (.SubqueryAlias "s" duplicateNamesProjectPruned) { entries := [("s", "i")] } h "i"
    [{ Name := "i", Typ := .Int32, Source := "a", Nullable := false, PrimaryKey := false }]
    []
    { Name := "i", Typ := .Int32, Source := "b", Nullable := false, PrimaryKey := false }
    rfl rfl (fun x hx => by cases hx)⟩

/-! ## Stale indexes and the result of the pruning pass -/

mutual
theorem Expression.eraseIndexesExpr_idem : ∀ (e : Expression),
    e.eraseIndexes.eraseIndexes = e.eraseIndexes
  | .Literal _ _ => rfl
  | .GetField _ _ _ _ _ => rfl
  | .UnresolvedColumn _ _ => rfl
  | .Alias name child => by
    simp only [Expression.eraseIndexes, Expression.eraseIndexesExpr_idem child]
  | .Unary op child => by
    simp only [Expression.eraseIndexes, Expression.eraseIndexesExpr_idem child]
  | .Binary op l r => by
    simp only [Expression.eraseIndexes, Expression.eraseIndexesExpr_idem l,
      Expression.eraseIndexesExpr_idem r]
  | .Call name t args => by
    simp only [Expression.eraseIndexes, Expression.eraseIndexesList_idem args]
theorem Expression.eraseIndexesList_idem : ∀ (es : List Expression),
    Expression.eraseIndexesList (Expression.eraseIndexesList es) =
      Expression.eraseIndexesList es
  | [] => rfl
  | e :: es => by
    simp only [Expression.eraseIndexesList, Expression.eraseIndexesExpr_idem e,
      Expression.eraseIndexesList_idem es]
end

mutual
theorem Expression.ResolvedExpr_eraseIndexes : ∀ (e : Expression),
    e.eraseIndexes.Resolved = e.Resolved
  | .Literal _ _ => rfl
  | .GetField _ _ _ _ _ => rfl
  | .UnresolvedColumn _ _ => rfl
  | .Alias name child => by
    simp only [Expression.eraseIndexes, Expression.Resolved,
      Expression.ResolvedExpr_eraseIndexes child]
  | .Unary op child => by
    simp only [Expression.eraseIndexes, Expression.Resolved,
      Expression.ResolvedExpr_eraseIndexes child]
  | .Binary op l r => by
    simp only [Expression.eraseIndexes, Expression.Resolved,
      Expression.ResolvedExpr_eraseIndexes l, Expression.ResolvedExpr_eraseIndexes r]
  | .Call name t args => by
    simp only [Expression.eraseIndexes, Expression.Resolved,
      Expression.ResolvedList_eraseIndexes args]
theorem Expression.ResolvedList_eraseIndexes : ∀ (es : List Expression),
    Expression.ResolvedList (Expression.eraseIndexesList es) = Expression.ResolvedList es
  | [] => rfl
  | e :: es => by
    simp only [Expression.eraseIndexesList, Expression.ResolvedList,
      Expression.ResolvedExpr_eraseIndexes e, Expression.ResolvedList_eraseIndexes es]
end

mutual
theorem addUsedColumnsExpr_eraseIndexes : ∀ (e : Expression) (cols : usedColumns),
    addUsedColumnsExpr cols e.eraseIndexes = addUsedColumnsExpr cols e
  | .Literal _ _, _ => rfl
  | .GetField _ _ _ _ _, _ => rfl
  | .UnresolvedColumn _ _, _ => rfl
  | .Alias name child, cols => by
    simp only [Expression.eraseIndexes, addUsedColumnsExpr,
      addUsedColumnsExpr_eraseIndexes child]
  | .Unary op child, cols => by
    simp only [Expression.eraseIndexes, addUsedColumnsExpr,
      addUsedColumnsExpr_eraseIndexes child]
  | .Binary op l r, cols => by
    simp only [Expression.eraseIndexes, addUsedColumnsExpr,
      addUsedColumnsExpr_eraseIndexes l, addUsedColumnsExpr_eraseIndexes r]
  | .Call name t args, cols => by
    simp only [Expression.eraseIndexes, addUsedColumnsExpr,
      addUsedColumns_eraseIndexesList args]
theorem addUsedColumns_eraseIndexesList : ∀ (es : List Expression) (cols : usedColumns),
    addUsedColumns cols (Expression.eraseIndexesList es) = addUsedColumns cols es
  | [], _ => rfl
  | e :: es, cols => by
    simp only [Expression.eraseIndexesList, addUsedColumns,
      addUsedColumnsExpr_eraseIndexes e, addUsedColumns_eraseIndexesList es]
end

mutual
theorem TransformUp_fixFieldIndex_eraseIndexes (idx : tableCol → Option Nat) :
    ∀ (e : Expression),
      Expression.TransformUp (fixFieldIndex idx) e.eraseIndexes =
        Expression.TransformUp (fixFieldIndex idx) e
  | .Literal _ _ => rfl
  | .GetField _ _ _ _ _ => rfl
  | .UnresolvedColumn _ _ => rfl
  | .Alias name child => by
    simp only [Expression.eraseIndexes, Expression.TransformUp,
      TransformUp_fixFieldIndex_eraseIndexes idx child]
  | .Unary op child => by
    simp only [Expression.eraseIndexes, Expression.TransformUp,
      TransformUp_fixFieldIndex_eraseIndexes idx child]
  | .Binary op l r => by
    simp only [Expression.eraseIndexes, Expression.TransformUp,
      TransformUp_fixFieldIndex_eraseIndexes idx l,
      TransformUp_fixFieldIndex_eraseIndexes idx r]
  | .Call name t args => by
    simp only [Expression.eraseIndexes, Expression.TransformUp,
      TransformUpList_fixFieldIndex_eraseIndexes idx args]
theorem TransformUpList_fixFieldIndex_eraseIndexes (idx : tableCol → Option Nat) :
    ∀ (es : List Expression),
      Expression.TransformUpList (fixFieldIndex idx) (Expression.eraseIndexesList es) =
        Expression.TransformUpList (fixFieldIndex idx) es
  | [] => rfl
  | e :: es => by
    simp only [Expression.eraseIndexesList, Expression.TransformUpList,
      TransformUp_fixFieldIndex_eraseIndexes idx e,
      TransformUpList_fixFieldIndex_eraseIndexes idx es]
end

theorem TransformUpList_fixFieldIndex_congr (idx : tableCol → Option Nat)
    {es1 es2 : List Expression}
    (h : Expression.eraseIndexesList es1 = Expression.eraseIndexesList es2) :
    Expression.TransformUpList (fixFieldIndex idx) es1 =
      Expression.TransformUpList (fixFieldIndex idx) es2 := by
  rw [← TransformUpList_fixFieldIndex_eraseIndexes idx es1, h,
    TransformUpList_fixFieldIndex_eraseIndexes]

theorem Expression.isGetField_eraseIndexes (e : Expression) :
    e.eraseIndexes.isGetField = e.isGetField := by
  cases e <;> rfl

theorem eraseIndexesList_filter (p : Expression → Bool)
    (hp : ∀ e, p e.eraseIndexes = p e) (es : List Expression) :
    (Expression.eraseIndexesList es).filter p = Expression.eraseIndexesList (es.filter p) := by
  rw [eraseIndexesList_eq_map, eraseIndexesList_eq_map, List.filter_map]
  congr 1
  apply List.filter_congr
  intro e _
  exact hp e

theorem eraseIndexesList_append (a b : List Expression) :
    Expression.eraseIndexesList (a ++ b) =
      Expression.eraseIndexesList a ++ Expression.eraseIndexesList b := by
  simp only [eraseIndexesList_eq_map, List.map_append]

theorem remainingExprs_eraseIndexesList (ps : List Expression) (cols : usedColumns) :
    remainingExprs (Expression.eraseIndexesList ps) cols =
      Expression.eraseIndexesList (remainingExprs ps cols) := by
  rw [remainingExprs_eq_filter, remainingExprs_eq_filter]
  exact eraseIndexesList_filter _
    (fun e => by simp only [shouldPruneExpr_eraseIndexes]) ps

theorem addUsedProjectColumns_eraseIndexesList (cols : usedColumns) (ps : List Expression) :
    addUsedProjectColumns cols (Expression.eraseIndexesList ps) =
      addUsedProjectColumns cols ps := by
  unfold addUsedProjectColumns
  simp only [foldl_append_eq_filter (fun e => !Expression.isGetField e), List.nil_append]
  rw [eraseIndexesList_filter _
    (fun e => by simp only [Expression.isGetField_eraseIndexes]) ps,
    addUsedColumns_eraseIndexesList]

theorem Node.eraseIndexes_idem (n : Node) : n.eraseIndexes.eraseIndexes = n.eraseIndexes := by
  induction n with
  | ResolvedTable _ | UnresolvedTable _ => rfl
  | Project _ c ih | GroupBy _ _ c ih | Filter _ c ih | TableAlias _ c ih
  | SubqueryAlias _ c ih | DescribeQuery _ c ih | DecoratedNode _ _ c ih =>
    simp only [Node.eraseIndexes, ih, Expression.eraseIndexesExpr_idem,
      Expression.eraseIndexesList_idem]
  | CrossJoin l r ihl ihr | InnerJoin l r _ ihl ihr | LeftJoin l r _ ihl ihr
  | RightJoin l r _ ihl ihr | IndexedJoin l r _ _ _ _ ihl ihr | InsertInto l r ihl ihr =>
    simp only [Node.eraseIndexes, ihl, ihr, Expression.eraseIndexesExpr_idem,
      Expression.eraseIndexesList_idem]

theorem Node.Resolved_eraseIndexes (n : Node) : n.eraseIndexes.Resolved = n.Resolved := by
  induction n with
  | ResolvedTable _ | UnresolvedTable _ => rfl
  | Project _ c ih | GroupBy _ _ c ih | Filter _ c ih | TableAlias _ c ih
  | SubqueryAlias _ c ih | DescribeQuery _ c ih | DecoratedNode _ _ c ih =>
    simp only [Node.eraseIndexes, Node.Resolved, ih, Expression.ResolvedExpr_eraseIndexes,
      Expression.ResolvedList_eraseIndexes]
  | CrossJoin l r ihl ihr | InnerJoin l r _ ihl ihr | LeftJoin l r _ ihl ihr
  | RightJoin l r _ ihl ihr | IndexedJoin l r _ _ _ _ ihl ihr | InsertInto l r ihl ihr =>
    simp only [Node.eraseIndexes, Node.Resolved, ihl, ihr, Expression.ResolvedExpr_eraseIndexes,
      Expression.ResolvedList_eraseIndexes]

theorem Node.Expressions_eraseIndexes (n : Node) :
    n.eraseIndexes.Expressions = n.Expressions.map Expression.eraseIndexesList := by
  cases n <;>
    simp [Node.eraseIndexes, Node.Expressions, Expression.eraseIndexesList,
      eraseIndexesList_append]

theorem Node.Children_eraseIndexes (n : Node) :
    n.eraseIndexes.Children = n.Children.map Node.eraseIndexes := by
  cases n <;> rfl

theorem childSchema_eraseIndexes (n : Node) : childSchema n.eraseIndexes = childSchema n := by
  rw [childSchema_eq_flatMap, childSchema_eq_flatMap, Node.Children_eraseIndexes,
    List.flatMap_map]
  simp only [Node.Schema_eraseIndexes]

theorem childSchema_of_erase {n m : Node} (h : n.eraseIndexes = m.eraseIndexes) :
    childSchema n = childSchema m := by
  rw [← childSchema_eraseIndexes n, h, childSchema_eraseIndexes]

theorem columnsUsedByNode_eraseIndexes (n : Node) :
    columnsUsedByNode n.eraseIndexes = columnsUsedByNode n := by
  simp only [columnsUsedByNode, Node.Schema_eraseIndexes]

theorem findUsedColumnsVisit_eraseIndexes (cols : usedColumns) (n : Node) :
    findUsedColumnsVisit cols n.eraseIndexes = findUsedColumnsVisit cols n := by
  cases n <;>
    simp [Node.eraseIndexes, findUsedColumnsVisit, Node.Expressions,
      addUsedProjectColumns_eraseIndexesList, addUsedColumns_eraseIndexesList,
      addUsedColumns, addUsedColumnsExpr_eraseIndexes]

theorem findUsedColumns_eraseIndexes (n : Node) : ∀ (cols : usedColumns),
    findUsedColumns cols n.eraseIndexes = findUsedColumns cols n := by
  induction n with
  | ResolvedTable _ | UnresolvedTable _ => intro cols; rfl
  | SubqueryAlias name c _ =>
    intro cols
    simp [findUsedColumns, Inspect, Node.eraseIndexes, findUsedColumnsVisit]
  | Project ps c ih =>
    intro cols
    simp only [findUsedColumns] at ih
    have h1 := findUsedColumnsVisit_eraseIndexes cols (.Project ps c)
    simp only [Node.eraseIndexes] at h1
    simp only [findUsedColumns, Inspect, Node.eraseIndexes, h1, ih]
  | GroupBy ps grp c ih =>
    intro cols
    simp only [findUsedColumns] at ih
    have h1 := findUsedColumnsVisit_eraseIndexes cols (.GroupBy ps grp c)
    simp only [Node.eraseIndexes] at h1
    simp only [findUsedColumns, Inspect, Node.eraseIndexes, h1, ih]
  | Filter e c ih =>
    intro cols
    simp only [findUsedColumns] at ih
    have h1 := findUsedColumnsVisit_eraseIndexes cols (.Filter e c)
    simp only [Node.eraseIndexes] at h1
    simp only [findUsedColumns, Inspect, Node.eraseIndexes, h1, ih]
  | TableAlias name c ih =>
    intro cols
    simp only [findUsedColumns] at ih
    have h1 := findUsedColumnsVisit_eraseIndexes cols (.TableAlias name c)
    simp only [Node.eraseIndexes] at h1
    simp only [findUsedColumns, Inspect, Node.eraseIndexes, h1, ih]
  | DescribeQuery name c ih =>
    intro cols
    simp only [findUsedColumns] at ih
    have h1 := findUsedColumnsVisit_eraseIndexes cols (.DescribeQuery name c)
    simp only [Node.eraseIndexes] at h1
    simp only [findUsedColumns, Inspect, Node.eraseIndexes, h1, ih]
  | DecoratedNode kind label c ih =>
    intro cols
    simp only [findUsedColumns] at ih
    have h1 := findUsedColumnsVisit_eraseIndexes cols (.DecoratedNode kind label c)
    simp only [Node.eraseIndexes] at h1
    simp only [findUsedColumns, Inspect, Node.eraseIndexes, h1, ih]
  | CrossJoin l r ihl ihr =>
    intro cols
    simp only [findUsedColumns] at ihl ihr
    have h1 := findUsedColumnsVisit_eraseIndexes cols (.CrossJoin l r)
    simp only [Node.eraseIndexes] at h1
    simp only [findUsedColumns, Inspect, Node.eraseIndexes, h1, ihl, ihr]
  | InnerJoin l r e ihl ihr =>
    intro cols
    simp only [findUsedColumns] at ihl ihr
    have h1 := findUsedColumnsVisit_eraseIndexes cols (.InnerJoin l r e)
    simp only [Node.eraseIndexes] at h1
    simp only [findUsedColumns, Inspect, Node.eraseIndexes, h1, ihl, ihr]
  | LeftJoin l r e ihl ihr =>
    intro cols
    simp only [findUsedColumns] at ihl ihr
    have h1 := findUsedColumnsVisit_eraseIndexes cols (.LeftJoin l r e)
    simp only [Node.eraseIndexes] at h1
    simp only [findUsedColumns, Inspect, Node.eraseIndexes, h1, ihl, ihr]
  | RightJoin l r e ihl ihr =>
    intro cols
    simp only [findUsedColumns] at ihl ihr
    have h1 := findUsedColumnsVisit_eraseIndexes cols (.RightJoin l r e)
    simp only [Node.eraseIndexes] at h1
    simp only [findUsedColumns, Inspect, Node.eraseIndexes, h1, ihl, ihr]
  | IndexedJoin l r jt e keys idx ihl ihr =>
    intro cols
    simp only [findUsedColumns] at ihl ihr
    have h1 := findUsedColumnsVisit_eraseIndexes cols (.IndexedJoin l r jt e keys idx)
    simp only [Node.eraseIndexes] at h1
    simp only [findUsedColumns, Inspect, Node.eraseIndexes, h1, ihl, ihr]
  | InsertInto l r ihl ihr =>
    intro cols
    simp only [findUsedColumns] at ihl ihr
    have h1 := findUsedColumnsVisit_eraseIndexes cols (.InsertInto l r)
    simp only [Node.eraseIndexes] at h1
    simp only [findUsedColumns, Inspect, Node.eraseIndexes, h1, ihl, ihr]

theorem usageOf_eraseIndexes (n : Node) : usageOf n.eraseIndexes = usageOf n := by
  simp only [usageOf, columnsUsedByNode_eraseIndexes, findUsedColumns_eraseIndexes]

theorem eraseIndexesList_length (es : List Expression) :
    (Expression.eraseIndexesList es).length = es.length := by
  simp [eraseIndexesList_eq_map]

theorem pruneProject_eraseIndexes (ps : List Expression) (c : Node) (cols : usedColumns) :
    pruneProject (Expression.eraseIndexesList ps) c.eraseIndexes cols =
      (pruneProject ps c cols).eraseIndexes := by
  simp only [pruneProject, remainingExprs_eraseIndexesList, eraseIndexesList_length]
  split <;> rfl

theorem pruneGroupBy_eraseIndexes (sel grp : List Expression) (c : Node)
    (cols : usedColumns) :
    pruneGroupBy (Expression.eraseIndexesList sel) (Expression.eraseIndexesList grp)
        c.eraseIndexes cols =
      (pruneGroupBy sel grp c cols).eraseIndexes := by
  simp only [pruneGroupBy, remainingExprs_eraseIndexesList, eraseIndexesList_length]
  split <;> rfl

theorem pruneUnusedColumns_eraseIndexes (cols : usedColumns) (n : Node) :
    ∀ n1, pruneUnusedColumns n cols = .ok n1 →
      pruneUnusedColumns n.eraseIndexes cols = .ok n1.eraseIndexes := by
  induction n with
  | ResolvedTable _ | UnresolvedTable _ | SubqueryAlias _ _ _ =>
    intro n1 h
    simp only [pruneUnusedColumns, TransformUp, pruneUnusedColumnsVisit, Except.ok.injEq] at h
    subst h
    rfl
  | Project _ c ih | GroupBy _ _ c ih | Filter _ c ih | TableAlias _ c ih
  | DescribeQuery _ c ih | DecoratedNode _ _ c ih =>
    intro n1 h
    simp only [pruneUnusedColumns, TransformUp] at h ih
    cases hc : TransformUp (pruneUnusedColumnsVisit cols) c with
    | error err => simp [hc] at h
    | ok c1 =>
      simp only [hc, pruneUnusedColumnsVisit, Except.ok.injEq] at h
      subst h
      simp only [pruneUnusedColumns, Node.eraseIndexes, TransformUp, ih c1 hc,
        pruneUnusedColumnsVisit, pruneProject_eraseIndexes, pruneGroupBy_eraseIndexes]
  | CrossJoin l r ihl ihr | InnerJoin l r _ ihl ihr | LeftJoin l r _ ihl ihr
  | RightJoin l r _ ihl ihr | IndexedJoin l r _ _ _ _ ihl ihr | InsertInto l r ihl ihr =>
    intro n1 h
    simp only [pruneUnusedColumns, TransformUp] at h ihl ihr
    cases hl : TransformUp (pruneUnusedColumnsVisit cols) l with
    | error err => simp [hl] at h
    | ok l1 =>
      cases hr : TransformUp (pruneUnusedColumnsVisit cols) r with
      | error err => simp [hl, hr] at h
      | ok r1 =>
        simp only [hl, hr, pruneUnusedColumnsVisit, Except.ok.injEq] at h
        subst h
        simp only [pruneUnusedColumns, Node.eraseIndexes, TransformUp, ihl l1 hl, ihr r1 hr,
          pruneUnusedColumnsVisit]

theorem pruneSubqueries_eraseIndexes_aux : ∀ (k : Nat) (n : Node), n.size ≤ k →
    ∀ (cols : usedColumns),
      pruneSubqueries n.eraseIndexes cols =
        (pruneSubqueries n cols).map Node.eraseIndexes := by
  intro k
  induction k with
  | zero =>
    intro n hn
    cases n <;> simp [Node.size] at hn
  | succ k ih =>
    intro n hn cols
    cases n with
    | ResolvedTable _ | UnresolvedTable _ =>
      simp only [Node.eraseIndexes, pruneSubqueries]
      rfl
    | SubqueryAlias name c =>
      simp only [Node.size] at hn
      simp only [Node.eraseIndexes, pruneSubqueries]
      rw [pruneSubqueryColumns_eq, pruneSubqueryColumns_eq]
      simp only [Node.Schema_eraseIndexes, findUsedColumns_eraseIndexes]
      cases translateColumns (tableByCol c.Schema) name (cols.columnsOf name)
          usedColumns.empty with
      | error err => rfl
      | ok translated =>
        obtain ⟨node, hnode⟩ := pruneUnusedColumns_ok (findUsedColumns translated c) c
        have hle := pruneUnusedColumns_size_le _ c node hnode
        simp only [hnode, pruneUnusedColumns_eraseIndexes _ c node hnode]
        rw [ih node (by omega)]
        cases pruneSubqueries node (findUsedColumns translated c) <;> rfl
    | Project _ c | GroupBy _ _ c | Filter _ c | TableAlias _ c
    | DescribeQuery _ c | DecoratedNode _ _ c =>
      simp only [Node.size] at hn
      simp only [Node.eraseIndexes, pruneSubqueries]
      rw [ih c (by omega)]
      cases pruneSubqueries c cols <;> rfl
    | CrossJoin l r | InnerJoin l r _ | LeftJoin l r _
    | RightJoin l r _ | IndexedJoin l r _ _ _ _ | InsertInto l r =>
      simp only [Node.size] at hn
      simp only [Node.eraseIndexes, pruneSubqueries]
      rw [ih l (by omega), ih r (by omega)]
      cases pruneSubqueries l cols <;> cases pruneSubqueries r cols <;> rfl

theorem pruneSubqueries_eraseIndexes (n : Node) (cols : usedColumns) :
    pruneSubqueries n.eraseIndexes cols = (pruneSubqueries n cols).map Node.eraseIndexes :=
  pruneSubqueries_eraseIndexes_aux n.size n (Nat.le_refl _) cols

theorem TransformUpList_append (f : Expression → Except AnalyzerError Expression) :
    ∀ (a b : List Expression),
      Expression.TransformUpList f (a ++ b) =
        match Expression.TransformUpList f a with
        | .error err => .error err
        | .ok a1 =>
          match Expression.TransformUpList f b with
          | .error err => .error err
          | .ok b1 => .ok (a1 ++ b1) := by
  intro a
  induction a with
  | nil =>
    intro b
    simp only [List.nil_append, Expression.TransformUpList]
    cases Expression.TransformUpList f b <;> rfl
  | cons e es ih =>
    intro b
    show Expression.TransformUpList f (e :: (es ++ b)) = _
    simp only [Expression.TransformUpList]
    rw [ih b]
    cases Expression.TransformUp f e with
    | error err => rfl
    | ok e1 =>
      cases Expression.TransformUpList f es with
      | error err => rfl
      | ok es1 =>
        cases Expression.TransformUpList f b <;> rfl

theorem TransformExpressions_error_iff (f : Expression → Except AnalyzerError Expression)
    (m : Node) (err : AnalyzerError) :
    TransformExpressions f m = .error err ↔
      ∃ exprs, m.Expressions = some exprs ∧ Expression.TransformUpList f exprs = .error err := by
  cases m with
  | Project ps c =>
    simp only [TransformExpressions, Node.Expressions, Option.some.injEq, exists_eq_left']
    cases Expression.TransformUpList f ps <;> simp
  | GroupBy sel grp c =>
    simp only [TransformExpressions, Node.Expressions, Option.some.injEq, exists_eq_left',
      TransformUpList_append]
    cases Expression.TransformUpList f sel with
    | error e => simp
    | ok sel1 => cases Expression.TransformUpList f grp <;> simp
  | Filter e c | InnerJoin l r e | LeftJoin l r e | RightJoin l r e =>
    simp only [TransformExpressions, Node.Expressions, Option.some.injEq, exists_eq_left',
      Expression.TransformUpList]
    cases Expression.TransformUp f e <;> simp
  | _ => simp [TransformExpressions, Node.Expressions]

theorem fixNodeIndexes_error_iff (m : Node) (err : AnalyzerError) :
    fixNodeIndexes m = .error err ↔
      ∃ exprs, m.Expressions = some exprs ∧ (childSchema m).length ≠ 0 ∧
        Expression.TransformUpList (fixFieldIndex (indexes (childSchema m))) exprs
          = .error err := by
  unfold fixNodeIndexes
  cases hx : m.Expressions with
  | none => simp
  | some exprs =>
    by_cases hlen : (childSchema m).length = 0
    · simp [hlen]
    · simp only [hlen, if_false, TransformExpressions_error_iff, hx, Option.some.injEq,
        exists_eq_left', ne_eq, not_false_eq_true, true_and]

theorem fixNodeIndexes_error_congr (m1 m2 : Node) (h : m1.eraseIndexes = m2.eraseIndexes)
    (err : AnalyzerError) (h1 : fixNodeIndexes m1 = .error err) :
    fixNodeIndexes m2 = .error err := by
  obtain ⟨exprs, hx, hlen, ht⟩ := (fixNodeIndexes_error_iff m1 err).1 h1
  have hE := congrArg Node.Expressions h
  rw [Node.Expressions_eraseIndexes, Node.Expressions_eraseIndexes, hx] at hE
  have hcs := childSchema_of_erase h
  cases hy : m2.Expressions with
  | none => simp [hy] at hE
  | some exprs2 =>
    simp only [hy, Option.map_some', Option.some.injEq] at hE
    refine (fixNodeIndexes_error_iff m2 err).2 ⟨exprs2, hy, hcs ▸ hlen, ?_⟩
    rw [← hcs, ← TransformUpList_fixFieldIndex_congr _ hE]
    exact ht

theorem fixRemainingFieldsIndexes_error_step1 (mk mk1 : Node → Node) (c c1 : Node)
    (hmk : fixRemainingFieldsIndexes (mk c) =
      match fixRemainingFieldsIndexes c with
      | .error err => .error err
      | .ok x => fixNodeIndexes (mk x))
    (hmk1 : fixRemainingFieldsIndexes (mk1 c1) =
      match fixRemainingFieldsIndexes c1 with
      | .error err => .error err
      | .ok x => fixNodeIndexes (mk1 x))
    (herase : ∀ a b, a.eraseIndexes = b.eraseIndexes →
      (mk a).eraseIndexes = (mk1 b).eraseIndexes)
    (hc : c.eraseIndexes = c1.eraseIndexes)
    (ih : ∀ err, fixRemainingFieldsIndexes c = .error err ↔
      fixRemainingFieldsIndexes c1 = .error err) :
    ∀ err, fixRemainingFieldsIndexes (mk c) = .error err ↔
      fixRemainingFieldsIndexes (mk1 c1) = .error err := by
  intro err
  rw [hmk, hmk1]
  cases hfc : fixRemainingFieldsIndexes c with
  | error e =>
    rw [(ih e).1 hfc]
  | ok x =>
    cases hfc1 : fixRemainingFieldsIndexes c1 with
    | error e1 =>
      rw [(ih e1).2 hfc1] at hfc
      cases hfc
    | ok y =>
      have hxy : x.eraseIndexes = y.eraseIndexes := by
        rw [fixRemainingFieldsIndexes_erase c x hfc, fixRemainingFieldsIndexes_erase c1 y hfc1,
          hc]
      exact ⟨fixNodeIndexes_error_congr _ _ (herase x y hxy) err,
        fixNodeIndexes_error_congr _ _ (herase x y hxy).symm err⟩

theorem fixRemainingFieldsIndexes_error_step2 (mk mk1 : Node → Node → Node)
    (l r l1 r1 : Node)
    (hmk : fixRemainingFieldsIndexes (mk l r) =
      match fixRemainingFieldsIndexes l with
      | .error err => .error err
      | .ok x =>
        match fixRemainingFieldsIndexes r with
        | .error err => .error err
        | .ok y => fixNodeIndexes (mk x y))
    (hmk1 : fixRemainingFieldsIndexes (mk1 l1 r1) =
      match fixRemainingFieldsIndexes l1 with
      | .error err => .error err
      | .ok x =>
        match fixRemainingFieldsIndexes r1 with
        | .error err => .error err
        | .ok y => fixNodeIndexes (mk1 x y))
    (herase : ∀ a b a1 b1, a.eraseIndexes = a1.eraseIndexes →
      b.eraseIndexes = b1.eraseIndexes → (mk a b).eraseIndexes = (mk1 a1 b1).eraseIndexes)
    (hl : l.eraseIndexes = l1.eraseIndexes) (hr : r.eraseIndexes = r1.eraseIndexes)
    (ihl : ∀ err, fixRemainingFieldsIndexes l = .error err ↔
      fixRemainingFieldsIndexes l1 = .error err)
    (ihr : ∀ err, fixRemainingFieldsIndexes r = .error err ↔
      fixRemainingFieldsIndexes r1 = .error err) :
    ∀ err, fixRemainingFieldsIndexes (mk l r) = .error err ↔
      fixRemainingFieldsIndexes (mk1 l1 r1) = .error err := by
  intro err
  rw [hmk, hmk1]
  cases hfl : fixRemainingFieldsIndexes l with
  | error e =>
    rw [(ihl e).1 hfl]
  | ok x =>
    cases hfl1 : fixRemainingFieldsIndexes l1 with
    | error e1 =>
      rw [(ihl e1).2 hfl1] at hfl
      cases hfl
    | ok x1 =>
      cases hfr : fixRemainingFieldsIndexes r with
      | error e =>
        rw [(ihr e).1 hfr]
      | ok y =>
        cases hfr1 : fixRemainingFieldsIndexes r1 with
        | error e1 =>
          rw [(ihr e1).2 hfr1] at hfr
          cases hfr
        | ok y1 =>
          have hx : x.eraseIndexes = x1.eraseIndexes := by
            rw [fixRemainingFieldsIndexes_erase l x hfl,
              fixRemainingFieldsIndexes_erase l1 x1 hfl1, hl]
          have hy : y.eraseIndexes = y1.eraseIndexes := by
            rw [fixRemainingFieldsIndexes_erase r y hfr,
              fixRemainingFieldsIndexes_erase r1 y1 hfr1, hr]
          exact ⟨fixNodeIndexes_error_congr _ _ (herase x y x1 y1 hx hy) err,
            fixNodeIndexes_error_congr _ _ (herase x y x1 y1 hx hy).symm err⟩

theorem fixRemainingFieldsIndexes_error_eraseIndexes (n : Node) :
    ∀ err, fixRemainingFieldsIndexes n = .error err ↔
      fixRemainingFieldsIndexes n.eraseIndexes = .error err := by
  induction n with
  | ResolvedTable _ | UnresolvedTable _ =>
    intro err
    simp [fixRemainingFieldsIndexes, fixNodeIndexes, Node.Expressions, Node.eraseIndexes]
  | SubqueryAlias name c ih =>
    intro err
    simp only [Node.eraseIndexes, fixRemainingFieldsIndexes]
    cases hfc : fixRemainingFieldsIndexes c with
    | error e =>
      rw [(ih e).1 hfc]
    | ok x =>
      cases hfc1 : fixRemainingFieldsIndexes c.eraseIndexes with
      | error e1 =>
        rw [(ih e1).2 hfc1] at hfc
        cases hfc
      | ok y => simp
  | Project ps c ih =>
    exact fixRemainingFieldsIndexes_error_step1 (fun x => .Project ps x)
      (fun x => .Project (Expression.eraseIndexesList ps) x) c c.eraseIndexes
      (by simp only [fixRemainingFieldsIndexes]) (by simp only [fixRemainingFieldsIndexes])
      (fun a b hab => by simp only [Node.eraseIndexes, hab, Expression.eraseIndexesList_idem])
      (Node.eraseIndexes_idem c).symm ih
  | GroupBy sel grp c ih =>
    exact fixRemainingFieldsIndexes_error_step1 (fun x => .GroupBy sel grp x)
      (fun x => .GroupBy (Expression.eraseIndexesList sel) (Expression.eraseIndexesList grp) x)
      c c.eraseIndexes
      (by simp only [fixRemainingFieldsIndexes]) (by simp only [fixRemainingFieldsIndexes])
      (fun a b hab => by simp only [Node.eraseIndexes, hab, Expression.eraseIndexesList_idem])
      (Node.eraseIndexes_idem c).symm ih
  | Filter e c ih =>
    exact fixRemainingFieldsIndexes_error_step1 (fun x => .Filter e x)
      (fun x => .Filter e.eraseIndexes x) c c.eraseIndexes
      (by simp only [fixRemainingFieldsIndexes]) (by simp only [fixRemainingFieldsIndexes])
      (fun a b hab => by simp only [Node.eraseIndexes, hab, Expression.eraseIndexesExpr_idem])
      (Node.eraseIndexes_idem c).symm ih
  | TableAlias name c ih =>
    exact fixRemainingFieldsIndexes_error_step1 (fun x => .TableAlias name x)
      (fun x => .TableAlias name x) c c.eraseIndexes
      (by simp only [fixRemainingFieldsIndexes]) (by simp only [fixRemainingFieldsIndexes])
      (fun a b hab => by simp only [Node.eraseIndexes, hab])
      (Node.eraseIndexes_idem c).symm ih
  | DescribeQuery name c ih =>
    exact fixRemainingFieldsIndexes_error_step1 (fun x => .DescribeQuery name x)
      (fun x => .DescribeQuery name x) c c.eraseIndexes
      (by simp only [fixRemainingFieldsIndexes]) (by simp only [fixRemainingFieldsIndexes])
      (fun a b hab => by simp only [Node.eraseIndexes, hab])
      (Node.eraseIndexes_idem c).symm ih
  | DecoratedNode kind label c ih =>
    exact fixRemainingFieldsIndexes_error_step1 (fun x => .DecoratedNode kind label x)
      (fun x => .DecoratedNode kind label x) c c.eraseIndexes
      (by simp only [fixRemainingFieldsIndexes]) (by simp only [fixRemainingFieldsIndexes])
      (fun a b hab => by simp only [Node.eraseIndexes, hab])
      (Node.eraseIndexes_idem c).symm ih
  | CrossJoin l r ihl ihr =>
    exact fixRemainingFieldsIndexes_error_step2 (fun x y => .CrossJoin x y)
      (fun x y => .CrossJoin x y) l r l.eraseIndexes r.eraseIndexes
      (by simp only [fixRemainingFieldsIndexes]) (by simp only [fixRemainingFieldsIndexes])
      (fun a b a1 b1 ha hb => by simp only [Node.eraseIndexes, ha, hb])
      (Node.eraseIndexes_idem l).symm (Node.eraseIndexes_idem r).symm ihl ihr
  | InnerJoin l r e ihl ihr =>
    exact fixRemainingFieldsIndexes_error_step2 (fun x y => .InnerJoin x y e)
      (fun x y => .InnerJoin x y e.eraseIndexes) l r l.eraseIndexes r.eraseIndexes
      (by simp only [fixRemainingFieldsIndexes]) (by simp only [fixRemainingFieldsIndexes])
      (fun a b a1 b1 ha hb => by
        simp only [Node.eraseIndexes, ha, hb, Expression.eraseIndexesExpr_idem])
      (Node.eraseIndexes_idem l).symm (Node.eraseIndexes_idem r).symm ihl ihr
  | LeftJoin l r e ihl ihr =>
    exact fixRemainingFieldsIndexes_error_step2 (fun x y => .LeftJoin x y e)
      (fun x y => .LeftJoin x y e.eraseIndexes) l r l.eraseIndexes r.eraseIndexes
      (by simp only [fixRemainingFieldsIndexes]) (by simp only [fixRemainingFieldsIndexes])
      (fun a b a1 b1 ha hb => by
        simp only [Node.eraseIndexes, ha, hb, Expression.eraseIndexesExpr_idem])
      (Node.eraseIndexes_idem l).symm (Node.eraseIndexes_idem r).symm ihl ihr
  | RightJoin l r e ihl ihr =>
    exact fixRemainingFieldsIndexes_error_step2 (fun x y => .RightJoin x y e)
      (fun x y => .RightJoin x y e.eraseIndexes) l r l.eraseIndexes r.eraseIndexes
      (by simp only [fixRemainingFieldsIndexes]) (by simp only [fixRemainingFieldsIndexes])
      (fun a b a1 b1 ha hb => by
        simp only [Node.eraseIndexes, ha, hb, Expression.eraseIndexesExpr_idem])
      (Node.eraseIndexes_idem l).symm (Node.eraseIndexes_idem r).symm ihl ihr
  | IndexedJoin l r jt e keys idx ihl ihr =>
    exact fixRemainingFieldsIndexes_error_step2 (fun x y => .IndexedJoin x y jt e keys idx)
      (fun x y => .IndexedJoin x y jt e.eraseIndexes (Expression.eraseIndexesList keys) idx)
      l r l.eraseIndexes r.eraseIndexes
      (by simp only [fixRemainingFieldsIndexes]) (by simp only [fixRemainingFieldsIndexes])
      (fun a b a1 b1 ha hb => by
        simp only [Node.eraseIndexes, ha, hb, Expression.eraseIndexesExpr_idem,
          Expression.eraseIndexesList_idem])
      (Node.eraseIndexes_idem l).symm (Node.eraseIndexes_idem r).symm ihl ihr
  | InsertInto l r ihl ihr =>
    exact fixRemainingFieldsIndexes_error_step2 (fun x y => .InsertInto x y)
      (fun x y => .InsertInto x y) l r l.eraseIndexes r.eraseIndexes
      (by simp only [fixRemainingFieldsIndexes]) (by simp only [fixRemainingFieldsIndexes])
      (fun a b a1 b1 ha hb => by simp only [Node.eraseIndexes, ha, hb])
      (Node.eraseIndexes_idem l).symm (Node.eraseIndexes_idem r).symm ihl ihr

theorem fixRemainingFieldsIndexes_map_eraseIndexes (n : Node) :
    (fixRemainingFieldsIndexes n.eraseIndexes).map Node.eraseIndexes =
      (fixRemainingFieldsIndexes n).map Node.eraseIndexes := by
  cases h : fixRemainingFieldsIndexes n with
  | error err =>
    rw [(fixRemainingFieldsIndexes_error_eraseIndexes n err).1 h]
  | ok n1 =>
    cases h1 : fixRemainingFieldsIndexes n.eraseIndexes with
    | error err =>
      rw [(fixRemainingFieldsIndexes_error_eraseIndexes n err).2 h1] at h
      cases h
    | ok n2 =>
      show Except.ok n2.eraseIndexes = Except.ok n1.eraseIndexes
      rw [fixRemainingFieldsIndexes_erase _ n2 h1, fixRemainingFieldsIndexes_erase _ n1 h,
        Node.eraseIndexes_idem]

theorem eraseIndexes_eq_InsertInto (n d s : Node) (h : n.eraseIndexes = .InsertInto d s) :
    ∃ d1 s1, n = .InsertInto d1 s1 := by
  cases n with
  | InsertInto d1 s1 => exact ⟨d1, s1, rfl⟩
  | _ => simp [Node.eraseIndexes] at h

theorem eraseIndexes_eq_DescribeQuery (n : Node) (f : String) (c : Node)
    (h : n.eraseIndexes = .DescribeQuery f c) : ∃ f1 c1, n = .DescribeQuery f1 c1 := by
  cases n with
  | DescribeQuery f1 c1 => exact ⟨f1, c1, rfl⟩
  | _ => simp [Node.eraseIndexes] at h

theorem pruneColumns_map_eraseIndexes_of_plain (n : Node)
    (hI : ∀ d s, n ≠ .InsertInto d s) (hD : ∀ f c, n ≠ .DescribeQuery f c) :
    (pruneColumns n.eraseIndexes).map Node.eraseIndexes =
      (pruneColumns n).map Node.eraseIndexes := by
  by_cases hres : n.Resolved = true
  · have hI1 : ∀ d s, n.eraseIndexes ≠ .InsertInto d s := by
      intro d s h
      obtain ⟨d1, s1, h1⟩ := eraseIndexes_eq_InsertInto n d s h
      exact hI d1 s1 h1
    have hD1 : ∀ f c, n.eraseIndexes ≠ .DescribeQuery f c := by
      intro f c h
      obtain ⟨f1, c1, h1⟩ := eraseIndexes_eq_DescribeQuery n f c h
      exact hD f1 c1 h1
    rw [pruneColumns_eq_of_resolved n hres hI hD,
      pruneColumns_eq_of_resolved n.eraseIndexes
        (by rw [Node.Resolved_eraseIndexes]; exact hres) hI1 hD1]
    simp only [columnsUsedByNode_eraseIndexes, findUsedColumns_eraseIndexes]
    obtain ⟨n1, h1⟩ := pruneUnusedColumns_ok (findUsedColumns (columnsUsedByNode n) n) n
    simp only [h1, pruneUnusedColumns_eraseIndexes _ n n1 h1, pruneSubqueries_eraseIndexes]
    cases h2 : pruneSubqueries n1 (findUsedColumns (columnsUsedByNode n) n) with
    | error err => rfl
    | ok n2 => exact fixRemainingFieldsIndexes_map_eraseIndexes n2
  · have h1 : n.Resolved = false := by simpa using hres
    rw [pruneColumns_of_not_resolved n h1,
      pruneColumns_of_not_resolved n.eraseIndexes (by rw [Node.Resolved_eraseIndexes]; exact h1)]
    show Except.ok n.eraseIndexes.eraseIndexes = Except.ok n.eraseIndexes
    rw [Node.eraseIndexes_idem]

theorem pruneColumns_map_eraseIndexes (n : Node) :
    (pruneColumns n.eraseIndexes).map Node.eraseIndexes =
      (pruneColumns n).map Node.eraseIndexes := by
  induction n with
  | InsertInto d s _ _ =>
    simp only [Node.eraseIndexes, pruneColumns_InsertInto_eq]
    show Except.ok (Node.InsertInto d.eraseIndexes s.eraseIndexes).eraseIndexes = _
    simp only [Node.eraseIndexes, Node.eraseIndexes_idem]
    rfl
  | DescribeQuery f c ih =>
    simp only [Node.eraseIndexes, pruneColumns_DescribeQuery_eq]
    cases h1 : pruneColumns c.eraseIndexes with
    | error e1 =>
      cases h2 : pruneColumns c with
      | error e2 =>
        rw [h1, h2] at ih
        exact ih
      | ok p2 =>
        rw [h1, h2] at ih
        cases ih
    | ok p1 =>
      cases h2 : pruneColumns c with
      | error e2 =>
        rw [h1, h2] at ih
        cases ih
      | ok p2 =>
        rw [h1, h2] at ih
        have h3 : p1.eraseIndexes = p2.eraseIndexes := Except.ok.inj ih
        show Except.ok (Node.DescribeQuery f p1).eraseIndexes =
          Except.ok (Node.DescribeQuery f p2).eraseIndexes
        simp only [Node.eraseIndexes, h3]
  | ResolvedTable _ | UnresolvedTable _ | Project _ _ _ | GroupBy _ _ _ _ | Filter _ _ _
  | TableAlias _ _ _ | SubqueryAlias _ _ _ | DecoratedNode _ _ _ _ | CrossJoin _ _ _ _
  | InnerJoin _ _ _ _ _ | LeftJoin _ _ _ _ _ | RightJoin _ _ _ _ _
  | IndexedJoin _ _ _ _ _ _ _ _ =>
    exact pruneColumns_map_eraseIndexes_of_plain _ (by intro d s h; cases h)
      (by intro f c h; cases h)

theorem pruneColumns_map_eraseIndexes_congr (n m : Node)
    (h : n.eraseIndexes = m.eraseIndexes) :
    (pruneColumns n).map Node.eraseIndexes = (pruneColumns m).map Node.eraseIndexes := by
  rw [← pruneColumns_map_eraseIndexes n, h, pruneColumns_map_eraseIndexes]

mutual
theorem TransformUp_fixFieldIndex_of_bound (idx : tableCol → Option Nat) :
    ∀ (e : Expression),
      (∀ r ∈ e.columnRefs, idx { table := r.table, col := r.name } = some r.index) →
      Expression.TransformUp (fixFieldIndex idx) e = .ok e
  | .Literal _ _, _ => rfl
  | .UnresolvedColumn _ _, _ => rfl
  | .GetField i t table name nullable, h => by
    have := h { index := i, table := table, name := name } (by simp [Expression.columnRefs])
    simp only [Expression.TransformUp, fixFieldIndex, this]
  | .Alias name child, h => by
    simp only [Expression.TransformUp,
      TransformUp_fixFieldIndex_of_bound idx child (by simpa [Expression.columnRefs] using h),
      fixFieldIndex]
  | .Unary op child, h => by
    simp only [Expression.TransformUp,
      TransformUp_fixFieldIndex_of_bound idx child (by simpa [Expression.columnRefs] using h),
      fixFieldIndex]
  | .Binary op l r, h => by
    simp only [Expression.TransformUp,
      TransformUp_fixFieldIndex_of_bound idx l
        (fun x hx => h x (by simp [Expression.columnRefs, hx])),
      TransformUp_fixFieldIndex_of_bound idx r
        (fun x hx => h x (by simp [Expression.columnRefs, hx])),
      fixFieldIndex]
  | .Call name t args, h => by
    simp only [Expression.TransformUp,
      TransformUpList_fixFieldIndex_of_bound idx args
        (by simpa [Expression.columnRefs] using h),
      fixFieldIndex]
theorem TransformUpList_fixFieldIndex_of_bound (idx : tableCol → Option Nat) :
    ∀ (es : List Expression),
      (∀ r ∈ Expression.columnRefsList es,
        idx { table := r.table, col := r.name } = some r.index) →
      Expression.TransformUpList (fixFieldIndex idx) es = .ok es
  | [], _ => rfl
  | e :: es, h => by
    simp only [Expression.TransformUpList,
      TransformUp_fixFieldIndex_of_bound idx e
        (fun x hx => h x (by simp [Expression.columnRefsList, hx])),
      TransformUpList_fixFieldIndex_of_bound idx es
        (fun x hx => h x (by simp [Expression.columnRefsList, hx]))]
end

theorem eq_of_eraseIndexesList_of_bound (idx : tableCol → Option Nat)
    (es1 es2 : List Expression)
    (h : Expression.eraseIndexesList es1 = Expression.eraseIndexesList es2)
    (h1 : ∀ r ∈ Expression.columnRefsList es1,
      idx { table := r.table, col := r.name } = some r.index)
    (h2 : ∀ r ∈ Expression.columnRefsList es2,
      idx { table := r.table, col := r.name } = some r.index) : es1 = es2 := by
  have := TransformUpList_fixFieldIndex_congr idx h
  rw [TransformUpList_fixFieldIndex_of_bound idx es1 h1,
    TransformUpList_fixFieldIndex_of_bound idx es2 h2] at this
  exact Except.ok.inj this

theorem Node.self_mem_subtrees (n : Node) : n ∈ n.subtrees := by
  rw [Node.subtrees_eq]
  exact List.mem_cons_self _ _

theorem Node.eq_of_eraseIndexes_of_bound (n : Node) : ∀ (m : Node),
    n.eraseIndexes = m.eraseIndexes →
    (∀ x ∈ n.subtrees, x.IndexesBound) → (∀ x ∈ m.subtrees, x.IndexesBound) → n = m := by
  induction n with
  | ResolvedTable t =>
    intro m h _ _
    cases m with
    | ResolvedTable t1 => simpa [Node.eraseIndexes] using h
    | _ => simp [Node.eraseIndexes] at h
  | UnresolvedTable name =>
    intro m h _ _
    cases m with
    | UnresolvedTable name1 => simpa [Node.eraseIndexes] using h
    | _ => simp [Node.eraseIndexes] at h
  | Project ps c ih =>
    intro m h hn hm
    cases m with
    | Project ps1 c1 =>
      simp only [Node.eraseIndexes, Node.Project.injEq] at h
      have hc := ih c1 h.2
        (fun x hx => hn x (mem_subtrees_of_child _ c x (by simp [Node.Children]) hx))
        (fun x hx => hm x (mem_subtrees_of_child _ c1 x (by simp [Node.Children]) hx))
      subst hc
      have hps := eq_of_eraseIndexesList_of_bound
        (indexes (childSchema (.Project ps c))) ps ps1 h.1
        (hn _ (Node.self_mem_subtrees _)) (hm _ (Node.self_mem_subtrees _))
      rw [hps]
    | _ => simp [Node.eraseIndexes] at h
  | GroupBy sel grp c ih =>
    intro m h hn hm
    cases m with
    | GroupBy sel1 grp1 c1 =>
      simp only [Node.eraseIndexes, Node.GroupBy.injEq] at h
      have hc := ih c1 h.2.2
        (fun x hx => hn x (mem_subtrees_of_child _ c x (by simp [Node.Children]) hx))
        (fun x hx => hm x (mem_subtrees_of_child _ c1 x (by simp [Node.Children]) hx))
      subst hc
      have h1 : ∀ r ∈ Expression.columnRefsList (sel ++ grp),
          indexes (childSchema (.GroupBy sel grp c)) { table := r.table, col := r.name }
            = some r.index := hn _ (Node.self_mem_subtrees _)
      have h2 : ∀ r ∈ Expression.columnRefsList (sel1 ++ grp1),
          indexes (childSchema (.GroupBy sel grp c)) { table := r.table, col := r.name }
            = some r.index := hm _ (Node.self_mem_subtrees _)
      rw [columnRefsList_append] at h1 h2
      have hsel := eq_of_eraseIndexesList_of_bound _ sel sel1 h.1
        (fun r hr => h1 r (List.mem_append_left _ hr))
        (fun r hr => h2 r (List.mem_append_left _ hr))
      have hgrp := eq_of_eraseIndexesList_of_bound _ grp grp1 h.2.1
        (fun r hr => h1 r (List.mem_append_right _ hr))
        (fun r hr => h2 r (List.mem_append_right _ hr))
      rw [hsel, hgrp]
    | _ => simp [Node.eraseIndexes] at h
  | Filter e c ih =>
    intro m h hn hm
    cases m with
    | Filter e1 c1 =>
      simp only [Node.eraseIndexes, Node.Filter.injEq] at h
      have hc := ih c1 h.2
        (fun x hx => hn x (mem_subtrees_of_child _ c x (by simp [Node.Children]) hx))
        (fun x hx => hm x (mem_subtrees_of_child _ c1 x (by simp [Node.Children]) hx))
      subst hc
      have he := eq_of_eraseIndexesList_of_bound
        (indexes (childSchema (.Filter e c))) [e] [e1]
        (by simp only [Expression.eraseIndexesList, h.1])
        (hn _ (Node.self_mem_subtrees _)) (hm _ (Node.self_mem_subtrees _))
      rw [List.cons.inj he |>.1]
    | _ => simp [Node.eraseIndexes] at h
  | TableAlias name c ih =>
    intro m h hn hm
    cases m with
    | TableAlias name1 c1 =>
      simp only [Node.eraseIndexes, Node.TableAlias.injEq] at h
      rw [h.1, ih c1 h.2
        (fun x hx => hn x (mem_subtrees_of_child _ c x (by simp [Node.Children]) hx))
        (fun x hx => hm x (mem_subtrees_of_child _ c1 x (by simp [Node.Children]) hx))]
    | _ => simp [Node.eraseIndexes] at h
  | SubqueryAlias name c ih =>
    intro m h hn hm
    cases m with
    | SubqueryAlias name1 c1 =>
      simp only [Node.eraseIndexes, Node.SubqueryAlias.injEq] at h
      rw [h.1, ih c1 h.2
        (fun x hx => hn x (mem_subtrees_of_child _ c x (by simp [Node.Children]) hx))
        (fun x hx => hm x (mem_subtrees_of_child _ c1 x (by simp [Node.Children]) hx))]
    | _ => simp [Node.eraseIndexes] at h
  | DescribeQuery name c ih =>
    intro m h hn hm
    cases m with
    | DescribeQuery name1 c1 =>
      simp only [Node.eraseIndexes, Node.DescribeQuery.injEq] at h
      rw [h.1, ih c1 h.2
        (fun x hx => hn x (mem_subtrees_of_child _ c x (by simp [Node.Children]) hx))
        (fun x hx => hm x (mem_subtrees_of_child _ c1 x (by simp [Node.Children]) hx))]
    | _ => simp [Node.eraseIndexes] at h
  | DecoratedNode kind label c ih =>
    intro m h hn hm
    cases m with
    | DecoratedNode kind1 label1 c1 =>
      simp only [Node.eraseIndexes, Node.DecoratedNode.injEq] at h
      rw [h.1, h.2.1, ih c1 h.2.2
        (fun x hx => hn x (mem_subtrees_of_child _ c x (by simp [Node.Children]) hx))
        (fun x hx => hm x (mem_subtrees_of_child _ c1 x (by simp [Node.Children]) hx))]
    | _ => simp [Node.eraseIndexes] at h
  | CrossJoin l r ihl ihr =>
    intro m h hn hm
    cases m with
    | CrossJoin l1 r1 =>
      simp only [Node.eraseIndexes, Node.CrossJoin.injEq] at h
      rw [ihl l1 h.1
        (fun x hx => hn x (mem_subtrees_of_child _ l x (by simp [Node.Children]) hx))
        (fun x hx => hm x (mem_subtrees_of_child _ l1 x (by simp [Node.Children]) hx)),
        ihr r1 h.2
        (fun x hx => hn x (mem_subtrees_of_child _ r x (by simp [Node.Children]) hx))
        (fun x hx => hm x (mem_subtrees_of_child _ r1 x (by simp [Node.Children]) hx))]
    | _ => simp [Node.eraseIndexes] at h
  | InsertInto l r ihl ihr =>
    intro m h hn hm
    cases m with
    | InsertInto l1 r1 =>
      simp only [Node.eraseIndexes, Node.InsertInto.injEq] at h
      rw [ihl l1 h.1
        (fun x hx => hn x (mem_subtrees_of_child _ l x (by simp [Node.Children]) hx))
        (fun x hx => hm x (mem_subtrees_of_child _ l1 x (by simp [Node.Children]) hx)),
        ihr r1 h.2
        (fun x hx => hn x (mem_subtrees_of_child _ r x (by simp [Node.Children]) hx))
        (fun x hx => hm x (mem_subtrees_of_child _ r1 x (by simp [Node.Children]) hx))]
    | _ => simp [Node.eraseIndexes] at h
  | InnerJoin l r e ihl ihr =>
    intro m h hn hm
    cases m with
    | InnerJoin l1 r1 e1 =>
      simp only [Node.eraseIndexes, Node.InnerJoin.injEq] at h
      have hl := ihl l1 h.1
        (fun x hx => hn x (mem_subtrees_of_child _ l x (by simp [Node.Children]) hx))
        (fun x hx => hm x (mem_subtrees_of_child _ l1 x (by simp [Node.Children]) hx))
      have hr := ihr r1 h.2.1
        (fun x hx => hn x (mem_subtrees_of_child _ r x (by simp [Node.Children]) hx))
        (fun x hx => hm x (mem_subtrees_of_child _ r1 x (by simp [Node.Children]) hx))
      subst hl
      subst hr
      have he := eq_of_eraseIndexesList_of_bound
        (indexes (childSchema (.InnerJoin l r e))) [e] [e1]
        (by simp only [Expression.eraseIndexesList, h.2.2])
        (hn _ (Node.self_mem_subtrees _)) (hm _ (Node.self_mem_subtrees _))
      rw [List.cons.inj he |>.1]
    | _ => simp [Node.eraseIndexes] at h
  | LeftJoin l r e ihl ihr =>
    intro m h hn hm
    cases m with
    | LeftJoin l1 r1 e1 =>
      simp only [Node.eraseIndexes, Node.LeftJoin.injEq] at h
      have hl := ihl l1 h.1
        (fun x hx => hn x (mem_subtrees_of_child _ l x (by simp [Node.Children]) hx))
        (fun x hx => hm x (mem_subtrees_of_child _ l1 x (by simp [Node.Children]) hx))
      have hr := ihr r1 h.2.1
        (fun x hx => hn x (mem_subtrees_of_child _ r x (by simp [Node.Children]) hx))
        (fun x hx => hm x (mem_subtrees_of_child _ r1 x (by simp [Node.Children]) hx))
      subst hl
      subst hr
      have he := eq_of_eraseIndexesList_of_bound
        (indexes (childSchema (.LeftJoin l r e))) [e] [e1]
        (by simp only [Expression.eraseIndexesList, h.2.2])
        (hn _ (Node.self_mem_subtrees _)) (hm _ (Node.self_mem_subtrees _))
      rw [List.cons.inj he |>.1]
    | _ => simp [Node.eraseIndexes] at h
  | RightJoin l r e ihl ihr =>
    intro m h hn hm
    cases m with
    | RightJoin l1 r1 e1 =>
      simp only [Node.eraseIndexes, Node.RightJoin.injEq] at h
      have hl := ihl l1 h.1
        (fun x hx => hn x (mem_subtrees_of_child _ l x (by simp [Node.Children]) hx))
        (fun x hx => hm x (mem_subtrees_of_child _ l1 x (by simp [Node.Children]) hx))
      have hr := ihr r1 h.2.1
        (fun x hx => hn x (mem_subtrees_of_child _ r x (by simp [Node.Children]) hx))
        (fun x hx => hm x (mem_subtrees_of_child _ r1 x (by simp [Node.Children]) hx))
      subst hl
      subst hr
      have he := eq_of_eraseIndexesList_of_bound
        (indexes (childSchema (.RightJoin l r e))) [e] [e1]
        (by simp only [Expression.eraseIndexesList, h.2.2])
        (hn _ (Node.self_mem_subtrees _)) (hm _ (Node.self_mem_subtrees _))
      rw [List.cons.inj he |>.1]
    | _ => simp [Node.eraseIndexes] at h
  | IndexedJoin l r jt e keys idx ihl ihr =>
    intro m h hn hm
    cases m with
    | IndexedJoin l1 r1 jt1 e1 keys1 idx1 =>
      simp only [Node.eraseIndexes, Node.IndexedJoin.injEq] at h
      have hl := ihl l1 h.1
        (fun x hx => hn x (mem_subtrees_of_child _ l x (by simp [Node.Children]) hx))
        (fun x hx => hm x (mem_subtrees_of_child _ l1 x (by simp [Node.Children]) hx))
      have hr := ihr r1 h.2.1
        (fun x hx => hn x (mem_subtrees_of_child _ r x (by simp [Node.Children]) hx))
        (fun x hx => hm x (mem_subtrees_of_child _ r1 x (by simp [Node.Children]) hx))
      subst hl
      subst hr
      have he := eq_of_eraseIndexesList_of_bound
        (indexes (childSchema (.IndexedJoin l r jt e keys idx))) (e :: keys) (e1 :: keys1)
        (by simp only [Expression.eraseIndexesList, h.2.2.2.1, h.2.2.2.2.1])
        (hn _ (Node.self_mem_subtrees _)) (hm _ (Node.self_mem_subtrees _))
      rw [h.2.2.1, h.2.2.2.2.2, (List.cons.inj he).1, (List.cons.inj he).2]
    | _ => simp [Node.eraseIndexes] at h

theorem Node.heldExpressions_of_Expressions (x : Node) (es : List Expression)
    (h : x.Expressions = some es) : x.heldExpressions = es := by
  cases x <;> simp_all [Node.Expressions, Node.heldExpressions]

theorem fixRemainingFieldsIndexes_bound (n n1 : Node)
    (h : fixRemainingFieldsIndexes n = .ok n1) :
    ∀ x ∈ n1.subtrees, x.Expressions ≠ none → childSchema x ≠ [] → x.IndexesBound := by
  intro x hx hexpr hne r hr
  cases he : x.Expressions with
  | none => exact absurd he hexpr
  | some es =>
    rw [Node.heldExpressions_of_Expressions x es he] at hr
    exact fixRemainingFieldsIndexes_lookup n n1 h x hx hne r
      (by simpa [Node.columnRefs, he] using hr)

/-- C32 (counterexample): two resolved `InsertInto` plans that differ only in
the index of one column reference are both returned as they are, and so are
two resolved projections over a table without columns: in both pairs the
results of `pruneColumns` are different plans. -/
theorem pruneColumns_stale_indexes_counterexample :
    (insertWithStaleIndex.Resolved = true ∧ insertWithBoundIndex.Resolved = true ∧
      insertWithStaleIndex.eraseIndexes = insertWithBoundIndex.eraseIndexes ∧
      pruneColumns insertWithStaleIndex = .ok insertWithStaleIndex ∧
      pruneColumns insertWithBoundIndex = .ok insertWithBoundIndex ∧
      insertWithStaleIndex ≠ insertWithBoundIndex) ∧
    (projectOverEmptyTable.Resolved = true ∧ projectOverEmptyTableZero.Resolved = true ∧
      projectOverEmptyTable.eraseIndexes = projectOverEmptyTableZero.eraseIndexes ∧
      pruneColumns projectOverEmptyTable = .ok projectOverEmptyTable ∧
      pruneColumns projectOverEmptyTableZero = .ok projectOverEmptyTableZero ∧
      projectOverEmptyTable ≠ projectOverEmptyTableZero) :=
  ⟨⟨rfl, rfl, rfl, pruneColumns_InsertInto_eq _ _, pruneColumns_InsertInto_eq _ _,
      by simp [insertWithStaleIndex, insertWithBoundIndex]⟩,
    ⟨rfl, rfl, rfl,
      pruneColumns_eval projectOverEmptyTable projectOverEmptyTable projectOverEmptyTable _ rfl
        (by intro d s h; cases h) (by intro f c h; cases h) rfl
        (by simp [pruneSubqueries, projectOverEmptyTable]) rfl,
      pruneColumns_eval projectOverEmptyTableZero projectOverEmptyTableZero
        projectOverEmptyTableZero _ rfl
        (by intro d s h; cases h) (by intro f c h; cases h) rfl
        (by simp [pruneSubqueries, projectOverEmptyTableZero]) rfl,
      by simp [projectOverEmptyTable, projectOverEmptyTableZero]⟩⟩

/-- C32: for two plans that are equal up to the index fields of their column
references, `pruneColumns` fails on both with the same error or succeeds on
both with results that are equal up to the index fields; the two results are
the same plan when in both every column reference has the index its
`(table, name)` has in the concatenated schema of the children of its node,
and that is the case, in the result for a resolved plan that is neither an
`InsertInto` nor a `DescribeQuery`, at every expression-carrying node with a
non-empty concatenated child schema. -/
theorem pruneColumns_stale_indexes (n m : Node) (h : n.eraseIndexes = m.eraseIndexes) :
    (pruneColumns n).map Node.eraseIndexes = (pruneColumns m).map Node.eraseIndexes ∧
    (∀ err, pruneColumns n = .error err ↔ pruneColumns m = .error err) ∧
    (∀ n1, pruneColumns n = .ok n1 →
      ∃ m1, pruneColumns m = .ok m1 ∧ n1.eraseIndexes = m1.eraseIndexes ∧
        ((∀ x ∈ n1.subtrees, x.IndexesBound) → (∀ x ∈ m1.subtrees, x.IndexesBound) →
          n1 = m1)) ∧
    (n.Resolved = true → (∀ d s, n ≠ .InsertInto d s) → (∀ f c, n ≠ .DescribeQuery f c) →
      ∀ n1, pruneColumns n = .ok n1 →
        ∀ x ∈ n1.subtrees, x.Expressions ≠ none → childSchema x ≠ [] → x.IndexesBound) := by
  have hmap := pruneColumns_map_eraseIndexes_congr n m h
  refine ⟨hmap, ?_, ?_, ?_⟩
  · intro err
    cases hn : pruneColumns n with
    | error e1 =>
      cases hm : pruneColumns m with
      | error e2 =>
        rw [hn, hm] at hmap
        have : e1 = e2 := Except.error.inj hmap
        rw [this]
      | ok m1 =>
        rw [hn, hm] at hmap
        cases hmap
    | ok n1 =>
      cases hm : pruneColumns m with
      | error e2 =>
        rw [hn, hm] at hmap
        cases hmap
      | ok m1 => simp
  · intro n1 hn
    cases hm : pruneColumns m with
    | error e2 =>
      rw [hn, hm] at hmap
      cases hmap
    | ok m1 =>
      rw [hn, hm] at hmap
      have he : n1.eraseIndexes = m1.eraseIndexes := Except.ok.inj hmap
      exact ⟨m1, rfl, he, Node.eq_of_eraseIndexes_of_bound n1 m1 he⟩
  · intro hres hI hD n1 hn
    obtain ⟨p1, p2, _, _, hfix⟩ := pruneColumns_ok_inv n n1 hres hI hD hn
    exact fixRemainingFieldsIndexes_bound p2 n1 hfix

/-- C32 (witness): `stalePlan` and `reboundPlan` differ in the indexes of two
column references only; the results of `pruneColumns` for them are equal up to
the index fields, and are the same plan when their references are bound. -/
theorem pruneColumns_stale_indexes_witness :
    stalePlan.eraseIndexes = reboundPlan.eraseIndexes ∧
    (pruneColumns stalePlan).map Node.eraseIndexes =
      (pruneColumns reboundPlan).map Node.eraseIndexes ∧
    ∀ n1, pruneColumns stalePlan = .ok n1 →
      ∃ m1, pruneColumns reboundPlan = .ok m1 ∧ n1.eraseIndexes = m1.eraseIndexes ∧
        ((∀ x ∈ n1.subtrees, x.IndexesBound) → (∀ x ∈ m1.subtrees, x.IndexesBound) →
          n1 = m1) :=
  ⟨rfl, (pruneColumns_stale_indexes stalePlan reboundPlan rfl).1,
    (pruneColumns_stale_indexes stalePlan reboundPlan rfl).2.2.1⟩

/-! ## Outer-join soundness of the filter pushdown -/

theorem filterAbove_nil (n : Node) : filterAbove [] n = n := rfl

theorem pushInto_nil (n : Node) : pushInto [] n = n := by
  induction n with
  | CrossJoin l r ihl ihr | InnerJoin l r _ ihl ihr =>
    simp [pushInto, ihl, ihr]
  | LeftJoin l r _ ihl ihr | RightJoin l r _ ihl ihr =>
    simp [pushInto, ihl, ihr, filterAbove]
  | IndexedJoin l r jt _ _ _ ihl ihr =>
    simp [pushInto, ihl, ihr, filterAbove]
  | _ => rfl

theorem splitConjunction_joinConjunction_flatMap (cs : List Expression) :
    ∀ (e : Expression),
      splitConjunction (joinConjunction e cs) =
        splitConjunction e ++ cs.flatMap splitConjunction := by
  induction cs with
  | nil =>
    intro e
    simp [joinConjunction]
  | cons c cs ih =>
    intro e
    have := ih (.Binary .And e c)
    simp only [joinConjunction, List.foldl_cons] at this ⊢
    rw [this]
    simp [splitConjunction]

theorem splitConjunction_flatMap_idem (e : Expression) :
    (splitConjunction e).flatMap splitConjunction = splitConjunction e := by
  have h : ∀ (l : List Expression), (∀ c ∈ l, c.isAnd = false) →
      l.flatMap splitConjunction = l := by
    intro l
    induction l with
    | nil => intro _; rfl
    | cons c cs ih =>
      intro hl
      simp only [List.flatMap_cons,
        splitConjunction_of_not_and c (hl c (List.mem_cons_self _ _)),
        ih (fun x hx => hl x (List.mem_cons_of_mem _ hx))]
      rfl
  exact h _ (fun c hc => splitConjunction_atoms e c hc)

theorem filterAbove_filterConjuncts (cs : List Expression) (n : Node) :
    (filterAbove cs n).filterConjuncts = cs.flatMap splitConjunction ++ n.filterConjuncts := by
  cases cs with
  | nil => rfl
  | cons c rest =>
    simp only [filterAbove, Node.filterConjuncts, splitConjunction_joinConjunction_flatMap,
      List.flatMap_cons]

theorem mem_flatMap_split_filter (cs : List Expression) (p : Expression → Bool)
    (x : Expression) :
    x ∈ cs.flatMap splitConjunction ↔
      x ∈ (cs.filter p).flatMap splitConjunction ∨
      x ∈ (cs.filter (fun e => !p e)).flatMap splitConjunction := by
  simp only [List.mem_flatMap, List.mem_filter]
  constructor
  · rintro ⟨c, hc, hx⟩
    by_cases hp : p c = true
    · exact Or.inl ⟨c, ⟨hc, hp⟩, hx⟩
    · exact Or.inr ⟨c, ⟨hc, by simpa using hp⟩, hx⟩
  · rintro (⟨c, ⟨hc, _⟩, hx⟩ | ⟨c, ⟨hc, _⟩, hx⟩) <;> exact ⟨c, hc, hx⟩

theorem mem_flatMap_split_sides (cs : List Expression) (l r : Schema)
    (hany : cs.any (fun e => classifyConjunct l r e == .Join) = false) (x : Expression) :
    x ∈ cs.flatMap splitConjunction ↔
      x ∈ (cs.filter (fun e => classifyConjunct l r e == .LeftOnly)).flatMap splitConjunction ∨
      x ∈ (cs.filter (fun e => classifyConjunct l r e == .RightOnly)).flatMap
        splitConjunction := by
  rw [List.any_eq_false] at hany
  simp only [List.mem_flatMap, List.mem_filter]
  constructor
  · rintro ⟨c, hc, hx⟩
    have hj := hany c hc
    cases hcl : classifyConjunct l r c with
    | LeftOnly => exact Or.inl ⟨c, ⟨hc, by simp [hcl]⟩, hx⟩
    | RightOnly => exact Or.inr ⟨c, ⟨hc, by simp [hcl]⟩, hx⟩
    | Join => simp [hcl] at hj
  · rintro (⟨c, ⟨hc, _⟩, hx⟩ | ⟨c, ⟨hc, _⟩, hx⟩) <;> exact ⟨c, hc, hx⟩

theorem mem_flatMap_split_left (cs : List Expression) (l r : Schema) (x : Expression) :
    x ∈ cs.flatMap splitConjunction ↔
      x ∈ (cs.filter (fun e => classifyConjunct l r e != .LeftOnly)).flatMap splitConjunction ∨
      x ∈ (cs.filter (fun e => classifyConjunct l r e == .LeftOnly)).flatMap
        splitConjunction := by
  rw [mem_flatMap_split_filter cs (fun e => classifyConjunct l r e != .LeftOnly) x]
  have : (fun e => !(classifyConjunct l r e != .LeftOnly)) =
      (fun e => classifyConjunct l r e == .LeftOnly) := by
    funext e
    cases classifyConjunct l r e <;> rfl
  rw [this]

theorem mem_flatMap_split_right (cs : List Expression) (l r : Schema) (x : Expression) :
    x ∈ cs.flatMap splitConjunction ↔
      x ∈ (cs.filter (fun e => classifyConjunct l r e != .RightOnly)).flatMap splitConjunction ∨
      x ∈ (cs.filter (fun e => classifyConjunct l r e == .RightOnly)).flatMap
        splitConjunction := by
  rw [mem_flatMap_split_filter cs (fun e => classifyConjunct l r e != .RightOnly) x]
  have : (fun e => !(classifyConjunct l r e != .RightOnly)) =
      (fun e => classifyConjunct l r e == .RightOnly) := by
    funext e
    cases classifyConjunct l r e <;> rfl
  rw [this]

theorem pushInto_filterConjuncts (n : Node) : ∀ (cs : List Expression) (x : Expression),
    x ∈ (pushInto cs n).filterConjuncts ↔
      x ∈ n.filterConjuncts ∨ x ∈ cs.flatMap splitConjunction := by
  induction n with
  | CrossJoin l r ihl ihr =>
    intro cs x
    simp only [pushInto]
    split
    · simp only [filterAbove_filterConjuncts, List.mem_append]
      exact Or.comm
    · rename_i hany
      simp only [Bool.not_eq_true] at hany
      rw [mem_flatMap_split_sides cs l.Schema r.Schema hany x]
      simp only [Node.filterConjuncts, List.mem_append, ihl, ihr]
      tauto
  | InnerJoin l r cond ihl ihr =>
    intro cs x
    simp only [pushInto]
    split
    · simp only [filterAbove_filterConjuncts, List.mem_append]
      exact Or.comm
    · rename_i hany
      simp only [Bool.not_eq_true] at hany
      rw [mem_flatMap_split_sides cs l.Schema r.Schema hany x]
      simp only [Node.filterConjuncts, List.mem_append, ihl, ihr]
      tauto
  | LeftJoin l r cond ihl ihr =>
    intro cs x
    simp only [pushInto]
    split
    · simp only [filterAbove_filterConjuncts, List.mem_append]
      exact Or.comm
    · rw [mem_flatMap_split_left cs l.Schema r.Schema x]
      simp only [filterAbove_filterConjuncts, Node.filterConjuncts, List.mem_append, ihl]
      tauto
  | RightJoin l r cond ihl ihr =>
    intro cs x
    simp only [pushInto]
    split
    · simp only [filterAbove_filterConjuncts, List.mem_append]
      exact Or.comm
    · rw [mem_flatMap_split_right cs l.Schema r.Schema x]
      simp only [filterAbove_filterConjuncts, Node.filterConjuncts, List.mem_append, ihr]
      tauto
  | IndexedJoin l r jt cond keys idx ihl ihr =>
    intro cs x
    simp only [pushInto]
    split
    · simp only [filterAbove_filterConjuncts, List.mem_append]
      exact Or.comm
    · rename_i hany
      simp only [Bool.not_eq_true] at hany
      split
      · rw [mem_flatMap_split_sides cs l.Schema r.Schema hany x]
        simp only [Node.filterConjuncts, List.mem_append, ihl, ihr]
        tauto
      · rw [mem_flatMap_split_left cs l.Schema r.Schema x]
        simp only [filterAbove_filterConjuncts, Node.filterConjuncts, List.mem_append, ihl]
        tauto
  | _ =>
    intro cs x
    simp only [pushInto, filterAbove_filterConjuncts, List.mem_append]
    exact Or.comm

theorem mem_subtrees_filterAbove (cs : List Expression) (n x : Node)
    (h : x ∈ (filterAbove cs n).subtrees) : x ∈ n.subtrees ∨ ∃ e, x = .Filter e n := by
  cases cs with
  | nil => exact Or.inl h
  | cons c rest =>
    simp only [filterAbove, Node.subtrees, List.mem_cons] at h
    rcases h with h | h
    · exact Or.inr ⟨_, h⟩
    · exact Or.inl h

theorem pushInto_LeftJoin (n : Node) : ∀ (cs : List Expression) (l1 r1 : Node)
    (cond : Expression), Node.LeftJoin l1 r1 cond ∈ (pushInto cs n).subtrees →
    ∃ l cs1, Node.LeftJoin l r1 cond ∈ n.subtrees ∧ l1 = pushInto cs1 l ∧
      ∀ x ∈ cs1, x ∈ cs ∧ x.refersOnlyTo l.Schema = true := by
  have hbase : ∀ (m : Node) (cs : List Expression) (l1 r1 : Node) (cond : Expression),
      Node.LeftJoin l1 r1 cond ∈ (filterAbove cs m).subtrees →
      ∃ l cs1, Node.LeftJoin l r1 cond ∈ m.subtrees ∧ l1 = pushInto cs1 l ∧
        ∀ x ∈ cs1, x ∈ cs ∧ x.refersOnlyTo l.Schema = true := by
    intro m cs l1 r1 cond h
    rcases mem_subtrees_filterAbove cs m _ h with h1 | ⟨e, h1⟩
    · exact ⟨l1, [], h1, (pushInto_nil l1).symm, fun x hx => by cases hx⟩
    · cases h1
  induction n with
  | CrossJoin l r ihl ihr =>
    intro cs l1 r1 cond h
    simp only [pushInto] at h
    split at h
    · exact hbase _ cs l1 r1 cond h
    · simp only [Node.subtrees, List.mem_cons, List.mem_append] at h
      rcases h with h | h | h
      · cases h
      · obtain ⟨l0, cs1, hm, he, hcs⟩ := ihl _ l1 r1 cond h
        exact ⟨l0, cs1, mem_subtrees_of_child _ l _ (by simp [Node.Children]) hm, he,
          fun x hx => ⟨(List.mem_filter.1 (hcs x hx).1).1, (hcs x hx).2⟩⟩
      · obtain ⟨l0, cs1, hm, he, hcs⟩ := ihr _ l1 r1 cond h
        exact ⟨l0, cs1, mem_subtrees_of_child _ r _ (by simp [Node.Children]) hm, he,
          fun x hx => ⟨(List.mem_filter.1 (hcs x hx).1).1, (hcs x hx).2⟩⟩
  | InnerJoin l r c ihl ihr =>
    intro cs l1 r1 cond h
    simp only [pushInto] at h
    split at h
    · exact hbase _ cs l1 r1 cond h
    · simp only [Node.subtrees, List.mem_cons, List.mem_append] at h
      rcases h with h | h | h
      · cases h
      · obtain ⟨l0, cs1, hm, he, hcs⟩ := ihl _ l1 r1 cond h
        exact ⟨l0, cs1, mem_subtrees_of_child _ l _ (by simp [Node.Children]) hm, he,
          fun x hx => ⟨(List.mem_filter.1 (hcs x hx).1).1, (hcs x hx).2⟩⟩
      · obtain ⟨l0, cs1, hm, he, hcs⟩ := ihr _ l1 r1 cond h
        exact ⟨l0, cs1, mem_subtrees_of_child _ r _ (by simp [Node.Children]) hm, he,
          fun x hx => ⟨(List.mem_filter.1 (hcs x hx).1).1, (hcs x hx).2⟩⟩
  | LeftJoin l r c ihl ihr =>
    intro cs l1 r1 cond h
    simp only [pushInto] at h
    split at h
    · exact hbase _ cs l1 r1 cond h
    · rcases mem_subtrees_filterAbove _ _ _ h with h1 | ⟨e, h1⟩
      · simp only [Node.subtrees, List.mem_cons, List.mem_append] at h1
        rcases h1 with h1 | h1 | h1
        · simp only [Node.LeftJoin.injEq] at h1
          obtain ⟨rfl, rfl, rfl⟩ := h1
          refine ⟨l, _, Node.self_mem_subtrees _, rfl, fun x hx => ?_⟩
          have := List.mem_filter.1 hx
          exact ⟨this.1, by
            have h2 := this.2
            rw [classify_beq_LeftOnly] at h2
            exact h2⟩
        · obtain ⟨l0, cs1, hm, he, hcs⟩ := ihl _ l1 r1 cond h1
          exact ⟨l0, cs1, mem_subtrees_of_child _ l _ (by simp [Node.Children]) hm, he,
            fun x hx => ⟨(List.mem_filter.1 (hcs x hx).1).1, (hcs x hx).2⟩⟩
        · exact ⟨l1, [], mem_subtrees_of_child _ r _ (by simp [Node.Children]) h1,
            (pushInto_nil l1).symm, fun x hx => by cases hx⟩
      · cases h1
  | RightJoin l r c ihl ihr =>
    intro cs l1 r1 cond h
    simp only [pushInto] at h
    split at h
    · exact hbase _ cs l1 r1 cond h
    · rcases mem_subtrees_filterAbove _ _ _ h with h1 | ⟨e, h1⟩
      · simp only [Node.subtrees, List.mem_cons, List.mem_append] at h1
        rcases h1 with h1 | h1 | h1
        · cases h1
        · exact ⟨l1, [], mem_subtrees_of_child _ l _ (by simp [Node.Children]) h1,
            (pushInto_nil l1).symm, fun x hx => by cases hx⟩
        · obtain ⟨l0, cs1, hm, he, hcs⟩ := ihr _ l1 r1 cond h1
          exact ⟨l0, cs1, mem_subtrees_of_child _ r _ (by simp [Node.Children]) hm, he,
            fun x hx => ⟨(List.mem_filter.1 (hcs x hx).1).1, (hcs x hx).2⟩⟩
      · cases h1
  | IndexedJoin l r jt c keys idx ihl ihr =>
    intro cs l1 r1 cond h
    simp only [pushInto] at h
    split at h
    · exact hbase _ cs l1 r1 cond h
    · split at h
      · simp only [Node.subtrees, List.mem_cons, List.mem_append] at h
        rcases h with h | h | h
        · cases h
        · obtain ⟨l0, cs1, hm, he, hcs⟩ := ihl _ l1 r1 cond h
          exact ⟨l0, cs1, mem_subtrees_of_child _ l _ (by simp [Node.Children]) hm, he,
            fun x hx => ⟨(List.mem_filter.1 (hcs x hx).1).1, (hcs x hx).2⟩⟩
        · obtain ⟨l0, cs1, hm, he, hcs⟩ := ihr _ l1 r1 cond h
          exact ⟨l0, cs1, mem_subtrees_of_child _ r _ (by simp [Node.Children]) hm, he,
            fun x hx => ⟨(List.mem_filter.1 (hcs x hx).1).1, (hcs x hx).2⟩⟩
      · rcases mem_subtrees_filterAbove _ _ _ h with h1 | ⟨e, h1⟩
        · simp only [Node.subtrees, List.mem_cons, List.mem_append] at h1
          rcases h1 with h1 | h1 | h1
          · cases h1
          · obtain ⟨l0, cs1, hm, he, hcs⟩ := ihl _ l1 r1 cond h1
            exact ⟨l0, cs1, mem_subtrees_of_child _ l _ (by simp [Node.Children]) hm, he,
              fun x hx => ⟨(List.mem_filter.1 (hcs x hx).1).1, (hcs x hx).2⟩⟩
          · exact ⟨l1, [], mem_subtrees_of_child _ r _ (by simp [Node.Children]) h1,
              (pushInto_nil l1).symm, fun x hx => by cases hx⟩
        · cases h1
  | _ =>
    intro cs l1 r1 cond h
    exact hbase _ cs l1 r1 cond h

theorem pushInto_RightJoin (n : Node) : ∀ (cs : List Expression) (l1 r1 : Node)
    (cond : Expression), Node.RightJoin l1 r1 cond ∈ (pushInto cs n).subtrees →
    ∃ r cs1, Node.RightJoin l1 r cond ∈ n.subtrees ∧ r1 = pushInto cs1 r ∧
      ∀ x ∈ cs1, x ∈ cs ∧ x.refersOnlyTo l1.Schema = false ∧
        x.refersOnlyTo r.Schema = true := by
  have hbase : ∀ (m : Node) (cs : List Expression) (l1 r1 : Node) (cond : Expression),
      Node.RightJoin l1 r1 cond ∈ (filterAbove cs m).subtrees →
      ∃ r cs1, Node.RightJoin l1 r cond ∈ m.subtrees ∧ r1 = pushInto cs1 r ∧
        ∀ x ∈ cs1, x ∈ cs ∧ x.refersOnlyTo l1.Schema = false ∧
          x.refersOnlyTo r.Schema = true := by
    intro m cs l1 r1 cond h
    rcases mem_subtrees_filterAbove cs m _ h with h1 | ⟨e, h1⟩
    · exact ⟨r1, [], h1, (pushInto_nil r1).symm, fun x hx => by cases hx⟩
    · cases h1
  induction n with
  | CrossJoin l r ihl ihr =>
    intro cs l1 r1 cond h
    simp only [pushInto] at h
    split at h
    · exact hbase _ cs l1 r1 cond h
    · simp only [Node.subtrees, List.mem_cons, List.mem_append] at h
      rcases h with h | h | h
      · cases h
      · obtain ⟨r0, cs1, hm, he, hcs⟩ := ihl _ l1 r1 cond h
        exact ⟨r0, cs1, mem_subtrees_of_child _ l _ (by simp [Node.Children]) hm, he,
          fun x hx => ⟨(List.mem_filter.1 (hcs x hx).1).1, (hcs x hx).2⟩⟩
      · obtain ⟨r0, cs1, hm, he, hcs⟩ := ihr _ l1 r1 cond h
        exact ⟨r0, cs1, mem_subtrees_of_child _ r _ (by simp [Node.Children]) hm, he,
          fun x hx => ⟨(List.mem_filter.1 (hcs x hx).1).1, (hcs x hx).2⟩⟩
  | InnerJoin l r c ihl ihr =>
    intro cs l1 r1 cond h
    simp only [pushInto] at h
    split at h
    · exact hbase _ cs l1 r1 cond h
    · simp only [Node.subtrees, List.mem_cons, List.mem_append] at h
      rcases h with h | h | h
      · cases h
      · obtain ⟨r0, cs1, hm, he, hcs⟩ := ihl _ l1 r1 cond h
        exact ⟨r0, cs1, mem_subtrees_of_child _ l _ (by simp [Node.Children]) hm, he,
          fun x hx => ⟨(List.mem_filter.1 (hcs x hx).1).1, (hcs x hx).2⟩⟩
      · obtain ⟨r0, cs1, hm, he, hcs⟩ := ihr _ l1 r1 cond h
        exact ⟨r0, cs1, mem_subtrees_of_child _ r _ (by simp [Node.Children]) hm, he,
          fun x hx => ⟨(List.mem_filter.1 (hcs x hx).1).1, (hcs x hx).2⟩⟩
  | LeftJoin l r c ihl ihr =>
    intro cs l1 r1 cond h
    simp only [pushInto] at h
    split at h
    · exact hbase _ cs l1 r1 cond h
    · rcases mem_subtrees_filterAbove _ _ _ h with h1 | ⟨e, h1⟩
      · simp only [Node.subtrees, List.mem_cons, List.mem_append] at h1
        rcases h1 with h1 | h1 | h1
        · cases h1
        · obtain ⟨r0, cs1, hm, he, hcs⟩ := ihl _ l1 r1 cond h1
          exact ⟨r0, cs1, mem_subtrees_of_child _ l _ (by simp [Node.Children]) hm, he,
            fun x hx => ⟨(List.mem_filter.1 (hcs x hx).1).1, (hcs x hx).2⟩⟩
        · exact ⟨r1, [], mem_subtrees_of_child _ r _ (by simp [Node.Children]) h1,
            (pushInto_nil r1).symm, fun x hx => by cases hx⟩
      · cases h1
  | RightJoin l r c ihl ihr =>
    intro cs l1 r1 cond h
    simp only [pushInto] at h
    split at h
    · exact hbase _ cs l1 r1 cond h
    · rcases mem_subtrees_filterAbove _ _ _ h with h1 | ⟨e, h1⟩
      · simp only [Node.subtrees, List.mem_cons, List.mem_append] at h1
        rcases h1 with h1 | h1 | h1
        · simp only [Node.RightJoin.injEq] at h1
          obtain ⟨rfl, rfl, rfl⟩ := h1
          refine ⟨r, _, Node.self_mem_subtrees _, rfl, fun x hx => ?_⟩
          have := List.mem_filter.1 hx
          have h2 := this.2
          rw [classify_beq_RightOnly] at h2
          simp only [Bool.and_eq_true, Bool.not_eq_true'] at h2
          exact ⟨this.1, h2.1, h2.2⟩
        · exact ⟨r1, [], mem_subtrees_of_child _ l _ (by simp [Node.Children]) h1,
            (pushInto_nil r1).symm, fun x hx => by cases hx⟩
        · obtain ⟨r0, cs1, hm, he, hcs⟩ := ihr _ l1 r1 cond h1
          exact ⟨r0, cs1, mem_subtrees_of_child _ r _ (by simp [Node.Children]) hm, he,
            fun x hx => ⟨(List.mem_filter.1 (hcs x hx).1).1, (hcs x hx).2⟩⟩
      · cases h1
  | IndexedJoin l r jt c keys idx ihl ihr =>
    intro cs l1 r1 cond h
    simp only [pushInto] at h
    split at h
    · exact hbase _ cs l1 r1 cond h
    · split at h
      · simp only [Node.subtrees, List.mem_cons, List.mem_append] at h
        rcases h with h | h | h
        · cases h
        · obtain ⟨r0, cs1, hm, he, hcs⟩ := ihl _ l1 r1 cond h
          exact ⟨r0, cs1, mem_subtrees_of_child _ l _ (by simp [Node.Children]) hm, he,
            fun x hx => ⟨(List.mem_filter.1 (hcs x hx).1).1, (hcs x hx).2⟩⟩
        · obtain ⟨r0, cs1, hm, he, hcs⟩ := ihr _ l1 r1 cond h
          exact ⟨r0, cs1, mem_subtrees_of_child _ r _ (by simp [Node.Children]) hm, he,
            fun x hx => ⟨(List.mem_filter.1 (hcs x hx).1).1, (hcs x hx).2⟩⟩
      · rcases mem_subtrees_filterAbove _ _ _ h with h1 | ⟨e, h1⟩
        · simp only [Node.subtrees, List.mem_cons, List.mem_append] at h1
          rcases h1 with h1 | h1 | h1
          · cases h1
          · obtain ⟨r0, cs1, hm, he, hcs⟩ := ihl _ l1 r1 cond h1
            exact ⟨r0, cs1, mem_subtrees_of_child _ l _ (by simp [Node.Children]) hm, he,
              fun x hx => ⟨(List.mem_filter.1 (hcs x hx).1).1, (hcs x hx).2⟩⟩
          · exact ⟨r1, [], mem_subtrees_of_child _ r _ (by simp [Node.Children]) h1,
              (pushInto_nil r1).symm, fun x hx => by cases hx⟩
        · cases h1
  | _ =>
    intro cs l1 r1 cond h
    exact hbase _ cs l1 r1 cond h

theorem pushInto_OuterJoinSound (cs : List Expression) (n : Node)
    (hat : ∀ c ∈ cs, c.isAnd = false) : OuterJoinSound cs n (pushInto cs n) := by
  have hx : ∀ (cs1 : List Expression) (x : Expression), (∀ y ∈ cs1, y ∈ cs) →
      x ∈ cs1.flatMap splitConjunction → x ∈ cs1 := by
    intro cs1 x hsub hx
    obtain ⟨y, hy, hxy⟩ := List.mem_flatMap.1 hx
    rw [splitConjunction_of_not_and y (hat y (hsub y hy)), List.mem_singleton] at hxy
    rw [hxy]
    exact hy
  refine ⟨?_, ?_⟩
  · intro l1 r1 cond h
    obtain ⟨l, cs1, hm, he, hcs⟩ := pushInto_LeftJoin n cs l1 r1 cond h
    refine ⟨l, r1, hm, by rw [he, pushInto_Schema], rfl, fun x hx1 => hx1, fun x hx1 => ?_⟩
    rw [he, pushInto_filterConjuncts] at hx1
    rcases hx1 with hx1 | hx1
    · exact Or.inl hx1
    · have := hx cs1 x (fun y hy => (hcs y hy).1) hx1
      exact Or.inr (hcs x this)
  · intro l1 r1 cond h
    obtain ⟨r, cs1, hm, he, hcs⟩ := pushInto_RightJoin n cs l1 r1 cond h
    refine ⟨l1, r, hm, rfl, by rw [he, pushInto_Schema], fun x hx1 => hx1, fun x hx1 => ?_⟩
    rw [he, pushInto_filterConjuncts] at hx1
    rcases hx1 with hx1 | hx1
    · exact Or.inl hx1
    · have := hx cs1 x (fun y hy => (hcs y hy).1) hx1
      exact Or.inr (hcs x this)

theorem OuterJoinSound_mono (cs cs1 : List Expression) (n0 n n1 : Node)
    (h : OuterJoinSound cs n0 n1) (hcs : ∀ x ∈ cs, x ∈ cs1)
    (hsub : ∀ x ∈ n0.subtrees, x ∈ n.subtrees) : OuterJoinSound cs1 n n1 := by
  refine ⟨?_, ?_⟩
  · intro l1 r1 cond hm
    obtain ⟨l, r, h1, h2, h3, h4, h5⟩ := h.1 l1 r1 cond hm
    refine ⟨l, r, hsub _ h1, h2, h3, h4, fun x hx => ?_⟩
    rcases h5 x hx with h6 | ⟨h6, h7⟩
    · exact Or.inl h6
    · exact Or.inr ⟨hcs x h6, h7⟩
  · intro l1 r1 cond hm
    obtain ⟨l, r, h1, h2, h3, h4, h5⟩ := h.2 l1 r1 cond hm
    refine ⟨l, r, hsub _ h1, h2, h3, h4, fun x hx => ?_⟩
    rcases h5 x hx with h6 | ⟨h6, h7⟩
    · exact Or.inl h6
    · exact Or.inr ⟨hcs x h6, h7⟩

theorem OuterJoinSound_trans (cs1 cs2 : List Expression) (a b c : Node)
    (h1 : OuterJoinSound cs1 a b) (h2 : OuterJoinSound cs2 b c) :
    OuterJoinSound (cs1 ++ cs2) a c := by
  refine ⟨?_, ?_⟩
  · intro l2 r2 cond hm
    obtain ⟨l1, r1, g1, g2, g3, g4, g5⟩ := h2.1 l2 r2 cond hm
    obtain ⟨l, r, k1, k2, k3, k4, k5⟩ := h1.1 l1 r1 cond g1
    refine ⟨l, r, k1, g2.trans k2, g3.trans k3, fun x hx => k4 x (g4 x hx), fun x hx => ?_⟩
    rcases g5 x hx with g6 | ⟨g6, g7⟩
    · rcases k5 x g6 with k6 | ⟨k6, k7⟩
      · exact Or.inl k6
      · exact Or.inr ⟨List.mem_append_left _ k6, k7⟩
    · exact Or.inr ⟨List.mem_append_right _ g6, by rw [← k2]; exact g7⟩
  · intro l2 r2 cond hm
    obtain ⟨l1, r1, g1, g2, g3, g4, g5⟩ := h2.2 l2 r2 cond hm
    obtain ⟨l, r, k1, k2, k3, k4, k5⟩ := h1.2 l1 r1 cond g1
    refine ⟨l, r, k1, g2.trans k2, g3.trans k3, fun x hx => k4 x (g4 x hx), fun x hx => ?_⟩
    rcases g5 x hx with g6 | ⟨g6, g7, g8⟩
    · rcases k5 x g6 with k6 | ⟨k6, k7⟩
      · exact Or.inl k6
      · exact Or.inr ⟨List.mem_append_left _ k6, k7⟩
    · exact Or.inr ⟨List.mem_append_right _ g6, by rw [← k2]; exact g7,
        by rw [← k3]; exact g8⟩

theorem OuterJoinSound_node (cs : List Expression) (n n1 : Node)
    (hkids : ∀ k ∈ n1.Children, OuterJoinSound cs n k)
    (hL : ∀ l1 r1 cond, n1 = .LeftJoin l1 r1 cond →
      ∃ l r, Node.LeftJoin l r cond ∈ n.subtrees ∧ l1.Schema = l.Schema ∧
        r1.Schema = r.Schema ∧
        (∀ x ∈ r1.filterConjuncts, x ∈ r.filterConjuncts) ∧
        (∀ x ∈ l1.filterConjuncts, x ∈ l.filterConjuncts ∨
          (x ∈ cs ∧ x.refersOnlyTo l.Schema = true)))
    (hR : ∀ l1 r1 cond, n1 = .RightJoin l1 r1 cond →
      ∃ l r, Node.RightJoin l r cond ∈ n.subtrees ∧ l1.Schema = l.Schema ∧
        r1.Schema = r.Schema ∧
        (∀ x ∈ l1.filterConjuncts, x ∈ l.filterConjuncts) ∧
        (∀ x ∈ r1.filterConjuncts, x ∈ r.filterConjuncts ∨
          (x ∈ cs ∧ x.refersOnlyTo l.Schema = false ∧ x.refersOnlyTo r.Schema = true))) :
    OuterJoinSound cs n n1 := by
  refine ⟨?_, ?_⟩
  · intro l1 r1 cond hm
    rw [Node.subtrees_eq, List.mem_cons, List.mem_flatMap] at hm
    rcases hm with hm | ⟨k, hk, hm⟩
    · exact hL l1 r1 cond hm.symm
    · exact (hkids k hk).1 l1 r1 cond hm
  · intro l1 r1 cond hm
    rw [Node.subtrees_eq, List.mem_cons, List.mem_flatMap] at hm
    rcases hm with hm | ⟨k, hk, hm⟩
    · exact hR l1 r1 cond hm.symm
    · exact (hkids k hk).2 l1 r1 cond hm

theorem pushdownFilter_eq_some (e : Expression) (c n1 : Node)
    (h : pushdownFilter e c = some n1) :
    relocatable (splitConjunction e) c = true ∧ n1 = pushInto (splitConjunction e) c := by
  unfold pushdownFilter at h
  split at h
  · rename_i hrel
    exact ⟨hrel, (Option.some.inj h).symm⟩
  · cases h

theorem relocateFilters_filterConjuncts (n : Node) : ∀ (x : Expression),
    x ∈ (relocateFilters n).1.filterConjuncts ↔ x ∈ n.filterConjuncts := by
  induction n with
  | ResolvedTable _ | UnresolvedTable _ | SubqueryAlias _ _ _ => intro x; rfl
  | Filter e c ih =>
    intro x
    rw [relocateFilters_Filter]
    cases hp : pushdownFilter e (relocateFilters c).1 with
    | none =>
      simp only [Node.filterConjuncts, List.mem_append, ih]
    | some n1 =>
      obtain ⟨_, rfl⟩ := pushdownFilter_eq_some e _ n1 hp
      simp only [pushInto_filterConjuncts, splitConjunction_flatMap_idem,
        Node.filterConjuncts, List.mem_append, ih]
      exact Or.comm
  | Project _ c ih | GroupBy _ _ c ih | TableAlias _ c ih | DescribeQuery _ c ih
  | DecoratedNode _ _ c ih =>
    intro x
    simp only [relocateFilters, Node.filterConjuncts, ih]
  | CrossJoin l r ihl ihr | InnerJoin l r _ ihl ihr | LeftJoin l r _ ihl ihr
  | RightJoin l r _ ihl ihr | IndexedJoin l r _ _ _ _ ihl ihr | InsertInto l r ihl ihr =>
    intro x
    simp only [relocateFilters, Node.filterConjuncts, List.mem_append, ihl, ihr]

theorem OuterJoinSound_refl (cs : List Expression) (n : Node) : OuterJoinSound cs n n :=
  ⟨fun l1 r1 _ h => ⟨l1, r1, h, rfl, rfl, fun _ hx => hx, fun _ hx => Or.inl hx⟩,
    fun l1 r1 _ h => ⟨l1, r1, h, rfl, rfl, fun _ hx => hx, fun _ hx => Or.inl hx⟩⟩

theorem relocateFilters_OuterJoinSound (n : Node) :
    OuterJoinSound n.filterConjuncts n (relocateFilters n).1 := by
  induction n with
  | ResolvedTable _ | UnresolvedTable _ | SubqueryAlias _ _ _ =>
    exact OuterJoinSound_refl _ _
  | Filter e c ih =>
    rw [relocateFilters_Filter]
    have hc : OuterJoinSound (Node.Filter e c).filterConjuncts (.Filter e c)
        (relocateFilters c).1 :=
      OuterJoinSound_mono _ _ c _ _ ih
        (fun x hx => by simp only [Node.filterConjuncts, List.mem_append]; exact Or.inr hx)
        (fun x hx => mem_subtrees_of_child _ c x (by simp [Node.Children]) hx)
    cases hp : pushdownFilter e (relocateFilters c).1 with
    | none =>
      exact OuterJoinSound_node _ _ _
        (fun k hk => by
          simp only [Node.Children, List.mem_singleton] at hk
          subst hk
          exact hc)
        (fun _ _ _ h => by cases h) (fun _ _ _ h => by cases h)
    | some n1 =>
      obtain ⟨_, rfl⟩ := pushdownFilter_eq_some e _ n1 hp
      have hpush := pushInto_OuterJoinSound (splitConjunction e) (relocateFilters c).1
        (fun x hx => splitConjunction_atoms e x hx)
      exact OuterJoinSound_mono _ _ (.Filter e c) _ _ (OuterJoinSound_trans _ _ _ _ _ hc hpush)
        (fun x hx => by
          simp only [Node.filterConjuncts, List.mem_append] at hx ⊢
          rcases hx with hx | hx
          · exact hx
          · exact Or.inl hx)
        (fun x hx => hx)
  | Project ps c ih | GroupBy ps grp c ih | TableAlias name c ih | DescribeQuery name c ih
  | DecoratedNode kind label c ih =>
    refine OuterJoinSound_node _ _ _ (fun k hk => ?_)
      (fun _ _ _ h => by simp only [relocateFilters] at h; cases h)
      (fun _ _ _ h => by simp only [relocateFilters] at h; cases h)
    simp only [relocateFilters, Node.Children, List.mem_singleton] at hk
    subst hk
    exact OuterJoinSound_mono _ _ c _ _ ih (fun x hx => hx)
      (fun x hx => mem_subtrees_of_child _ c x (by simp [Node.Children]) hx)
  | CrossJoin l r ihl ihr | InnerJoin l r e ihl ihr | IndexedJoin l r jt e keys idx ihl ihr
  | InsertInto l r ihl ihr =>
    refine OuterJoinSound_node _ _ _ (fun k hk => ?_)
      (fun _ _ _ h => by simp only [relocateFilters] at h; cases h)
      (fun _ _ _ h => by simp only [relocateFilters] at h; cases h)
    simp only [relocateFilters, Node.Children, List.mem_cons, List.mem_singleton,
      List.not_mem_nil, or_false] at hk
    rcases hk with hk | hk
    · subst hk
      exact OuterJoinSound_mono _ _ l _ _ ihl
        (fun x hx => by simp only [Node.filterConjuncts, List.mem_append]; exact Or.inl hx)
        (fun x hx => mem_subtrees_of_child _ l x (by simp [Node.Children]) hx)
    · subst hk
      exact OuterJoinSound_mono _ _ r _ _ ihr
        (fun x hx => by simp only [Node.filterConjuncts, List.mem_append]; exact Or.inr hx)
        (fun x hx => mem_subtrees_of_child _ r x (by simp [Node.Children]) hx)
  | LeftJoin l r e ihl ihr =>
    refine OuterJoinSound_node _ _ _ (fun k hk => ?_) (fun l1 r1 cond h => ?_)
      (fun _ _ _ h => by simp only [relocateFilters] at h; cases h)
    · simp only [relocateFilters, Node.Children, List.mem_cons, List.mem_singleton,
        List.not_mem_nil, or_false] at hk
      rcases hk with hk | hk
      · subst hk
        exact OuterJoinSound_mono _ _ l _ _ ihl
          (fun x hx => by simp only [Node.filterConjuncts, List.mem_append]; exact Or.inl hx)
          (fun x hx => mem_subtrees_of_child _ l x (by simp [Node.Children]) hx)
      · subst hk
        exact OuterJoinSound_mono _ _ r _ _ ihr
          (fun x hx => by simp only [Node.filterConjuncts, List.mem_append]; exact Or.inr hx)
          (fun x hx => mem_subtrees_of_child _ r x (by simp [Node.Children]) hx)
    · simp only [relocateFilters, Node.LeftJoin.injEq] at h
      obtain ⟨rfl, rfl, rfl⟩ := h
      exact ⟨l, r, Node.self_mem_subtrees _, relocateFilters_Schema l, relocateFilters_Schema r,
        fun x hx => (relocateFilters_filterConjuncts r x).1 hx,
        fun x hx => Or.inl ((relocateFilters_filterConjuncts l x).1 hx)⟩
  | RightJoin l r e ihl ihr =>
    refine OuterJoinSound_node _ _ _ (fun k hk => ?_)
      (fun _ _ _ h => by simp only [relocateFilters] at h; cases h) (fun l1 r1 cond h => ?_)
    · simp only [relocateFilters, Node.Children, List.mem_cons, List.mem_singleton,
        List.not_mem_nil, or_false] at hk
      rcases hk with hk | hk
      · subst hk
        exact OuterJoinSound_mono _ _ l _ _ ihl
          (fun x hx => by simp only [Node.filterConjuncts, List.mem_append]; exact Or.inl hx)
          (fun x hx => mem_subtrees_of_child _ l x (by simp [Node.Children]) hx)
      · subst hk
        exact OuterJoinSound_mono _ _ r _ _ ihr
          (fun x hx => by simp only [Node.filterConjuncts, List.mem_append]; exact Or.inr hx)
          (fun x hx => mem_subtrees_of_child _ r x (by simp [Node.Children]) hx)
    · simp only [relocateFilters, Node.RightJoin.injEq] at h
      obtain ⟨rfl, rfl, rfl⟩ := h
      exact ⟨l, r, Node.self_mem_subtrees _, relocateFilters_Schema l, relocateFilters_Schema r,
        fun x hx => (relocateFilters_filterConjuncts l x).1 hx,
        fun x hx => Or.inl ((relocateFilters_filterConjuncts r x).1 hx)⟩

theorem mem_filterConjuncts_pushInto_of_mem (cs : List Expression) (n : Node)
    (c : Expression) (hc : c ∈ cs) (hat : c.isAnd = false) :
    c ∈ (pushInto cs n).filterConjuncts := by
  rw [pushInto_filterConjuncts]
  right
  exact List.mem_flatMap.2 ⟨c, hc, by rw [splitConjunction_of_not_and c hat]; simp⟩

theorem mem_of_mem_filterConjuncts_pushInto (cs : List Expression) (n : Node)
    (hat : ∀ c ∈ cs, c.isAnd = false) (x : Expression)
    (hx : x ∈ (pushInto cs n).filterConjuncts) : x ∈ n.filterConjuncts ∨ x ∈ cs := by
  rw [pushInto_filterConjuncts] at hx
  rcases hx with hx | hx
  · exact Or.inl hx
  · obtain ⟨y, hy, hxy⟩ := List.mem_flatMap.1 hx
    rw [splitConjunction_of_not_and y (hat y hy), List.mem_singleton] at hxy
    exact Or.inr (hxy ▸ hy)

theorem pushdownFilter_LeftJoin_eq (predicate : Expression) (L R : Node) (cond : Expression)
    (h : ∀ c ∈ splitConjunction predicate,
      c.refersOnlyTo L.Schema = true ∨ c.refersOnlyTo R.Schema = true)
    (hl : ∃ c ∈ splitConjunction predicate, c.refersOnlyTo L.Schema = true) :
    pushdownFilter predicate (.LeftJoin L R cond) = some
      (filterAbove ((splitConjunction predicate).filter (fun e => !e.refersOnlyTo L.Schema))
        (.LeftJoin
          (pushInto ((splitConjunction predicate).filter (fun e => e.refersOnlyTo L.Schema)) L)
          R cond)) := by
  have hany := any_join_false_of_one_sided _ _ _ h
  have hsome : (splitConjunction predicate).any
      (fun e => classifyConjunct L.Schema R.Schema e == .LeftOnly) = true := by
    obtain ⟨c, hc, hcl⟩ := hl
    rw [List.any_eq_true]
    exact ⟨c, hc, by rw [classify_beq_LeftOnly]; exact hcl⟩
  have hrel : relocatable (splitConjunction predicate) (.LeftJoin L R cond) = true := by
    simp only [relocatable, hany, hsome]
    rfl
  unfold pushdownFilter
  rw [if_pos hrel]
  simp only [pushInto, hany, Bool.false_eq_true, if_false, classify_beq_LeftOnly,
    classify_bne_LeftOnly]

theorem pushdownFilter_RightJoin_eq (predicate : Expression) (L R : Node) (cond : Expression)
    (h : ∀ c ∈ splitConjunction predicate,
      c.refersOnlyTo L.Schema = true ∨ c.refersOnlyTo R.Schema = true)
    (hr : ∃ c ∈ splitConjunction predicate,
      c.refersOnlyTo L.Schema = false ∧ c.refersOnlyTo R.Schema = true) :
    pushdownFilter predicate (.RightJoin L R cond) = some
      (filterAbove
        ((splitConjunction predicate).filter
          (fun e => !(!e.refersOnlyTo L.Schema && e.refersOnlyTo R.Schema)))
        (.RightJoin L
          (pushInto
            ((splitConjunction predicate).filter
              (fun e => !e.refersOnlyTo L.Schema && e.refersOnlyTo R.Schema)) R)
          cond)) := by
  have hany := any_join_false_of_one_sided _ _ _ h
  have hsome : (splitConjunction predicate).any
      (fun e => classifyConjunct L.Schema R.Schema e == .RightOnly) = true := by
    obtain ⟨c, hc, hcl, hcr⟩ := hr
    rw [List.any_eq_true]
    exact ⟨c, hc, by rw [classify_beq_RightOnly]; simp [hcl, hcr]⟩
  have hrel : relocatable (splitConjunction predicate) (.RightJoin L R cond) = true := by
    simp only [relocatable, hany, hsome]
    rfl
  unfold pushdownFilter
  rw [if_pos hrel]
  simp only [pushInto, hany, Bool.false_eq_true, if_false, classify_beq_RightOnly,
    classify_bne_RightOnly]

theorem pushdownFilter_LeftJoin_cases (predicate : Expression) (L R : Node)
    (cond : Expression) :
    pushdownFilter predicate (.LeftJoin L R cond) = none ∨
    pushdownFilter predicate (.LeftJoin L R cond) = some
      (filterAbove ((splitConjunction predicate).filter (fun e => !e.refersOnlyTo L.Schema))
        (.LeftJoin
          (pushInto ((splitConjunction predicate).filter (fun e => e.refersOnlyTo L.Schema)) L)
          R cond)) := by
  unfold pushdownFilter
  split
  · rename_i hrel
    right
    simp only [relocatable, Bool.and_eq_true, Bool.not_eq_true'] at hrel
    simp only [pushInto, hrel.1, classify_beq_LeftOnly, classify_bne_LeftOnly]
    rfl
  · left
    rfl

theorem pushdownFilter_RightJoin_cases (predicate : Expression) (L R : Node)
    (cond : Expression) :
    pushdownFilter predicate (.RightJoin L R cond) = none ∨
    pushdownFilter predicate (.RightJoin L R cond) = some
      (filterAbove
        ((splitConjunction predicate).filter
          (fun e => !(!e.refersOnlyTo L.Schema && e.refersOnlyTo R.Schema)))
        (.RightJoin L
          (pushInto
            ((splitConjunction predicate).filter
              (fun e => !e.refersOnlyTo L.Schema && e.refersOnlyTo R.Schema)) R)
          cond)) := by
  unfold pushdownFilter
  split
  · rename_i hrel
    right
    simp only [relocatable, Bool.and_eq_true, Bool.not_eq_true'] at hrel
    simp only [pushInto, hrel.1, classify_beq_RightOnly, classify_bne_RightOnly]
    rfl
  · left
    rfl

theorem pushdownFiltersAboveTables_ok_inv (n n2 : Node)
    (h : pushdownFiltersAboveTables n = .ok n2) :
    n2 = n ∨ (fixRemainingFieldsIndexes (relocateFilters n).1 = .ok n2 ∧
      n2.eraseIndexes = (relocateFilters n).1.eraseIndexes) := by
  unfold pushdownFiltersAboveTables at h
  split at h
  · exact Or.inl (Except.ok.inj h).symm
  · split at h
    · exact Or.inr ⟨h, fixRemainingFieldsIndexes_erase _ n2 h⟩
    · exact Or.inl (Except.ok.inj h).symm

/-- C24: the rewrite of a `Filter` above `LeftJoin(L, R, cond)` either leaves
the `Filter` as it is or returns the join with its right side `R` untouched, the
conjuncts that refer only to columns of `L` pushed into `L` and every other
conjunct, those that refer only to columns of `R` included, in a `Filter` above
the join, where it is not placed below; the rewrite takes place whenever every
conjunct refers to one side only and some conjunct refers only to `L`.
Symmetrically above `RightJoin(L, R, cond)` the left side is untouched and every
conjunct that refers only to columns of `L` stays above the join.  Whatever the
child of the `Filter`, every `LeftJoin` of the rewritten plan is a `LeftJoin` of
the child with the same right side, whose left side received only conjuncts
that refer only to the left side, and symmetrically for every `RightJoin`; in
the whole traversal of the rule the right side of a `LeftJoin` holds no new
conjunct and its left side only receives conjuncts that refer only to the left
side, symmetrically for a `RightJoin`; the result of the rule is the input or,
up to the recomputed indexes, the plan of the traversal. -/
theorem pushdownFilter_outer_join_soundness (predicate : Expression) (L R : Node)
    (cond : Expression) :
    ((∀ c ∈ splitConjunction predicate,
        c.refersOnlyTo L.Schema = true ∨ c.refersOnlyTo R.Schema = true) →
      (∃ c ∈ splitConjunction predicate, c.refersOnlyTo L.Schema = true) →
      pushdownFilter predicate (.LeftJoin L R cond) = some
        (filterAbove ((splitConjunction predicate).filter (fun e => !e.refersOnlyTo L.Schema))
          (.LeftJoin
            (pushInto
              ((splitConjunction predicate).filter (fun e => e.refersOnlyTo L.Schema)) L)
            R cond))) ∧
    (pushdownFilter predicate (.LeftJoin L R cond) = none ∨
      pushdownFilter predicate (.LeftJoin L R cond) = some
        (filterAbove ((splitConjunction predicate).filter (fun e => !e.refersOnlyTo L.Schema))
          (.LeftJoin
            (pushInto
              ((splitConjunction predicate).filter (fun e => e.refersOnlyTo L.Schema)) L)
            R cond))) ∧
    (∀ c ∈ splitConjunction predicate, c.refersOnlyTo L.Schema = true →
      c ∈ (pushInto
        ((splitConjunction predicate).filter (fun e => e.refersOnlyTo L.Schema))
        L).filterConjuncts ∧
      c ∉ (splitConjunction predicate).filter (fun e => !e.refersOnlyTo L.Schema)) ∧
    (∀ c ∈ splitConjunction predicate, c.refersOnlyTo L.Schema = false →
      c ∈ (splitConjunction predicate).filter (fun e => !e.refersOnlyTo L.Schema) ∧
      c ∉ (splitConjunction predicate).filter (fun e => e.refersOnlyTo L.Schema) ∧
      (c ∈ (pushInto
        ((splitConjunction predicate).filter (fun e => e.refersOnlyTo L.Schema))
        L).filterConjuncts → c ∈ L.filterConjuncts)) ∧
    ((∀ c ∈ splitConjunction predicate,
        c.refersOnlyTo L.Schema = true ∨ c.refersOnlyTo R.Schema = true) →
      (∃ c ∈ splitConjunction predicate,
        c.refersOnlyTo L.Schema = false ∧ c.refersOnlyTo R.Schema = true) →
      pushdownFilter predicate (.RightJoin L R cond) = some
        (filterAbove
          ((splitConjunction predicate).filter
            (fun e => !(!e.refersOnlyTo L.Schema && e.refersOnlyTo R.Schema)))
          (.RightJoin L
            (pushInto
              ((splitConjunction predicate).filter
                (fun e => !e.refersOnlyTo L.Schema && e.refersOnlyTo R.Schema)) R)
            cond))) ∧
    (pushdownFilter predicate (.RightJoin L R cond) = none ∨
      pushdownFilter predicate (.RightJoin L R cond) = some
        (filterAbove
          ((splitConjunction predicate).filter
            (fun e => !(!e.refersOnlyTo L.Schema && e.refersOnlyTo R.Schema)))
          (.RightJoin L
            (pushInto
              ((splitConjunction predicate).filter
                (fun e => !e.refersOnlyTo L.Schema && e.refersOnlyTo R.Schema)) R)
            cond))) ∧
    (∀ c ∈ splitConjunction predicate,
      c.refersOnlyTo L.Schema = false → c.refersOnlyTo R.Schema = true →
      c ∈ (pushInto
        ((splitConjunction predicate).filter
          (fun e => !e.refersOnlyTo L.Schema && e.refersOnlyTo R.Schema))
        R).filterConjuncts) ∧
    (∀ c ∈ splitConjunction predicate, c.refersOnlyTo L.Schema = true →
      c ∈ (splitConjunction predicate).filter
        (fun e => !(!e.refersOnlyTo L.Schema && e.refersOnlyTo R.Schema)) ∧
      c ∉ (splitConjunction predicate).filter
        (fun e => !e.refersOnlyTo L.Schema && e.refersOnlyTo R.Schema) ∧
      (c ∈ (pushInto
        ((splitConjunction predicate).filter
          (fun e => !e.refersOnlyTo L.Schema && e.refersOnlyTo R.Schema))
        R).filterConjuncts → c ∈ R.filterConjuncts)) ∧
    (∀ child n1, pushdownFilter predicate child = some n1 →
      (∀ l1 r1 c1, Node.LeftJoin l1 r1 c1 ∈ n1.subtrees →
        ∃ l cs1, Node.LeftJoin l r1 c1 ∈ child.subtrees ∧ l1 = pushInto cs1 l ∧
          ∀ x ∈ cs1, x ∈ splitConjunction predicate ∧ x.refersOnlyTo l.Schema = true) ∧
      (∀ l1 r1 c1, Node.RightJoin l1 r1 c1 ∈ n1.subtrees →
        ∃ r cs1, Node.RightJoin l1 r c1 ∈ child.subtrees ∧ r1 = pushInto cs1 r ∧
          ∀ x ∈ cs1, x ∈ splitConjunction predicate ∧ x.refersOnlyTo l1.Schema = false ∧
            x.refersOnlyTo r.Schema = true) ∧
      OuterJoinSound (splitConjunction predicate) child n1) ∧
    (∀ n, OuterJoinSound n.filterConjuncts n (relocateFilters n).1) ∧
    (∀ n n2, pushdownFiltersAboveTables n = .ok n2 →
      n2 = n ∨ (fixRemainingFieldsIndexes (relocateFilters n).1 = .ok n2 ∧
        n2.eraseIndexes = (relocateFilters n).1.eraseIndexes)) := by
  have hat : ∀ (p : Expression → Bool), ∀ c ∈ (splitConjunction predicate).filter p,
      c.isAnd = false :=
    fun p c hc => splitConjunction_atoms predicate c (List.mem_filter.1 hc).1
  refine ⟨pushdownFilter_LeftJoin_eq predicate L R cond,
    pushdownFilter_LeftJoin_cases predicate L R cond, ?_, ?_,
    pushdownFilter_RightJoin_eq predicate L R cond,
    pushdownFilter_RightJoin_cases predicate L R cond, ?_, ?_, ?_,
    relocateFilters_OuterJoinSound, pushdownFiltersAboveTables_ok_inv⟩
  · intro c hc hL
    refine ⟨mem_filterConjuncts_pushInto_of_mem _ L c (List.mem_filter.2 ⟨hc, hL⟩)
      (splitConjunction_atoms predicate c hc), ?_⟩
    simp [List.mem_filter, hL]
  · intro c hc hL
    refine ⟨by simp [List.mem_filter, hc, hL], by simp [List.mem_filter, hL], fun hin => ?_⟩
    rcases mem_of_mem_filterConjuncts_pushInto _ L (hat _) c hin with h1 | h1
    · exact h1
    · have := (List.mem_filter.1 h1).2
      rw [hL] at this
      cases this
  · intro c hc hL hR
    exact mem_filterConjuncts_pushInto_of_mem _ R c
      (List.mem_filter.2 ⟨hc, by simp [hL, hR]⟩) (splitConjunction_atoms predicate c hc)
  · intro c hc hL
    refine ⟨by simp [List.mem_filter, hc, hL], by simp [List.mem_filter, hL], fun hin => ?_⟩
    rcases mem_of_mem_filterConjuncts_pushInto _ R (hat _) c hin with h1 | h1
    · exact h1
    · have := (List.mem_filter.1 h1).2
      rw [hL] at this
      cases this
  · intro child n1 h
    obtain ⟨_, rfl⟩ := pushdownFilter_eq_some predicate child n1 h
    exact ⟨pushInto_LeftJoin child _, pushInto_RightJoin child _,
      pushInto_OuterJoinSound _ child (fun c hc => splitConjunction_atoms predicate c hc)⟩

/-- C24 (witness): the predicate `f = 3.14 AND i2 IS NULL` above the left join
of `mytable` and `mytable2`: `f = 3.14` goes into a `Filter` above `mytable`,
`i2 IS NULL` stays in a `Filter` above the join, and `mytable2` is untouched. -/
theorem pushdownFilter_outer_join_soundness_witness :
    pushdownFilter outerJoinPredicate
        (.LeftJoin (.ResolvedTable mytable) (.ResolvedTable mytable2) joinCondition) = some
      (.Filter (.Unary .IsNull (.GetField 0 .Int32 "mytable2" "i2" false))
        (.LeftJoin
          (.Filter
            (.Binary .Equals (.GetField 1 .Float64 "mytable" "f" false)
              (.Literal "3.14" .Float64))
            (.ResolvedTable mytable))
          (.ResolvedTable mytable2) joinCondition)) :=
  (pushdownFilter_outer_join_soundness outerJoinPredicate (.ResolvedTable mytable)
    (.ResolvedTable mytable2) joinCondition).1
    (by
      intro c hc
      simp only [outerJoinPredicate, splitConjunction, List.cons_append, List.nil_append,
        List.mem_cons, List.mem_singleton, List.not_mem_nil, or_false] at hc
      rcases hc with rfl | rfl
      · exact Or.inl rfl
      · exact Or.inr rfl)
    ⟨.Binary .Equals (.GetField 1 .Float64 "mytable" "f" false) (.Literal "3.14" .Float64),
      by simp [outerJoinPredicate, splitConjunction], rfl⟩

end Analyzer
